import Mathlib

/-!
The FlashGraph execution engine

A shallow embedding of the execution engine of FlashGraph (`apps/graph_engine.cpp`):
the throughput-oriented I/O scheduler, the per-worker frontier queue, the modular vertex
partitioner, the level driver (`start`, `enter_next_level`, `progress_next_level`), work
stealing, message processing and the two vertex computes; of the BFS vertex program
(`apps/graph-bfs/bfs_graph.cpp`) run on that engine; of the file mappers
(`include/file_mapper.h`); and of `unique_merge` and `count_edges` of the scan statistics
(`apps/scan-statistics/scan_graph.cpp`).

Conventions of the embedding.

* Vertex ids, queue lengths and cursors are natural numbers.  The frontier cursor obeys
  `fetch_idx ≤ size` in every state the class can reach, so the `size_t` subtraction
  `sorted_vertices.size() - fetch_idx` never wraps; the invariant is the predicate
  `sorted_vertex_queue.wf`.
* File offsets (`off_t`) are integers, and so are edge counts and their sums; C division is
  the truncating one.  In the file mappers, whose sums and products can leave the range of
  `int` and `off_t`, every result is brought back into the range of its type (`wrap_int`,
  `wrap_off_t`).
* A loop whose termination is not structural takes a bound on its iterations and returns
  `none` when the bound is used up; the bound used is proved sufficient.
* Objects reached through pointers (user computes, worker threads) live in a list and are
  named by their index.
* A C `assert` does not stop the model: the data flow is that of the code with the assertion
  compiled out, and a flag records whether every assertion evaluated so far held.  Where the
  question is what a failed assertion prevents, a second definition (`_checked`, or one that
  returns an `Option`) stops at the failed assertion.
* Threads are run one after the other; where the order matters it is a parameter (the order
  in which workers pass the barrier, the schedule of their loop iterations).
-/

namespace FlashGraph

/-! ## I/O requests, the bounded FIFO and user computes -/

/-- An `io_request`: its file offset, and a tag that tells requests apart. -/
structure io_request where
  offset : Int
  tag : Nat
deriving DecidableEq

/-- Modelled from the spec: `fifo_queue` (container.h is not among the sources).  A bounded
FIFO queue; `buf` holds the entries oldest first and `size` is the capacity. -/
structure fifo_queue (α : Type) where
  buf : List α
  size : Nat

/-- Queue test `is_empty()`. -/
def fifo_queue.is_empty {α : Type} (q : fifo_queue α) : Bool := q.buf.isEmpty

/-- Queue test `is_full()`: no free slot is left. -/
def fifo_queue.is_full {α : Type} (q : fifo_queue α) : Bool := decide (q.size ≤ q.buf.length)

/-- Capacity `get_size()`. -/
def fifo_queue.get_size {α : Type} (q : fifo_queue α) : Nat := q.size

/-- Number of entries held, `get_num_entries()`. -/
def fifo_queue.get_num_entries {α : Type} (q : fifo_queue α) : Nat := q.buf.length

/-- Append one entry at the back, `push_back(x)`. -/
def fifo_queue.push_back {α : Type} (q : fifo_queue α) (x : α) : fifo_queue α :=
  { q with buf := q.buf ++ [x] }

/-- Change the capacity, `expand_queue(new_size)`. -/
def fifo_queue.expand_queue {α : Type} (q : fifo_queue α) (new_size : Nat) : fifo_queue α :=
  { q with size := new_size }

/-- Bulk move `q.add(&other)`: the oldest entries of `other` are moved to the back of `q`, in
FIFO order, until `q` is full or `other` is empty.  Returns the new `q`, the new `other` and
the number of entries moved. -/
def fifo_queue.add {α : Type} (q other : fifo_queue α) : fifo_queue α × fifo_queue α × Nat :=
  let n := min (q.size - q.buf.length) other.buf.length
  ({ q with buf := q.buf ++ other.buf.take n }, { other with buf := other.buf.drop n }, n)

/-- Modelled from the spec: `user_compute` (io_interface.h is not among the sources).  For the
scheduler a user compute is the stream of requests it will still issue, next one first. -/
structure user_compute where
  pending : List io_request

/-- Does the compute still have a request to issue, `has_requests()`. -/
def user_compute.has_requests (c : user_compute) : Bool := !c.pending.isEmpty

/-- Take the next request, `fetch_request(io, req)`; `none` stands for the return value
`false`. -/
def user_compute.fetch_request (c : user_compute) : Option (io_request × user_compute) :=
  match c.pending with
  | [] => none
  | r :: rest => some (r, { pending := rest })

/-! ## The throughput-oriented I/O scheduler -/

/-- The struct `prio_compute`: a user compute (named by its index among the scheduler's
computes) together with the request fetched from it. -/
structure prio_compute where
  compute : Nat
  req : io_request
deriving DecidableEq

/-- The comparator `comp_prio_compute::operator()`. -/
def comp_prio_compute (c1 c2 : prio_compute) : Bool :=
  decide (c1.req.offset > c2.req.offset)

/-- The order in which the priority queue releases its entries: `c1` may come out before `c2`
when the comparator does not put `c1` below `c2`. -/
def pq_le (c1 c2 : prio_compute) : Prop := comp_prio_compute c1 c2 = false

instance pq_le_decidable : DecidableRel pq_le :=
  fun c1 c2 => inferInstanceAs (Decidable (comp_prio_compute c1 c2 = false))

/-- The container `std::priority_queue<prio_compute, ..., comp_prio_compute>`, kept as the list
of its entries in the order `pop` will release them.  Among entries with equal offsets the
library leaves the order open; the list keeps the most recently pushed first. -/
abbrev priority_queue := List prio_compute

/-- Insert an entry, `push(x)`. -/
def priority_queue.push (x : prio_compute) (h : priority_queue) : priority_queue :=
  List.orderedInsert pq_le x h

/-- A user compute that yields its requests in non-decreasing offset order. -/
def user_compute.monotone (c : user_compute) : Prop :=
  List.Pairwise (fun a b : io_request => a.offset ≤ b.offset) c.pending

/-- The invariant of the priority queue while `get_requests` runs over user computes that
yield their requests in non-decreasing offset order: the queue releases its entries by
ascending offset, and the request an entry holds is not above any request its compute will
still issue. -/
def sched_inv (computes : List user_compute) (h : priority_queue) : Prop :=
  (∀ c ∈ computes, c.monotone) ∧ List.Sorted pq_le h ∧
  ∀ x ∈ h, ∀ c, computes[x.compute]? = some c → ∀ r ∈ c.pending, x.req.offset ≤ r.offset

instance pq_le_total : IsTotal prio_compute pq_le :=
  ⟨fun a b => by
    simp only [pq_le, comp_prio_compute, decide_eq_false_iff_not, gt_iff_lt, not_lt]
    exact le_total _ _⟩

instance pq_le_trans : IsTrans prio_compute pq_le :=
  ⟨fun a b c => by
    simp only [pq_le, comp_prio_compute, decide_eq_false_iff_not, gt_iff_lt, not_lt]
    exact le_trans⟩

/-- The constructor `prio_compute(io, compute)` applied to the compute with index `i` after
the guard `compute->has_requests()`: it fetches the next request of that compute.  The result
is `none` when the guard is false (or `i` names no compute). -/
def new_prio_compute (computes : List user_compute) (i : Nat) :
    Option (prio_compute × List user_compute) :=
  match computes[i]? with
  | none => none
  | some c =>
    if c.has_requests then
      match c.fetch_request with
      | some (r, c') => some ({ compute := i, req := r }, computes.set i c')
      | none => none
    else none

/-- The first loop of `get_requests` (lines 100-108): one request is fetched from every user
compute that has requests, and pushed on the priority queue. -/
def collect_computes (idxs : List Nat) (computes : List user_compute) (h : priority_queue) :
    List user_compute × priority_queue :=
  match idxs with
  | [] => (computes, h)
  | i :: rest =>
    match new_prio_compute computes i with
    | some (pc, computes') => collect_computes rest computes' (priority_queue.push pc h)
    | none => collect_computes rest computes h

/-- The local state of the emitting loop of `get_requests` (lines 111-128). -/
structure emit_state where
  reqs : fifo_queue io_request
  computes : List user_compute
  user_computes : priority_queue
  prev : Int
  num : Int
  asserts_hold : Bool
  top_of_empty : Bool

/-- One iteration of the emitting loop, entered with `prio_comp` on top of the priority queue
and `rest` below it.  When the pop of line 118 has emptied the queue, the assertion of line
119 reads `user_computes.top()` of an empty queue: `top_of_empty` is raised, and the
assertion, which has no top to compare with, is not counted as holding. -/
def emit_step (s : emit_state) (prio_comp : prio_compute) (rest : priority_queue) :
    emit_state :=
  let a1 := decide (s.prev ≤ prio_comp.req.offset)
  let prev := prio_comp.req.offset
  let a2 := match rest with
    | [] => false
    | t :: _ => decide (prev ≤ t.req.offset)
  let reqs := s.reqs.push_back prio_comp.req
  match new_prio_compute s.computes prio_comp.compute with
  | some (pc, computes') =>
    { reqs := reqs, computes := computes', user_computes := priority_queue.push pc rest,
      prev := prev, num := s.num + 2,
      asserts_hold := s.asserts_hold && a1 && a2 && decide (pc.req.offset ≥ prev),
      top_of_empty := s.top_of_empty || rest.isEmpty }
  | none =>
    { reqs := reqs, computes := s.computes, user_computes := rest,
      prev := prev, num := s.num + 2,
      asserts_hold := s.asserts_hold && a1 && a2,
      top_of_empty := s.top_of_empty || rest.isEmpty }

/-- The emitting loop `while (!reqs.is_full() && !user_computes.empty())`.  Every iteration
fills one slot of `reqs`, so the number of free slots bounds the number of iterations; it is
passed as the first argument. -/
def emit_loop : Nat → emit_state → emit_state
  | 0, s => s
  | n + 1, s =>
    if s.reqs.is_full then s
    else
      match s.user_computes with
      | [] => s
      | prio_comp :: rest => emit_loop n (emit_step s prio_comp rest)

/-- The last loop of `get_requests` (lines 132-138): what is left in the priority queue is
parked in `req_buf`, which is doubled whenever it is full. -/
def park_requests (h : priority_queue) (req_buf : fifo_queue io_request) :
    fifo_queue io_request :=
  match h with
  | [] => req_buf
  | prio_comp :: rest =>
    let req_buf1 :=
      if req_buf.is_full then req_buf.expand_queue (req_buf.get_size * 2) else req_buf
    park_requests rest (req_buf1.push_back prio_comp.req)

/-- The class `throughput_comp_io_scheduler`: its buffer `req_buf` and the user computes that
`get_begin()` .. `get_end()` enumerate. -/
structure throughput_comp_io_scheduler where
  req_buf : fifo_queue io_request
  computes : List user_compute

/-- What one call of `get_requests` leaves behind: the scheduler, the output queue `reqs`, the
value returned, whether every assertion held, and whether `top()` was read on an empty
priority queue. -/
structure get_requests_result where
  sched : throughput_comp_io_scheduler
  reqs : fifo_queue io_request
  ret : Nat
  asserts_hold : Bool
  top_of_empty : Bool

/-- The first step of `get_requests` (lines 87-91): `num = 0`, and when `req_buf` is not
empty `num = reqs.add(&req_buf)`.  Returns `reqs`, `req_buf` and `num`. -/
def throughput_comp_io_scheduler.drain (s : throughput_comp_io_scheduler)
    (reqs : fifo_queue io_request) : fifo_queue io_request × fifo_queue io_request × Nat :=
  if !s.req_buf.is_empty then reqs.add s.req_buf else (reqs, s.req_buf, 0)

/-- The method `throughput_comp_io_scheduler::get_requests(reqs)`.  The value returned is the
outer `num`; the counter the emitting loop increments is the inner `int num` of line 112,
kept in `emit_state.num`. -/
def throughput_comp_io_scheduler.get_requests (s : throughput_comp_io_scheduler)
    (reqs : fifo_queue io_request) : get_requests_result :=
  let reqs1 := (s.drain reqs).1
  let req_buf1 := (s.drain reqs).2.1
  let num := (s.drain reqs).2.2
  if !reqs1.is_full then
    let collected := collect_computes (List.range s.computes.length) s.computes []
    let st := emit_loop (reqs1.size - reqs1.buf.length)
      { reqs := reqs1, computes := collected.1, user_computes := collected.2,
        prev := 0, num := 0, asserts_hold := true, top_of_empty := false }
    { sched := { req_buf := park_requests st.user_computes req_buf1, computes := st.computes },
      reqs := st.reqs, ret := num,
      asserts_hold := st.asserts_hold, top_of_empty := st.top_of_empty }
  else
    { sched := { req_buf := req_buf1, computes := s.computes },
      reqs := reqs1, ret := num, asserts_hold := true, top_of_empty := false }

/-- The requests one call of `get_requests` appends to the output queue, in the order they
are appended. -/
def throughput_comp_io_scheduler.appended (s : throughput_comp_io_scheduler)
    (reqs : fifo_queue io_request) : List io_request :=
  (s.get_requests reqs).reqs.buf.drop reqs.buf.length

/-! ## The vertex partitioner and the activation bitmap -/

/-- Vertex identifiers, the type `vertex_id_t`. -/
abbrev vertex_id_t := Nat

/-- Modelled from the spec: `vertex_partitioner` (graph_engine.h is not among the sources).
The modular partitioner over `num_parts` workers. -/
structure vertex_partitioner where
  num_parts : Nat

/-- The worker that owns a vertex, `map(id)`: `part_id = vid % W`. -/
def vertex_partitioner.map (p : vertex_partitioner) (id : vertex_id_t) : Nat :=
  id % p.num_parts

/-- The location of a vertex, `map2loc(id, part_id, off)`: `part_id = vid % W` and
`local_off = vid / W`. -/
def vertex_partitioner.map2loc (p : vertex_partitioner) (id : vertex_id_t) : Nat × Nat :=
  (id % p.num_parts, id / p.num_parts)

/-- The inverse translation, `loc2map(part_id, off, id)`: `id = off * W + part_id`. -/
def vertex_partitioner.loc2map (p : vertex_partitioner) (part_id off : Nat) : vertex_id_t :=
  off * p.num_parts + part_id

/-- Modelled from the spec: `bitmap` (bitmap.h is not among the sources).  One bit per local
offset of a partition. -/
structure bitmap where
  bits : List Bool

/-- Read one bit; offsets beyond the bitmap read as unset. -/
def bitmap.get (b : bitmap) (off : Nat) : Bool := b.bits.getD off false

/-- Set one bit, `set(off)`. -/
def bitmap.set (b : bitmap) (off : Nat) : bitmap := { bits := b.bits.set off true }

/-- Unset every bit, `clear()`. -/
def bitmap.clear (b : bitmap) : bitmap := { bits := List.replicate b.bits.length false }

/-- Enumerate the set bits, `get_set_bits(v)`: the offsets of the set bits are appended to `v`,
lowest offset first. -/
def bitmap.get_set_bits (b : bitmap) (v : List Nat) : List Nat :=
  v ++ (List.range b.bits.length).filter (fun off => b.get off)

/-! ## The frontier queue -/

/-- The class `vertex_scheduler`: the engine's own object `default_scheduler`, or a scheduler
supplied by the user.  The code tells them apart by address. -/
inductive vertex_scheduler where
  | default_scheduler : vertex_scheduler
  | custom (schedule : List vertex_id_t → List vertex_id_t) : vertex_scheduler

/-- The method `default_vertex_scheduler::schedule`: `std::sort` into ascending order. -/
def default_vertex_scheduler.schedule (vertices : List vertex_id_t) : List vertex_id_t :=
  vertices.insertionSort (fun a b => a ≤ b)

/-- The virtual call `scheduler->schedule(vertices)`. -/
def vertex_scheduler.schedule : vertex_scheduler → List vertex_id_t → List vertex_id_t
  | .default_scheduler, vertices => default_vertex_scheduler.schedule vertices
  | .custom f, vertices => f vertices

/-- The address test `scheduler != &default_scheduler`. -/
def vertex_scheduler.is_custom : vertex_scheduler → Bool
  | .default_scheduler => false
  | .custom _ => true

/-- A scheduler that only reorders the vertices it is handed, which is what
`vertex_scheduler::schedule` is for; the default scheduler is one. -/
def vertex_scheduler.reorders (s : vertex_scheduler) : Prop :=
  ∀ vertices, List.Perm (s.schedule vertices) vertices

/-- The class `sorted_vertex_queue` (the spin lock is not modelled: every method runs under
it from start to end). -/
structure sorted_vertex_queue where
  sorted_vertices : List vertex_id_t
  fetch_idx : Nat
  scheduler : vertex_scheduler

/-- The class invariant: the cursor never passes the end of the vector. -/
def sorted_vertex_queue.wf (q : sorted_vertex_queue) : Prop :=
  q.fetch_idx ≤ q.sorted_vertices.length

/-- The constructor. -/
def sorted_vertex_queue.new : sorted_vertex_queue :=
  { sorted_vertices := [], fetch_idx := 0, scheduler := .default_scheduler }

/-- The setter `set_vertex_scheduler`. -/
def sorted_vertex_queue.set_vertex_scheduler (q : sorted_vertex_queue)
    (scheduler : vertex_scheduler) : sorted_vertex_queue :=
  { q with scheduler := scheduler }

/-- The two overloads `init(buf, size, sorted)` and `init(vec, sorted)`; `vec` is the content
of `buf[0 .. size)`, respectively of the vector. -/
def sorted_vertex_queue.init (q : sorted_vertex_queue) (vec : List vertex_id_t)
    (sorted : Bool) : sorted_vertex_queue :=
  { q with
    fetch_idx := 0
    sorted_vertices := if !sorted then q.scheduler.schedule vec else vec }

/-- The overload `init(map, part_id, partitioner)`. -/
def sorted_vertex_queue.init_from_bitmap (q : sorted_vertex_queue) (map : bitmap)
    (part_id : Nat) (partitioner : vertex_partitioner) : sorted_vertex_queue :=
  let ids := (map.get_set_bits []).map (fun off => partitioner.loc2map part_id off)
  { q with
    fetch_idx := 0
    sorted_vertices := if q.scheduler.is_custom then q.scheduler.schedule ids else ids }

/-- What `fetch` leaves behind: the queue, the ids copied to the caller's buffer and the value
returned. -/
structure fetch_result where
  queue : sorted_vertex_queue
  vertices : List vertex_id_t
  ret : Nat

/-- The method `fetch(vertices, num)` for `num ≥ 0`. -/
def sorted_vertex_queue.fetch (q : sorted_vertex_queue) (num : Nat) : fetch_result :=
  let num_fetches := min num (q.sorted_vertices.length - q.fetch_idx)
  { queue := { q with fetch_idx := q.fetch_idx + num_fetches }
    vertices := (q.sorted_vertices.drop q.fetch_idx).take num_fetches
    ret := num_fetches }

/-- The method `is_empty()`. -/
def sorted_vertex_queue.is_empty (q : sorted_vertex_queue) : Bool :=
  decide (q.sorted_vertices.length - q.fetch_idx = 0)

/-- The method `get_num_vertices()`. -/
def sorted_vertex_queue.get_num_vertices (q : sorted_vertex_queue) : Nat :=
  q.sorted_vertices.length - q.fetch_idx

/-- The entries the cursor has not passed yet. -/
def sorted_vertex_queue.remaining (q : sorted_vertex_queue) : List vertex_id_t :=
  q.sorted_vertices.drop q.fetch_idx

/-- Successive calls `fetch(out, n)` for the budgets `n` of the list, on one queue: the ids
obtained, in the order they are obtained, and the queue left behind. -/
def sorted_vertex_queue.fetch_seq (q : sorted_vertex_queue) :
    List Nat → List vertex_id_t × sorted_vertex_queue
  | [] => ([], q)
  | n :: ns =>
    let r := q.fetch n
    let rest := sorted_vertex_queue.fetch_seq r.queue ns
    (r.vertices ++ rest.1, rest.2)

/-! ## Messages and worker threads -/

/-- Modelled from the spec: `vertex_message` and `multicast_message` (messaging.h is not among
the sources).  A message carries its destination, or for a multicast its destination list,
whether its payload is empty, and whether it activates its destinations. -/
inductive vertex_message where
  | unicast (dest : vertex_id_t) (is_empty is_activate : Bool) : vertex_message
  | multicast (dest_list : List vertex_id_t) (is_empty is_activate : Bool) : vertex_message

/-- A `message`: one flushed buffer, holding vertex messages in the order they were added. -/
abbrev message := List vertex_message

/-- The constant `MAX_STOLEN_VERTICES`. -/
def MAX_STOLEN_VERTICES : Nat := 1024

/-- The class `worker_thread`, reduced to the state the engine's scheduling reads and writes.
`delivered` logs the vertices on which the user's `run_on_messages` was invoked, and
`asserts_hold` is false once an assertion of the worker has failed. -/
structure worker_thread where
  worker_id : Nat
  msg_q : List message
  next_activated_vertices : bitmap
  curr_activated_vertices : sorted_vertex_queue
  steal_thread_id : Nat
  start_all : Bool
  num_activated_vertices_in_level : Int
  num_completed_vertices_in_level : Int
  delivered : List vertex_id_t
  asserts_hold : Bool

/-- The body shared by the loops of `process_msg` (lines 830-841) and `process_multicast_msg`
(lines 801-814), for one destination `id`. -/
def worker_thread.process_dest (p : vertex_partitioner) (w : worker_thread)
    (id : vertex_id_t) (is_empty is_activate : Bool) : worker_thread :=
  let loc := p.map2loc id
  let w1 := { w with asserts_hold := w.asserts_hold && decide (loc.1 = w.worker_id) }
  let w2 := if !is_empty then { w1 with delivered := w1.delivered ++ [id] } else w1
  if is_activate then
    { w2 with next_activated_vertices := w2.next_activated_vertices.set loc.2 }
  else w2

/-- The method `worker_thread::process_multicast_msg`. -/
def worker_thread.process_multicast_msg (p : vertex_partitioner) (w : worker_thread)
    (dest_list : List vertex_id_t) (is_empty is_activate : Bool) : worker_thread :=
  match dest_list with
  | [] => w
  | id :: rest =>
    worker_thread.process_multicast_msg p (w.process_dest p id is_empty is_activate) rest
      is_empty is_activate

/-- The method `worker_thread::process_msg`. -/
def worker_thread.process_msg (p : vertex_partitioner) (w : worker_thread) :
    message → worker_thread
  | [] => w
  | .multicast dest_list is_empty is_activate :: rest =>
    worker_thread.process_msg p (w.process_multicast_msg p dest_list is_empty is_activate) rest
  | .unicast dest is_empty is_activate :: rest =>
    worker_thread.process_msg p (w.process_dest p dest is_empty is_activate) rest

/-- The loop of `process_msgs` over the messages taken from the inbound queue. -/
def worker_thread.process_msg_list (p : vertex_partitioner) (w : worker_thread) :
    List message → worker_thread
  | [] => w
  | msg :: rest => worker_thread.process_msg_list p (w.process_msg p msg) rest

/-- The method `worker_thread::process_msgs`: the inbound queue is emptied, every message is
processed in queue order. -/
def worker_thread.process_msgs (p : vertex_partitioner) (w : worker_thread) : worker_thread :=
  worker_thread.process_msg_list p { w with msg_q := [] } w.msg_q

/-- The method `worker_thread::enter_next_level`; the second component is the value
returned. -/
def worker_thread.enter_next_level (p : vertex_partitioner) (w : worker_thread) :
    worker_thread × Nat :=
  let w1 := w.process_msgs p
  let curr := w1.curr_activated_vertices.init_from_bitmap w1.next_activated_vertices
    w1.worker_id p
  ({ w1 with
      curr_activated_vertices := curr
      next_activated_vertices := w1.next_activated_vertices.clear },
    curr.get_num_vertices)

/-- The method `worker_thread::start_vertices`. -/
def worker_thread.start_vertices (w : worker_thread) (vertices : List vertex_id_t) :
    worker_thread :=
  { w with
    asserts_hold := w.asserts_hold && w.curr_activated_vertices.is_empty
    curr_activated_vertices := w.curr_activated_vertices.init vertices false }

/-! ## The engine -/

/-- The class `graph_engine`, reduced to the state of the level driver.  `tot_num_activates`
and `num_threads` are the two static counters of `progress_next_level`. -/
structure graph_engine where
  partitioner : vertex_partitioner
  worker_threads : List worker_thread
  num_remaining_vertices_in_level : Nat
  level : Int
  is_complete : Bool
  tot_num_activates : Int
  num_threads : Nat

/-- The getter `get_num_threads()`. -/
def graph_engine.get_num_threads (g : graph_engine) : Nat := g.worker_threads.length

/-- What the constructor establishes: at least one worker, a partitioner over as many parts as
there are workers, and worker `i` stored at index `i`. -/
def graph_engine.wf (g : graph_engine) : Prop :=
  0 < g.worker_threads.length ∧ g.partitioner.num_parts = g.worker_threads.length ∧
  ∀ (i : Nat) (t : worker_thread), g.worker_threads[i]? = some t → t.worker_id = i

/-- The first loop of `graph_engine::start` (lines 991-994): every id is appended to the
vector of the worker the partitioner maps it to. -/
def graph_engine.partition_ids (p : vertex_partitioner) :
    List vertex_id_t → List (List vertex_id_t) → List (List vertex_id_t)
  | [], start_vertices => start_vertices
  | id :: rest, start_vertices =>
    let idx := p.map id
    graph_engine.partition_ids p rest
      (start_vertices.set idx (start_vertices.getD idx [] ++ [id]))

/-- The method `graph_engine::start(ids, num)`, `ids` being the content of `ids[0 .. num)`.
Launching the threads is not modelled. -/
def graph_engine.start (g : graph_engine) (ids : List vertex_id_t) : graph_engine :=
  let num_threads := g.get_num_threads
  let start_vertices := graph_engine.partition_ids g.partitioner ids
    (List.replicate num_threads [])
  { g with
    num_remaining_vertices_in_level := g.num_remaining_vertices_in_level + ids.length
    worker_threads :=
      List.zipWith (fun t v => t.start_vertices v) g.worker_threads start_vertices }

/-- The frontier of worker `i`: the content of its queue `curr_activated_vertices`. -/
def graph_engine.frontier (g : graph_engine) (i : Nat) : List vertex_id_t :=
  match g.worker_threads[i]? with
  | some t => t.curr_activated_vertices.sorted_vertices
  | none => []

/-- The frontiers of all workers, one after the other. -/
def graph_engine.all_frontiers (g : graph_engine) : List vertex_id_t :=
  (g.worker_threads.map (fun t => t.curr_activated_vertices.sorted_vertices)).flatten

/-- The ids the worker at index `i` obtains from successive `fetch` calls on its own frontier,
one call per budget of the list, in the order it obtains them. -/
def graph_engine.fetch_order (g : graph_engine) (i : Nat) (budgets : List Nat) :
    List vertex_id_t :=
  match g.worker_threads[i]? with
  | some t => (t.curr_activated_vertices.fetch_seq budgets).1
  | none => []

/-- The level barrier seen sequentially: every worker runs `enter_next_level`. -/
def graph_engine.enter_next_level_all (g : graph_engine) : graph_engine :=
  { g with
    worker_threads := g.worker_threads.map (fun t => (t.enter_next_level g.partitioner).1) }

/-- The constructor `worker_thread(graph, factory, node_id, worker_id, num_threads)` followed
by `init_messaging`.  The bitmap has `ceil((max_vertex_id + 1) / num_threads)` bits. -/
def worker_thread.new (worker_id num_threads max_vertex_id : Nat) : worker_thread :=
  { worker_id := worker_id
    msg_q := []
    next_activated_vertices :=
      { bits := List.replicate ((max_vertex_id + 1 + (num_threads - 1)) / num_threads) false }
    curr_activated_vertices := sorted_vertex_queue.new
    steal_thread_id := (worker_id + 1) % num_threads
    start_all := false
    num_activated_vertices_in_level := 0
    num_completed_vertices_in_level := 0
    delivered := []
    asserts_hold := true }

/-- The constructor `graph_engine(num_threads, ...)` for a graph whose largest vertex id is
`max_vertex_id`: the partitioner and the workers `0 .. num_threads - 1`. -/
def graph_engine.new (num_threads max_vertex_id : Nat) : graph_engine :=
  { partitioner := { num_parts := num_threads }
    worker_threads :=
      (List.range num_threads).map (fun i => worker_thread.new i num_threads max_vertex_id)
    num_remaining_vertices_in_level := 0
    level := 0
    is_complete := false
    tot_num_activates := 0
    num_threads := 0 }

/-! ## Work stealing -/

/-- The state the victim-selection loop of `steal_activated_vertices` leaves behind:
the workers, the value of `steal_thread_id`, and the ids in `steal_buf[0 .. num)`. -/
structure steal_state where
  worker_threads : List worker_thread
  steal_thread_id : Nat
  steal_buf : List vertex_id_t

/-- The `do .. while (num == 0 && num_tries < num_threads)` loop of
`steal_activated_vertices` (lines 716-732).  The first argument is the number of further
tries the loop condition still allows after the current one. -/
def worker_thread.steal_loop (num_threads : Nat) :
    Nat → List worker_thread → Nat → steal_state
  | more, threads, steal_thread_id =>
    match threads[steal_thread_id]? with
    | none => { worker_threads := threads, steal_thread_id := steal_thread_id, steal_buf := [] }
    | some t =>
      let num_steal := max 1 (t.curr_activated_vertices.get_num_vertices / num_threads)
      let r := t.curr_activated_vertices.fetch (min MAX_STOLEN_VERTICES num_steal)
      let threads1 := threads.set steal_thread_id { t with curr_activated_vertices := r.queue }
      if r.ret = 0 then
        let next := (steal_thread_id + 1) % num_threads
        match more with
        | 0 => { worker_threads := threads1, steal_thread_id := next, steal_buf := [] }
        | k + 1 => worker_thread.steal_loop num_threads k threads1 next
      else
        { worker_threads := threads1, steal_thread_id := steal_thread_id,
          steal_buf := r.vertices }

/-- What `steal_activated_vertices` leaves behind: the engine, the ids copied to the caller's
buffer `vertex_buf`, the value returned, the worker stolen from and all the ids stolen. -/
structure steal_result where
  graph : graph_engine
  vertex_buf : List vertex_id_t
  ret : Nat
  victim : Nat
  stolen : List vertex_id_t

/-- The method `worker_thread::steal_activated_vertices(vertex_buf, buf_size)` run by the
worker stored at index `self`. -/
def worker_thread.steal_activated_vertices (g : graph_engine) (self : Nat) (buf_size : Nat) :
    steal_result :=
  match g.worker_threads[self]? with
  | none => { graph := g, vertex_buf := [], ret := 0, victim := self, stolen := [] }
  | some me =>
    let first :=
      if me.steal_thread_id = me.worker_id then (me.steal_thread_id + 1) % g.get_num_threads
      else me.steal_thread_id
    let st := worker_thread.steal_loop g.get_num_threads (g.get_num_threads - 1)
      g.worker_threads first
    let num := st.steal_buf.length
    let ret := min buf_size num
    let threads :=
      match st.worker_threads[self]? with
      | none => st.worker_threads
      | some me1 =>
        let me2 := { me1 with steal_thread_id := st.steal_thread_id }
        st.worker_threads.set self
          (if num - ret > 0 then
            { me2 with
              curr_activated_vertices :=
                me2.curr_activated_vertices.init (st.steal_buf.drop ret) true }
          else me2)
    { graph := { g with worker_threads := threads }
      vertex_buf := st.steal_buf.take ret
      ret := ret
      victim := st.steal_thread_id
      stolen := st.steal_buf }

/-! ## Processing the activated vertices -/

/-- Modelled from the spec: `graph_engine::process_vertices(num)` (graph_engine.h is not among
the sources): the engine-wide count of vertices remaining in the level goes down by `num`. -/
def graph_engine.process_vertices (g : graph_engine) (num : Nat) : graph_engine :=
  { g with num_remaining_vertices_in_level := g.num_remaining_vertices_in_level - num }

/-- What `process_activated_vertices` leaves behind: the engine, the value returned, the ids
`vertex_buf[0 .. num)` on which the pre-run was executed (in that order), and the vertices for
which a read request was issued. -/
structure process_result where
  graph : graph_engine
  ret : Nat
  vertex_buf : List vertex_id_t
  reqs : List vertex_id_t

/-- Lines 755-757 of `process_activated_vertices`: `num = curr_activated_vertices.fetch(
vertex_buf, max)`, and `num = steal_activated_vertices(vertex_buf, max)` when that is 0.
Returns the engine, the ids in `vertex_buf[0 .. num)` and `num`. -/
def worker_thread.fetch_or_steal (g : graph_engine) (self : Nat) (me : worker_thread)
    (max : Nat) : graph_engine × List vertex_id_t × Nat :=
  let r := me.curr_activated_vertices.fetch max
  let g1 := { g with
    worker_threads := g.worker_threads.set self { me with curr_activated_vertices := r.queue } }
  if r.ret = 0 then
    let s := worker_thread.steal_activated_vertices g1 self max
    (s.graph, s.vertex_buf, s.ret)
  else (g1, r.vertices, r.ret)

/-- The method `worker_thread::process_activated_vertices(max)` run by the worker stored at
index `self`; `pre_run id` is what the user's pre-run `run(graph)` returns on vertex `id`. -/
def worker_thread.process_activated_vertices (g : graph_engine) (self : Nat) (max : Int)
    (pre_run : vertex_id_t → Bool) : process_result :=
  if max ≤ 0 then { graph := g, ret := 0, vertex_buf := [], reqs := [] }
  else
    match g.worker_threads[self]? with
    | none => { graph := g, ret := 0, vertex_buf := [], reqs := [] }
    | some me =>
      let got := worker_thread.fetch_or_steal g self me max.toNat
      let vertex_buf := got.2.1
      let num := got.2.2
      let g2 := if num > 0 then got.1.process_vertices num else got.1
      let reqs := vertex_buf.filter pre_run
      let num_completed := (vertex_buf.filter (fun id => !pre_run id)).length
      let threads :=
        match g2.worker_threads[self]? with
        | none => g2.worker_threads
        | some me1 =>
          g2.worker_threads.set self
            { me1 with
              num_activated_vertices_in_level :=
                if num > 0 then me1.num_activated_vertices_in_level + num
                else me1.num_activated_vertices_in_level
              num_completed_vertices_in_level :=
                if num_completed > 0 then me1.num_completed_vertices_in_level + num_completed
                else me1.num_completed_vertices_in_level }
      { graph := { g2 with worker_threads := threads }
        ret := num, vertex_buf := vertex_buf, reqs := reqs }

/-- The ids still waiting in the frontiers: what the cursors of all workers have not passed
yet. -/
def graph_engine.all_remaining (g : graph_engine) : List vertex_id_t :=
  (g.worker_threads.map (fun t => t.curr_activated_vertices.remaining)).flatten

/-- One call `process_activated_vertices(max)`: the index of the calling worker, the budget,
and what the user's pre-run returns during the call. -/
structure process_call where
  worker : Nat
  max : Int
  pre_run : vertex_id_t → Bool

/-- A level seen sequentially: calls of `process_activated_vertices` by any workers one after
the other.  Returns the engine, the ids on which the pre-run was executed and the vertices
for which a read was issued, both in order. -/
def graph_engine.run_calls (g : graph_engine) :
    List process_call → graph_engine × List vertex_id_t × List vertex_id_t
  | [] => (g, [], [])
  | c :: cs =>
    let r := worker_thread.process_activated_vertices g c.worker c.max c.pre_run
    let rest := graph_engine.run_calls r.graph cs
    (rest.1, r.vertex_buf ++ rest.2.1, r.reqs ++ rest.2.2)

/-! ## The tries of the victim-selection loop -/

/-- One try of the victim-selection loop of `steal_activated_vertices`: the worker tried, the
number of ids asked of its queue and the number obtained. -/
structure steal_try where
  victim : Nat
  requested : Nat
  obtained : Nat
deriving DecidableEq

/-- The tries the loop of lines 716-732 makes, in order.  The loop is the one of
`worker_thread.steal_loop`, with the same arguments; only what each try asks and gets is
recorded. -/
def worker_thread.steal_tries (num_threads : Nat) :
    Nat → List worker_thread → Nat → List steal_try
  | more, threads, steal_thread_id =>
    match threads[steal_thread_id]? with
    | none => []
    | some t =>
      let num_steal := max 1 (t.curr_activated_vertices.get_num_vertices / num_threads)
      let r := t.curr_activated_vertices.fetch (min MAX_STOLEN_VERTICES num_steal)
      let threads1 := threads.set steal_thread_id { t with curr_activated_vertices := r.queue }
      let this_try : steal_try :=
        { victim := steal_thread_id, requested := min MAX_STOLEN_VERTICES num_steal,
          obtained := r.ret }
      if r.ret = 0 then
        let next := (steal_thread_id + 1) % num_threads
        match more with
        | 0 => [this_try]
        | k + 1 => this_try :: worker_thread.steal_tries num_threads k threads1 next
      else [this_try]

/-- The tries one call `steal_activated_vertices` of the worker at index `self` makes. -/
def worker_thread.steal_tries_of (g : graph_engine) (self : Nat) : List steal_try :=
  match g.worker_threads[self]? with
  | none => []
  | some me =>
    worker_thread.steal_tries g.get_num_threads (g.get_num_threads - 1) g.worker_threads
      (if me.steal_thread_id = me.worker_id then (me.steal_thread_id + 1) % g.get_num_threads
        else me.steal_thread_id)

/-! ## Message processing with assertions enabled -/

/-- The body of the loops of `process_msg` (lines 830-841) and `process_multicast_msg`
(lines 801-814) for one destination `id`, in a build where `assert` is enabled: when
`assert(part_id == worker_id)` fails the program stops there, before the callback and the
bitmap update, which is the result `none`. -/
def worker_thread.process_dest_checked (p : vertex_partitioner) (w : worker_thread)
    (id : vertex_id_t) (is_empty is_activate : Bool) : Option worker_thread :=
  let loc := p.map2loc id
  if loc.1 = w.worker_id then
    let w2 := if !is_empty then { w with delivered := w.delivered ++ [id] } else w
    some (if is_activate then
      { w2 with next_activated_vertices := w2.next_activated_vertices.set loc.2 }
    else w2)
  else none

/-- The method `worker_thread::process_multicast_msg` with assertions enabled. -/
def worker_thread.process_multicast_msg_checked (p : vertex_partitioner) (w : worker_thread)
    (dest_list : List vertex_id_t) (is_empty is_activate : Bool) : Option worker_thread :=
  match dest_list with
  | [] => some w
  | id :: rest =>
    match w.process_dest_checked p id is_empty is_activate with
    | none => none
    | some w1 =>
      worker_thread.process_multicast_msg_checked p w1 rest is_empty is_activate

/-- The method `worker_thread::process_msg` with assertions enabled. -/
def worker_thread.process_msg_checked (p : vertex_partitioner) (w : worker_thread) :
    message → Option worker_thread
  | [] => some w
  | .multicast dest_list is_empty is_activate :: rest =>
    match w.process_multicast_msg_checked p dest_list is_empty is_activate with
    | none => none
    | some w1 => worker_thread.process_msg_checked p w1 rest
  | .unicast dest is_empty is_activate :: rest =>
    match w.process_dest_checked p dest is_empty is_activate with
    | none => none
    | some w1 => worker_thread.process_msg_checked p w1 rest

/-! ## Vertex computes -/

/-- The enumeration `edge_type`, the values `get_required_neighbor_type()` can return. -/
inductive edge_type where
  | NONE : edge_type
  | IN_EDGE : edge_type
  | OUT_EDGE : edge_type
  | BOTH_EDGES : edge_type
deriving DecidableEq

/-- One page delivered to `vertex_compute::run`, with what the user's code answers while the
page is handled: `id` is `ext_v->get_id()` of the decoded page, `issued` the number of
requests `get_next_request` has counted for this compute since the previous page,
`completed` the value the user callback invoked on the page returns, and `has_required` the
value of `v->has_required_vertices()` after that callback. -/
structure page_delivery where
  id : vertex_id_t
  issued : Nat
  completed : Bool
  has_required : Bool
deriving DecidableEq

/-- A call the engine makes into the user's vertex program: `run(graph, vertex)` on the
vertex `v` with the decoded page `page`, or `run_on_neighbors(graph, neighbors, num)` on the
vertex `v` with the decoded neighbors. -/
inductive user_callback where
  | run (v page : vertex_id_t) : user_callback
  | run_on_neighbors (v : vertex_id_t) (neighbors : List vertex_id_t) : user_callback
deriving DecidableEq

/-- The class `vertex_compute`: the vertex `v` (`none` is `NULL`) and the two counters. -/
structure vertex_compute where
  v : Option vertex_id_t
  num_complete_issues : Int
  num_complete_fetched : Int
deriving DecidableEq

/-- The constructor `vertex_compute(graph, alloc)`. -/
def vertex_compute.new : vertex_compute :=
  { v := none, num_complete_issues := 0, num_complete_fetched := 0 }

/-- The method `vertex_compute::has_requests()`; `has_required` is what
`v->has_required_vertices()` returns. -/
def vertex_compute.has_requests (c : vertex_compute) (has_required : Bool) : Bool :=
  match c.v with
  | none => false
  | some _ => has_required

/-- The method `vertex_compute::has_completed()`. -/
def vertex_compute.has_completed (c : vertex_compute) (has_required : Bool) : Bool :=
  decide (c.num_complete_issues = c.num_complete_fetched) && !c.has_requests has_required

/-- The method `vertex_compute::get_next_request()` as far as the counters go: a request whose
compute is not set yet (`own = true`) is counted for this compute. -/
def vertex_compute.get_next_request (c : vertex_compute) (own : Bool) : vertex_compute :=
  if own then { c with num_complete_issues := c.num_complete_issues + 1 } else c

/-- What one call of `vertex_compute::run` does: the compute afterwards, the user callback it
invoked, whether `assert(has_completed())` held (it is only evaluated when the callback
returned true), and how often `issue_thread->complete_vertex` was called.  The assertion is
taken as enabled: when it fails the program stops before `complete_vertex`. -/
structure run_result where
  compute : vertex_compute
  callback : user_callback
  asserts_hold : Bool
  notified : Nat
deriving DecidableEq

/-- The method `vertex_compute::run(array)` for the page `pg` in an engine whose
`get_required_neighbor_type()` is `ty`. -/
def vertex_compute.run (c : vertex_compute) (ty : edge_type) (pg : page_delivery) :
    run_result :=
  let stepped : vertex_compute × user_callback :=
    match c.v with
    | none => ({ c with v := some pg.id }, user_callback.run pg.id pg.id)
    | some v =>
      if ty = edge_type.NONE then ({ c with v := some pg.id }, user_callback.run pg.id pg.id)
      else
        ({ c with num_complete_fetched := c.num_complete_fetched + 1 },
          user_callback.run_on_neighbors v [pg.id])
  let c1 := stepped.1
  if pg.completed then
    if c1.has_completed pg.has_required then
      { compute := c1, callback := stepped.2, asserts_hold := true, notified := 1 }
    else { compute := c1, callback := stepped.2, asserts_hold := false, notified := 0 }
  else { compute := c1, callback := stepped.2, asserts_hold := true, notified := 0 }

/-- The pages delivered to one compute, one after the other; before each page the requests
counted since the previous one are added to `num_complete_issues`.  Returns the compute, the
user callbacks in the order they were invoked, the number of `complete_vertex` calls and
whether every assertion held; a failed assertion ends the run. -/
def vertex_compute.run_pages (c : vertex_compute) (ty : edge_type) :
    List page_delivery → vertex_compute × List user_callback × Nat × Bool
  | [] => (c, [], 0, true)
  | pg :: rest =>
    let c0 := { c with num_complete_issues := c.num_complete_issues + pg.issued }
    let r := c0.run ty pg
    if r.asserts_hold then
      let tl := vertex_compute.run_pages r.compute ty rest
      (tl.1, r.callback :: tl.2.1, r.notified + tl.2.2.1, tl.2.2.2)
    else (r.compute, [r.callback], r.notified, false)

/-- The callbacks the spec asks for: `run(vertex)` on the first page and `run_on_neighbors`,
with the one decoded neighbor and on the vertex of the first page, on every later page. -/
def expected_callbacks : List page_delivery → List user_callback
  | [] => []
  | pg :: rest =>
    user_callback.run pg.id pg.id ::
      rest.map (fun q => user_callback.run_on_neighbors pg.id [q.id])

/-- The method `worker_thread::complete_vertex(v)`. -/
def worker_thread.complete_vertex (w : worker_thread) : worker_thread :=
  { w with num_completed_vertices_in_level := w.num_completed_vertices_in_level + 1 }

/-- The issuing worker after one call of `vertex_compute::run`: `complete_vertex` is applied
as often as the call notified it. -/
def worker_thread.after_run (w : worker_thread) (r : run_result) : worker_thread :=
  Nat.iterate worker_thread.complete_vertex r.notified w

/-! ## Partial time-series computes -/

/-- Modelled from the spec: `TS_page_vertex` as `part_ts_vertex_compute` uses it (the class is
not among the sources): the id of the vertex, `is_complete()`, and the pair of relative
offsets `get_edge_list_offset(range)` answers for the requested range. -/
structure ts_header where
  id : vertex_id_t
  is_complete : Bool
  first : Int
  second : Int
deriving DecidableEq

/-- A `request_range`: where the read starts and how many bytes it covers. -/
structure request_range where
  offset : Int
  size : Int
deriving DecidableEq

/-- The class `part_ts_vertex_compute`: the requesting vertex `comp_v`, the header once it
has been read (`none` is `NULL`), and the two counters. -/
structure part_ts_vertex_compute where
  comp_v : Option vertex_id_t
  required_vertex_header : Option ts_header
  num_issued : Int
  num_fetched : Int
deriving DecidableEq

/-- The constructor followed by `init(v, req)`. -/
def part_ts_vertex_compute.new (v : vertex_id_t) : part_ts_vertex_compute :=
  { comp_v := some v, required_vertex_header := none, num_issued := 0, num_fetched := 0 }

/-- The method `part_ts_vertex_compute::has_requests()`. -/
def part_ts_vertex_compute.has_requests (c : part_ts_vertex_compute) : Bool :=
  decide (c.num_issued = 0)

/-- The method `part_ts_vertex_compute::has_completed()`. -/
def part_ts_vertex_compute.has_completed (c : part_ts_vertex_compute) : Bool :=
  decide (c.num_fetched > 0)

/-- The method `part_ts_vertex_compute::get_next_request()`; `ext_mem_off id` is
`graph->get_vertex(id).get_ext_mem_off()`.  The result is `none` when one of the two
assertions fails. -/
def part_ts_vertex_compute.get_next_request (c : part_ts_vertex_compute)
    (ext_mem_off : vertex_id_t → Int) : Option (request_range × part_ts_vertex_compute) :=
  match c.required_vertex_header with
  | none => none
  | some header =>
    if c.num_issued = 0 then
      some ({ offset := header.first + ext_mem_off header.id,
              size := header.second - header.first },
            { c with num_issued := c.num_issued + 1 })
    else none

/-- What one call of `part_ts_vertex_compute::run` does: the compute afterwards, the user
callbacks invoked, and how often `issue_thread->complete_vertex` was called. -/
structure part_run_result where
  compute : part_ts_vertex_compute
  callbacks : List user_callback
  notified : Nat
deriving DecidableEq

/-- The method `part_ts_vertex_compute::run(array)`.  On the first call the page is decoded
as the header `page`; on a later call it is the requested part of the header's vertex, and
`completed` is what the user's `run_on_neighbors` returns.  The result is `none` when an
assertion fails. -/
def part_ts_vertex_compute.run (c : part_ts_vertex_compute) (page : ts_header)
    (completed : Bool) : Option part_run_result :=
  if c.has_completed then none
  else
    match c.required_vertex_header with
    | none =>
      if page.is_complete then none
      else
        some { compute := { c with required_vertex_header := some page },
               callbacks := [], notified := 0 }
    | some header =>
      match c.comp_v with
      | none => none
      | some v =>
        some { compute := { c with num_fetched := c.num_fetched + 1 },
               callbacks := [user_callback.run_on_neighbors v [header.id]],
               notified := if completed then 1 else 0 }

/-- The requests the user computes of a scheduler will still issue. -/
def pending_all (computes : List user_compute) : List io_request :=
  (computes.map (fun c => c.pending)).flatten

/-! ## The level barrier -/

/-- Lines 1023-1038 of `graph_engine::progress_next_level`, run by the worker at index
`self` between the two barriers: it enters the next level and adds its activations to the
static `tot_num_activates`; the worker that brings the static `num_threads` to the number of
workers advances the level, publishes the total and resets both statics.  The second
component tells whether `assert(num_remaining_vertices_in_level.get() == 0)` held (it is
evaluated by that last worker only). -/
def graph_engine.progress_enter (g : graph_engine) (self : Nat) : graph_engine × Bool :=
  match g.worker_threads[self]? with
  | none => (g, true)
  | some curr =>
    let r := curr.enter_next_level g.partitioner
    let g1 : graph_engine :=
      { g with
        worker_threads := g.worker_threads.set self r.1
        tot_num_activates := g.tot_num_activates + (r.2 : Int)
        num_threads := g.num_threads + 1 }
    if g1.num_threads = g1.get_num_threads then
      ({ g1 with
          level := g1.level + 1
          num_remaining_vertices_in_level := g1.tot_num_activates.toNat
          is_complete := decide (g1.tot_num_activates = 0)
          tot_num_activates := 0
          num_threads := 0 },
        decide (g1.num_remaining_vertices_in_level = 0))
    else (g1, true)

/-- The workers of `order` run lines 1023-1038 one after the other. -/
def graph_engine.progress_enter_all (g : graph_engine) : List Nat → graph_engine × Bool
  | [] => (g, true)
  | i :: rest =>
    let r := g.progress_enter i
    let tl := graph_engine.progress_enter_all r.1 rest
    (tl.1, r.2 && tl.2)

/-- One barrier cycle of `graph_engine::progress_next_level` seen sequentially: all workers
have reached the first barrier, they run lines 1023-1038 in the order `order`, and after the
second barrier every one of them returns `is_complete`.  Returns the engine, the values
returned to the workers, and whether the assertion held. -/
def graph_engine.progress_next_level (g : graph_engine) (order : List Nat) :
    graph_engine × List Bool × Bool :=
  let r := g.progress_enter_all order
  (r.1, order.map (fun _ => r.1.is_complete), r.2)

/-- Does the message activate its destinations, `is_activate()`. -/
def vertex_message.is_activate : vertex_message → Bool
  | .unicast _ _ a => a
  | .multicast _ _ a => a

/-- A worker for which no activation was produced: no bit of its next-level bitmap is set and
no message waiting in its inbound queue activates. -/
def worker_thread.no_activation (t : worker_thread) : Prop :=
  (∀ off, t.next_activated_vertices.get off = false) ∧
  ∀ msg ∈ t.msg_q, ∀ m ∈ msg, m.is_activate = false

/-- The number of ids in the frontier the worker at index `i` gets by `enter_next_level`. -/
def graph_engine.next_size (g : graph_engine) (i : Nat) : Nat :=
  match g.worker_threads[i]? with
  | some t => (t.enter_next_level g.partitioner).2
  | none => 0

/-! ## Breadth-first search (`bfs_graph.cpp`) -/

/-- The state of a BFS run: the engine, the VISITED flag of every `bfs_vertex` (indexed by
vertex id), the vertices on which `run(graph, vertex)` was invoked, in order, and whether
the assertions of `bfs_vertex::run` held. -/
structure bfs_state where
  graph : graph_engine
  visited : List Bool
  runs : List vertex_id_t
  asserts_hold : Bool

/-- The method `bfs_vertex::has_visited` of the vertex `id`. -/
def bfs_state.has_visited (s : bfs_state) (id : vertex_id_t) : Bool :=
  s.visited.getD id false

/-- The overload `bfs_vertex::run(graph)` on the vertex `id`, the pre-run:
`!has_visited()`. -/
def bfs_vertex.pre_run (s : bfs_state) (id : vertex_id_t) : Bool :=
  !s.has_visited id

/-- Modelled from the spec: `graph_engine::activate_vertices(ids, num)` (graph_engine.h is not
among the sources).  Every id is sent as an activation (a multicast without payload and with
`is_activate`) to the worker that owns it; the sender's buffer is flushed at once, so the
message is appended to the owner's inbound queue. -/
def graph_engine.activate_vertices (g : graph_engine) : List vertex_id_t → graph_engine
  | [] => g
  | id :: rest =>
    let idx := g.partitioner.map id
    let threads :=
      match g.worker_threads[idx]? with
      | none => g.worker_threads
      | some t =>
        g.worker_threads.set idx { t with msg_q := t.msg_q ++ [[.multicast [id] true true]] }
    graph_engine.activate_vertices { g with worker_threads := threads } rest

/-- The overload `bfs_vertex::run(graph, vertex)` on the vertex `id` (lines 75-98); `edges`
holds the out-edge list of every vertex of the graph file, indexed by vertex id, so the
ids run from `min_id = 0` to `max_id = edges.length - 1`. -/
def bfs_vertex.run (edges : List (List vertex_id_t)) (s : bfs_state) (id : vertex_id_t) :
    bfs_state :=
  let max_id := edges.length - 1
  let min_id := 0
  let buf := edges.getD id []
  { graph := s.graph.activate_vertices buf
    visited := s.visited.set id true
    runs := s.runs ++ [id]
    asserts_hold := s.asserts_hold && !s.has_visited id
      && buf.all (fun n => decide (min_id ≤ n ∧ n ≤ max_id)) }

/-- The number of ids the queue of the worker at index `i` still holds. -/
def graph_engine.num_waiting (g : graph_engine) (i : Nat) : Nat :=
  match g.worker_threads[i]? with
  | some t => t.curr_activated_vertices.get_num_vertices
  | none => 0

/-- One iteration of the `do .. while` loop of `worker_thread::run` (lines 865-872) by the
worker at index `self` running BFS, `max` being the budget it passes to
`process_activated_vertices`: it processes activated vertices, then its inbound messages,
and in `wait4complete` the reads it issued complete in order, each completion invoking
`run(graph, vertex)` through `vertex_compute::run`. -/
def worker_thread.run_iteration (edges : List (List vertex_id_t)) (s : bfs_state)
    (self : Nat) (max : Int) : bfs_state :=
  let r := worker_thread.process_activated_vertices s.graph self max
    (fun id => bfs_vertex.pre_run s id)
  let threads :=
    match r.graph.worker_threads[self]? with
    | none => r.graph.worker_threads
    | some me => r.graph.worker_threads.set self (me.process_msgs r.graph.partitioner)
  r.reqs.foldl (bfs_vertex.run edges)
    { s with graph := { r.graph with worker_threads := threads } }

/-- One level of `worker_thread::run` seen sequentially: the iterations `calls` (worker,
budget) one after the other in any order, then, for the loops to be left with every frontier
empty, one more iteration of each worker whose budget is what its own queue still holds. -/
def bfs_state.run_level (edges : List (List vertex_id_t)) (s : bfs_state)
    (calls : List (Nat × Int)) : bfs_state :=
  let s1 := calls.foldl (fun st c => worker_thread.run_iteration edges st c.1 c.2) s
  (List.range s1.graph.get_num_threads).foldl
    (fun st i => worker_thread.run_iteration edges st i (st.graph.num_waiting i)) s1

/-- The outer loop of `worker_thread::run` (lines 862-893) of all workers seen sequentially:
a level, then the barrier cycle of `progress_next_level`, until it returns `true`.  The head
of `sched` gives the iterations of the level, and the first argument bounds the number of
levels; `none` when it is used up.  The per-level counters of lines 886-887, which nothing
here reads, are left alone. -/
def bfs_state.run_levels (edges : List (List vertex_id_t)) :
    Nat → List (List (Nat × Int)) → bfs_state → Option bfs_state
  | 0, _, _ => none
  | fuel + 1, sched, s =>
    let s1 := s.run_level edges (sched.headD [])
    let r := s1.graph.progress_next_level (List.range s1.graph.get_num_threads)
    let s2 := { s1 with graph := r.1 }
    if r.1.is_complete then some s2
    else bfs_state.run_levels edges fuel sched.tail s2

/-- The BFS program of `main`: an engine of `num_threads` workers over the graph `edges`,
no vertex visited, `graph->start(ids, num)` on the start vertices and the run of the
workers. -/
def bfs (edges : List (List vertex_id_t)) (num_threads : Nat) (start : List vertex_id_t)
    (sched : List (List (Nat × Int))) (fuel : Nat) : Option bfs_state :=
  bfs_state.run_levels edges fuel sched
    { graph := (graph_engine.new num_threads (edges.length - 1)).start start
      visited := List.replicate edges.length false
      runs := []
      asserts_hold := true }

/-- Is the vertex `id` activated for the next level: is its bit set in the bitmap of its
owner once the owner has processed the messages waiting in its inbound queue. -/
def graph_engine.is_activated (g : graph_engine) (id : vertex_id_t) : Bool :=
  match g.worker_threads[g.partitioner.map id]? with
  | some t =>
    (t.process_msgs g.partitioner).next_activated_vertices.get (g.partitioner.map2loc id).2
  | none => false

/-- The part of a worker that `process_activated_vertices` and stealing leave alone: its
id, its inbound queue, its next-level bitmap and the scheduler of its frontier queue. -/
def worker_thread.inbox (t : worker_thread) :
    Nat × List message × bitmap × vertex_scheduler :=
  (t.worker_id, t.msg_q, t.next_activated_vertices, t.curr_activated_vertices.scheduler)

/-- The part of a worker that sending and processing messages leave alone: its id, its
frontier queue and the size of its next-level bitmap. -/
def worker_thread.queue_part (t : worker_thread) : Nat × sorted_vertex_queue × Nat :=
  (t.worker_id, t.curr_activated_vertices, t.next_activated_vertices.bits.length)

/-- What the constructor establishes for the worker at index `i` of `W` workers over the
vertex ids below `N`: its id, a bit for every local offset of such an id, and a scheduler
that only reorders. -/
def worker_thread.ok (t : worker_thread) (i W N : Nat) : Prop :=
  t.worker_id = i ∧
  (∀ id, id < N → id / W < t.next_activated_vertices.bits.length) ∧
  t.curr_activated_vertices.scheduler.reorders

/-- What the constructor establishes for an engine of `W ≥ 1` workers over the vertex ids
below `N`, with the two statics of `progress_next_level` at 0 as between barrier cycles. -/
def graph_engine.ok (g : graph_engine) (W N : Nat) : Prop :=
  0 < W ∧ g.worker_threads.length = W ∧ g.partitioner.num_parts = W ∧
  g.tot_num_activates = 0 ∧ g.num_threads = 0 ∧
  ∀ (i : Nat) (t : worker_thread), g.worker_threads[i]? = some t → t.ok i W N

/-- Two engines that differ at most in the frontier queues, the steal cursors and the
counters. -/
def graph_engine.same_inbox (g g1 : graph_engine) : Prop :=
  g1.partitioner = g.partitioner ∧ g1.tot_num_activates = g.tot_num_activates ∧
  g1.num_threads = g.num_threads ∧
  g1.worker_threads.map worker_thread.inbox = g.worker_threads.map worker_thread.inbox

/-- Two engines that differ at most in the inbound queues, the bits of the next-level
bitmaps and the logs of the workers. -/
def graph_engine.same_queues (g g1 : graph_engine) : Prop :=
  g1.partitioner = g.partitioner ∧ g1.tot_num_activates = g.tot_num_activates ∧
  g1.num_threads = g.num_threads ∧
  g1.worker_threads.map worker_thread.queue_part
    = g.worker_threads.map worker_thread.queue_part

/-- The state `s0` in which a BFS level begins: a well-formed engine, a VISITED flag for
every vertex, frontiers that hold no id twice and only ids of the graph, and nothing yet
activated for the next level. -/
def bfs_state.level_start (edges : List (List vertex_id_t)) (W : Nat) (s0 : bfs_state) :
    Prop :=
  s0.graph.ok W edges.length ∧ s0.visited.length = edges.length ∧
  s0.graph.all_remaining.Nodup ∧ (∀ v ∈ s0.graph.all_remaining, v < edges.length) ∧
  (∀ v, s0.graph.is_activated v = false) ∧ s0.asserts_hold = true

/-- The progress of the level that began in `s0`, in the state `s`: `P` lists the ids taken
from the frontiers so far.  They and the ids still waiting make up the frontiers of `s0`;
those of `P` not visited before the level were run, are visited now, and their out-neighbors
are what is activated for the next level. -/
def bfs_state.level_inv (edges : List (List vertex_id_t)) (W : Nat) (s0 s : bfs_state)
    (P : List vertex_id_t) : Prop :=
  s.graph.ok W edges.length ∧ s.visited.length = edges.length ∧
  (∀ v, List.count v P + List.count v s.graph.all_remaining
    = List.count v s0.graph.all_remaining) ∧
  s.runs = s0.runs ++ P.filter (fun u => !s0.has_visited u) ∧
  (∀ v, s.has_visited v = (s0.has_visited v || decide (v ∈ P))) ∧
  (∀ v, s.graph.is_activated v
    = (P.filter (fun u => !s0.has_visited u)).any (fun u => decide (v ∈ edges.getD u []))) ∧
  s.asserts_hold = true

/-- Reachability along out-edges, the notion the BFS result is compared with (not code):
`v` is reachable from the start set `S` when out-edges lead from a vertex of `S` to `v` in
zero or more steps. -/
def bfs_reachable (edges : List (List vertex_id_t)) (S : List vertex_id_t)
    (v : vertex_id_t) : Prop :=
  ∃ a ∈ S, Relation.ReflTransGen (fun x y => y ∈ edges.getD x []) a v

/-- What holds of a BFS run from `S` whenever a level begins: only reachable vertices are
visited or in a frontier, every start vertex and every out-neighbor of a visited vertex is
visited or in a frontier, and `run(graph, vertex)` was invoked once on every visited vertex
and on no other. -/
def bfs_state.bfs_inv (edges : List (List vertex_id_t)) (W : Nat) (S : List vertex_id_t)
    (s : bfs_state) : Prop :=
  s.level_start edges W ∧
  (∀ v, s.has_visited v = true → bfs_reachable edges S v) ∧
  (∀ v ∈ s.graph.all_remaining, bfs_reachable edges S v) ∧
  (∀ a ∈ S, s.has_visited a = true ∨ a ∈ s.graph.all_remaining) ∧
  (∀ u, s.has_visited u = true → ∀ v ∈ edges.getD u [],
    s.has_visited v = true ∨ v ∈ s.graph.all_remaining) ∧
  (∀ v, List.count v s.runs = if s.has_visited v = true then 1 else 0)

/-- The two per-level counters of a worker, `num_activated_vertices_in_level` and
`num_completed_vertices_in_level`. -/
def worker_thread.counters (t : worker_thread) : Int × Int :=
  (t.num_activated_vertices_in_level, t.num_completed_vertices_in_level)

/-- The destinations of a message: the one destination of a point-to-point message, the
destination list of a multicast. -/
def vertex_message.dests : vertex_message → List vertex_id_t
  | .unicast dest _ _ => [dest]
  | .multicast dest_list _ _ => dest_list

/-- The destinations the activating messages of the batches `msgs` name, in the order the
batches are processed. -/
def activated_dests (msgs : List message) : List vertex_id_t :=
  ((msgs.flatten.filter (fun m => m.is_activate)).map (fun m => m.dests)).flatten

/-! ## File mappers (`include/file_mapper.h`)

The `int` and `off_t` values of the mappers are integers within the range of their type,
32-bit and 64-bit two's complement.  `/` and `%` are the truncating division and remainder of
C (`Int.tdiv`, `Int.tmod`).  The result of every addition, subtraction and multiplication,
and of every conversion to `int`, is brought back into the range of its type by `wrap_int`
or `wrap_off_t`: a signed overflow, which C++ leaves undefined, is taken as the wrap-around
of the compiled code.  Operands of mixed type are computed in `off_t`, as the usual
arithmetic conversions have it. -/

/-- The value an `int` (32 bits, two's complement) holds when it is given the integer `x`. -/
def wrap_int (x : Int) : Int := (x + 2147483648) % 4294967296 - 2147483648

/-- The value an `off_t` (64 bits, two's complement) holds when it is given the integer
`x`. -/
def wrap_off_t (x : Int) : Int :=
  (x + 9223372036854775808) % 18446744073709551616 - 9223372036854775808

/-- The constant `FILE_CONST_A`. -/
def FILE_CONST_A : Int := 31

/-- The constant `FILE_CONST_P`. -/
def FILE_CONST_P : Int := 191

/-- The struct `block_identifier`: the file a block is in, and its location in that file. -/
structure block_identifier where
  idx : Int
  off : Int
deriving DecidableEq

/-- The class `RAID0_mapper`: `num_files` is what `get_num_files()` returns,
`STRIPE_BLOCK_SIZE` the constant of the base class `file_mapper`, and `rand_start` the static
member; all three are of type `int`. -/
structure RAID0_mapper where
  num_files : Int
  STRIPE_BLOCK_SIZE : Int
  rand_start : Int

/-- The method `RAID0_mapper::map(off, bid)`; the result is `bid`. -/
def RAID0_mapper.map (m : RAID0_mapper) (off : Int) : block_identifier :=
  let idx_in_block := wrap_int (off.tmod m.STRIPE_BLOCK_SIZE)
  let block_idx := off.tdiv m.STRIPE_BLOCK_SIZE
  { idx := wrap_int ((wrap_off_t (block_idx + m.rand_start)).tmod m.num_files)
    off := wrap_off_t
      (wrap_off_t ((block_idx.tdiv m.num_files) * m.STRIPE_BLOCK_SIZE) + idx_in_block) }

/-- The method `RAID0_mapper::map2file(off)`. -/
def RAID0_mapper.map2file (m : RAID0_mapper) (off : Int) : Int :=
  wrap_int ((wrap_off_t ((off.tdiv m.STRIPE_BLOCK_SIZE) + m.rand_start)).tmod m.num_files)

/-- The method `RAID0_mapper::map_backwards(idx, off_in_file)`.  The sum
`idx - rand_start + get_num_files()` is computed in `int`. -/
def RAID0_mapper.map_backwards (m : RAID0_mapper) (idx off_in_file : Int) : Int :=
  let idx_in_block := wrap_int (off_in_file.tmod m.STRIPE_BLOCK_SIZE)
  let block_in_file := off_in_file.tdiv m.STRIPE_BLOCK_SIZE
  wrap_off_t
    (wrap_off_t
      (wrap_off_t
        (wrap_off_t (block_in_file * m.num_files)
          + (wrap_int (wrap_int (idx - m.rand_start) + m.num_files)).tmod m.num_files)
        * m.STRIPE_BLOCK_SIZE)
      + idx_in_block)

/-- The class `RAID5_mapper`, with the same members as `RAID0_mapper`. -/
structure RAID5_mapper where
  num_files : Int
  STRIPE_BLOCK_SIZE : Int
  rand_start : Int

/-- The method `RAID5_mapper::map(off, bid)`; the result is `bid`.  The sum
`bid.idx + shift + rand_start` of line 128 is computed in `int`. -/
def RAID5_mapper.map (m : RAID5_mapper) (off : Int) : block_identifier :=
  let idx_in_block := wrap_int (off.tmod m.STRIPE_BLOCK_SIZE)
  let block_idx := off.tdiv m.STRIPE_BLOCK_SIZE
  let idx0 := wrap_int (block_idx.tmod m.num_files)
  let bid_off := wrap_off_t
    (wrap_off_t ((block_idx.tdiv m.num_files) * m.STRIPE_BLOCK_SIZE) + idx_in_block)
  let shift := wrap_int ((block_idx.tdiv m.num_files).tmod m.num_files)
  { idx := (wrap_int (wrap_int (idx0 + shift) + m.rand_start)).tmod m.num_files
    off := bid_off }

/-- The method `RAID5_mapper::map2file(off)`.  Here the sum
`block_idx % get_num_files() + shift + rand_start` is computed in `off_t`. -/
def RAID5_mapper.map2file (m : RAID5_mapper) (off : Int) : Int :=
  let block_idx := off.tdiv m.STRIPE_BLOCK_SIZE
  let shift := wrap_int ((block_idx.tdiv m.num_files).tmod m.num_files)
  wrap_int
    ((wrap_off_t (wrap_off_t (block_idx.tmod m.num_files + shift) + m.rand_start)).tmod
      m.num_files)

/-- The method `RAID5_mapper::map_backwards(idx, off_in_file)`. -/
def RAID5_mapper.map_backwards (m : RAID5_mapper) (idx off_in_file : Int) : Int :=
  let idx_in_block := wrap_int (off_in_file.tmod m.STRIPE_BLOCK_SIZE)
  let block_in_file := off_in_file.tdiv m.STRIPE_BLOCK_SIZE
  let idx_in_stripe := wrap_int ((wrap_off_t (m.rand_start + block_in_file)).tmod m.num_files)
  wrap_off_t
    (wrap_off_t
      (wrap_off_t
        (wrap_off_t (block_in_file * m.num_files)
          + (wrap_int (wrap_int (idx - idx_in_stripe) + m.num_files)).tmod m.num_files)
        * m.STRIPE_BLOCK_SIZE)
      + idx_in_block)

/-- The class `hash_mapper`: `num_files` is what `get_num_files()` returns and
`STRIPE_BLOCK_SIZE` the constant of the base class; both are of type `int`. -/
structure hash_mapper where
  num_files : Int
  STRIPE_BLOCK_SIZE : Int

/-- The member `P_MOD_N`, which the constructor sets to `CONST_P % files.size()`. -/
def hash_mapper.P_MOD_N (m : hash_mapper) : Int := FILE_CONST_P.tmod m.num_files

/-- The method `hash_mapper::cycle_size_in_bucket(idx)`.  The quotient of 191 by an `int` and
its successor lie within the range of `int`. -/
def hash_mapper.cycle_size_in_bucket (m : hash_mapper) (idx : Int) : Int :=
  if idx < m.P_MOD_N then FILE_CONST_P.tdiv m.num_files + 1
  else FILE_CONST_P.tdiv m.num_files

/-- The method `hash_mapper::map(off, bid)`; the result is `bid`.  The product
`CONST_A * block_idx` is computed in `off_t`. -/
def hash_mapper.map (m : hash_mapper) (off : Int) : block_identifier :=
  let idx_in_block := wrap_int (off.tmod m.STRIPE_BLOCK_SIZE)
  let block_idx := off.tdiv m.STRIPE_BLOCK_SIZE
  let p_idx := (wrap_off_t (FILE_CONST_A * block_idx)).tmod FILE_CONST_P
  let idx := wrap_int (p_idx.tmod m.num_files)
  let cycle_idx := block_idx.tdiv FILE_CONST_P
  let cycle_len_in_bucket := m.cycle_size_in_bucket idx
  { idx := idx
    off := wrap_off_t
      (wrap_off_t
        (wrap_off_t (wrap_off_t (cycle_idx * cycle_len_in_bucket) + p_idx.tdiv m.num_files)
          * m.STRIPE_BLOCK_SIZE)
        + idx_in_block) }

/-- The method `hash_mapper::map2file(off)`. -/
def hash_mapper.map2file (m : hash_mapper) (off : Int) : Int :=
  let block_idx := off.tdiv m.STRIPE_BLOCK_SIZE
  let p_idx := (wrap_off_t (FILE_CONST_A * block_idx)).tmod FILE_CONST_P
  wrap_int (p_idx.tmod m.num_files)

/-! ## The scan-statistics program (`apps/scan-statistics/scan_graph.cpp`) -/

/-- The output of `unique_merge`: the values written through `result`, in order, and the
distance `result - result_begin`. -/
structure merge_output where
  written : List vertex_id_t
  result : Nat
deriving DecidableEq

/-- The statement `if (!skip(v)) *(result++) = v;` of `unique_merge`. -/
def merge_output.put (o : merge_output) (skip : vertex_id_t → Bool) (v : vertex_id_t) :
    merge_output :=
  if !skip v then { written := o.written ++ [v], result := o.result + 1 } else o

/-- The inner loops `while (*it == v && it != last) ++it;` of `unique_merge`, on the range
`[it, last)` given as a list: the iterator is advanced past the leading values equal to `v`.
(The loop tests `*it == v` before `it != last`, so at the end of the range it reads the
element one past `last`; whatever it reads there, the second test ends the loop.) -/
def unique_merge.advance (v : vertex_id_t) : List vertex_id_t → List vertex_id_t
  | [] => []
  | x :: rest => if x = v then unique_merge.advance v rest else x :: rest

/-- The first loop of `unique_merge` (lines 227-249), `while (it1 != last1 && it2 != last2)`,
on the ranges given as lists.  Returns what is left of the two ranges and the output.  The
first argument bounds the number of iterations; the result is `none` when it is used up. -/
def unique_merge.first_loop (skip : vertex_id_t → Bool) :
    Nat → List vertex_id_t → List vertex_id_t → merge_output →
      Option (List vertex_id_t × List vertex_id_t × merge_output)
  | 0, _, _, _ => none
  | _ + 1, [], r2, o => some ([], r2, o)
  | _ + 1, x :: r1, [], o => some (x :: r1, [], o)
  | fuel + 1, x :: r1, y :: r2, o =>
    if x > y then
      unique_merge.first_loop skip fuel (x :: r1) (unique_merge.advance y (y :: r2))
        (o.put skip y)
    else if x < y then
      unique_merge.first_loop skip fuel (unique_merge.advance x (x :: r1)) (y :: r2)
        (o.put skip x)
    else
      unique_merge.first_loop skip fuel (unique_merge.advance x (x :: r1))
        (unique_merge.advance x (y :: r2)) (o.put skip x)

/-- The second and the third loop of `unique_merge` (lines 251-266), `while (it != last)`, on
one range.  The first argument bounds the number of iterations; the result is `none` when it
is used up. -/
def unique_merge.rest_loop (skip : vertex_id_t → Bool) :
    Nat → List vertex_id_t → merge_output → Option merge_output
  | 0, _, _ => none
  | _ + 1, [], o => some o
  | fuel + 1, x :: r, o =>
    unique_merge.rest_loop skip fuel (unique_merge.advance x (x :: r)) (o.put skip x)

/-- The function template `unique_merge(it1, last1, it2, last2, skip, result)` on vertex
ids; `r1` and `r2` are the contents of the two input ranges.  Every iteration of a loop moves
an iterator forward, so the total length of the ranges bounds the iterations. -/
def unique_merge (r1 r2 : List vertex_id_t) (skip : vertex_id_t → Bool) :
    Option merge_output :=
  match unique_merge.first_loop skip (r1.length + r2.length + 1) r1 r2
      { written := [], result := 0 } with
  | none => none
  | some (l1, l2, o) =>
    match unique_merge.rest_loop skip (r1.length + r2.length + 1) l1 o with
    | none => none
    | some o1 => unique_merge.rest_loop skip (r1.length + r2.length + 1) l2 o1

/-- What the first loop of `unique_merge` has done when it returns `r`, entered with the
ranges `a`, `b` and the output `o`: it has written the values `res` and left the ranges `a1`
and `b1`, one of them empty; `res` is strictly ascending and below everything left, and the
values of `a` and `b` that are not skipped are those of `res` and those left. -/
def unique_merge.first_post (skip : vertex_id_t → Bool) (a b : List vertex_id_t)
    (o : merge_output)
    (r : Option (List vertex_id_t × List vertex_id_t × merge_output)) : Prop :=
  ∃ res a1 b1,
    r = some (a1, b1, { written := o.written ++ res, result := o.result + res.length }) ∧
    (a1 = [] ∨ b1 = []) ∧
    a1.Sorted (fun x y => x ≤ y) ∧ b1.Sorted (fun x y => x ≤ y) ∧
    a1.length ≤ a.length ∧ b1.length ≤ b.length ∧
    res.Sorted (fun x y => x < y) ∧
    (∀ x ∈ res, ∀ y, (y ∈ a1 ∨ y ∈ b1) → x < y) ∧
    (∀ y, (y ∈ a1 ∨ y ∈ b1) → (y ∈ a ∨ y ∈ b)) ∧
    (∀ x, ((x ∈ a ∨ x ∈ b) ∧ skip x = false)
      ↔ (x ∈ res ∨ ((x ∈ a1 ∨ x ∈ b1) ∧ skip x = false)))

/-- The constant `BIN_SEARCH_RATIO` (line 32), a `double` of value 10 that the two integer
size ratios of `count_edges` are compared with. -/
def BIN_SEARCH_RATIO : Nat := 10

/-- The library function `std::lower_bound(first, last, value)` on a range that is
partitioned by `< value` (as a sorted range is): the position, counted from `first`, of the
first element that is not less than `value`; the length of the range when there is none. -/
def std_lower_bound (range : List vertex_id_t) (value : vertex_id_t) : Nat :=
  (range.takeWhile (fun x => decide (x < value))).length

/-- The library function `std::binary_search(first, last, value)`: `lower_bound`, then the
test `first != last && !(value < *first)`. -/
def std_binary_search (range : List vertex_id_t) (value : vertex_id_t) : Bool :=
  match range.drop (std_lower_bound range value) with
  | [] => false
  | x :: _ => !decide (value < x)

/-- The test and body of the loops `do { .. } while (it != other_end && this_neighbor ==
*it)` of `count_edges` from their second round on: the counts of the leading entries equal
to `this_neighbor` are added.  Returns the sum and the entries the iterator has not
passed. -/
def count_edges.equal_while (this_neighbor : vertex_id_t) :
    List (vertex_id_t × Int) → Int → Int × List (vertex_id_t × Int)
  | [], num_local_edges => (num_local_edges, [])
  | x :: rest, num_local_edges =>
    if this_neighbor = x.1 then
      count_edges.equal_while this_neighbor rest (num_local_edges + x.2)
    else (num_local_edges, x :: rest)

/-- The loops `do { num_local_edges += (*data_it).get_count(); ++it; ++data_it; } while (it
!= other_end && this_neighbor == *it)` of `count_edges` (lines 148-158 and 187-194), entered
with the iterator at the head of the list; the body runs once before the first test. -/
def count_edges.equal_run (this_neighbor : vertex_id_t) :
    List (vertex_id_t × Int) → Int → Int × List (vertex_id_t × Int)
  | [], num_local_edges => (num_local_edges, [])
  | e :: rest, num_local_edges =>
    count_edges.equal_while this_neighbor rest (num_local_edges + e.2)

/-- The first strategy of `count_edges` (lines 135-161): for every neighbor that is not a
loop, a binary search in the edge list of `v`.  `edges` holds the ids of the edge list of `v`
for the timestamp and type with their counts, `v_id` is `v->get_id()` and `this_id` is
`this->get_id()`. -/
def count_edges.search_edges (v_id this_id : vertex_id_t) (edges : List (vertex_id_t × Int)) :
    List vertex_id_t → Int → Int
  | [], num_local_edges => num_local_edges
  | this_neighbor :: rest, num_local_edges =>
    if this_neighbor = v_id ∨ this_neighbor = this_id then
      count_edges.search_edges v_id this_id edges rest num_local_edges
    else
      let first := std_lower_bound (edges.map (fun e => e.1)) this_neighbor
      match edges.drop first with
      | [] => count_edges.search_edges v_id this_id edges rest num_local_edges
      | e :: tail =>
        if !decide (this_neighbor < e.1) then
          count_edges.search_edges v_id this_id edges rest
            (count_edges.equal_run this_neighbor (e :: tail) num_local_edges).1
        else count_edges.search_edges v_id this_id edges rest num_local_edges

/-- The second strategy of `count_edges` (lines 162-175): for every entry of the edge list of
`v` that is not a loop, a binary search among the neighbors. -/
def count_edges.search_neighbors (v_id this_id : vertex_id_t) (neighbors : List vertex_id_t) :
    List (vertex_id_t × Int) → Int → Int
  | [], num_local_edges => num_local_edges
  | e :: rest, num_local_edges =>
    if e.1 ≠ v_id ∧ e.1 ≠ this_id then
      if std_binary_search neighbors e.1 then
        count_edges.search_neighbors v_id this_id neighbors rest (num_local_edges + e.2)
      else count_edges.search_neighbors v_id this_id neighbors rest num_local_edges
    else count_edges.search_neighbors v_id this_id neighbors rest num_local_edges

/-- The third strategy of `count_edges` (lines 176-204): the linear merge of the edge list of
`v` (first list) with the neighbors (second list).  Every iteration moves an iterator
forward; the first argument bounds the iterations, and the result is `none` when it is used
up. -/
def count_edges.merge (v_id this_id : vertex_id_t) :
    Nat → List (vertex_id_t × Int) → List vertex_id_t → Int → Option Int
  | 0, _, _, _ => none
  | _ + 1, [], _, num_local_edges => some num_local_edges
  | _ + 1, _ :: _, [], num_local_edges => some num_local_edges
  | fuel + 1, e :: other, this_neighbor :: this_rest, num_local_edges =>
    if e.1 = v_id ∨ e.1 = this_id then
      count_edges.merge v_id this_id fuel other (this_neighbor :: this_rest) num_local_edges
    else if this_neighbor = e.1 then
      count_edges.merge v_id this_id fuel
        (count_edges.equal_run this_neighbor (e :: other) num_local_edges).2 this_rest
        (count_edges.equal_run this_neighbor (e :: other) num_local_edges).1
    else if this_neighbor < e.1 then
      count_edges.merge v_id this_id fuel (e :: other) this_rest num_local_edges
    else
      count_edges.merge v_id this_id fuel other (this_neighbor :: this_rest) num_local_edges

/-- The overload `scan_vertex::count_edges(v, neighbors, timestamp, type)` (lines 116-207).
`edges` is the edge list of `v` for the timestamp and type, ids with counts, whose length is
`get_num_edges(timestamp, type)`.  The two size ratios are integer divisions; the result is
`none` when one of them divides by zero (or the bound of the merge is used up). -/
def scan_vertex.count_edges_type (v_id this_id : vertex_id_t)
    (edges : List (vertex_id_t × Int)) (neighbors : List vertex_id_t) : Option Int :=
  let num_v_edges := edges.length
  if num_v_edges = 0 then some 0
  else if neighbors.length = 0 then none
  else if num_v_edges / neighbors.length > BIN_SEARCH_RATIO then
    some (count_edges.search_edges v_id this_id edges neighbors 0)
  else if num_v_edges = 0 then none
  else if neighbors.length / num_v_edges > BIN_SEARCH_RATIO then
    some (count_edges.search_neighbors v_id this_id neighbors edges 0)
  else
    count_edges.merge v_id this_id (edges.length + neighbors.length + 1) edges neighbors 0

/-- The overload `scan_vertex::count_edges(v, neighbors, timestamp)` (lines 209-218);
`in_edges` and `out_edges` are the two edge lists of `v` for the timestamp, which together
make up `get_num_edges(timestamp, BOTH_EDGES)`. -/
def scan_vertex.count_edges (v_id this_id : vertex_id_t)
    (in_edges out_edges : List (vertex_id_t × Int)) (neighbors : List vertex_id_t) :
    Option Int :=
  if in_edges.length + out_edges.length = 0 ∨ neighbors.isEmpty then some 0
  else
    match scan_vertex.count_edges_type v_id this_id in_edges neighbors,
      scan_vertex.count_edges_type v_id this_id out_edges neighbors with
    | some a, some b => some (a + b)
    | _, _ => none

/-- The result of `count_edges` in the words of the specification, to be compared with the
three strategies: the sum of the counts of the entries of the edge list of `v` whose id is
among the neighbors and is neither the id of `v` nor the id of the vertex itself. -/
def count_edges_spec (v_id this_id : vertex_id_t) (edges : List (vertex_id_t × Int))
    (neighbors : List vertex_id_t) : Int :=
  ((edges.filter (fun e => decide (e.1 ∈ neighbors) && decide (e.1 ≠ v_id)
      && decide (e.1 ≠ this_id))).map (fun e => e.2)).sum

end FlashGraph


namespace FlashGraph

/-! ## The frontier queue: `fetch` and `init` -/

theorem fetch_ret_le_remaining (q : sorted_vertex_queue) (n : Nat) :
    (q.fetch n).ret ≤ q.sorted_vertices.length - q.fetch_idx := by
  simp [sorted_vertex_queue.fetch]

theorem fetch_vertices_length (q : sorted_vertex_queue) (n : Nat) :
    (q.fetch n).vertices.length = (q.fetch n).ret := by
  simp only [sorted_vertex_queue.fetch, List.length_take, List.length_drop]
  omega

theorem fetch_preserves_wf (q : sorted_vertex_queue) (n : Nat) (h : q.wf) :
    (q.fetch n).queue.wf := by
  unfold sorted_vertex_queue.wf at *
  simp only [sorted_vertex_queue.fetch]
  omega

/-- C3: for a queue whose cursor is within its vector, `fetch(out, n)` returns
`k = min(n, size - fetch_idx)`, so `k ≤ n` and `k = 0` on an empty queue; `out` receives the
`k` entries `sorted_vertices[fetch_idx .. fetch_idx + k)` in queue order; the cursor advances
by exactly `k` and stays within the vector; the vector and the scheduler are unchanged; and
afterwards `is_empty()` holds iff the cursor equals the length. -/
theorem fetch_contract (q : sorted_vertex_queue) (n : Nat) (h : q.wf) :
    (q.fetch n).ret = min n (q.sorted_vertices.length - q.fetch_idx) ∧
    (q.fetch n).ret ≤ n ∧
    (q.is_empty = true → (q.fetch n).ret = 0) ∧
    (q.fetch n).vertices.length = (q.fetch n).ret ∧
    (∀ i, i < (q.fetch n).ret →
      (q.fetch n).vertices[i]? = q.sorted_vertices[q.fetch_idx + i]? ∧
      q.fetch_idx + i < q.sorted_vertices.length) ∧
    (q.fetch n).queue.fetch_idx = q.fetch_idx + (q.fetch n).ret ∧
    (q.fetch n).queue.fetch_idx ≤ (q.fetch n).queue.sorted_vertices.length ∧
    (q.fetch n).queue.sorted_vertices = q.sorted_vertices ∧
    (q.fetch n).queue.scheduler = q.scheduler ∧
    ((q.fetch n).queue.is_empty = true ↔
      (q.fetch n).queue.fetch_idx = (q.fetch n).queue.sorted_vertices.length) := by
  have hwf : q.fetch_idx ≤ q.sorted_vertices.length := h
  refine ⟨rfl, ?_, ?_, fetch_vertices_length q n, ?_, rfl, ?_, rfl, rfl, ?_⟩
  · simp [sorted_vertex_queue.fetch]
  · intro he
    simp only [sorted_vertex_queue.is_empty, decide_eq_true_eq] at he
    simp [sorted_vertex_queue.fetch, he]
  · intro i hi
    simp only [sorted_vertex_queue.fetch] at hi ⊢
    have hi1 : i < n := lt_of_lt_of_le hi (Nat.min_le_left _ _)
    have hi2 : i < q.sorted_vertices.length - q.fetch_idx :=
      lt_of_lt_of_le hi (Nat.min_le_right _ _)
    constructor
    · rw [List.getElem?_take_of_lt hi, List.getElem?_drop]
    · omega
  · exact fetch_preserves_wf q n h
  · simp only [sorted_vertex_queue.is_empty, sorted_vertex_queue.fetch, decide_eq_true_eq]
    omega

/-- Witness for `fetch_contract`: a queue holding `1, 4, 7, 9` with one id consumed, asked
for two ids. -/
theorem fetch_contract_witness :
    (sorted_vertex_queue.mk [1, 4, 7, 9] 1 .default_scheduler).wf ∧
    ((sorted_vertex_queue.mk [1, 4, 7, 9] 1 .default_scheduler).fetch 2).ret = 2 ∧
    ((sorted_vertex_queue.mk [1, 4, 7, 9] 1 .default_scheduler).fetch 2).vertices = [4, 7] ∧
    ((sorted_vertex_queue.mk [1, 4, 7, 9] 1 .default_scheduler).fetch 2).queue.fetch_idx
      = 1 + ((sorted_vertex_queue.mk [1, 4, 7, 9] 1 .default_scheduler).fetch 2).ret := by
  have hwf : (sorted_vertex_queue.mk [1, 4, 7, 9] 1 .default_scheduler).wf := by
    unfold sorted_vertex_queue.wf; decide
  have h := fetch_contract (sorted_vertex_queue.mk [1, 4, 7, 9] 1 .default_scheduler) 2 hwf
  exact ⟨hwf, by decide, by decide, h.2.2.2.2.2.1⟩

theorem default_schedule_sorted (ids : List vertex_id_t) :
    List.Sorted (fun a b => a ≤ b) (default_vertex_scheduler.schedule ids) :=
  List.sorted_insertionSort (fun a b : Nat => a ≤ b) ids

theorem default_schedule_perm (ids : List vertex_id_t) :
    List.Perm (default_vertex_scheduler.schedule ids) ids :=
  List.perm_insertionSort (fun a b : Nat => a ≤ b) ids

/-- C4: `init(ids, sorted)` resets the cursor to 0 and installs contents that do not depend
on the previous vector or cursor; with `sorted = false` and the default scheduler the new
contents are the ascending permutation of `ids`, with `sorted = true` they are `ids` as
given; the scheduler is kept. -/
theorem init_contract (vs : List vertex_id_t) (idx : Nat) (sch : vertex_scheduler)
    (ids : List vertex_id_t) :
    (∀ sorted, ((sorted_vertex_queue.mk vs idx sch).init ids sorted).fetch_idx = 0) ∧
    (∀ sorted vs1 idx1, (sorted_vertex_queue.mk vs idx sch).init ids sorted
      = (sorted_vertex_queue.mk vs1 idx1 sch).init ids sorted) ∧
    (∀ sorted, ((sorted_vertex_queue.mk vs idx sch).init ids sorted).scheduler = sch) ∧
    ((sorted_vertex_queue.mk vs idx sch).init ids true).sorted_vertices = ids ∧
    List.Sorted (fun a b => a ≤ b)
      ((sorted_vertex_queue.mk vs idx .default_scheduler).init ids false).sorted_vertices ∧
    List.Perm ((sorted_vertex_queue.mk vs idx .default_scheduler).init ids false).sorted_vertices
      ids := by
  refine ⟨fun _ => rfl, fun _ _ _ => rfl, fun _ => rfl, rfl, ?_, ?_⟩
  · exact default_schedule_sorted ids
  · exact default_schedule_perm ids

/-! ## The partitioner and the bitmap -/

theorem map2loc_loc2map (p : vertex_partitioner) (part off : Nat) (h : part < p.num_parts) :
    p.map2loc (p.loc2map part off) = (part, off) := by
  have hpos : 0 < p.num_parts := by omega
  simp only [vertex_partitioner.map2loc, vertex_partitioner.loc2map, Prod.mk.injEq]
  constructor
  · rw [Nat.mul_comm, Nat.mul_add_mod, Nat.mod_eq_of_lt h]
  · rw [Nat.mul_comm, Nat.mul_add_div hpos, Nat.div_eq_of_lt h, Nat.add_zero]

theorem map_loc2map (p : vertex_partitioner) (part off : Nat) (h : part < p.num_parts) :
    p.map (p.loc2map part off) = part :=
  congrArg Prod.fst (map2loc_loc2map p part off h)

theorem loc2map_map2loc (p : vertex_partitioner) (vid : vertex_id_t) :
    p.loc2map (p.map2loc vid).1 (p.map2loc vid).2 = vid := by
  simp only [vertex_partitioner.map2loc, vertex_partitioner.loc2map]
  rw [Nat.mul_comm]
  exact Nat.div_add_mod vid p.num_parts

theorem loc2map_strictMono (p : vertex_partitioner) (part : Nat) (h : 0 < p.num_parts)
    (a b : Nat) (hab : a < b) : p.loc2map part a < p.loc2map part b := by
  have hmul : a * p.num_parts < b * p.num_parts :=
    Nat.mul_lt_mul_of_lt_of_le hab (le_refl p.num_parts) h
  show a * p.num_parts + part < b * p.num_parts + part
  omega

/-- C7: for `W ≥ 1` workers the modular partitioner and `loc2map` are mutually inverse:
`loc2map(map2loc(vid)) = vid` for every `vid`, the part of `map2loc` is `map(vid)` and lies in
`[0, W)`, `loc2map(part, off) = id` with `part < W` implies `map2loc(id) = (part, off)`, and
`map2loc` is injective. -/
theorem partitioner_bijection (p : vertex_partitioner) (hW : 1 ≤ p.num_parts) :
    (∀ vid, p.loc2map (p.map2loc vid).1 (p.map2loc vid).2 = vid) ∧
    (∀ vid, (p.map2loc vid).1 = p.map vid ∧ p.map vid < p.num_parts) ∧
    (∀ part off id, part < p.num_parts → p.loc2map part off = id →
      p.map2loc id = (part, off)) ∧
    (∀ v1 v2, p.map2loc v1 = p.map2loc v2 → v1 = v2) := by
  refine ⟨loc2map_map2loc p, ?_, ?_, ?_⟩
  · intro vid
    exact ⟨rfl, Nat.mod_lt _ hW⟩
  · intro part off id hp hid
    rw [← hid]
    exact map2loc_loc2map p part off hp
  · intro v1 v2 h
    rw [← loc2map_map2loc p v1, ← loc2map_map2loc p v2, h]

/-- Witness for `partitioner_bijection`: four workers. -/
theorem partitioner_bijection_witness :
    1 ≤ (vertex_partitioner.mk 4).num_parts ∧
    (vertex_partitioner.mk 4).map2loc 14 = (2, 3) ∧
    (vertex_partitioner.mk 4).loc2map 2 3 = 14 ∧
    (∀ v1 v2, (vertex_partitioner.mk 4).map2loc v1 = (vertex_partitioner.mk 4).map2loc v2 →
      v1 = v2) :=
  ⟨by decide, by decide, by decide,
    (partitioner_bijection (vertex_partitioner.mk 4) (by decide)).2.2.2⟩

theorem bitmap_get_lt (b : bitmap) (off : Nat) (h : b.get off = true) :
    off < b.bits.length := by
  by_contra hlt
  have hge : b.bits.length ≤ off := Nat.le_of_not_lt hlt
  simp [bitmap.get, List.getElem?_eq_none hge] at h

theorem mem_get_set_bits (b : bitmap) (off : Nat) :
    off ∈ b.get_set_bits [] ↔ b.get off = true := by
  simp only [bitmap.get_set_bits, List.nil_append, List.mem_filter, List.mem_range]
  constructor
  · exact fun h => h.2
  · exact fun h => ⟨bitmap_get_lt b off h, h⟩

theorem get_set_bits_sorted (b : bitmap) :
    List.Sorted (fun a c => a < c) (b.get_set_bits []) := by
  simp only [bitmap.get_set_bits, List.nil_append]
  exact List.Sorted.filter _ (List.sorted_lt_range _)

theorem bitmap_ids_sorted (b : bitmap) (p : vertex_partitioner) (part_id : Nat)
    (hW : 0 < p.num_parts) :
    List.Sorted (fun a c => a < c)
      ((b.get_set_bits []).map (fun off => p.loc2map part_id off)) :=
  List.Pairwise.map _ (fun a c hac => loc2map_strictMono p part_id hW a c hac)
    (get_set_bits_sorted b)

/-- C5: for the modular partitioner over `W ≥ 1` workers, `init(bitmap, part_id, partitioner)`
resets the cursor to 0 and, under the default scheduler, installs the ids
`loc2map(part_id, off)` of a strictly ascending list `offs` that holds exactly the offsets of
the set bits: one id for every set bit, nothing else, in ascending order of `off`, hence in
strictly ascending id order although no sort is run.  A user-supplied scheduler is handed
exactly these ids. -/
theorem init_from_bitmap_contract (vs : List vertex_id_t) (idx : Nat) (map : bitmap)
    (part_id : Nat) (p : vertex_partitioner) (hW : 0 < p.num_parts) :
    (∀ sch, ((sorted_vertex_queue.mk vs idx sch).init_from_bitmap map part_id p).fetch_idx
      = 0) ∧
    (∃ offs : List Nat, List.Sorted (fun a c => a < c) offs ∧
      (∀ off, off ∈ offs ↔ map.get off = true) ∧
      ((sorted_vertex_queue.mk vs idx .default_scheduler).init_from_bitmap map part_id
        p).sorted_vertices = offs.map (fun off => p.loc2map part_id off) ∧
      ∀ f, ((sorted_vertex_queue.mk vs idx (.custom f)).init_from_bitmap map part_id
        p).sorted_vertices = f (offs.map (fun off => p.loc2map part_id off))) ∧
    (∀ off, map.get off = true →
      ((sorted_vertex_queue.mk vs idx .default_scheduler).init_from_bitmap map part_id
        p).sorted_vertices.count (p.loc2map part_id off) = 1) ∧
    (∀ id, id ∈ ((sorted_vertex_queue.mk vs idx .default_scheduler).init_from_bitmap map
        part_id p).sorted_vertices → ∃ off, map.get off = true ∧ id = p.loc2map part_id off) ∧
    List.Sorted (fun a c => a < c)
      ((sorted_vertex_queue.mk vs idx .default_scheduler).init_from_bitmap map part_id
        p).sorted_vertices := by
  have hs := bitmap_ids_sorted map p part_id hW
  refine ⟨fun _ => rfl, ⟨map.get_set_bits [], get_set_bits_sorted map,
    mem_get_set_bits map, rfl, fun _ => rfl⟩, ?_, ?_, hs⟩
  · intro off hoff
    apply List.count_eq_one_of_mem hs.nodup
    exact List.mem_map.mpr ⟨off, (mem_get_set_bits map off).mpr hoff, rfl⟩
  · intro id hid
    obtain ⟨off, hoff, rfl⟩ := List.mem_map.mp hid
    exact ⟨off, (mem_get_set_bits map off).mp hoff, rfl⟩

/-- Witness for `init_from_bitmap_contract`: bits 0, 2 and 3 set, part 1 of 4. -/
theorem init_from_bitmap_contract_witness :
    0 < (vertex_partitioner.mk 4).num_parts ∧
    ((sorted_vertex_queue.mk [8] 1 .default_scheduler).init_from_bitmap
      (bitmap.mk [true, false, true, true]) 1 (vertex_partitioner.mk 4)).sorted_vertices
      = [1, 9, 13] ∧
    List.Sorted (fun a c => a < c)
      ((sorted_vertex_queue.mk [8] 1 .default_scheduler).init_from_bitmap
        (bitmap.mk [true, false, true, true]) 1 (vertex_partitioner.mk 4)).sorted_vertices :=
  ⟨by decide, by decide,
    (init_from_bitmap_contract [8] 1 (bitmap.mk [true, false, true, true]) 1
      (vertex_partitioner.mk 4) (by decide)).2.2.2.2⟩

/-! ## Successive fetches -/

theorem fetch_seq_eq_take (q : sorted_vertex_queue) (ns : List Nat) :
    ∃ k, (q.fetch_seq ns).1 = q.remaining.take k ∧
      (q.fetch_seq ns).2.sorted_vertices = q.sorted_vertices ∧
      (q.fetch_seq ns).2.fetch_idx = q.fetch_idx + k ∧
      k ≤ q.sorted_vertices.length - q.fetch_idx := by
  induction ns generalizing q with
  | nil => exact ⟨0, by simp [sorted_vertex_queue.fetch_seq], rfl, rfl, Nat.zero_le _⟩
  | cons n ns ih =>
    obtain ⟨k, h1, h2, h3, h4⟩ := ih (q.fetch n).queue
    refine ⟨(q.fetch n).ret + k, ?_, ?_, ?_, ?_⟩
    · simp only [sorted_vertex_queue.fetch_seq, h1, List.take_add]
      simp [sorted_vertex_queue.fetch, sorted_vertex_queue.remaining]
    · simp only [sorted_vertex_queue.fetch_seq, h2]
      rfl
    · simp only [sorted_vertex_queue.fetch_seq, h3]
      simp only [sorted_vertex_queue.fetch]
      omega
    · have hle := fetch_ret_le_remaining q n
      simp only [sorted_vertex_queue.fetch] at h4 hle ⊢
      omega

theorem fetch_seq_sublist (q : sorted_vertex_queue) (ns : List Nat) :
    List.Sublist (q.fetch_seq ns).1 q.remaining := by
  obtain ⟨k, h, _⟩ := fetch_seq_eq_take q ns
  rw [h]
  exact List.take_sublist _ _

theorem remaining_sublist (q : sorted_vertex_queue) :
    List.Sublist q.remaining q.sorted_vertices :=
  List.drop_sublist _ _

/-! ## Level 0: `graph_engine::start` -/

theorem default_scheduler_reorders : vertex_scheduler.default_scheduler.reorders :=
  fun vertices => default_schedule_perm vertices

theorem partition_ids_length (p : vertex_partitioner) (ids : List vertex_id_t)
    (sv : List (List vertex_id_t)) :
    (graph_engine.partition_ids p ids sv).length = sv.length := by
  induction ids generalizing sv with
  | nil => rfl
  | cons id rest ih => simp [graph_engine.partition_ids, ih]

theorem partition_ids_getElem? (p : vertex_partitioner) (ids : List vertex_id_t)
    (sv : List (List vertex_id_t)) (i : Nat) (hi : i < sv.length) :
    (graph_engine.partition_ids p ids sv)[i]?
      = some (sv.getD i [] ++ ids.filter (fun id => decide (p.map id = i))) := by
  induction ids generalizing sv with
  | nil => simp [graph_engine.partition_ids, List.getElem?_eq_getElem hi]
  | cons id rest ih =>
    simp only [graph_engine.partition_ids]
    rw [ih _ (by simpa using hi)]
    by_cases h : p.map id = i
    · simp [h, List.getElem?_set, hi, List.getElem?_eq_getElem hi]
    · have h2 : ¬ (i = p.map id) := fun e => h e.symm
      simp [h, List.getElem?_set_ne h]

theorem start_worker (g : graph_engine) (ids : List vertex_id_t) (i : Nat) :
    (g.start ids).worker_threads[i]?
      = (g.worker_threads[i]?).map
          (fun t => t.start_vertices (ids.filter (fun id => decide (g.partitioner.map id = i)))) := by
  simp only [graph_engine.start, graph_engine.get_num_threads, List.getElem?_zipWith]
  cases ht : g.worker_threads[i]? with
  | none => rfl
  | some t =>
    have hi : i < g.worker_threads.length := by
      by_contra hlt
      rw [List.getElem?_eq_none (Nat.le_of_not_lt hlt)] at ht
      exact Option.noConfusion ht
    rw [partition_ids_getElem? _ _ _ _ (by simpa using hi)]
    simp [List.getElem?_replicate, hi]

theorem start_frontier_perm (g : graph_engine) (ids : List vertex_id_t) (i : Nat)
    (hi : i < g.worker_threads.length)
    (hs : ∀ t ∈ g.worker_threads, t.curr_activated_vertices.scheduler.reorders) :
    List.Perm ((g.start ids).frontier i)
      (ids.filter (fun id => decide (g.partitioner.map id = i))) := by
  simp only [graph_engine.frontier, start_worker, List.getElem?_eq_getElem hi, Option.map_some']
  simp only [worker_thread.start_vertices, sorted_vertex_queue.init, Bool.not_false, ite_true]
  exact hs _ (List.getElem_mem hi) _

theorem frontier_of_not_lt (g : graph_engine) (i : Nat) (hi : ¬ i < g.worker_threads.length) :
    g.frontier i = [] := by
  simp [graph_engine.frontier, List.getElem?_eq_none (Nat.le_of_not_lt hi)]

theorem start_length (g : graph_engine) (ids : List vertex_id_t) :
    (g.start ids).worker_threads.length = g.worker_threads.length := by
  simp [graph_engine.start, graph_engine.get_num_threads, partition_ids_length]

/-! ## Later levels: `enter_next_level` -/

theorem process_dest_keeps (p : vertex_partitioner) (w : worker_thread) (id : vertex_id_t)
    (e a : Bool) :
    (w.process_dest p id e a).worker_id = w.worker_id ∧
    (w.process_dest p id e a).curr_activated_vertices = w.curr_activated_vertices := by
  unfold worker_thread.process_dest
  cases e <;> cases a <;> simp

theorem process_multicast_msg_keeps (p : vertex_partitioner) (w : worker_thread)
    (dests : List vertex_id_t) (e a : Bool) :
    (w.process_multicast_msg p dests e a).worker_id = w.worker_id ∧
    (w.process_multicast_msg p dests e a).curr_activated_vertices
      = w.curr_activated_vertices := by
  induction dests generalizing w with
  | nil => exact ⟨rfl, rfl⟩
  | cons id rest ih =>
    simp only [worker_thread.process_multicast_msg]
    have h := process_dest_keeps p w id e a
    have h2 := ih (w.process_dest p id e a)
    exact ⟨h2.1.trans h.1, h2.2.trans h.2⟩

theorem process_msg_keeps (p : vertex_partitioner) (w : worker_thread) (msg : message) :
    (w.process_msg p msg).worker_id = w.worker_id ∧
    (w.process_msg p msg).curr_activated_vertices = w.curr_activated_vertices := by
  induction msg generalizing w with
  | nil => exact ⟨rfl, rfl⟩
  | cons m rest ih =>
    cases m with
    | unicast dest e a =>
      simp only [worker_thread.process_msg]
      have h := process_dest_keeps p w dest e a
      have h2 := ih (w.process_dest p dest e a)
      exact ⟨h2.1.trans h.1, h2.2.trans h.2⟩
    | multicast dests e a =>
      simp only [worker_thread.process_msg]
      have h := process_multicast_msg_keeps p w dests e a
      have h2 := ih (w.process_multicast_msg p dests e a)
      exact ⟨h2.1.trans h.1, h2.2.trans h.2⟩

theorem process_msg_list_keeps (p : vertex_partitioner) (w : worker_thread)
    (msgs : List message) :
    (w.process_msg_list p msgs).worker_id = w.worker_id ∧
    (w.process_msg_list p msgs).curr_activated_vertices = w.curr_activated_vertices := by
  induction msgs generalizing w with
  | nil => exact ⟨rfl, rfl⟩
  | cons m rest ih =>
    simp only [worker_thread.process_msg_list]
    have h := process_msg_keeps p w m
    have h2 := ih (w.process_msg p m)
    exact ⟨h2.1.trans h.1, h2.2.trans h.2⟩

theorem process_msgs_keeps (p : vertex_partitioner) (w : worker_thread) :
    (w.process_msgs p).worker_id = w.worker_id ∧
    (w.process_msgs p).curr_activated_vertices = w.curr_activated_vertices := by
  unfold worker_thread.process_msgs
  exact process_msg_list_keeps p _ w.msg_q

theorem enter_next_level_worker_id (p : vertex_partitioner) (w : worker_thread) :
    (w.enter_next_level p).1.worker_id = w.worker_id :=
  (process_msgs_keeps p w).1

theorem enter_next_level_scheduler (p : vertex_partitioner) (w : worker_thread) :
    (w.enter_next_level p).1.curr_activated_vertices.scheduler
      = w.curr_activated_vertices.scheduler := by
  simp only [worker_thread.enter_next_level, sorted_vertex_queue.init_from_bitmap]
  rw [(process_msgs_keeps p w).2]

/-- The frontier `enter_next_level` installs: the scheduler's arrangement of the ids of the
bits set in the bitmap once the inbound messages are processed. -/
theorem enter_next_level_frontier (p : vertex_partitioner) (w : worker_thread) :
    (w.enter_next_level p).1.curr_activated_vertices.fetch_idx = 0 ∧
    (w.enter_next_level p).1.curr_activated_vertices.sorted_vertices
      = (if w.curr_activated_vertices.scheduler.is_custom then
          w.curr_activated_vertices.scheduler.schedule
            (((w.process_msgs p).next_activated_vertices.get_set_bits []).map
              (fun off => p.loc2map w.worker_id off))
        else
          ((w.process_msgs p).next_activated_vertices.get_set_bits []).map
            (fun off => p.loc2map w.worker_id off)) := by
  refine ⟨rfl, ?_⟩
  simp only [worker_thread.enter_next_level, sorted_vertex_queue.init_from_bitmap]
  rw [(process_msgs_keeps p w).2, (process_msgs_keeps p w).1]

theorem enter_next_level_frontier_perm (p : vertex_partitioner) (w : worker_thread)
    (hs : w.curr_activated_vertices.scheduler.reorders) :
    List.Perm (w.enter_next_level p).1.curr_activated_vertices.sorted_vertices
      (((w.process_msgs p).next_activated_vertices.get_set_bits []).map
        (fun off => p.loc2map w.worker_id off)) := by
  rw [(enter_next_level_frontier p w).2]
  split
  · exact hs _
  · exact List.Perm.refl _

/-! ## Frontier order -/

theorem new_wf (num_threads max_vertex_id : Nat) (h : 0 < num_threads) :
    (graph_engine.new num_threads max_vertex_id).wf := by
  refine ⟨by simpa [graph_engine.new] using h, by simp [graph_engine.new], ?_⟩
  intro i t ht
  simp only [graph_engine.new, List.getElem?_map] at ht
  by_cases hi : i < num_threads
  · rw [List.getElem?_range hi] at ht
    simp only [Option.map_some', Option.some.injEq] at ht
    rw [← ht]
    rfl
  · rw [List.getElem?_eq_none (by simpa using Nat.le_of_not_lt hi)] at ht
    exact Option.noConfusion ht

theorem start_wf (g : graph_engine) (ids : List vertex_id_t) (hg : g.wf) :
    (g.start ids).wf := by
  obtain ⟨h1, h2, h3⟩ := hg
  refine ⟨by rw [start_length]; exact h1, by rw [start_length]; exact h2, ?_⟩
  intro i t ht
  rw [start_worker] at ht
  cases hw : g.worker_threads[i]? with
  | none => rw [hw] at ht; exact Option.noConfusion ht
  | some t0 =>
    rw [hw] at ht
    simp only [Option.map_some', Option.some.injEq] at ht
    rw [← ht]
    exact h3 i t0 hw

theorem enter_next_level_all_worker (g : graph_engine) (i : Nat) :
    g.enter_next_level_all.worker_threads[i]?
      = (g.worker_threads[i]?).map (fun t => (t.enter_next_level g.partitioner).1) := by
  simp [graph_engine.enter_next_level_all]

theorem enter_next_level_all_wf (g : graph_engine) (hg : g.wf) :
    g.enter_next_level_all.wf := by
  obtain ⟨h1, h2, h3⟩ := hg
  refine ⟨by simpa [graph_engine.enter_next_level_all] using h1,
    by simpa [graph_engine.enter_next_level_all] using h2, ?_⟩
  intro i t ht
  rw [enter_next_level_all_worker] at ht
  cases hw : g.worker_threads[i]? with
  | none => rw [hw] at ht; exact Option.noConfusion ht
  | some t0 =>
    rw [hw] at ht
    simp only [Option.map_some', Option.some.injEq] at ht
    rw [← ht, enter_next_level_worker_id]
    exact h3 i t0 hw

theorem fetch_seq_sorted_of_sorted {r : vertex_id_t → vertex_id_t → Prop}
    (q : sorted_vertex_queue) (ns : List Nat) (h : List.Pairwise r q.sorted_vertices) :
    List.Pairwise r (q.fetch_seq ns).1 :=
  List.Pairwise.sublist ((fetch_seq_sublist q ns).trans (remaining_sublist q)) h

/-- C6 (amended): with the default scheduler and no stealing, the ids a worker obtains from
successive `fetch` calls on its own frontier are strictly ascending in every level installed
by `enter_next_level`; in level 0, installed by `graph_engine::start`, they are non-decreasing
for an arbitrary array of initial ids and strictly ascending when the initial ids are
pairwise distinct. -/
theorem frontier_fetch_order (g : graph_engine) (hg : g.wf)
    (hd : ∀ t ∈ g.worker_threads,
      t.curr_activated_vertices.scheduler = vertex_scheduler.default_scheduler)
    (ids : List vertex_id_t) (w : Nat) (budgets : List Nat) :
    List.Sorted (fun a b => a ≤ b) ((g.start ids).fetch_order w budgets) ∧
    (ids.Nodup → List.Sorted (fun a b => a < b) ((g.start ids).fetch_order w budgets)) ∧
    List.Sorted (fun a b => a < b) (g.enter_next_level_all.fetch_order w budgets) := by
  have hle : List.Sorted (fun a b : vertex_id_t => a ≤ b)
      ((g.start ids).fetch_order w budgets) := by
    simp only [graph_engine.fetch_order, start_worker]
    cases hw : g.worker_threads[w]? with
    | none => exact List.Pairwise.nil
    | some t =>
      have hdt := hd t (List.getElem?_mem hw)
      simp only [Option.map_some']
      apply fetch_seq_sorted_of_sorted
      simp only [worker_thread.start_vertices, sorted_vertex_queue.init, Bool.not_false,
        ite_true, hdt]
      exact default_schedule_sorted _
  refine ⟨hle, ?_, ?_⟩
  · intro hnd
    apply List.Sorted.lt_of_le hle
    simp only [graph_engine.fetch_order, start_worker]
    cases hw : g.worker_threads[w]? with
    | none => exact List.nodup_nil
    | some t =>
      have hdt := hd t (List.getElem?_mem hw)
      simp only [Option.map_some']
      apply List.Nodup.sublist ((fetch_seq_sublist _ budgets).trans (remaining_sublist _))
      simp only [worker_thread.start_vertices, sorted_vertex_queue.init, Bool.not_false,
        ite_true, hdt]
      exact (List.Perm.nodup_iff (default_schedule_perm _)).mpr (List.Nodup.filter _ hnd)
  · simp only [graph_engine.fetch_order, enter_next_level_all_worker]
    cases hw : g.worker_threads[w]? with
    | none => exact List.Pairwise.nil
    | some t =>
      have hdt := hd t (List.getElem?_mem hw)
      simp only [Option.map_some']
      apply fetch_seq_sorted_of_sorted
      rw [(enter_next_level_frontier g.partitioner t).2, hdt]
      simp only [vertex_scheduler.is_custom, Bool.false_eq_true, ite_false]
      exact bitmap_ids_sorted _ _ _ (by rw [hg.2.1]; exact hg.1)

/-- Witness for `frontier_fetch_order`: two fresh workers started on the ids `5, 2, 3`. -/
theorem frontier_fetch_order_witness :
    (graph_engine.new 2 9).wf ∧
    (∀ t ∈ (graph_engine.new 2 9).worker_threads,
      t.curr_activated_vertices.scheduler = vertex_scheduler.default_scheduler) ∧
    ((graph_engine.new 2 9).start [5, 2, 3]).fetch_order 1 [1, 4] = [3, 5] ∧
    List.Sorted (fun a b => a ≤ b)
      (((graph_engine.new 2 9).start [5, 2, 3]).fetch_order 1 [1, 4]) := by
  have hwf := new_wf 2 9 (by decide)
  have hd : ∀ t ∈ (graph_engine.new 2 9).worker_threads,
      t.curr_activated_vertices.scheduler = vertex_scheduler.default_scheduler := by
    intro t ht
    simp only [graph_engine.new, List.mem_map] at ht
    obtain ⟨i, _, rfl⟩ := ht
    rfl
  exact ⟨hwf, hd, by decide, (frontier_fetch_order _ hwf hd [5, 2, 3] 1 [1, 4]).1⟩

/-- C6 (counterexample): `graph_engine::start` on the ids `3, 3` with two workers leaves
`3, 3` in the frontier of worker 1, which fetches the id 3 twice: the order is not strictly
ascending. -/
theorem start_duplicate_ids_fetch_order :
    ((graph_engine.new 2 9).start [3, 3]).fetch_order 1 [1, 1] = [3, 3] ∧
    ¬ List.Sorted (fun a b => a < b)
      (((graph_engine.new 2 9).start [3, 3]).fetch_order 1 [1, 1]) := by
  decide

/-! ## Partition exclusivity -/

theorem start_frontier_owner (g : graph_engine) (ids : List vertex_id_t)
    (hs : ∀ t ∈ g.worker_threads, t.curr_activated_vertices.scheduler.reorders)
    (w : Nat) (id : vertex_id_t) (h : id ∈ (g.start ids).frontier w) :
    g.partitioner.map id = w ∧ w < g.worker_threads.length ∧ id ∈ ids := by
  by_cases hw : w < g.worker_threads.length
  · have hp := (start_frontier_perm g ids w hw hs).mem_iff.mp h
    simp only [List.mem_filter, decide_eq_true_eq] at hp
    exact ⟨hp.2, hw, hp.1⟩
  · rw [frontier_of_not_lt _ _ (by rw [start_length]; exact hw)] at h
    exact absurd h (List.not_mem_nil _)

theorem enter_next_level_all_frontier_owner (g : graph_engine) (hg : g.wf)
    (hs : ∀ t ∈ g.worker_threads, t.curr_activated_vertices.scheduler.reorders)
    (w : Nat) (id : vertex_id_t) (h : id ∈ g.enter_next_level_all.frontier w) :
    g.partitioner.map id = w := by
  simp only [graph_engine.frontier, enter_next_level_all_worker] at h
  cases hw : g.worker_threads[w]? with
  | none =>
    rw [hw] at h
    exact absurd h (List.not_mem_nil _)
  | some t =>
    rw [hw] at h
    simp only [Option.map_some'] at h
    have hid : t.worker_id = w := hg.2.2 w t hw
    have hlt : w < g.partitioner.num_parts := by
      rw [hg.2.1]
      by_contra hge
      rw [List.getElem?_eq_none (Nat.le_of_not_lt hge)] at hw
      exact Option.noConfusion hw
    have hp := (enter_next_level_frontier_perm g.partitioner t
      (hs t (List.getElem?_mem hw))).mem_iff.mp h
    obtain ⟨off, _, rfl⟩ := List.mem_map.mp hp
    rw [hid]
    exact map_loc2map g.partitioner w off hlt

/-- C8: in an engine as its constructor builds it (worker `i` at index `i`, a partitioner over
as many parts as workers) whose schedulers only reorder, after `start(ids, num)` and after
the level-barrier translation `enter_next_level` of every worker, every id in the frontier of
worker `w` satisfies `map(id) = w`, so no id is in the frontiers of two different workers;
`start` hands every initial id to the worker `map(id)`, as often as it occurs in `ids`, and
the frontier of worker `w` is a rearrangement of the initial ids mapped to `w`.  Both
operations keep the engine in that shape. -/
theorem partition_exclusivity (g : graph_engine) (hg : g.wf)
    (hs : ∀ t ∈ g.worker_threads, t.curr_activated_vertices.scheduler.reorders)
    (ids : List vertex_id_t) :
    (∀ w id, id ∈ (g.start ids).frontier w → g.partitioner.map id = w) ∧
    (∀ w id, id ∈ g.enter_next_level_all.frontier w → g.partitioner.map id = w) ∧
    (∀ w1 w2 id, id ∈ (g.start ids).frontier w1 → id ∈ (g.start ids).frontier w2 →
      w1 = w2) ∧
    (∀ w1 w2 id, id ∈ g.enter_next_level_all.frontier w1 →
      id ∈ g.enter_next_level_all.frontier w2 → w1 = w2) ∧
    (∀ id, ((g.start ids).frontier (g.partitioner.map id)).count id = ids.count id) ∧
    (∀ w, w < g.get_num_threads → List.Perm ((g.start ids).frontier w)
      (ids.filter (fun id => decide (g.partitioner.map id = w)))) ∧
    (g.start ids).wf ∧ g.enter_next_level_all.wf := by
  refine ⟨fun w id h => (start_frontier_owner g ids hs w id h).1,
    enter_next_level_all_frontier_owner g hg hs, ?_, ?_, ?_, ?_, start_wf g ids hg,
    enter_next_level_all_wf g hg⟩
  · intro w1 w2 id h1 h2
    rw [← (start_frontier_owner g ids hs w1 id h1).1, ← (start_frontier_owner g ids hs w2 id h2).1]
  · intro w1 w2 id h1 h2
    rw [← enter_next_level_all_frontier_owner g hg hs w1 id h1,
      ← enter_next_level_all_frontier_owner g hg hs w2 id h2]
  · intro id
    have hlt : g.partitioner.map id < g.worker_threads.length := by
      rw [← hg.2.1]
      exact Nat.mod_lt _ (by rw [hg.2.1]; exact hg.1)
    rw [(start_frontier_perm g ids _ hlt hs).count_eq]
    exact List.count_filter (by simp)
  · intro w hw
    exact start_frontier_perm g ids w hw hs

/-- Witness for `partition_exclusivity`: two fresh workers. -/
theorem partition_exclusivity_witness :
    (graph_engine.new 2 9).wf ∧
    (∀ t ∈ (graph_engine.new 2 9).worker_threads,
      t.curr_activated_vertices.scheduler.reorders) ∧
    ((graph_engine.new 2 9).start [5, 2, 3, 8]).frontier 0 = [2, 8] ∧
    ((graph_engine.new 2 9).start [5, 2, 3, 8]).frontier 1 = [3, 5] ∧
    (∀ w id, id ∈ ((graph_engine.new 2 9).start [5, 2, 3, 8]).frontier w →
      (graph_engine.new 2 9).partitioner.map id = w) := by
  have hwf := new_wf 2 9 (by decide)
  have hs : ∀ t ∈ (graph_engine.new 2 9).worker_threads,
      t.curr_activated_vertices.scheduler.reorders := by
    intro t ht
    simp only [graph_engine.new, List.mem_map] at ht
    obtain ⟨i, _, rfl⟩ := ht
    exact default_scheduler_reorders
  exact ⟨hwf, hs, by decide, by decide, (partition_exclusivity _ hwf hs [5, 2, 3, 8]).1⟩

/-! ## The I/O scheduler -/

theorem pq_le_iff (a b : prio_compute) : pq_le a b ↔ a.req.offset ≤ b.req.offset := by
  simp [pq_le, comp_prio_compute]

theorem new_prio_compute_some (computes : List user_compute) (i : Nat) (pc : prio_compute)
    (computes1 : List user_compute) (h : new_prio_compute computes i = some (pc, computes1)) :
    ∃ r rest, computes[i]? = some { pending := r :: rest } ∧ pc = { compute := i, req := r } ∧
      computes1 = computes.set i { pending := rest } := by
  unfold new_prio_compute at h
  cases hc : computes[i]? with
  | none => rw [hc] at h; exact Option.noConfusion h
  | some c =>
    rw [hc] at h
    obtain ⟨pending⟩ := c
    cases pending with
    | nil => simp [user_compute.has_requests] at h
    | cons r rest =>
      simp only [user_compute.has_requests, user_compute.fetch_request, List.isEmpty_cons,
        Bool.not_false, ite_true, Option.some.injEq, Prod.mk.injEq] at h
      exact ⟨r, rest, rfl, h.1.symm, h.2.symm⟩

theorem sched_inv_tail (computes : List user_compute) (e : prio_compute)
    (rest : priority_queue) (h : sched_inv computes (e :: rest)) :
    sched_inv computes rest ∧ ∀ x ∈ rest, e.req.offset ≤ x.req.offset := by
  obtain ⟨h1, h2, h3⟩ := h
  have hs := List.sorted_cons.mp h2
  exact ⟨⟨h1, hs.2, fun x hx => h3 x (List.mem_cons_of_mem _ hx)⟩,
    fun x hx => (pq_le_iff e x).mp (hs.1 x hx)⟩

theorem sched_inv_push (computes : List user_compute) (h : priority_queue) (i : Nat)
    (pc : prio_compute) (computes1 : List user_compute) (hinv : sched_inv computes h)
    (hn : new_prio_compute computes i = some (pc, computes1)) :
    sched_inv computes1 (priority_queue.push pc h) := by
  obtain ⟨r, rest, hc, rfl, rfl⟩ := new_prio_compute_some computes i pc computes1 hn
  obtain ⟨h1, h2, h3⟩ := hinv
  have hi : i < computes.length := by
    by_contra hlt
    rw [List.getElem?_eq_none (Nat.le_of_not_lt hlt)] at hc
    exact Option.noConfusion hc
  have hmono : List.Pairwise (fun a b : io_request => a.offset ≤ b.offset) (r :: rest) :=
    h1 _ (List.getElem?_mem hc)
  have hmono2 := List.pairwise_cons.mp hmono
  refine ⟨?_, List.Sorted.orderedInsert _ _ h2, ?_⟩
  · intro c hcm
    rcases List.mem_or_eq_of_mem_set hcm with hm | rfl
    · exact h1 c hm
    · exact hmono2.2
  · intro x hx c hxc q hq
    rcases (List.mem_orderedInsert pq_le).mp hx with rfl | hxh
    · simp only [List.getElem?_set, hi, ite_true, Option.some.injEq] at hxc
      rw [← hxc] at hq
      exact hmono2.1 q hq
    · by_cases hxi : i = x.compute
      · rw [← hxi] at hxc
        simp only [List.getElem?_set, hi, ite_true, Option.some.injEq] at hxc
        rw [← hxc] at hq
        have := h3 x hxh _ (hxi ▸ hc) q (List.mem_cons_of_mem _ hq)
        exact this
      · rw [List.getElem?_set_ne hxi] at hxc
        exact h3 x hxh c hxc q hq

theorem collect_computes_inv (idxs : List Nat) (computes : List user_compute)
    (h : priority_queue) (hinv : sched_inv computes h) :
    sched_inv (collect_computes idxs computes h).1 (collect_computes idxs computes h).2 := by
  induction idxs generalizing computes h with
  | nil => exact hinv
  | cons i rest ih =>
    simp only [collect_computes]
    cases hn : new_prio_compute computes i with
    | none => exact ih computes h hinv
    | some v =>
      obtain ⟨pc, computes1⟩ := v
      exact ih computes1 _ (sched_inv_push computes h i pc computes1 hinv hn)

theorem emit_step_spec (s : emit_state) (e : prio_compute) (rest : priority_queue)
    (hinv : sched_inv s.computes (e :: rest)) :
    (emit_step s e rest).reqs.buf = s.reqs.buf ++ [e.req] ∧
    (emit_step s e rest).reqs.size = s.reqs.size ∧
    sched_inv (emit_step s e rest).computes (emit_step s e rest).user_computes ∧
    ∀ x ∈ (emit_step s e rest).user_computes, e.req.offset ≤ x.req.offset := by
  obtain ⟨hrest, hge⟩ := sched_inv_tail s.computes e rest hinv
  unfold emit_step
  cases hn : new_prio_compute s.computes e.compute with
  | none => exact ⟨rfl, rfl, hrest, hge⟩
  | some v =>
    obtain ⟨pc, computes1⟩ := v
    refine ⟨rfl, rfl, sched_inv_push _ _ _ _ _ hrest hn, ?_⟩
    intro x hx
    rcases (List.mem_orderedInsert pq_le).mp hx with rfl | hxr
    · obtain ⟨r, tl, hc, hpc, _⟩ := new_prio_compute_some _ _ _ _ hn
      rw [hpc]
      exact hinv.2.2 e (List.mem_cons_self _ _) _ hc r (List.mem_cons_self _ _)
    · exact hge x hxr

theorem emit_loop_spec (n : Nat) (s : emit_state) (low : Int)
    (hinv : sched_inv s.computes s.user_computes)
    (hlow : ∀ x ∈ s.user_computes, low ≤ x.req.offset) :
    ∃ popped, (emit_loop n s).reqs.buf = s.reqs.buf ++ popped ∧
      List.Pairwise (fun a b : io_request => a.offset ≤ b.offset) popped ∧
      ∀ r ∈ popped, low ≤ r.offset := by
  induction n generalizing s low with
  | zero => exact ⟨[], by simp [emit_loop], List.Pairwise.nil, fun _ h => absurd h (List.not_mem_nil _)⟩
  | succ n ih =>
    unfold emit_loop
    by_cases hfull : s.reqs.is_full = true
    · simp only [hfull, ite_true]
      exact ⟨[], by simp, List.Pairwise.nil, fun _ h => absurd h (List.not_mem_nil _)⟩
    · simp only [hfull, Bool.false_eq_true, ite_false]
      cases hh : s.user_computes with
      | nil => exact ⟨[], by simp, List.Pairwise.nil, fun _ h => absurd h (List.not_mem_nil _)⟩
      | cons e rest =>
        rw [hh] at hinv hlow
        obtain ⟨hbuf, _, hinv1, hge⟩ := emit_step_spec s e rest hinv
        obtain ⟨popped, hp1, hp2, hp3⟩ := ih (emit_step s e rest) e.req.offset hinv1 hge
        refine ⟨e.req :: popped, ?_, ?_, ?_⟩
        · simp only [hp1, hbuf, List.append_assoc, List.singleton_append]
        · exact List.pairwise_cons.mpr ⟨hp3, hp2⟩
        · intro r hr
          rcases List.mem_cons.mp hr with rfl | hr1
          · exact hlow e (List.mem_cons_self _ _)
          · exact le_trans (hlow e (List.mem_cons_self _ _)) (hp3 r hr1)

theorem drain_spec (s : throughput_comp_io_scheduler) (reqs : fifo_queue io_request) :
    (s.drain reqs).1.buf = reqs.buf ++ s.req_buf.buf.take (s.drain reqs).2.2 ∧
    (s.drain reqs).1.size = reqs.size ∧
    (s.drain reqs).2.1.buf = s.req_buf.buf.drop (s.drain reqs).2.2 ∧
    (s.drain reqs).2.2 = min (reqs.size - reqs.buf.length) s.req_buf.buf.length := by
  unfold throughput_comp_io_scheduler.drain
  by_cases he : s.req_buf.is_empty = true
  · have hnil : s.req_buf.buf = [] := by
      simpa [fifo_queue.is_empty] using he
    simp [he, hnil]
  · simp [he, fifo_queue.add]

theorem get_requests_ret_eq (s : throughput_comp_io_scheduler)
    (reqs : fifo_queue io_request) : (s.get_requests reqs).ret = (s.drain reqs).2.2 := by
  by_cases h : (s.drain reqs).1.is_full = true <;>
    simp [throughput_comp_io_scheduler.get_requests, h]

theorem get_requests_reqs_full (s : throughput_comp_io_scheduler)
    (reqs : fifo_queue io_request) (h : (s.drain reqs).1.is_full = true) :
    (s.get_requests reqs).reqs = (s.drain reqs).1 := by
  simp [throughput_comp_io_scheduler.get_requests, h]

theorem get_requests_reqs_room (s : throughput_comp_io_scheduler)
    (reqs : fifo_queue io_request) (h : ¬ (s.drain reqs).1.is_full = true) :
    (s.get_requests reqs).reqs
      = (emit_loop ((s.drain reqs).1.size - (s.drain reqs).1.buf.length)
          { reqs := (s.drain reqs).1,
            computes := (collect_computes (List.range s.computes.length) s.computes []).1,
            user_computes := (collect_computes (List.range s.computes.length) s.computes []).2,
            prev := 0, num := 0, asserts_hold := true, top_of_empty := false }).reqs := by
  simp [throughput_comp_io_scheduler.get_requests, h]

/-- The value `get_requests` returns is the number of buffered requests it moved to the
output queue, whatever the emitting loop pushed afterwards. -/
theorem get_requests_ret (s : throughput_comp_io_scheduler) (reqs : fifo_queue io_request) :
    (s.get_requests reqs).ret = min (reqs.size - reqs.buf.length) s.req_buf.buf.length := by
  rw [get_requests_ret_eq]
  exact (drain_spec s reqs).2.2.2

theorem emit_loop_sorted (n : Nat) (s : emit_state)
    (hinv : sched_inv s.computes s.user_computes) :
    ∃ popped, (emit_loop n s).reqs.buf = s.reqs.buf ++ popped ∧
      List.Pairwise (fun a b : io_request => a.offset ≤ b.offset) popped := by
  cases hh : s.user_computes with
  | nil =>
    obtain ⟨popped, h1, h2, _⟩ := emit_loop_spec n s 0 hinv
      (by rw [hh]; exact fun _ h => absurd h (List.not_mem_nil _))
    exact ⟨popped, h1, h2⟩
  | cons e rest =>
    have hinv1 := hinv
    rw [hh] at hinv1
    obtain ⟨popped, h1, h2, _⟩ := emit_loop_spec n s e.req.offset hinv (by
      rw [hh]
      intro x hx
      rcases List.mem_cons.mp hx with rfl | hx1
      · exact le_refl _
      · exact (sched_inv_tail _ _ _ hinv1).2 x hx1)
    exact ⟨popped, h1, h2⟩

/-- C1 (amended): one call of `get_requests` appends to the output queue first the buffered
requests it drains, in buffer (FIFO) order, and then the requests it pops from the priority
queue; the offsets of the popped requests are non-decreasing in the order they are appended
whenever every user compute yields its requests in non-decreasing offset order (which the
code asserts).  No order is promised between the drained and the popped requests. -/
theorem get_requests_popped_sorted (s : throughput_comp_io_scheduler)
    (reqs : fifo_queue io_request) (hm : ∀ c ∈ s.computes, c.monotone) :
    ∃ popped,
      s.appended reqs = s.req_buf.buf.take (s.get_requests reqs).ret ++ popped ∧
      (s.get_requests reqs).reqs.buf = reqs.buf ++ s.appended reqs ∧
      List.Pairwise (fun a b : io_request => a.offset ≤ b.offset) popped := by
  have hd := drain_spec s reqs
  have hinv0 : sched_inv s.computes [] :=
    ⟨hm, List.sorted_nil, fun _ h => absurd h (List.not_mem_nil _)⟩
  have hinv := collect_computes_inv (List.range s.computes.length) s.computes [] hinv0
  have key : ∃ popped, (s.get_requests reqs).reqs.buf
        = reqs.buf ++ (s.req_buf.buf.take (s.get_requests reqs).ret ++ popped) ∧
      List.Pairwise (fun a b : io_request => a.offset ≤ b.offset) popped := by
    rw [get_requests_ret_eq]
    by_cases hfull : (s.drain reqs).1.is_full = true
    · rw [get_requests_reqs_full s reqs hfull]
      exact ⟨[], by simp only [hd.1, List.append_nil], List.Pairwise.nil⟩
    · rw [get_requests_reqs_room s reqs hfull]
      obtain ⟨popped, h1, h2⟩ := emit_loop_sorted
        ((s.drain reqs).1.size - (s.drain reqs).1.buf.length)
        { reqs := (s.drain reqs).1,
          computes := (collect_computes (List.range s.computes.length) s.computes []).1,
          user_computes := (collect_computes (List.range s.computes.length) s.computes []).2,
          prev := 0, num := 0, asserts_hold := true, top_of_empty := false } hinv
      refine ⟨popped, ?_, h2⟩
      rw [h1]
      show (s.drain reqs).1.buf ++ popped = _
      rw [hd.1, List.append_assoc]
  obtain ⟨popped, h1, h2⟩ := key
  refine ⟨popped, ?_, ?_, h2⟩
  · simp [throughput_comp_io_scheduler.appended, h1]
  · simp [throughput_comp_io_scheduler.appended, h1]

/-- Witness for `get_requests_popped_sorted`: one buffered request and two user computes. -/
theorem get_requests_popped_sorted_witness :
    (∀ c ∈ (throughput_comp_io_scheduler.mk ⟨[⟨100, 0⟩], 512⟩
      [⟨[⟨5, 1⟩, ⟨9, 3⟩]⟩, ⟨[⟨7, 2⟩]⟩]).computes, c.monotone) ∧
    (throughput_comp_io_scheduler.mk ⟨[⟨100, 0⟩], 512⟩
      [⟨[⟨5, 1⟩, ⟨9, 3⟩]⟩, ⟨[⟨7, 2⟩]⟩]).appended ⟨[], 3⟩ = [⟨100, 0⟩, ⟨5, 1⟩, ⟨7, 2⟩] ∧
    ∃ popped,
      (throughput_comp_io_scheduler.mk ⟨[⟨100, 0⟩], 512⟩
        [⟨[⟨5, 1⟩, ⟨9, 3⟩]⟩, ⟨[⟨7, 2⟩]⟩]).appended ⟨[], 3⟩
        = (throughput_comp_io_scheduler.mk ⟨[⟨100, 0⟩], 512⟩
            [⟨[⟨5, 1⟩, ⟨9, 3⟩]⟩, ⟨[⟨7, 2⟩]⟩]).req_buf.buf.take
          ((throughput_comp_io_scheduler.mk ⟨[⟨100, 0⟩], 512⟩
            [⟨[⟨5, 1⟩, ⟨9, 3⟩]⟩, ⟨[⟨7, 2⟩]⟩]).get_requests ⟨[], 3⟩).ret ++ popped ∧
      List.Pairwise (fun a b : io_request => a.offset ≤ b.offset) popped := by
  have hm : ∀ c ∈ (throughput_comp_io_scheduler.mk ⟨[⟨100, 0⟩], 512⟩
      [⟨[⟨5, 1⟩, ⟨9, 3⟩]⟩, ⟨[⟨7, 2⟩]⟩]).computes, c.monotone := by
    intro c hc
    simp only [List.mem_cons, List.mem_singleton, List.not_mem_nil, or_false] at hc
    rcases hc with rfl | rfl <;> simp [user_compute.monotone]
  obtain ⟨popped, h1, _, h3⟩ := get_requests_popped_sorted _ ⟨[], 3⟩ hm
  exact ⟨hm, by decide, popped, h1, h3⟩

/-- C1 (counterexample): with the request at offset 100 in `req_buf`, two user computes
holding one request each (offsets 5 and 7) and an empty output queue of capacity 2, one call
appends the offsets 100, 5, which decrease, while no assertion fails and `top()` is never
read on an empty queue.  With an empty buffer, a compute that yields the offsets 10 and then
5 makes the call append 10, 5 once the assertion of line 125 is compiled out. -/
theorem get_requests_offsets_decrease :
    ((throughput_comp_io_scheduler.mk ⟨[⟨100, 0⟩], 512⟩
      [⟨[⟨5, 1⟩]⟩, ⟨[⟨7, 2⟩]⟩]).appended ⟨[], 2⟩).map (fun r => r.offset) = [100, 5] ∧
    ((throughput_comp_io_scheduler.mk ⟨[⟨100, 0⟩], 512⟩
      [⟨[⟨5, 1⟩]⟩, ⟨[⟨7, 2⟩]⟩]).get_requests ⟨[], 2⟩).asserts_hold = true ∧
    ((throughput_comp_io_scheduler.mk ⟨[⟨100, 0⟩], 512⟩
      [⟨[⟨5, 1⟩]⟩, ⟨[⟨7, 2⟩]⟩]).get_requests ⟨[], 2⟩).top_of_empty = false ∧
    ¬ List.Pairwise (fun a b : io_request => a.offset ≤ b.offset)
      ((throughput_comp_io_scheduler.mk ⟨[⟨100, 0⟩], 512⟩
        [⟨[⟨5, 1⟩]⟩, ⟨[⟨7, 2⟩]⟩]).appended ⟨[], 2⟩) ∧
    ((throughput_comp_io_scheduler.mk ⟨[], 512⟩
      [⟨[⟨10, 1⟩, ⟨5, 2⟩]⟩, ⟨[⟨20, 3⟩]⟩]).appended ⟨[], 2⟩).map (fun r => r.offset)
      = [10, 5] ∧
    ((throughput_comp_io_scheduler.mk ⟨[], 512⟩
      [⟨[⟨10, 1⟩, ⟨5, 2⟩]⟩, ⟨[⟨20, 3⟩]⟩]).get_requests ⟨[], 2⟩).asserts_hold = false := by
  decide

/-- C2 (the code at the failing input): with an empty `req_buf`, two user computes holding
one request each and an empty output queue of capacity 1, `get_requests` pushes one request
(offset 5) into the output queue and returns 0, and no assertion fails on the way.  In
general the value returned is the number of buffered requests moved by `reqs.add`, whatever
the emitting loop pushes afterwards. -/
theorem get_requests_returns_zero_after_push :
    ((throughput_comp_io_scheduler.mk ⟨[], 512⟩
      [⟨[⟨5, 1⟩]⟩, ⟨[⟨7, 2⟩]⟩]).get_requests ⟨[], 1⟩).reqs.buf = [⟨5, 1⟩] ∧
    ((throughput_comp_io_scheduler.mk ⟨[], 512⟩
      [⟨[⟨5, 1⟩]⟩, ⟨[⟨7, 2⟩]⟩]).get_requests ⟨[], 1⟩).ret = 0 ∧
    ((throughput_comp_io_scheduler.mk ⟨[], 512⟩
      [⟨[⟨5, 1⟩]⟩, ⟨[⟨7, 2⟩]⟩]).get_requests ⟨[], 1⟩).asserts_hold = true ∧
    ((throughput_comp_io_scheduler.mk ⟨[], 512⟩
      [⟨[⟨5, 1⟩]⟩, ⟨[⟨7, 2⟩]⟩]).get_requests ⟨[], 1⟩).top_of_empty = false ∧
    ∀ (s : throughput_comp_io_scheduler) (reqs : fifo_queue io_request),
      (s.get_requests reqs).ret = min (reqs.size - reqs.buf.length) s.req_buf.buf.length := by
  refine ⟨by decide, by decide, by decide, by decide, ?_⟩
  intro s reqs
  exact get_requests_ret s reqs

/-- The emitting loop stops only where the loop of the code stops: when it is given at least
as many iterations as `reqs` has free slots, it ends with `reqs` full or the priority queue
empty. -/
theorem emit_loop_exit (n : Nat) (s : emit_state) (h : s.reqs.size - s.reqs.buf.length ≤ n) :
    (emit_loop n s).reqs.is_full = true ∨ (emit_loop n s).user_computes = [] := by
  induction n generalizing s with
  | zero =>
    left
    simp only [emit_loop, fifo_queue.is_full, decide_eq_true_eq]
    omega
  | succ n ih =>
    unfold emit_loop
    by_cases hfull : s.reqs.is_full = true
    · simp only [hfull, ite_true, true_or]
    · simp only [hfull, Bool.false_eq_true, ite_false]
      cases hh : s.user_computes with
      | nil => exact Or.inr hh
      | cons e rest =>
        apply ih
        have hb : (emit_step s e rest).reqs.buf = s.reqs.buf ++ [e.req] ∧
            (emit_step s e rest).reqs.size = s.reqs.size := by
          unfold emit_step
          cases new_prio_compute s.computes e.compute with
          | none => exact ⟨rfl, rfl⟩
          | some v => exact ⟨rfl, rfl⟩
        rw [hb.1, hb.2]
        simp only [List.length_append, List.length_singleton]
        omega

/-! ## Work stealing: the victim's side -/

theorem set_same {α : Type} (l : List α) (i : Nat) (a : α) (h : l[i]? = some a) :
    l.set i a = l := by
  induction l generalizing i with
  | nil => rfl
  | cons x xs ih =>
    cases i with
    | zero =>
      simp only [List.getElem?_cons_zero, Option.some.injEq] at h
      simp [h]
    | succ k =>
      simp only [List.getElem?_cons_succ] at h
      simp [ih k h]

theorem fetch_zero_queue (q : sorted_vertex_queue) (n : Nat) (h : (q.fetch n).ret = 0) :
    (q.fetch n).queue = q := by
  simp only [sorted_vertex_queue.fetch] at h ⊢
  rw [h]
  rfl

theorem fetch_vertices_eq (q : sorted_vertex_queue) (n : Nat) :
    (q.fetch n).vertices = q.remaining.take (q.fetch n).ret ∧
    (q.fetch n).queue.remaining = q.remaining.drop (q.fetch n).ret := by
  simp [sorted_vertex_queue.fetch, sorted_vertex_queue.remaining, Nat.add_comm]

/-- The victim-selection loop either steals nothing and leaves every worker as it was, or
stops at a worker `t` from whose queue it fetched the ids at the cursor, advancing only that
cursor. -/
theorem steal_loop_spec (num_threads more : Nat) (threads : List worker_thread) (sid : Nat) :
    ((worker_thread.steal_loop num_threads more threads sid).steal_buf = [] ∧
      (worker_thread.steal_loop num_threads more threads sid).worker_threads = threads) ∨
    (∃ t, threads[(worker_thread.steal_loop num_threads more threads sid).steal_thread_id]?
        = some t ∧
      (worker_thread.steal_loop num_threads more threads sid).steal_buf ≠ [] ∧
      (worker_thread.steal_loop num_threads more threads sid).steal_buf
        = (t.curr_activated_vertices.fetch
            (min MAX_STOLEN_VERTICES
              (max 1 (t.curr_activated_vertices.get_num_vertices / num_threads)))).vertices ∧
      (worker_thread.steal_loop num_threads more threads sid).worker_threads
        = threads.set (worker_thread.steal_loop num_threads more threads sid).steal_thread_id
            { t with curr_activated_vertices :=
                (t.curr_activated_vertices.fetch
                  (min MAX_STOLEN_VERTICES
                    (max 1 (t.curr_activated_vertices.get_num_vertices / num_threads)))).queue }) := by
  induction more generalizing threads sid with
  | zero =>
    unfold worker_thread.steal_loop
    cases ht : threads[sid]? with
    | none => exact Or.inl ⟨rfl, rfl⟩
    | some t =>
      simp only
      split
      · rename_i hz
        left
        refine ⟨rfl, ?_⟩
        simp only [fetch_zero_queue _ _ hz]
        exact set_same threads sid t ht
      · rename_i hz
        right
        refine ⟨t, ht, ?_, rfl, rfl⟩
        intro hnil
        apply hz
        rw [← fetch_vertices_length]
        simp only at hnil
        rw [hnil]
        rfl
  | succ k ih =>
    unfold worker_thread.steal_loop
    cases ht : threads[sid]? with
    | none => exact Or.inl ⟨rfl, rfl⟩
    | some t =>
      simp only
      split
      · rename_i hz
        simp only [fetch_zero_queue _ _ hz]
        rw [set_same threads sid t ht]
        exact ih threads _
      · rename_i hz
        right
        refine ⟨t, ht, ?_, rfl, rfl⟩
        intro hnil
        apply hz
        rw [← fetch_vertices_length]
        simp only at hnil
        rw [hnil]
        rfl

/-- How `steal_activated_vertices` is put together from its victim-selection loop; only the
stealer's own entry is written after the loop. -/
theorem steal_unfold (g : graph_engine) (self buf_size : Nat) (me : worker_thread)
    (hme : g.worker_threads[self]? = some me) :
    ∃ first,
      (worker_thread.steal_activated_vertices g self buf_size).stolen
        = (worker_thread.steal_loop g.get_num_threads (g.get_num_threads - 1)
            g.worker_threads first).steal_buf ∧
      (worker_thread.steal_activated_vertices g self buf_size).victim
        = (worker_thread.steal_loop g.get_num_threads (g.get_num_threads - 1)
            g.worker_threads first).steal_thread_id ∧
      (∀ i, i ≠ self →
        (worker_thread.steal_activated_vertices g self buf_size).graph.worker_threads[i]?
          = (worker_thread.steal_loop g.get_num_threads (g.get_num_threads - 1)
              g.worker_threads first).worker_threads[i]?) := by
  unfold worker_thread.steal_activated_vertices
  rw [hme]
  refine ⟨_, rfl, rfl, ?_⟩
  intro i hi
  simp only
  split
  · rfl
  · exact List.getElem?_set_ne (fun e => hi e.symm)

theorem steal_none (g : graph_engine) (self buf_size : Nat)
    (hme : g.worker_threads[self]? = none) :
    (worker_thread.steal_activated_vertices g self buf_size).stolen = [] := by
  unfold worker_thread.steal_activated_vertices
  rw [hme]

/-- C10 (amended): for every successful steal from another worker's frontier, the stolen ids
are exactly the `num` entries at the victim's cursor before the steal, the victim's vector is
unchanged and its cursor advances by `num` (victim remaining before = victim remaining after
+ `num`), and every later sequence of fetches on the victim's queue returns only entries that
lie at or after the advanced cursor; when the victim's frontier holds no id twice (as after
`enter_next_level`, or after `start` on distinct ids), no later fetch returns a stolen id. -/
theorem steal_victim_conservation (g : graph_engine) (self buf_size : Nat)
    (budgets : List Nat)
    (hsucc : (worker_thread.steal_activated_vertices g self buf_size).stolen ≠ [])
    (hne : (worker_thread.steal_activated_vertices g self buf_size).victim ≠ self) :
    ∃ tv tv1 : worker_thread,
      g.worker_threads[(worker_thread.steal_activated_vertices g self buf_size).victim]?
        = some tv ∧
      (worker_thread.steal_activated_vertices g self buf_size).graph.worker_threads[
        (worker_thread.steal_activated_vertices g self buf_size).victim]? = some tv1 ∧
      (worker_thread.steal_activated_vertices g self buf_size).stolen
        = (tv.curr_activated_vertices.sorted_vertices.drop
            tv.curr_activated_vertices.fetch_idx).take
          (worker_thread.steal_activated_vertices g self buf_size).stolen.length ∧
      tv1.curr_activated_vertices.sorted_vertices
        = tv.curr_activated_vertices.sorted_vertices ∧
      tv1.curr_activated_vertices.fetch_idx = tv.curr_activated_vertices.fetch_idx
        + (worker_thread.steal_activated_vertices g self buf_size).stolen.length ∧
      tv.curr_activated_vertices.get_num_vertices
        = tv1.curr_activated_vertices.get_num_vertices
          + (worker_thread.steal_activated_vertices g self buf_size).stolen.length ∧
      (∃ k, (tv1.curr_activated_vertices.fetch_seq budgets).1
        = (tv.curr_activated_vertices.sorted_vertices.drop
            (tv.curr_activated_vertices.fetch_idx
              + (worker_thread.steal_activated_vertices g self buf_size).stolen.length)).take
            k) ∧
      (tv.curr_activated_vertices.sorted_vertices.Nodup →
        ∀ id ∈ (worker_thread.steal_activated_vertices g self buf_size).stolen,
          id ∉ (tv1.curr_activated_vertices.fetch_seq budgets).1) := by
  cases hme : g.worker_threads[self]? with
  | none => exact absurd (steal_none g self buf_size hme) hsucc
  | some me =>
    obtain ⟨first, hst, hv, hoth⟩ := steal_unfold g self buf_size me hme
    rw [hst] at hsucc
    rcases steal_loop_spec g.get_num_threads (g.get_num_threads - 1) g.worker_threads first
      with ⟨hnil, _⟩ | ⟨t, ht, _, hbuf, hthreads⟩
    · exact absurd hnil hsucc
    · have hlen : (worker_thread.steal_activated_vertices g self buf_size).stolen.length
          = (t.curr_activated_vertices.fetch (min MAX_STOLEN_VERTICES
              (max 1 (t.curr_activated_vertices.get_num_vertices / g.get_num_threads)))).ret := by
        rw [hst, hbuf, fetch_vertices_length]
      have hvlt : (worker_thread.steal_loop g.get_num_threads (g.get_num_threads - 1)
          g.worker_threads first).steal_thread_id < g.worker_threads.length := by
        by_contra hge
        rw [List.getElem?_eq_none (Nat.le_of_not_lt hge)] at ht
        exact Option.noConfusion ht
      have hle := fetch_ret_le_remaining t.curr_activated_vertices (min MAX_STOLEN_VERTICES
        (max 1 (t.curr_activated_vertices.get_num_vertices / g.get_num_threads)))
      have hfs := fetch_seq_eq_take (t.curr_activated_vertices.fetch (min MAX_STOLEN_VERTICES
        (max 1 (t.curr_activated_vertices.get_num_vertices / g.get_num_threads)))).queue budgets
      obtain ⟨k, hk, _⟩ := hfs
      have hk2 : ((t.curr_activated_vertices.fetch (min MAX_STOLEN_VERTICES
          (max 1 (t.curr_activated_vertices.get_num_vertices / g.get_num_threads)))).queue.fetch_seq
            budgets).1
          = (t.curr_activated_vertices.sorted_vertices.drop
              (t.curr_activated_vertices.fetch_idx
                + (worker_thread.steal_activated_vertices g self buf_size).stolen.length)).take
              k := by
        rw [hk, hlen]
        rfl
      have hstolen : (worker_thread.steal_activated_vertices g self buf_size).stolen
          = (t.curr_activated_vertices.sorted_vertices.drop
              t.curr_activated_vertices.fetch_idx).take
            (worker_thread.steal_activated_vertices g self buf_size).stolen.length := by
        rw [hlen, hst, hbuf]
        exact (fetch_vertices_eq _ _).1
      refine ⟨t, { t with curr_activated_vertices :=
          (t.curr_activated_vertices.fetch (min MAX_STOLEN_VERTICES
            (max 1 (t.curr_activated_vertices.get_num_vertices / g.get_num_threads)))).queue },
        by rw [hv]; exact ht, ?_, hstolen, rfl, ?_, ?_, ⟨k, hk2⟩, ?_⟩
      · rw [hoth _ hne, hv, hthreads]
        exact List.getElem?_set_self hvlt
      · rw [hlen]
        rfl
      · rw [hlen]
        simp only [sorted_vertex_queue.get_num_vertices, sorted_vertex_queue.fetch] at hle ⊢
        omega
      · intro hnd id hid hlater
        rw [hk2] at hlater
        rw [hstolen] at hid
        have hnd2 : (t.curr_activated_vertices.sorted_vertices.drop
            t.curr_activated_vertices.fetch_idx).Nodup :=
          List.Nodup.sublist (List.drop_sublist _ _) hnd
        have hdisj := List.disjoint_take_drop hnd2
          (le_refl (worker_thread.steal_activated_vertices g self buf_size).stolen.length)
        apply hdisj hid
        have hmem := List.mem_of_mem_take hlater
        rw [List.drop_drop]
        exact hmem

/-- Witness for `steal_victim_conservation`: worker 1 of two holds `1, 3, 5, 7`; worker 0
steals with room for one id. -/
theorem steal_victim_conservation_witness :
    (worker_thread.steal_activated_vertices ((graph_engine.new 2 9).start [1, 3, 5, 7]) 0
      1).stolen = [1, 3] ∧
    (worker_thread.steal_activated_vertices ((graph_engine.new 2 9).start [1, 3, 5, 7]) 0
      1).victim = 1 ∧
    (worker_thread.steal_activated_vertices ((graph_engine.new 2 9).start [1, 3, 5, 7]) 0
      1).graph.fetch_order 1 [1, 5] = [5, 7] ∧
    ∃ tv tv1 : worker_thread,
      ((graph_engine.new 2 9).start [1, 3, 5, 7]).worker_threads[
        (worker_thread.steal_activated_vertices ((graph_engine.new 2 9).start [1, 3, 5, 7]) 0
          1).victim]? = some tv ∧
      (worker_thread.steal_activated_vertices ((graph_engine.new 2 9).start [1, 3, 5, 7]) 0
        1).graph.worker_threads[
          (worker_thread.steal_activated_vertices ((graph_engine.new 2 9).start [1, 3, 5, 7]) 0
            1).victim]? = some tv1 ∧
      tv1.curr_activated_vertices.fetch_idx = tv.curr_activated_vertices.fetch_idx
        + (worker_thread.steal_activated_vertices ((graph_engine.new 2 9).start [1, 3, 5, 7])
            0 1).stolen.length := by
  obtain ⟨tv, tv1, h1, h2, _, _, h5, _⟩ := steal_victim_conservation
    ((graph_engine.new 2 9).start [1, 3, 5, 7]) 0 1 [1, 5] (by decide) (by decide)
  exact ⟨by decide, by decide, by decide, tv, tv1, h1, h2, h5⟩

/-- C10 (counterexample): `start` on the ids `3, 3` leaves `3, 3` in the frontier of worker 1;
worker 0 steals one id, the id 3, and the next fetch on the victim's queue returns the id 3
again. -/
theorem steal_duplicate_id_fetched_again :
    (worker_thread.steal_activated_vertices ((graph_engine.new 2 9).start [3, 3]) 0
      4).stolen = [3] ∧
    (worker_thread.steal_activated_vertices ((graph_engine.new 2 9).start [3, 3]) 0
      4).victim = 1 ∧
    (worker_thread.steal_activated_vertices ((graph_engine.new 2 9).start [3, 3]) 0
      4).graph.fetch_order 1 [1] = [3] := by
  decide

/-! ## At most once per level -/

theorem count_flatten_set (L : List (List vertex_id_t)) (i : Nat) (x old : List vertex_id_t)
    (v : vertex_id_t) (h : L[i]? = some old) :
    List.count v (L.set i x).flatten + List.count v old
      = List.count v L.flatten + List.count v x := by
  induction L generalizing i with
  | nil => simp at h
  | cons y ys ih =>
    cases i with
    | zero =>
      simp only [List.getElem?_cons_zero, Option.some.injEq] at h
      subst h
      simp only [List.set_cons_zero, List.flatten_cons, List.count_append]
      omega
    | succ k =>
      simp only [List.getElem?_cons_succ] at h
      have := ih k h
      simp only [List.set_cons_succ, List.flatten_cons, List.count_append]
      omega

theorem count_remaining_set (threads : List worker_thread) (i : Nat) (t t1 : worker_thread)
    (v : vertex_id_t) (h : threads[i]? = some t) :
    List.count v
        ((threads.set i t1).map (fun t => t.curr_activated_vertices.remaining)).flatten
      + List.count v t.curr_activated_vertices.remaining
      = List.count v (threads.map (fun t => t.curr_activated_vertices.remaining)).flatten
        + List.count v t1.curr_activated_vertices.remaining := by
  rw [List.map_set]
  apply count_flatten_set
  rw [List.getElem?_map, h]
  rfl

theorem steal_conservation (g : graph_engine) (self buf_size : Nat) (me : worker_thread)
    (v : vertex_id_t) (hme : g.worker_threads[self]? = some me)
    (hempty : me.curr_activated_vertices.remaining = []) :
    List.count v (worker_thread.steal_activated_vertices g self buf_size).vertex_buf
      + List.count v (worker_thread.steal_activated_vertices g self buf_size).graph.all_remaining
      = List.count v g.all_remaining := by
  unfold worker_thread.steal_activated_vertices
  rw [hme]
  simp only [graph_engine.all_remaining]
  have spec := steal_loop_spec g.get_num_threads (g.get_num_threads - 1) g.worker_threads
    (if me.steal_thread_id = me.worker_id then (me.steal_thread_id + 1) % g.get_num_threads
      else me.steal_thread_id)
  generalize worker_thread.steal_loop g.get_num_threads (g.get_num_threads - 1)
    g.worker_threads (if me.steal_thread_id = me.worker_id then
      (me.steal_thread_id + 1) % g.get_num_threads else me.steal_thread_id) = st at spec ⊢
  rcases spec with ⟨hnil, hth⟩ | ⟨t, ht, hne, hbuf, hth⟩
  · rw [hnil, hth, hme]
    have := count_remaining_set g.worker_threads self me
      { me with steal_thread_id := st.steal_thread_id } v hme
    simp only [List.length_nil, Nat.zero_le, Nat.min_eq_right, Nat.sub_self, Nat.lt_irrefl,
      ite_false, List.take_nil, List.count_nil, Nat.zero_add, gt_iff_lt] at this ⊢
    omega
  · have hvs : st.steal_thread_id ≠ self := by
      intro e
      rw [e, hme] at ht
      have hmt : me = t := Option.some.inj ht
      apply hne
      rw [hbuf, (fetch_vertices_eq _ _).1, ← hmt, hempty]
      exact List.take_nil
    have hself : st.worker_threads[self]? = some me := by
      rw [hth, List.getElem?_set_ne hvs, hme]
    have hfe := fetch_vertices_eq t.curr_activated_vertices (min MAX_STOLEN_VERTICES
      (max 1 (t.curr_activated_vertices.get_num_vertices / g.get_num_threads)))
    have h2 := count_remaining_set g.worker_threads st.steal_thread_id t
      { t with curr_activated_vertices :=
          (t.curr_activated_vertices.fetch (min MAX_STOLEN_VERTICES
            (max 1 (t.curr_activated_vertices.get_num_vertices / g.get_num_threads)))).queue }
      v ht
    rw [← hth] at h2
    simp only [hfe.2] at h2
    have hsplit : List.count v t.curr_activated_vertices.remaining
        = List.count v st.steal_buf
          + List.count v (t.curr_activated_vertices.remaining.drop
              (t.curr_activated_vertices.fetch (min MAX_STOLEN_VERTICES
                (max 1 (t.curr_activated_vertices.get_num_vertices
                  / g.get_num_threads)))).ret) := by
      rw [hbuf, hfe.1, ← List.count_append, List.take_append_drop]
    have hsplit2 : List.count v st.steal_buf
        = List.count v (st.steal_buf.take (min buf_size st.steal_buf.length))
          + List.count v (st.steal_buf.drop (min buf_size st.steal_buf.length)) := by
      rw [← List.count_append, List.take_append_drop]
    rw [hself]
    simp only
    by_cases hov : st.steal_buf.length - min buf_size st.steal_buf.length > 0
    · have h1 := count_remaining_set st.worker_threads self me
        { me with
          steal_thread_id := st.steal_thread_id
          curr_activated_vertices :=
            me.curr_activated_vertices.init
              (st.steal_buf.drop (min buf_size st.steal_buf.length)) true } v hself
      simp only [hov, ite_true]
      simp only [sorted_vertex_queue.init, sorted_vertex_queue.remaining, List.drop_zero,
        Bool.not_true, Bool.false_eq_true, ite_false] at h1 ⊢
      simp only [sorted_vertex_queue.remaining] at hempty h2 hsplit
      rw [hempty] at h1
      simp only [List.count_nil] at h1
      omega
    · have h1 := count_remaining_set st.worker_threads self me
        { me with steal_thread_id := st.steal_thread_id } v hself
      have hdrop : st.steal_buf.drop (min buf_size st.steal_buf.length) = [] := by
        apply List.drop_eq_nil_of_le
        omega
      rw [hdrop] at hsplit2
      simp only [hov, ite_false]
      simp only [List.count_nil] at hsplit2
      dsimp only at h1
      omega

theorem fetch_or_steal_conservation (g : graph_engine) (self : Nat) (me : worker_thread)
    (max : Nat) (v : vertex_id_t) (hme : g.worker_threads[self]? = some me)
    (hmax : 0 < max) :
    List.count v (worker_thread.fetch_or_steal g self me max).2.1
      + List.count v (worker_thread.fetch_or_steal g self me max).1.all_remaining
      = List.count v g.all_remaining := by
  unfold worker_thread.fetch_or_steal
  by_cases hz : (me.curr_activated_vertices.fetch max).ret = 0
  · simp only [hz, ite_true]
    have hq := fetch_zero_queue _ _ hz
    have hempty : me.curr_activated_vertices.remaining = [] := by
      apply List.drop_eq_nil_of_le
      simp only [sorted_vertex_queue.fetch] at hz
      omega
    rw [hq, set_same g.worker_threads self me hme]
    exact steal_conservation g self max me v hme hempty
  · simp only [hz, ite_false]
    have h1 := count_remaining_set g.worker_threads self me
      { me with curr_activated_vertices := (me.curr_activated_vertices.fetch max).queue } v hme
    have hfe := fetch_vertices_eq me.curr_activated_vertices max
    simp only [hfe.2] at h1
    have hsplit : List.count v me.curr_activated_vertices.remaining
        = List.count v (me.curr_activated_vertices.fetch max).vertices
          + List.count v (me.curr_activated_vertices.remaining.drop
              (me.curr_activated_vertices.fetch max).ret) := by
      rw [hfe.1, ← List.count_append, List.take_append_drop]
    simp only [graph_engine.all_remaining]
    omega

theorem process_conservation (g : graph_engine) (self : Nat) (max : Int)
    (pre_run : vertex_id_t → Bool) (v : vertex_id_t) :
    List.count v (worker_thread.process_activated_vertices g self max pre_run).vertex_buf
      + List.count v
          (worker_thread.process_activated_vertices g self max pre_run).graph.all_remaining
      = List.count v g.all_remaining ∧
    (worker_thread.process_activated_vertices g self max pre_run).reqs
      = (worker_thread.process_activated_vertices g self max pre_run).vertex_buf.filter
          pre_run := by
  unfold worker_thread.process_activated_vertices
  by_cases hmax : max ≤ 0
  · simp [hmax]
  · simp only [hmax, ite_false]
    cases hme : g.worker_threads[self]? with
    | none => simp
    | some me =>
      have hcons := fetch_or_steal_conservation g self me max.toNat v hme (by omega)
      dsimp only
      generalize worker_thread.fetch_or_steal g self me max.toNat = got at hcons ⊢
      refine ⟨?_, rfl⟩
      have hthreads : (if got.2.2 > 0 then got.1.process_vertices got.2.2 else got.1).worker_threads
          = got.1.worker_threads := by
        split <;> rfl
      rw [hthreads]
      simp only [graph_engine.all_remaining] at hcons ⊢
      cases hme1 : got.1.worker_threads[self]? with
      | none => exact hcons
      | some me1 =>
        simp only
        have h1 := count_remaining_set got.1.worker_threads self me1
          { me1 with
            num_activated_vertices_in_level :=
              if got.2.2 > 0 then me1.num_activated_vertices_in_level + got.2.2
              else me1.num_activated_vertices_in_level
            num_completed_vertices_in_level :=
              if (got.2.1.filter (fun id => !pre_run id)).length > 0 then
                me1.num_completed_vertices_in_level
                  + (got.2.1.filter (fun id => !pre_run id)).length
              else me1.num_completed_vertices_in_level } v hme1
        dsimp only at h1
        omega

theorem run_calls_conservation (calls : List process_call) (g : graph_engine)
    (v : vertex_id_t) :
    List.count v (g.run_calls calls).2.1 + List.count v (g.run_calls calls).1.all_remaining
      = List.count v g.all_remaining ∧
    List.count v (g.run_calls calls).2.2 ≤ List.count v (g.run_calls calls).2.1 := by
  induction calls generalizing g with
  | nil => simp [graph_engine.run_calls]
  | cons c cs ih =>
    have h1 := process_conservation g c.worker c.max c.pre_run v
    have h2 := ih (worker_thread.process_activated_vertices g c.worker c.max c.pre_run).graph
    simp only [graph_engine.run_calls, List.count_append]
    have h3 : List.count v
        (worker_thread.process_activated_vertices g c.worker c.max c.pre_run).reqs
        ≤ List.count v
          (worker_thread.process_activated_vertices g c.worker c.max c.pre_run).vertex_buf := by
      rw [h1.2]
      exact List.Sublist.count_le (List.filter_sublist _) v
    omega

theorem count_flatten_not_mem (L : List (List vertex_id_t)) (v : vertex_id_t)
    (h : ∀ l ∈ L, v ∉ l) : List.count v L.flatten = 0 := by
  apply List.count_eq_zero_of_not_mem
  intro hv
  obtain ⟨l, hl, hvl⟩ := List.mem_flatten.mp hv
  exact h l hl hvl

theorem count_flatten_single (L : List (List vertex_id_t)) (v : vertex_id_t) (k : Nat)
    (h : ∀ i l, L[i]? = some l → v ∈ l → i = k) :
    List.count v L.flatten = List.count v ((L[k]?).getD []) := by
  induction L generalizing k with
  | nil => simp
  | cons y ys ih =>
    cases k with
    | zero =>
      have htail : List.count v ys.flatten = 0 := by
        apply count_flatten_not_mem
        intro l hl hvl
        obtain ⟨i, hi⟩ := List.getElem?_of_mem hl
        have := h (i + 1) l (by simpa using hi) hvl
        omega
      simp only [List.flatten_cons, List.count_append, htail, List.getElem?_cons_zero,
        Option.getD_some, Nat.add_zero]
    | succ k1 =>
      have hy : v ∉ y := by
        intro hv
        have := h 0 y (by simp) hv
        omega
      have hrec := ih k1 (fun i l hi hvl => by
        have := h (i + 1) l (by simpa using hi) hvl
        omega)
      simp only [List.flatten_cons, List.count_append, List.count_eq_zero_of_not_mem hy,
        List.getElem?_cons_succ, Nat.zero_add, hrec]

theorem flatten_nodup_of_owner (L : List (List vertex_id_t)) (owner : vertex_id_t → Nat)
    (h1 : ∀ l ∈ L, l.Nodup)
    (h2 : ∀ i l, L[i]? = some l → ∀ id ∈ l, owner id = i) : L.flatten.Nodup := by
  rw [List.nodup_flatten]
  refine ⟨h1, ?_⟩
  rw [List.pairwise_iff_getElem]
  intro i j hi hj hij id hidi hidj
  have e1 := h2 i L[i] (List.getElem?_eq_getElem hi) id hidi
  have e2 := h2 j L[j] (List.getElem?_eq_getElem hj) id hidj
  omega

theorem frontier_of_getElem? (g : graph_engine) (i : Nat) (l : List vertex_id_t)
    (h : (g.worker_threads.map (fun t => t.curr_activated_vertices.sorted_vertices))[i]?
      = some l) : l = g.frontier i := by
  rw [List.getElem?_map] at h
  unfold graph_engine.frontier
  cases ht : g.worker_threads[i]? with
  | none => rw [ht] at h; exact Option.noConfusion h
  | some t =>
    rw [ht] at h
    simp only [Option.map_some', Option.some.injEq] at h
    exact h.symm

theorem frontier_mem_of_mem (g : graph_engine) (l : List vertex_id_t)
    (h : l ∈ g.worker_threads.map (fun t => t.curr_activated_vertices.sorted_vertices)) :
    ∃ i, i < g.worker_threads.length ∧ l = g.frontier i := by
  obtain ⟨i, hi⟩ := List.getElem?_of_mem h
  refine ⟨i, ?_, frontier_of_getElem? g i l hi⟩
  by_contra hge
  rw [List.getElem?_eq_none (by simpa using Nat.le_of_not_lt hge)] at hi
  exact Option.noConfusion hi

theorem all_remaining_eq_all_frontiers (g : graph_engine)
    (h : ∀ t ∈ g.worker_threads, t.curr_activated_vertices.fetch_idx = 0) :
    g.all_remaining = g.all_frontiers := by
  unfold graph_engine.all_remaining graph_engine.all_frontiers
  congr 1
  apply List.map_congr_left
  intro t ht
  simp [sorted_vertex_queue.remaining, h t ht]

theorem start_cursors (g : graph_engine) (ids : List vertex_id_t) :
    ∀ t ∈ (g.start ids).worker_threads, t.curr_activated_vertices.fetch_idx = 0 := by
  intro t ht
  obtain ⟨i, hi⟩ := List.getElem?_of_mem ht
  rw [start_worker] at hi
  cases hw : g.worker_threads[i]? with
  | none => rw [hw] at hi; exact Option.noConfusion hi
  | some t0 =>
    rw [hw] at hi
    simp only [Option.map_some', Option.some.injEq] at hi
    rw [← hi]
    rfl

theorem enter_next_level_all_cursors (g : graph_engine) :
    ∀ t ∈ g.enter_next_level_all.worker_threads,
      t.curr_activated_vertices.fetch_idx = 0 := by
  intro t ht
  simp only [graph_engine.enter_next_level_all, List.mem_map] at ht
  obtain ⟨t0, _, rfl⟩ := ht
  exact (enter_next_level_frontier g.partitioner t0).1

theorem enter_next_level_all_nodup (g : graph_engine) (hg : g.wf)
    (hs : ∀ t ∈ g.worker_threads, t.curr_activated_vertices.scheduler.reorders) :
    g.enter_next_level_all.all_frontiers.Nodup := by
  apply flatten_nodup_of_owner _ g.partitioner.map
  · intro l hl
    simp only [graph_engine.enter_next_level_all, List.map_map, List.mem_map,
      Function.comp_apply] at hl
    obtain ⟨t, ht, rfl⟩ := hl
    rw [(enter_next_level_frontier_perm g.partitioner t (hs t ht)).nodup_iff]
    exact (bitmap_ids_sorted _ _ _ (by rw [hg.2.1]; exact hg.1)).nodup
  · intro i l hl id hid
    rw [frontier_of_getElem? _ i l hl] at hid
    exact enter_next_level_all_frontier_owner g hg hs i id hid

theorem start_nodup (g : graph_engine) (ids : List vertex_id_t)
    (hs : ∀ t ∈ g.worker_threads, t.curr_activated_vertices.scheduler.reorders)
    (hnd : ids.Nodup) : (g.start ids).all_frontiers.Nodup := by
  apply flatten_nodup_of_owner _ g.partitioner.map
  · intro l hl
    obtain ⟨i, hi, rfl⟩ := frontier_mem_of_mem _ l hl
    rw [start_length] at hi
    rw [(start_frontier_perm g ids i hi hs).nodup_iff]
    exact List.Nodup.filter _ hnd
  · intro i l hl id hid
    rw [frontier_of_getElem? _ i l hl] at hid
    exact (start_frontier_owner g ids hs i id hid).1

theorem start_count (g : graph_engine) (hg : g.wf) (ids : List vertex_id_t)
    (hs : ∀ t ∈ g.worker_threads, t.curr_activated_vertices.scheduler.reorders)
    (v : vertex_id_t) : List.count v (g.start ids).all_frontiers = List.count v ids := by
  have hlt : g.partitioner.map v < g.worker_threads.length := by
    rw [← hg.2.1]
    exact Nat.mod_lt _ (by rw [hg.2.1]; exact hg.1)
  unfold graph_engine.all_frontiers
  rw [count_flatten_single _ v (g.partitioner.map v)]
  · have hf : ((List.map (fun t => t.curr_activated_vertices.sorted_vertices)
        (g.start ids).worker_threads)[g.partitioner.map v]?).getD []
        = (g.start ids).frontier (g.partitioner.map v) := by
      unfold graph_engine.frontier
      rw [List.getElem?_map]
      cases (g.start ids).worker_threads[g.partitioner.map v]? <;> rfl
    rw [hf, (start_frontier_perm g ids _ hlt hs).count_eq]
    exact List.count_filter (by simp)
  · intro i l hl hv
    rw [frontier_of_getElem? _ i l hl] at hv
    exact ((start_frontier_owner g ids hs i v hv).1).symm

/-- C9 (amended): in every level installed by `enter_next_level` each vertex occurs at most
once in the union of all workers' frontiers; in level 0 a vertex occurs in the union exactly
as often as in the id array passed to `graph_engine::start`, hence at most once when the
initial ids are pairwise distinct.  In any sequence of `process_activated_vertices` calls over
such a level (any workers, any budgets, stealing included) the pre-run is executed on `v`, and
a read is issued for `v`, at most as often as `v` occurs in that union. -/
theorem at_most_once_per_level (g : graph_engine) (hg : g.wf)
    (hs : ∀ t ∈ g.worker_threads, t.curr_activated_vertices.scheduler.reorders)
    (ids : List vertex_id_t) (calls : List process_call) (v : vertex_id_t) :
    g.enter_next_level_all.all_frontiers.Nodup ∧
    List.count v (g.start ids).all_frontiers = List.count v ids ∧
    (ids.Nodup → (g.start ids).all_frontiers.Nodup) ∧
    List.count v (g.enter_next_level_all.run_calls calls).2.1 ≤ 1 ∧
    List.count v (g.enter_next_level_all.run_calls calls).2.2 ≤ 1 ∧
    List.count v ((g.start ids).run_calls calls).2.1 ≤ List.count v ids ∧
    List.count v ((g.start ids).run_calls calls).2.2 ≤ List.count v ids := by
  have hn := enter_next_level_all_nodup g hg hs
  have hc1 := run_calls_conservation calls g.enter_next_level_all v
  have hc2 := run_calls_conservation calls (g.start ids) v
  rw [all_remaining_eq_all_frontiers _ (enter_next_level_all_cursors g)] at hc1
  rw [all_remaining_eq_all_frontiers _ (start_cursors g ids), start_count g hg ids hs v] at hc2
  have hle := List.nodup_iff_count_le_one.mp hn v
  refine ⟨hn, start_count g hg ids hs v, start_nodup g ids hs, ?_, ?_, ?_, ?_⟩ <;> omega

/-- Witness for `at_most_once_per_level`: two fresh workers started on `5, 2, 3, 8`; worker 0
processes one vertex and then worker 1 asks for three. -/
theorem at_most_once_per_level_witness :
    (graph_engine.new 2 9).wf ∧
    (∀ t ∈ (graph_engine.new 2 9).worker_threads,
      t.curr_activated_vertices.scheduler.reorders) ∧
    (((graph_engine.new 2 9).start [5, 2, 3, 8]).run_calls
      [⟨0, 1, fun _ => true⟩, ⟨1, 3, fun id => decide (id < 4)⟩]).2.1 = [2, 3, 5] ∧
    List.count 3 (((graph_engine.new 2 9).start [5, 2, 3, 8]).run_calls
      [⟨0, 1, fun _ => true⟩, ⟨1, 3, fun id => decide (id < 4)⟩]).2.1
      ≤ List.count 3 [5, 2, 3, 8] := by
  have hwf := new_wf 2 9 (by decide)
  have hs : ∀ t ∈ (graph_engine.new 2 9).worker_threads,
      t.curr_activated_vertices.scheduler.reorders := by
    intro t ht
    simp only [graph_engine.new, List.mem_map] at ht
    obtain ⟨i, _, rfl⟩ := ht
    exact default_scheduler_reorders
  exact ⟨hwf, hs, by decide,
    (at_most_once_per_level _ hwf hs [5, 2, 3, 8]
      [⟨0, 1, fun _ => true⟩, ⟨1, 3, fun id => decide (id < 4)⟩] 3).2.2.2.2.2.1⟩

/-- C9 (counterexample): `graph_engine::start` on the ids `3, 3` with two workers puts the
vertex 3 twice in the frontier of worker 1, and one call `process_activated_vertices(2)` of
that worker runs the pre-run on vertex 3 twice and issues two reads for it. -/
theorem start_duplicate_ids_processed_twice :
    List.count 3 ((graph_engine.new 2 9).start [3, 3]).all_frontiers = 2 ∧
    (((graph_engine.new 2 9).start [3, 3]).run_calls [⟨1, 2, fun _ => true⟩]).2.1 = [3, 3] ∧
    (((graph_engine.new 2 9).start [3, 3]).run_calls [⟨1, 2, fun _ => true⟩]).2.2 = [3, 3] := by
  decide

/-! ## Work stealing: the stealer's side -/

theorem is_empty_remaining (q : sorted_vertex_queue) (h : q.is_empty = true) :
    q.remaining = [] := by
  apply List.drop_eq_nil_of_le
  simp only [sorted_vertex_queue.is_empty, decide_eq_true_eq] at h
  omega

/-- What `steal_activated_vertices` returns and re-queues when the stealer has nothing left
in its own queue. -/
theorem steal_requeue_spec (g : graph_engine) (self buf_size : Nat) (me : worker_thread)
    (hme : g.worker_threads[self]? = some me)
    (hempty : me.curr_activated_vertices.remaining = []) :
    (worker_thread.steal_activated_vertices g self buf_size).ret
      = min buf_size (worker_thread.steal_activated_vertices g self buf_size).stolen.length ∧
    (worker_thread.steal_activated_vertices g self buf_size).vertex_buf
      = (worker_thread.steal_activated_vertices g self buf_size).stolen.take
          (worker_thread.steal_activated_vertices g self buf_size).ret ∧
    ∃ me1, (worker_thread.steal_activated_vertices g self buf_size).graph.worker_threads[self]?
        = some me1 ∧
      me1.curr_activated_vertices.remaining
        = (worker_thread.steal_activated_vertices g self buf_size).stolen.drop
            (worker_thread.steal_activated_vertices g self buf_size).ret := by
  unfold worker_thread.steal_activated_vertices
  rw [hme]
  dsimp only
  have spec := steal_loop_spec g.get_num_threads (g.get_num_threads - 1) g.worker_threads
    (if me.steal_thread_id = me.worker_id then (me.steal_thread_id + 1) % g.get_num_threads
      else me.steal_thread_id)
  generalize worker_thread.steal_loop g.get_num_threads (g.get_num_threads - 1)
    g.worker_threads (if me.steal_thread_id = me.worker_id then
      (me.steal_thread_id + 1) % g.get_num_threads else me.steal_thread_id) = st at spec ⊢
  refine ⟨rfl, rfl, ?_⟩
  have hi : self < g.worker_threads.length := by
    by_contra hlt
    rw [List.getElem?_eq_none (Nat.le_of_not_lt hlt)] at hme
    exact Option.noConfusion hme
  have hself : st.worker_threads[self]? = some me := by
    rcases spec with ⟨_, hth⟩ | ⟨t, ht, hne, hbuf, hth⟩
    · rw [hth, hme]
    · have hvs : st.steal_thread_id ≠ self := by
        intro e
        rw [e, hme] at ht
        have hmt : me = t := Option.some.inj ht
        apply hne
        rw [hbuf, (fetch_vertices_eq _ _).1, ← hmt, hempty]
        exact List.take_nil
      rw [hth, List.getElem?_set_ne hvs, hme]
  have hlen : self < st.worker_threads.length := by
    by_contra hlt
    rw [List.getElem?_eq_none (Nat.le_of_not_lt hlt)] at hself
    exact Option.noConfusion hself
  simp only [hself]
  refine ⟨_, List.getElem?_set_self hlen, ?_⟩
  by_cases hov : st.steal_buf.length - min buf_size st.steal_buf.length > 0
  · simp only [hov, ite_true]
    simp [sorted_vertex_queue.init, sorted_vertex_queue.remaining]
  · simp only [hov, ite_false]
    rw [List.drop_eq_nil_of_le (by omega)]
    exact hempty

/-- C11: for every call `steal_activated_vertices(buf, buf_size)` made while the stealer's
own frontier is empty, with `num` the number of ids stolen: the value returned is
`ret = min(buf_size, num)`, `buf` holds the first `ret` stolen ids, and what is left in the
stealer's own frontier afterwards is exactly the other `num - ret` stolen ids in their
original order; the returned ids followed by the re-queued ids are the stolen ids, and over
all frontiers no id is lost or duplicated. -/
theorem steal_requeue (g : graph_engine) (self buf_size : Nat) (me : worker_thread)
    (hme : g.worker_threads[self]? = some me)
    (hempty : me.curr_activated_vertices.is_empty = true) :
    (worker_thread.steal_activated_vertices g self buf_size).ret
      = min buf_size (worker_thread.steal_activated_vertices g self buf_size).stolen.length ∧
    (worker_thread.steal_activated_vertices g self buf_size).vertex_buf
      = (worker_thread.steal_activated_vertices g self buf_size).stolen.take
          (worker_thread.steal_activated_vertices g self buf_size).ret ∧
    (worker_thread.steal_activated_vertices g self buf_size).vertex_buf.length
      = (worker_thread.steal_activated_vertices g self buf_size).ret ∧
    (∃ me1, (worker_thread.steal_activated_vertices g self buf_size).graph.worker_threads[self]?
        = some me1 ∧
      me1.curr_activated_vertices.remaining
        = (worker_thread.steal_activated_vertices g self buf_size).stolen.drop
            (worker_thread.steal_activated_vertices g self buf_size).ret ∧
      me1.curr_activated_vertices.remaining.length
        = (worker_thread.steal_activated_vertices g self buf_size).stolen.length
          - (worker_thread.steal_activated_vertices g self buf_size).ret ∧
      (worker_thread.steal_activated_vertices g self buf_size).vertex_buf
          ++ me1.curr_activated_vertices.remaining
        = (worker_thread.steal_activated_vertices g self buf_size).stolen) ∧
    ∀ v, List.count v (worker_thread.steal_activated_vertices g self buf_size).vertex_buf
      + List.count v
          (worker_thread.steal_activated_vertices g self buf_size).graph.all_remaining
      = List.count v g.all_remaining := by
  have hrem := is_empty_remaining _ hempty
  obtain ⟨h1, h2, me1, h3, h4⟩ := steal_requeue_spec g self buf_size me hme hrem
  refine ⟨h1, h2, ?_, ⟨me1, h3, h4, ?_, ?_⟩,
    fun v => steal_conservation g self buf_size me v hme hrem⟩
  · rw [h2, List.length_take, h1]
    omega
  · rw [h4, List.length_drop]
  · rw [h2, h4, List.take_append_drop]

/-- Witness for `steal_requeue`: worker 1 of two holds `1, 3, 5, 7`; worker 0, whose frontier
is empty, steals two ids with room for one. -/
theorem steal_requeue_witness :
    ((graph_engine.new 2 9).start [1, 3, 5, 7]).worker_threads[0]?
      = some (worker_thread.start_vertices (worker_thread.new 0 2 9) []) ∧
    (worker_thread.start_vertices (worker_thread.new 0 2 9)
      []).curr_activated_vertices.is_empty = true ∧
    (worker_thread.steal_activated_vertices ((graph_engine.new 2 9).start [1, 3, 5, 7]) 0
      1).stolen = [1, 3] ∧
    (worker_thread.steal_activated_vertices ((graph_engine.new 2 9).start [1, 3, 5, 7]) 0
      1).vertex_buf = [1] ∧
    (worker_thread.steal_activated_vertices ((graph_engine.new 2 9).start [1, 3, 5, 7]) 0
      1).graph.frontier 0 = [3] ∧
    (worker_thread.steal_activated_vertices ((graph_engine.new 2 9).start [1, 3, 5, 7]) 0
      1).ret
      = min 1 (worker_thread.steal_activated_vertices
          ((graph_engine.new 2 9).start [1, 3, 5, 7]) 0 1).stolen.length := by
  have hme : ((graph_engine.new 2 9).start [1, 3, 5, 7]).worker_threads[0]?
      = some (worker_thread.start_vertices (worker_thread.new 0 2 9) []) := rfl
  have hempty : (worker_thread.start_vertices (worker_thread.new 0 2 9)
      []).curr_activated_vertices.is_empty = true := by decide
  exact ⟨hme, hempty, by decide, by decide, by decide,
    (steal_requeue _ 0 1 _ hme hempty).1⟩

/-! ## Work stealing: how much is asked and taken -/

/-- Every try asks the tried worker for `min(1024, max(1, remaining / W))` ids and obtains
what `fetch` returns for that budget; the tried worker is looked up in the state the loop
started from, because a try that obtains nothing changes no queue. -/
theorem steal_tries_spec (num_threads more : Nat) (threads : List worker_thread) (sid : Nat)
    (x : steal_try) (hx : x ∈ worker_thread.steal_tries num_threads more threads sid) :
    ∃ t, threads[x.victim]? = some t ∧
      x.requested = min MAX_STOLEN_VERTICES
        (max 1 (t.curr_activated_vertices.get_num_vertices / num_threads)) ∧
      x.obtained = (t.curr_activated_vertices.fetch x.requested).ret := by
  induction more generalizing threads sid with
  | zero =>
    unfold worker_thread.steal_tries at hx
    cases ht : threads[sid]? with
    | none => rw [ht] at hx; exact absurd hx (List.not_mem_nil _)
    | some t =>
      rw [ht] at hx
      dsimp only at hx
      split at hx <;>
      · rw [List.mem_singleton] at hx
        subst hx
        exact ⟨t, ht, rfl, rfl⟩
  | succ k ih =>
    unfold worker_thread.steal_tries at hx
    cases ht : threads[sid]? with
    | none => rw [ht] at hx; exact absurd hx (List.not_mem_nil _)
    | some t =>
      rw [ht] at hx
      dsimp only at hx
      split at hx
      · rename_i hz
        rcases List.mem_cons.mp hx with rfl | hrest
        · exact ⟨t, ht, rfl, rfl⟩
        · rw [fetch_zero_queue _ _ hz, set_same threads sid t ht] at hrest
          exact ih threads _ hrest
      · rw [List.mem_singleton] at hx
        subst hx
        exact ⟨t, ht, rfl, rfl⟩

/-- The ids in the steal buffer are what the last try obtained. -/
theorem steal_loop_buf_length (num_threads more : Nat) (threads : List worker_thread)
    (sid : Nat) (h : (worker_thread.steal_loop num_threads more threads sid).steal_buf ≠ []) :
    ∃ x ∈ worker_thread.steal_tries num_threads more threads sid,
      x.victim = (worker_thread.steal_loop num_threads more threads sid).steal_thread_id ∧
      x.obtained = (worker_thread.steal_loop num_threads more threads sid).steal_buf.length := by
  induction more generalizing threads sid with
  | zero =>
    unfold worker_thread.steal_loop at h ⊢
    unfold worker_thread.steal_tries
    cases ht : threads[sid]? with
    | none => rw [ht] at h; exact absurd rfl h
    | some t =>
      rw [ht] at h
      dsimp only at h ⊢
      split
      · rename_i hz
        simp only [hz, ite_true] at h
        exact absurd rfl h
      · exact ⟨_, List.mem_singleton.mpr rfl, rfl, (fetch_vertices_length _ _).symm⟩
  | succ k ih =>
    unfold worker_thread.steal_loop at h ⊢
    unfold worker_thread.steal_tries
    cases ht : threads[sid]? with
    | none => rw [ht] at h; exact absurd rfl h
    | some t =>
      rw [ht] at h
      dsimp only at h ⊢
      split
      · rename_i hz
        simp only [hz, ite_true] at h
        obtain ⟨x, hx, hv, ho⟩ := ih _ _ h
        exact ⟨x, List.mem_cons_of_mem _ hx, hv, ho⟩
      · exact ⟨_, List.mem_singleton.mpr rfl, rfl, (fetch_vertices_length _ _).symm⟩

theorem steal_tries_bound (t : worker_thread) (num_threads : Nat) :
    (t.curr_activated_vertices.fetch (min MAX_STOLEN_VERTICES
      (max 1 (t.curr_activated_vertices.get_num_vertices / num_threads)))).ret
      ≤ min MAX_STOLEN_VERTICES
        (max 1 (t.curr_activated_vertices.get_num_vertices / num_threads)) := by
  simp only [sorted_vertex_queue.fetch]
  exact Nat.min_le_left _ _

/-- C20: every victim tried by `steal_activated_vertices` is asked for
`min(1024, max(1, remaining(victim) / W))` ids, with integer division, and yields what
`fetch` returns for that budget, which is at most the budget; the ids stolen by the call are
at most the budget of the try that obtained them and never more than
`MAX_STOLEN_VERTICES = 1024`, the size of the steal buffer; and the value returned never
exceeds `buf_size` nor the number of ids stolen. -/
theorem steal_amounts (g : graph_engine) (self buf_size : Nat) :
    MAX_STOLEN_VERTICES = 1024 ∧
    (∀ x ∈ worker_thread.steal_tries_of g self, ∃ t, g.worker_threads[x.victim]? = some t ∧
      x.requested = min 1024
        (max 1 (t.curr_activated_vertices.get_num_vertices / g.get_num_threads)) ∧
      x.obtained = min x.requested t.curr_activated_vertices.get_num_vertices ∧
      x.obtained ≤ x.requested ∧ x.obtained ≤ 1024) ∧
    ((worker_thread.steal_activated_vertices g self buf_size).stolen = [] ∨
      ∃ x ∈ worker_thread.steal_tries_of g self,
        x.victim = (worker_thread.steal_activated_vertices g self buf_size).victim ∧
        (worker_thread.steal_activated_vertices g self buf_size).stolen.length = x.obtained) ∧
    (worker_thread.steal_activated_vertices g self buf_size).stolen.length ≤ 1024 ∧
    (worker_thread.steal_activated_vertices g self buf_size).ret ≤ buf_size ∧
    (worker_thread.steal_activated_vertices g self buf_size).ret
      ≤ (worker_thread.steal_activated_vertices g self buf_size).stolen.length := by
  have htries : ∀ x ∈ worker_thread.steal_tries_of g self,
      ∃ t, g.worker_threads[x.victim]? = some t ∧
      x.requested = min 1024
        (max 1 (t.curr_activated_vertices.get_num_vertices / g.get_num_threads)) ∧
      x.obtained = min x.requested t.curr_activated_vertices.get_num_vertices ∧
      x.obtained ≤ x.requested ∧ x.obtained ≤ 1024 := by
    intro x hx
    unfold worker_thread.steal_tries_of at hx
    cases hme : g.worker_threads[self]? with
    | none => rw [hme] at hx; exact absurd hx (List.not_mem_nil _)
    | some me =>
      rw [hme] at hx
      obtain ⟨t, ht, hreq, hob⟩ := steal_tries_spec _ _ _ _ x hx
      have hreq2 : x.requested = min 1024
          (max 1 (t.curr_activated_vertices.get_num_vertices / g.get_num_threads)) := hreq
      have hob2 : x.obtained = min x.requested t.curr_activated_vertices.get_num_vertices :=
        hob
      refine ⟨t, ht, hreq2, hob2, ?_, ?_⟩
      · rw [hob2]; exact Nat.min_le_left _ _
      · rw [hob2, hreq2]
        exact le_trans (Nat.min_le_left _ _) (Nat.min_le_left _ _)
  have hlast : (worker_thread.steal_activated_vertices g self buf_size).stolen = [] ∨
      ∃ x ∈ worker_thread.steal_tries_of g self,
        x.victim = (worker_thread.steal_activated_vertices g self buf_size).victim ∧
        (worker_thread.steal_activated_vertices g self buf_size).stolen.length
          = x.obtained := by
    by_cases hnil : (worker_thread.steal_activated_vertices g self buf_size).stolen = []
    · exact Or.inl hnil
    · right
      unfold worker_thread.steal_activated_vertices at hnil ⊢
      unfold worker_thread.steal_tries_of
      cases hme : g.worker_threads[self]? with
      | none => rw [hme] at hnil; exact absurd rfl hnil
      | some me =>
        rw [hme] at hnil
        dsimp only at hnil ⊢
        obtain ⟨x, hx, hv, ho⟩ := steal_loop_buf_length _ _ _ _ hnil
        exact ⟨x, hx, hv, ho.symm⟩
  have hret : (worker_thread.steal_activated_vertices g self buf_size).ret ≤ buf_size ∧
      (worker_thread.steal_activated_vertices g self buf_size).ret
        ≤ (worker_thread.steal_activated_vertices g self buf_size).stolen.length := by
    unfold worker_thread.steal_activated_vertices
    cases hme : g.worker_threads[self]? with
    | none => exact ⟨Nat.zero_le _, Nat.zero_le _⟩
    | some me => exact ⟨Nat.min_le_left _ _, Nat.min_le_right _ _⟩
  refine ⟨rfl, htries, hlast, ?_, hret.1, hret.2⟩
  rcases hlast with hnil | ⟨x, hx, _, hlen⟩
  · rw [hnil]; exact Nat.zero_le _
  · rw [hlen]
    obtain ⟨_, _, _, _, _, h1024⟩ := htries x hx
    exact h1024

/-! ## Receiving messages -/

theorem bitmap_get_set (b : bitmap) (off off1 : Nat) :
    (b.set off).get off1
      = if off1 = off ∧ off < b.bits.length then true else b.get off1 := by
  simp only [bitmap.get, bitmap.set, List.getD_eq_getElem?_getD, List.getElem?_set]
  by_cases h : off = off1
  · subst h
    by_cases hlt : off < b.bits.length
    · simp [hlt]
    · simp [hlt, List.getElem?_eq_none (Nat.le_of_not_lt hlt)]
  · have h2 : ¬ off1 = off := fun e => h e.symm
    simp [h, h2]

/-- With the destination on the receiving worker, the assertion-enabled body and the body
with the assertion compiled out do the same. -/
theorem process_dest_checked_eq (p : vertex_partitioner) (w : worker_thread)
    (id : vertex_id_t) (e a : Bool) (h : (p.map2loc id).1 = w.worker_id) :
    w.process_dest_checked p id e a = some (w.process_dest p id e a) := by
  unfold worker_thread.process_dest_checked worker_thread.process_dest
  cases e <;> cases a <;> simp [h]

theorem process_dest_checked_spec (p : vertex_partitioner) (w : worker_thread)
    (id : vertex_id_t) (e a : Bool) (h : (p.map2loc id).1 = w.worker_id) :
    ∃ w1, w.process_dest_checked p id e a = some w1 ∧
      w1.delivered = w.delivered ++ (if e then [] else [id]) ∧
      w1.next_activated_vertices
        = (if a then w.next_activated_vertices.set (p.map2loc id).2
            else w.next_activated_vertices) ∧
      w1.worker_id = w.worker_id ∧
      w1.curr_activated_vertices = w.curr_activated_vertices ∧
      w1.msg_q = w.msg_q ∧ w1.asserts_hold = w.asserts_hold := by
  unfold worker_thread.process_dest_checked
  cases e <;> cases a <;> simp [h]

theorem process_multicast_msg_checked_spec (p : vertex_partitioner) (w : worker_thread)
    (dests : List vertex_id_t) (e a : Bool)
    (h : ∀ id ∈ dests, (p.map2loc id).1 = w.worker_id) :
    ∃ w1, w.process_multicast_msg_checked p dests e a = some w1 ∧
      w1.delivered = w.delivered ++ (if e then [] else dests) ∧
      (∀ off, w1.next_activated_vertices.get off
        = (w.next_activated_vertices.get off ||
            (a && decide (off < w.next_activated_vertices.bits.length) &&
              dests.any (fun id => decide ((p.map2loc id).2 = off))))) ∧
      w1.next_activated_vertices.bits.length = w.next_activated_vertices.bits.length ∧
      w1.worker_id = w.worker_id := by
  induction dests generalizing w with
  | nil =>
    refine ⟨w, rfl, ?_, ?_, rfl, rfl⟩
    · cases e <;> simp
    · intro off
      simp
  | cons id rest ih =>
    have hid := h id (List.mem_cons_self _ _)
    obtain ⟨w1, h1, hd1, hn1, hw1, _⟩ := process_dest_checked_spec p w id e a hid
    have hrest : ∀ x ∈ rest, (p.map2loc x).1 = w1.worker_id := by
      intro x hx
      rw [hw1]
      exact h x (List.mem_cons_of_mem _ hx)
    obtain ⟨w2, h2, hd2, hn2, hl2, hw2⟩ := ih w1 hrest
    have hlen : w1.next_activated_vertices.bits.length
        = w.next_activated_vertices.bits.length := by
      rw [hn1]
      cases a <;> simp [bitmap.set]
    refine ⟨w2, ?_, ?_, ?_, hl2.trans hlen, hw2.trans hw1⟩
    · simp only [worker_thread.process_multicast_msg_checked, h1, h2]
    · rw [hd2, hd1]
      cases e <;> simp
    · intro off
      rw [hn2 off, hlen, hn1]
      cases a
      · simp
      · simp only [ite_true, bitmap_get_set, Bool.true_and, List.any_cons]
        by_cases hlt : off < w.next_activated_vertices.bits.length
        · by_cases hoff : (p.map2loc id).2 = off
          · subst hoff
            simp [hlt]
          · have hoff2 : ¬ off = (p.map2loc id).2 := fun e => hoff e.symm
            simp [hlt, hoff, hoff2]
        · have hget : w.next_activated_vertices.get off = false := by
            cases hg : w.next_activated_vertices.get off with
            | false => rfl
            | true => exact absurd (bitmap_get_lt _ _ hg) hlt
          by_cases hoff : off = (p.map2loc id).2
          · subst hoff
            simp [hlt, hget]
          · simp [hlt, hoff, hget]

theorem process_multicast_msg_checked_none (p : vertex_partitioner) (w : worker_thread)
    (dests : List vertex_id_t) (e a : Bool)
    (h : ∃ id ∈ dests, (p.map2loc id).1 ≠ w.worker_id) :
    w.process_multicast_msg_checked p dests e a = none := by
  induction dests generalizing w with
  | nil =>
    obtain ⟨id, hid, _⟩ := h
    exact absurd hid (List.not_mem_nil _)
  | cons x rest ih =>
    simp only [worker_thread.process_multicast_msg_checked]
    by_cases hx : (p.map2loc x).1 = w.worker_id
    · obtain ⟨w1, h1, _, _, hw1, _⟩ := process_dest_checked_spec p w x e a hx
      rw [h1]
      apply ih
      obtain ⟨id, hid, hne⟩ := h
      rcases List.mem_cons.mp hid with rfl | hr
      · exact absurd hx hne
      · exact ⟨id, hr, by rw [hw1]; exact hne⟩
    · have : w.process_dest_checked p x e a = none := by
        unfold worker_thread.process_dest_checked
        simp [hx]
      rw [this]

/-- C14: for a message with destination `id` received by worker `w`: when
`map(id).part_id = w`, the user's `run_on_messages` is invoked on vertex `id` once if the
payload is non-empty and not at all otherwise, and bit `map(id).local_off` of the next-level
bitmap is set if the message activates and left alone otherwise, every other bit keeping its
value; when `map(id).part_id ≠ w` the assertion fails and the program stops before any
callback or bit update.  A multicast message does this for each destination in list order:
it is rejected as soon as one destination is not on `w`, and otherwise `run_on_messages` is
invoked on every destination (payload non-empty) and exactly the bits of the destinations'
offsets are added (activating message). -/
theorem process_msg_contract (p : vertex_partitioner) (w : worker_thread) (id : vertex_id_t)
    (dests : List vertex_id_t) (e a : Bool) :
    ((p.map2loc id).1 = w.worker_id →
      ∃ w1, w.process_dest_checked p id e a = some w1 ∧
        w1 = w.process_dest p id e a ∧
        w1.delivered = w.delivered ++ (if e then [] else [id]) ∧
        List.count id w1.delivered = List.count id w.delivered + (if e then 0 else 1) ∧
        (∀ off, off ≠ (p.map2loc id).2 →
          w1.next_activated_vertices.get off = w.next_activated_vertices.get off) ∧
        (a = true → (p.map2loc id).2 < w.next_activated_vertices.bits.length →
          w1.next_activated_vertices.get (p.map2loc id).2 = true) ∧
        (a = false → w1.next_activated_vertices = w.next_activated_vertices) ∧
        w1.curr_activated_vertices = w.curr_activated_vertices) ∧
    ((p.map2loc id).1 ≠ w.worker_id →
      w.process_dest_checked p id e a = none ∧
      (w.process_dest p id e a).asserts_hold = false) ∧
    (∀ rest, worker_thread.process_msg_checked p w (.unicast id e a :: rest)
      = (w.process_dest_checked p id e a).bind
          (fun w1 => worker_thread.process_msg_checked p w1 rest)) ∧
    (∀ rest, worker_thread.process_msg_checked p w (.multicast dests e a :: rest)
      = (w.process_multicast_msg_checked p dests e a).bind
          (fun w1 => worker_thread.process_msg_checked p w1 rest)) ∧
    (∀ rest, w.process_multicast_msg_checked p (id :: rest) e a
      = (w.process_dest_checked p id e a).bind
          (fun w1 => w1.process_multicast_msg_checked p rest e a)) ∧
    ((∀ x ∈ dests, (p.map2loc x).1 = w.worker_id) →
      ∃ w1, w.process_multicast_msg_checked p dests e a = some w1 ∧
        w1.delivered = w.delivered ++ (if e then [] else dests) ∧
        ∀ off, w1.next_activated_vertices.get off
          = (w.next_activated_vertices.get off ||
              (a && decide (off < w.next_activated_vertices.bits.length) &&
                dests.any (fun x => decide ((p.map2loc x).2 = off))))) ∧
    ((∃ x ∈ dests, (p.map2loc x).1 ≠ w.worker_id) →
      w.process_multicast_msg_checked p dests e a = none) := by
  refine ⟨?_, ?_, ?_, ?_, ?_, ?_, process_multicast_msg_checked_none p w dests e a⟩
  · intro h
    obtain ⟨w1, h1, hd, hn, _, hc, _, _⟩ := process_dest_checked_spec p w id e a h
    refine ⟨w1, h1, ?_, hd, ?_, ?_, ?_, ?_, hc⟩
    · have := process_dest_checked_eq p w id e a h
      rw [h1] at this
      exact Option.some.inj this
    · rw [hd]
      cases e <;> simp
    · intro off hoff
      rw [hn]
      cases a
      · rfl
      · simp [bitmap_get_set, hoff]
    · intro ha hlt
      rw [hn, ha]
      simp [bitmap_get_set, hlt]
    · intro ha
      rw [hn, ha]
      rfl
  · intro h
    constructor
    · unfold worker_thread.process_dest_checked
      simp [h]
    · unfold worker_thread.process_dest
      cases e <;> cases a <;> simp [h]
  · intro rest
    simp only [worker_thread.process_msg_checked]
    cases w.process_dest_checked p id e a <;> rfl
  · intro rest
    simp only [worker_thread.process_msg_checked]
    cases w.process_multicast_msg_checked p dests e a <;> rfl
  · intro rest
    simp only [worker_thread.process_multicast_msg_checked]
    cases w.process_dest_checked p id e a <;> rfl
  · intro h
    obtain ⟨w1, h1, hd, hn, _, _⟩ := process_multicast_msg_checked_spec p w dests e a h
    exact ⟨w1, h1, hd, hn⟩

/-! ## `vertex_compute::run` -/

theorem run_pages_neighbors (c : vertex_compute) (ty : edge_type) (v : vertex_id_t)
    (pages : List page_delivery) (hv : c.v = some v) (hty : ty ≠ edge_type.NONE) :
    (∃ k, (c.run_pages ty pages).2.1
      = (pages.map (fun q => user_callback.run_on_neighbors v [q.id])).take k) ∧
    ((c.run_pages ty pages).2.2.2 = true → (c.run_pages ty pages).2.1
      = pages.map (fun q => user_callback.run_on_neighbors v [q.id])) := by
  induction pages generalizing c with
  | nil => exact ⟨⟨0, rfl⟩, fun _ => rfl⟩
  | cons pg rest ih =>
    have hrun : ∀ c0 : vertex_compute, c0.v = some v →
        (c0.run ty pg).callback = user_callback.run_on_neighbors v [pg.id] ∧
        (c0.run ty pg).compute.v = some v := by
      intro c0 h0
      unfold vertex_compute.run
      rw [h0]
      simp only [hty, ite_false]
      split
      · split <;> exact ⟨rfl, rfl⟩
      · exact ⟨rfl, rfl⟩
    have h1 := hrun { c with num_complete_issues := c.num_complete_issues + pg.issued } hv
    simp only [vertex_compute.run_pages]
    split
    · obtain ⟨⟨k, hk⟩, hall⟩ := ih _ h1.2
      refine ⟨⟨k + 1, ?_⟩, ?_⟩
      · simp only [List.map_cons, List.take_succ_cons, h1.1, hk]
      · intro hok
        simp only [List.map_cons, h1.1, hall hok]
    · refine ⟨⟨1, ?_⟩, ?_⟩
      · simp [h1.1]
      · intro hok
        exact absurd hok (by simp)

theorem run_pages_none (c : vertex_compute) (pages : List page_delivery) :
    (∃ k, (c.run_pages edge_type.NONE pages).2.1
      = (pages.map (fun q => user_callback.run q.id q.id)).take k) ∧
    ((c.run_pages edge_type.NONE pages).2.2.2 = true → (c.run_pages edge_type.NONE pages).2.1
      = pages.map (fun q => user_callback.run q.id q.id)) := by
  induction pages generalizing c with
  | nil => exact ⟨⟨0, rfl⟩, fun _ => rfl⟩
  | cons pg rest ih =>
    have hrun : ∀ c0 : vertex_compute,
        (c0.run edge_type.NONE pg).callback = user_callback.run pg.id pg.id := by
      intro c0
      unfold vertex_compute.run
      cases c0.v with
      | none =>
        dsimp only
        split
        · split <;> rfl
        · rfl
      | some v =>
        simp only [ite_true]
        split
        · split <;> rfl
        · rfl
    have h1 := hrun { c with num_complete_issues := c.num_complete_issues + pg.issued }
    simp only [vertex_compute.run_pages]
    split
    · obtain ⟨⟨k, hk⟩, hall⟩ := ih
        (({ c with num_complete_issues := c.num_complete_issues + pg.issued } :
          vertex_compute).run edge_type.NONE pg).compute
      refine ⟨⟨k + 1, ?_⟩, ?_⟩
      · simp only [List.map_cons, List.take_succ_cons, h1, hk]
      · intro hok
        simp only [List.map_cons, h1, hall hok]
    · refine ⟨⟨1, ?_⟩, ?_⟩
      · simp [h1]
      · intro hok
        exact absurd hok (by simp)

theorem run_first_page (c : vertex_compute) (ty : edge_type) (pg : page_delivery)
    (hv : c.v = none) :
    (c.run ty pg).callback = user_callback.run pg.id pg.id ∧
    (c.run ty pg).compute.v = some pg.id := by
  unfold vertex_compute.run
  rw [hv]
  dsimp only
  split
  · split <;> exact ⟨rfl, rfl⟩
  · exact ⟨rfl, rfl⟩

/-- C15 (amended): for the required-neighbor types IN, OUT and BOTH and every sequence of
pages delivered to a fresh `vertex_compute`, `run` calls the user's `run(vertex)` on the
first page and `run_on_neighbors`, with exactly one decoded neighbor and on the vertex of the
first page, on every later page: the callbacks made are an initial part of that sequence,
and all of it when no assertion fails.  For the type NONE, `run` calls `run(vertex)` on every
page, each time on the vertex whose id the page carries. -/
theorem run_pages_callbacks (ty : edge_type) (pages : List page_delivery) :
    (ty ≠ edge_type.NONE →
      (∃ k, (vertex_compute.new.run_pages ty pages).2.1 = (expected_callbacks pages).take k) ∧
      ((vertex_compute.new.run_pages ty pages).2.2.2 = true →
        (vertex_compute.new.run_pages ty pages).2.1 = expected_callbacks pages)) ∧
    (∃ k, (vertex_compute.new.run_pages edge_type.NONE pages).2.1
      = (pages.map (fun q => user_callback.run q.id q.id)).take k) ∧
    ((vertex_compute.new.run_pages edge_type.NONE pages).2.2.2 = true →
      (vertex_compute.new.run_pages edge_type.NONE pages).2.1
        = pages.map (fun q => user_callback.run q.id q.id)) := by
  refine ⟨?_, (run_pages_none _ pages).1, (run_pages_none _ pages).2⟩
  intro hty
  cases pages with
  | nil => exact ⟨⟨0, rfl⟩, fun _ => rfl⟩
  | cons pg rest =>
    have h1 := run_first_page
      { vertex_compute.new with
        num_complete_issues := vertex_compute.new.num_complete_issues + pg.issued } ty pg rfl
    simp only [vertex_compute.run_pages, expected_callbacks]
    split
    · obtain ⟨⟨k, hk⟩, hall⟩ := run_pages_neighbors _ ty pg.id rest h1.2 hty
      refine ⟨⟨k + 1, ?_⟩, ?_⟩
      · simp only [List.take_succ_cons, h1.1, hk]
      · intro hok
        simp only [h1.1, hall hok]
    · refine ⟨⟨1, ?_⟩, ?_⟩
      · simp [h1.1]
      · intro hok
        exact absurd hok (by simp)

/-- C15 (counterexample): with the required-neighbor type NONE and the two pages of the
vertices 7 and 9, `run` calls `run(vertex)` on vertex 7 and then `run(vertex)` again, on
vertex 9, where the claim has `run_on_neighbors` on vertex 7; no assertion is involved. -/
theorem run_pages_none_runs_again :
    vertex_compute.new.run_pages edge_type.NONE [⟨7, 0, false, false⟩, ⟨9, 1, false, false⟩]
      = (⟨some 9, 1, 0⟩, [user_callback.run 7 7, user_callback.run 9 9], 0, true) ∧
    expected_callbacks [⟨7, 0, false, false⟩, ⟨9, 1, false, false⟩]
      = [user_callback.run 7 7, user_callback.run_on_neighbors 7 [9]] ∧
    (vertex_compute.new.run_pages edge_type.NONE
        [⟨7, 0, false, false⟩, ⟨9, 1, false, false⟩]).2.1
      ≠ expected_callbacks [⟨7, 0, false, false⟩, ⟨9, 1, false, false⟩] := by
  decide

/-- C16: `has_completed()` is true iff `num_complete_issues = num_complete_fetched` and
`has_requests()` is false; one call of `vertex_compute::run` calls `complete_vertex` at most
once, and does so exactly when the user callback returned true and `has_completed()` holds
after the callback, each call adding one to the issuing worker's completed counter; when the
callback returns true while the counters differ or requests remain, the assertion fails and
`complete_vertex` is not called. -/
theorem run_completion (c : vertex_compute) (ty : edge_type) (pg : page_delivery)
    (w : worker_thread) (hr : Bool) :
    (c.has_completed hr = true ↔
      (c.num_complete_issues = c.num_complete_fetched ∧ c.has_requests hr = false)) ∧
    ((c.run ty pg).notified = 1 ↔
      (pg.completed = true ∧ (c.run ty pg).compute.has_completed pg.has_required = true)) ∧
    (c.run ty pg).notified ≤ 1 ∧
    ((c.run ty pg).asserts_hold = false ↔
      (pg.completed = true ∧
        ((c.run ty pg).compute.num_complete_issues ≠ (c.run ty pg).compute.num_complete_fetched
          ∨ (c.run ty pg).compute.has_requests pg.has_required = true))) ∧
    ((c.run ty pg).asserts_hold = false → (c.run ty pg).notified = 0) ∧
    (w.after_run (c.run ty pg)).num_completed_vertices_in_level
      = w.num_completed_vertices_in_level + (c.run ty pg).notified ∧
    w.complete_vertex.num_completed_vertices_in_level
      = w.num_completed_vertices_in_level + 1 := by
  have hiff : ∀ (c1 : vertex_compute) (b : Bool), c1.has_completed b = true ↔
      (c1.num_complete_issues = c1.num_complete_fetched ∧ c1.has_requests b = false) := by
    intro c1 b
    simp [vertex_compute.has_completed]
  have hshape : ∃ c1 cb, c.run ty pg
      = (if pg.completed then
          if c1.has_completed pg.has_required then
            { compute := c1, callback := cb, asserts_hold := true, notified := 1 }
          else { compute := c1, callback := cb, asserts_hold := false, notified := 0 }
        else { compute := c1, callback := cb, asserts_hold := true, notified := 0 }) :=
    ⟨_, _, rfl⟩
  obtain ⟨c1, cb, hrun⟩ := hshape
  rw [hrun]
  have hc := hiff c1 pg.has_required
  refine ⟨hiff c hr, ?_, ?_, ?_, ?_, ?_, rfl⟩
  · cases hcomp : pg.completed <;> cases hdone : c1.has_completed pg.has_required <;> simp [hdone]
  · cases hcomp : pg.completed <;> cases hdone : c1.has_completed pg.has_required <;> simp
  · cases hcomp : pg.completed <;> cases hdone : c1.has_completed pg.has_required
    · simp
    · simp
    · simp only [ite_true, Bool.false_eq_true, ite_false, true_and, true_iff]
      by_contra hcon
      have : c1.num_complete_issues = c1.num_complete_fetched ∧
          c1.has_requests pg.has_required = false := by
        constructor
        · by_contra hne
          exact hcon (Or.inl hne)
        · cases hreq : c1.has_requests pg.has_required with
          | false => rfl
          | true => exact absurd (Or.inr hreq) hcon
      rw [hc.mpr this] at hdone
      exact Bool.noConfusion hdone
    · simp only [ite_true, true_and]
      have := hc.mp hdone
      simp [this.1, this.2]
  · cases hcomp : pg.completed <;> cases hdone : c1.has_completed pg.has_required <;> simp
  · cases hcomp : pg.completed <;> cases hdone : c1.has_completed pg.has_required <;>
      simp [worker_thread.after_run, worker_thread.complete_vertex]

/-! ## `part_ts_vertex_compute` -/

theorem part_run_keeps_issued (c : part_ts_vertex_compute) (page : ts_header) (cb : Bool)
    (r : part_run_result) (h : c.run page cb = some r) :
    r.compute.num_issued = c.num_issued := by
  unfold part_ts_vertex_compute.run at h
  split at h
  · exact Option.noConfusion h
  · split at h
    · split at h
      · exact Option.noConfusion h
      · rw [← Option.some.inj h]
    · split at h
      · exact Option.noConfusion h
      · rw [← Option.some.inj h]

theorem part_get_next_request_issued (c : part_ts_vertex_compute)
    (ext_mem_off : vertex_id_t → Int) (x : request_range × part_ts_vertex_compute)
    (h : c.get_next_request ext_mem_off = some x) :
    c.num_issued = 0 ∧ x.2.num_issued = 1 := by
  unfold part_ts_vertex_compute.get_next_request at h
  split at h
  · exact Option.noConfusion h
  · split at h
    · rename_i hz
      rw [← Option.some.inj h]
      simp [hz]
    · exact Option.noConfusion h

theorem part_get_next_request_none (c : part_ts_vertex_compute)
    (ext_mem_off : vertex_id_t → Int) (h : c.num_issued ≠ 0) :
    c.get_next_request ext_mem_off = none := by
  unfold part_ts_vertex_compute.get_next_request
  split
  · rfl
  · simp [h]

/-- C17: a `part_ts_vertex_compute` created for the vertex `v` and fed the header page (of a
vertex that is not complete) and then the page of the requested range: the user's
`run_on_neighbors` is invoked exactly once, on the second page, on `v` and with the one
neighbor the header names; `has_completed()` is false before and after the first page and
true after the second; `get_next_request` fails before the header is there, succeeds once
after it with the range `[ext_mem_off + first, ext_mem_off + second)` of the header's vertex,
and fails ever after, whatever pages arrive in between. -/
theorem part_ts_two_steps (v : vertex_id_t) (header page2 : ts_header) (cb : Bool)
    (ext_mem_off : vertex_id_t → Int) (hh : header.is_complete = false) :
    (part_ts_vertex_compute.new v).has_completed = false ∧
    (part_ts_vertex_compute.new v).get_next_request ext_mem_off = none ∧
    ∃ r1 rng c2 r3,
      (part_ts_vertex_compute.new v).run header cb = some r1 ∧
      r1.callbacks = [] ∧ r1.notified = 0 ∧ r1.compute.has_completed = false ∧
      r1.compute.get_next_request ext_mem_off = some (rng, c2) ∧
      rng.offset = ext_mem_off header.id + header.first ∧
      rng.offset + rng.size = ext_mem_off header.id + header.second ∧
      c2.get_next_request ext_mem_off = none ∧
      c2.run page2 cb = some r3 ∧
      r3.callbacks = [user_callback.run_on_neighbors v [header.id]] ∧
      r1.callbacks ++ r3.callbacks = [user_callback.run_on_neighbors v [header.id]] ∧
      r3.notified = (if cb then 1 else 0) ∧
      r3.compute.has_completed = true ∧
      r3.compute.get_next_request ext_mem_off = none ∧
      (∀ pg b, r3.compute.run pg b = none) ∧
      (∀ (c c1 : part_ts_vertex_compute) (x : request_range),
        c.get_next_request ext_mem_off = some (x, c1) →
        c1.get_next_request ext_mem_off = none ∧
        ∀ pg b r, c1.run pg b = some r → r.compute.get_next_request ext_mem_off = none) := by
  refine ⟨rfl, rfl, ?_⟩
  refine ⟨{ compute := { part_ts_vertex_compute.new v with
              required_vertex_header := some header }, callbacks := [], notified := 0 },
    { offset := header.first + ext_mem_off header.id, size := header.second - header.first },
    { comp_v := some v, required_vertex_header := some header, num_issued := 0 + 1,
      num_fetched := 0 },
    { compute := { comp_v := some v, required_vertex_header := some header,
                   num_issued := 0 + 1, num_fetched := 0 + 1 },
      callbacks := [user_callback.run_on_neighbors v [header.id]],
      notified := if cb then 1 else 0 }, ?_, rfl, rfl, rfl, rfl, ?_, ?_, rfl, rfl, rfl, rfl,
    rfl, rfl, rfl, ?_, ?_⟩
  · simp [part_ts_vertex_compute.run, part_ts_vertex_compute.new,
      part_ts_vertex_compute.has_completed, hh]
  · show header.first + ext_mem_off header.id = ext_mem_off header.id + header.first
    omega
  · show header.first + ext_mem_off header.id + (header.second - header.first)
      = ext_mem_off header.id + header.second
    omega
  · intro pg b
    rfl
  · intro c c1 x hx
    have h1 := (part_get_next_request_issued c ext_mem_off (x, c1) hx).2
    have hne : c1.num_issued ≠ 0 := by
      rw [h1]
      decide
    refine ⟨part_get_next_request_none c1 ext_mem_off hne, ?_⟩
    intro pg b r hr
    apply part_get_next_request_none
    rw [part_run_keeps_issued c1 pg b r hr]
    exact hne

/-- Witness for `part_ts_two_steps`: the header of vertex 4 with the relative offsets 16 and
40, for the requesting vertex 2. -/
theorem part_ts_two_steps_witness :
    (ts_header.mk 4 false 16 40).is_complete = false ∧
    (part_ts_vertex_compute.new 2).run ⟨4, false, 16, 40⟩ false
      = some ⟨⟨some 2, some ⟨4, false, 16, 40⟩, 0, 0⟩, [], 0⟩ ∧
    part_ts_vertex_compute.get_next_request ⟨some 2, some ⟨4, false, 16, 40⟩, 0, 0⟩
        (fun id => 1000 * id)
      = some (⟨4016, 24⟩, ⟨some 2, some ⟨4, false, 16, 40⟩, 1, 0⟩) ∧
    (part_ts_vertex_compute.new 2).has_completed = false ∧
    (part_ts_vertex_compute.new 2).get_next_request (fun id => 1000 * id) = none :=
  ⟨rfl, by decide, by decide,
    (part_ts_two_steps 2 ⟨4, false, 16, 40⟩ ⟨4, false, 16, 40⟩ false (fun id => 1000 * id)
      rfl).1,
    (part_ts_two_steps 2 ⟨4, false, 16, 40⟩ ⟨4, false, 16, 40⟩ false (fun id => 1000 * id)
      rfl).2.1⟩

/-! ## The I/O scheduler: no request is lost -/

theorem count_flatten_set_req (L : List (List io_request)) (i : Nat)
    (x old : List io_request) (r : io_request) (h : L[i]? = some old) :
    List.count r (L.set i x).flatten + List.count r old
      = List.count r L.flatten + List.count r x := by
  induction L generalizing i with
  | nil => simp at h
  | cons y ys ih =>
    cases i with
    | zero =>
      simp only [List.getElem?_cons_zero, Option.some.injEq] at h
      subst h
      simp only [List.set_cons_zero, List.flatten_cons, List.count_append]
      omega
    | succ k =>
      simp only [List.getElem?_cons_succ] at h
      have := ih k h
      simp only [List.set_cons_succ, List.flatten_cons, List.count_append]
      omega

theorem new_prio_compute_count (computes : List user_compute) (i : Nat) (pc : prio_compute)
    (computes1 : List user_compute) (r : io_request)
    (h : new_prio_compute computes i = some (pc, computes1)) :
    List.count r (pending_all computes)
      = List.count r (pending_all computes1) + List.count r [pc.req] := by
  obtain ⟨q, rest, hc, rfl, rfl⟩ := new_prio_compute_some computes i pc computes1 h
  unfold pending_all
  rw [List.map_set]
  have := count_flatten_set_req (computes.map (fun c => c.pending)) i rest (q :: rest) r
    (by rw [List.getElem?_map, hc]; rfl)
  have hcons : List.count r (q :: rest) = List.count r [q] + List.count r rest := by
    rw [← List.count_append]
    rfl
  dsimp only at this ⊢
  omega

theorem push_count (pc : prio_compute) (h : priority_queue) (r : io_request) :
    List.count r ((priority_queue.push pc h).map (fun x => x.req))
      = List.count r [pc.req] + List.count r (h.map (fun x => x.req)) := by
  have hp : List.Perm ((priority_queue.push pc h).map (fun x => x.req))
      ((pc :: h).map (fun x => x.req)) :=
    (List.perm_orderedInsert pq_le pc h).map _
  rw [hp.count_eq, List.map_cons, ← List.count_append]
  rfl

theorem collect_computes_count (idxs : List Nat) (computes : List user_compute)
    (h : priority_queue) (r : io_request) :
    List.count r (pending_all (collect_computes idxs computes h).1)
      + List.count r ((collect_computes idxs computes h).2.map (fun x => x.req))
      = List.count r (pending_all computes) + List.count r (h.map (fun x => x.req)) := by
  induction idxs generalizing computes h with
  | nil => rfl
  | cons i rest ih =>
    simp only [collect_computes]
    cases hn : new_prio_compute computes i with
    | none => exact ih computes h
    | some v =>
      obtain ⟨pc, computes1⟩ := v
      have h1 := ih computes1 (priority_queue.push pc h)
      have h2 := new_prio_compute_count computes i pc computes1 r hn
      have h3 := push_count pc h r
      dsimp only
      omega

/-- The requests in `reqs`, in the priority queue and still with the user computes, as seen
by the emitting loop. -/
theorem emit_step_count (s : emit_state) (e : prio_compute) (rest : priority_queue)
    (r : io_request) :
    List.count r (emit_step s e rest).reqs.buf
      + List.count r ((emit_step s e rest).user_computes.map (fun x => x.req))
      + List.count r (pending_all (emit_step s e rest).computes)
      = List.count r s.reqs.buf + List.count r ((e :: rest).map (fun x => x.req))
        + List.count r (pending_all s.computes) := by
  have hcons : List.count r ((e :: rest).map (fun x => x.req))
      = List.count r [e.req] + List.count r (rest.map (fun x => x.req)) := by
    rw [List.map_cons, ← List.count_append]
    rfl
  unfold emit_step
  cases hn : new_prio_compute s.computes e.compute with
  | none =>
    simp only [fifo_queue.push_back, List.count_append]
    omega
  | some v =>
    obtain ⟨pc, computes1⟩ := v
    have h2 := new_prio_compute_count s.computes e.compute pc computes1 r hn
    have h3 := push_count pc rest r
    simp only [fifo_queue.push_back, List.count_append]
    omega

theorem emit_loop_count (n : Nat) (s : emit_state) (r : io_request) :
    List.count r (emit_loop n s).reqs.buf
      + List.count r ((emit_loop n s).user_computes.map (fun x => x.req))
      + List.count r (pending_all (emit_loop n s).computes)
      = List.count r s.reqs.buf + List.count r (s.user_computes.map (fun x => x.req))
        + List.count r (pending_all s.computes) := by
  induction n generalizing s with
  | zero => rfl
  | succ n ih =>
    unfold emit_loop
    by_cases hfull : s.reqs.is_full = true
    · simp only [hfull, ite_true]
    · simp only [hfull, Bool.false_eq_true, ite_false]
      cases hh : s.user_computes with
      | nil => simp only [hh]
      | cons e rest =>
        dsimp only
        rw [ih (emit_step s e rest)]
        exact emit_step_count s e rest r

theorem collect_computes_pending_le (idxs : List Nat) (computes : List user_compute)
    (h : priority_queue) (r : io_request) :
    List.count r (pending_all (collect_computes idxs computes h).1)
      ≤ List.count r (pending_all computes) := by
  induction idxs generalizing computes h with
  | nil => exact le_refl _
  | cons i rest ih =>
    simp only [collect_computes]
    cases hn : new_prio_compute computes i with
    | none => exact ih computes h
    | some v =>
      obtain ⟨pc, computes1⟩ := v
      have h1 := ih computes1 (priority_queue.push pc h)
      have h2 := new_prio_compute_count computes i pc computes1 r hn
      dsimp only
      omega

theorem emit_loop_pending_le (n : Nat) (s : emit_state) (r : io_request) :
    List.count r (pending_all (emit_loop n s).computes)
      ≤ List.count r (pending_all s.computes) := by
  induction n generalizing s with
  | zero => exact le_refl _
  | succ n ih =>
    unfold emit_loop
    by_cases hfull : s.reqs.is_full = true
    · simp only [hfull, ite_true, le_refl]
    · simp only [hfull, Bool.false_eq_true, ite_false]
      cases hh : s.user_computes with
      | nil => exact le_refl _
      | cons e rest =>
        dsimp only
        refine le_trans (ih (emit_step s e rest)) ?_
        unfold emit_step
        cases hn : new_prio_compute s.computes e.compute with
        | none => exact le_refl _
        | some v =>
          obtain ⟨pc, computes1⟩ := v
          have h2 := new_prio_compute_count s.computes e.compute pc computes1 r hn
          dsimp only
          omega

theorem park_requests_buf (h : priority_queue) (req_buf : fifo_queue io_request) :
    (park_requests h req_buf).buf = req_buf.buf ++ h.map (fun x => x.req) := by
  induction h generalizing req_buf with
  | nil => simp [park_requests]
  | cons e rest ih =>
    simp only [park_requests]
    rw [ih]
    split <;> simp [fifo_queue.push_back, fifo_queue.expand_queue]

theorem get_requests_sched_full (s : throughput_comp_io_scheduler)
    (reqs : fifo_queue io_request) (h : (s.drain reqs).1.is_full = true) :
    (s.get_requests reqs).sched = { req_buf := (s.drain reqs).2.1, computes := s.computes } := by
  simp [throughput_comp_io_scheduler.get_requests, h]

theorem get_requests_sched_room (s : throughput_comp_io_scheduler)
    (reqs : fifo_queue io_request) (h : ¬ (s.drain reqs).1.is_full = true) :
    (s.get_requests reqs).sched
      = { req_buf := park_requests
            (emit_loop ((s.drain reqs).1.size - (s.drain reqs).1.buf.length)
              { reqs := (s.drain reqs).1,
                computes := (collect_computes (List.range s.computes.length) s.computes []).1,
                user_computes :=
                  (collect_computes (List.range s.computes.length) s.computes []).2,
                prev := 0, num := 0, asserts_hold := true,
                top_of_empty := false }).user_computes (s.drain reqs).2.1,
          computes :=
            (emit_loop ((s.drain reqs).1.size - (s.drain reqs).1.buf.length)
              { reqs := (s.drain reqs).1,
                computes := (collect_computes (List.range s.computes.length) s.computes []).1,
                user_computes :=
                  (collect_computes (List.range s.computes.length) s.computes []).2,
                prev := 0, num := 0, asserts_hold := true,
                top_of_empty := false }).computes } := by
  simp [throughput_comp_io_scheduler.get_requests, h]

/-- Counting one request `r` over the output queue, the internal buffer and the user
computes gives the same before and after a call of `get_requests`. -/
theorem get_requests_count (s : throughput_comp_io_scheduler) (reqs : fifo_queue io_request)
    (r : io_request) :
    List.count r (s.get_requests reqs).reqs.buf
      + List.count r (s.get_requests reqs).sched.req_buf.buf
      + List.count r (pending_all (s.get_requests reqs).sched.computes)
      = List.count r reqs.buf + List.count r s.req_buf.buf
        + List.count r (pending_all s.computes) := by
  have hd := drain_spec s reqs
  have hsplit : List.count r s.req_buf.buf
      = List.count r (s.req_buf.buf.take (s.drain reqs).2.2)
        + List.count r (s.req_buf.buf.drop (s.drain reqs).2.2) := by
    rw [← List.count_append, List.take_append_drop]
  have hd1 : List.count r (s.drain reqs).1.buf
      = List.count r reqs.buf + List.count r (s.req_buf.buf.take (s.drain reqs).2.2) := by
    rw [hd.1, List.count_append]
  by_cases hfull : (s.drain reqs).1.is_full = true
  · rw [get_requests_reqs_full s reqs hfull, get_requests_sched_full s reqs hfull]
    dsimp only
    rw [hd.2.2.1]
    omega
  · rw [get_requests_reqs_room s reqs hfull, get_requests_sched_room s reqs hfull]
    dsimp only
    rw [park_requests_buf, List.count_append, hd.2.2.1]
    have hloop := emit_loop_count ((s.drain reqs).1.size - (s.drain reqs).1.buf.length)
      { reqs := (s.drain reqs).1,
        computes := (collect_computes (List.range s.computes.length) s.computes []).1,
        user_computes := (collect_computes (List.range s.computes.length) s.computes []).2,
        prev := 0, num := 0, asserts_hold := true, top_of_empty := false } r
    have hcol := collect_computes_count (List.range s.computes.length) s.computes [] r
    simp only [List.map_nil, List.count_nil, Nat.add_zero] at hcol
    dsimp only at hloop
    omega

/-- C18: one call of `get_requests` neither drops nor duplicates a request: the requests it
appends to the output queue, those left in the internal buffer and those still with the user
computes are, as a multiset, the requests that were in the internal buffer and with the user
computes before the call.  So every request that was buffered or was fetched from a user
compute during the call ends up exactly once in the output queue or in the internal buffer.
When the output queue is full after the buffer was drained, no user compute is touched. -/
theorem get_requests_conservation (s : throughput_comp_io_scheduler)
    (reqs : fifo_queue io_request) :
    (s.get_requests reqs).reqs.buf = reqs.buf ++ s.appended reqs ∧
    List.Perm
      (s.appended reqs ++ (s.get_requests reqs).sched.req_buf.buf
        ++ pending_all (s.get_requests reqs).sched.computes)
      (s.req_buf.buf ++ pending_all s.computes) ∧
    (∀ r, List.count r (s.appended reqs)
        + List.count r (s.get_requests reqs).sched.req_buf.buf
      = List.count r s.req_buf.buf
        + (List.count r (pending_all s.computes)
          - List.count r (pending_all (s.get_requests reqs).sched.computes))) ∧
    (∀ r, List.count r (pending_all (s.get_requests reqs).sched.computes)
      ≤ List.count r (pending_all s.computes)) ∧
    ((s.drain reqs).1.is_full = true →
      (s.get_requests reqs).sched.computes = s.computes ∧
      (s.get_requests reqs).reqs = (s.drain reqs).1) := by
  have hbuf : (s.get_requests reqs).reqs.buf = reqs.buf ++ s.appended reqs := by
    have hd := drain_spec s reqs
    unfold throughput_comp_io_scheduler.appended
    by_cases hfull : (s.drain reqs).1.is_full = true
    · rw [get_requests_reqs_full s reqs hfull, hd.1]
      simp
    · rw [get_requests_reqs_room s reqs hfull]
      have hle : ∀ n st, ∃ popped, (emit_loop n st).reqs.buf = st.reqs.buf ++ popped := by
        intro n
        induction n with
        | zero => exact fun st => ⟨[], by simp [emit_loop]⟩
        | succ n ih =>
          intro st
          unfold emit_loop
          by_cases hf : st.reqs.is_full = true
          · exact ⟨[], by simp [hf]⟩
          · simp only [hf, Bool.false_eq_true, ite_false]
            cases hh : st.user_computes with
            | nil => exact ⟨[], by simp⟩
            | cons e rest =>
              obtain ⟨popped, hp⟩ := ih (emit_step st e rest)
              have hb : (emit_step st e rest).reqs.buf = st.reqs.buf ++ [e.req] := by
                unfold emit_step
                cases new_prio_compute st.computes e.compute with
                | none => rfl
                | some v => rfl
              exact ⟨e.req :: popped, by simp [hp, hb]⟩
      obtain ⟨popped, hp⟩ := hle ((s.drain reqs).1.size - (s.drain reqs).1.buf.length)
        { reqs := (s.drain reqs).1,
          computes := (collect_computes (List.range s.computes.length) s.computes []).1,
          user_computes := (collect_computes (List.range s.computes.length) s.computes []).2,
          prev := 0, num := 0, asserts_hold := true, top_of_empty := false }
      rw [hp]
      dsimp only
      rw [hd.1]
      simp
  have hcount : ∀ r, List.count r (s.appended reqs)
      + List.count r (s.get_requests reqs).sched.req_buf.buf
      + List.count r (pending_all (s.get_requests reqs).sched.computes)
      = List.count r s.req_buf.buf + List.count r (pending_all s.computes) := by
    intro r
    have h := get_requests_count s reqs r
    rw [hbuf, List.count_append] at h
    omega
  have hle : ∀ r, List.count r (pending_all (s.get_requests reqs).sched.computes)
      ≤ List.count r (pending_all s.computes) := by
    intro r
    by_cases hfull : (s.drain reqs).1.is_full = true
    · rw [get_requests_sched_full s reqs hfull]
    · rw [get_requests_sched_room s reqs hfull]
      dsimp only
      exact le_trans (emit_loop_pending_le _ _ r)
        (collect_computes_pending_le (List.range s.computes.length) s.computes [] r)
  refine ⟨hbuf, ?_, ?_, hle, ?_⟩
  · rw [List.perm_iff_count]
    intro r
    simp only [List.count_append]
    exact hcount r
  · intro r
    have := hcount r
    have := hle r
    omega
  · intro hfull
    rw [get_requests_sched_full s reqs hfull, get_requests_reqs_full s reqs hfull]
    exact ⟨rfl, rfl⟩

/-! ## The I/O scheduler: the k-way merge -/

theorem emit_step_flags (s : emit_state) (e : prio_compute) (rest : priority_queue)
    (hinv : sched_inv s.computes (e :: rest)) (hprev : s.prev ≤ e.req.offset) :
    (emit_step s e rest).asserts_hold = (s.asserts_hold && !rest.isEmpty) ∧
    (emit_step s e rest).top_of_empty = (s.top_of_empty || rest.isEmpty) ∧
    (emit_step s e rest).prev = e.req.offset := by
  obtain ⟨_, hge⟩ := sched_inv_tail s.computes e rest hinv
  unfold emit_step
  cases hn : new_prio_compute s.computes e.compute with
  | none =>
    cases rest with
    | nil => simp [hprev]
    | cons t tl => simp [hprev, hge t (List.mem_cons_self _ _)]
  | some v =>
    obtain ⟨pc, computes1⟩ := v
    obtain ⟨r, tl, hc, hpc, _⟩ := new_prio_compute_some _ _ _ _ hn
    have ha3 : e.req.offset ≤ pc.req.offset := by
      rw [hpc]
      exact hinv.2.2 e (List.mem_cons_self _ _) _ hc r (List.mem_cons_self _ _)
    cases rest with
    | nil => simp [hprev, ha3]
    | cons t tl => simp [hprev, ha3, hge t (List.mem_cons_self _ _)]

/-- The emitting loop over user computes that yield non-decreasing offsets: every assertion
holds but the one of line 119 where it is evaluated on the emptied queue, what the loop
appends is in non-decreasing offset order and not below `prev`, and nothing it appends lies
above an entry it leaves in the priority queue. -/
theorem emit_loop_merge (n : Nat) (s : emit_state)
    (hinv : sched_inv s.computes s.user_computes)
    (hprev : ∀ x ∈ s.user_computes, s.prev ≤ x.req.offset)
    (hok : s.asserts_hold = !s.top_of_empty) :
    (emit_loop n s).asserts_hold = (!(emit_loop n s).top_of_empty) ∧
    (∀ x ∈ (emit_loop n s).user_computes, s.prev ≤ x.req.offset) ∧
    ∃ popped, (emit_loop n s).reqs.buf = s.reqs.buf ++ popped ∧
      List.Pairwise (fun a b : io_request => a.offset ≤ b.offset) popped ∧
      (∀ r ∈ popped, s.prev ≤ r.offset) ∧
      ∀ r ∈ popped, ∀ x ∈ (emit_loop n s).user_computes, r.offset ≤ x.req.offset := by
  induction n generalizing s with
  | zero =>
    exact ⟨hok, hprev, [], by simp [emit_loop], List.Pairwise.nil,
      fun _ h => absurd h (List.not_mem_nil _), fun _ h => absurd h (List.not_mem_nil _)⟩
  | succ n ih =>
    unfold emit_loop
    by_cases hfull : s.reqs.is_full = true
    · simp only [hfull, ite_true]
      exact ⟨hok, hprev, [], by simp, List.Pairwise.nil,
        fun _ h => absurd h (List.not_mem_nil _), fun _ h => absurd h (List.not_mem_nil _)⟩
    · simp only [hfull, Bool.false_eq_true, ite_false]
      cases hh : s.user_computes with
      | nil =>
        dsimp only
        refine ⟨hok, ?_, [], by simp, List.Pairwise.nil,
          fun _ h => absurd h (List.not_mem_nil _), fun _ h => absurd h (List.not_mem_nil _)⟩
        rw [hh]
        exact fun _ h => absurd h (List.not_mem_nil _)
      | cons e rest =>
        dsimp only
        rw [hh] at hinv hprev
        have hpe := hprev e (List.mem_cons_self _ _)
        obtain ⟨hbuf, _, hinv1, hge⟩ := emit_step_spec s e rest hinv
        obtain ⟨hok0, htop0, hprev1⟩ := emit_step_flags s e rest hinv hpe
        have hok1 : (emit_step s e rest).asserts_hold
            = !(emit_step s e rest).top_of_empty := by
          rw [hok0, htop0, hok]
          cases s.top_of_empty <;> cases rest.isEmpty <;> rfl
        have hge1 : ∀ x ∈ (emit_step s e rest).user_computes,
            (emit_step s e rest).prev ≤ x.req.offset := by
          rw [hprev1]
          exact hge
        obtain ⟨hokf, hlow, popped, hp1, hp2, hp3, hp4⟩ :=
          ih (emit_step s e rest) hinv1 hge1 hok1
        rw [hprev1] at hlow hp3
        refine ⟨hokf, fun x hx => le_trans hpe (hlow x hx), e.req :: popped, ?_, ?_, ?_, ?_⟩
        · simp only [hp1, hbuf, List.append_assoc, List.singleton_append]
        · exact List.pairwise_cons.mpr ⟨hp3, hp2⟩
        · intro r hr
          rcases List.mem_cons.mp hr with rfl | hr1
          · exact hpe
          · exact le_trans hpe (hp3 r hr1)
        · intro r hr x hx
          rcases List.mem_cons.mp hr with rfl | hr1
          · exact hlow x hx
          · exact hp4 r hr1 x hx

theorem new_prio_compute_nonneg (computes : List user_compute) (i : Nat) (pc : prio_compute)
    (computes1 : List user_compute)
    (hpos : ∀ c ∈ computes, ∀ r ∈ c.pending, 0 ≤ r.offset)
    (h : new_prio_compute computes i = some (pc, computes1)) :
    0 ≤ pc.req.offset ∧ ∀ c ∈ computes1, ∀ r ∈ c.pending, 0 ≤ r.offset := by
  obtain ⟨q, rest, hc, rfl, rfl⟩ := new_prio_compute_some computes i pc computes1 h
  have hq := hpos _ (List.getElem?_mem hc)
  refine ⟨hq q (List.mem_cons_self _ _), ?_⟩
  intro c hcm r hr
  rcases List.mem_or_eq_of_mem_set hcm with hm | rfl
  · exact hpos c hm r hr
  · exact hq r (List.mem_cons_of_mem _ hr)

theorem collect_computes_nonneg (idxs : List Nat) (computes : List user_compute)
    (h : priority_queue) (hpos : ∀ c ∈ computes, ∀ r ∈ c.pending, 0 ≤ r.offset)
    (hh : ∀ x ∈ h, 0 ≤ x.req.offset) :
    ∀ x ∈ (collect_computes idxs computes h).2, 0 ≤ x.req.offset := by
  induction idxs generalizing computes h with
  | nil => exact hh
  | cons i rest ih =>
    simp only [collect_computes]
    cases hn : new_prio_compute computes i with
    | none => exact ih computes h hpos hh
    | some v =>
      obtain ⟨pc, computes1⟩ := v
      obtain ⟨hpc, hpos1⟩ := new_prio_compute_nonneg computes i pc computes1 hpos hn
      apply ih computes1 _ hpos1
      intro x hx
      rcases (List.mem_orderedInsert pq_le).mp hx with rfl | hxh
      · exact hpc
      · exact hh x hxh

theorem get_requests_asserts_full (s : throughput_comp_io_scheduler)
    (reqs : fifo_queue io_request) (h : (s.drain reqs).1.is_full = true) :
    (s.get_requests reqs).asserts_hold = true := by
  simp [throughput_comp_io_scheduler.get_requests, h]

theorem get_requests_asserts_room (s : throughput_comp_io_scheduler)
    (reqs : fifo_queue io_request) (h : ¬ (s.drain reqs).1.is_full = true) :
    (s.get_requests reqs).asserts_hold
      = (emit_loop ((s.drain reqs).1.size - (s.drain reqs).1.buf.length)
          { reqs := (s.drain reqs).1,
            computes := (collect_computes (List.range s.computes.length) s.computes []).1,
            user_computes := (collect_computes (List.range s.computes.length) s.computes []).2,
            prev := 0, num := 0, asserts_hold := true, top_of_empty := false }).asserts_hold := by
  simp [throughput_comp_io_scheduler.get_requests, h]

theorem get_requests_top_full (s : throughput_comp_io_scheduler)
    (reqs : fifo_queue io_request) (h : (s.drain reqs).1.is_full = true) :
    (s.get_requests reqs).top_of_empty = false := by
  simp [throughput_comp_io_scheduler.get_requests, h]

theorem get_requests_top_room (s : throughput_comp_io_scheduler)
    (reqs : fifo_queue io_request) (h : ¬ (s.drain reqs).1.is_full = true) :
    (s.get_requests reqs).top_of_empty
      = (emit_loop ((s.drain reqs).1.size - (s.drain reqs).1.buf.length)
          { reqs := (s.drain reqs).1,
            computes := (collect_computes (List.range s.computes.length) s.computes []).1,
            user_computes := (collect_computes (List.range s.computes.length) s.computes []).2,
            prev := 0, num := 0, asserts_hold := true, top_of_empty := false }).top_of_empty := by
  simp [throughput_comp_io_scheduler.get_requests, h]

/-- The k-way merge of `get_requests`: when the internal buffer is empty, every user compute
yields its requests in non-decreasing offset order and offsets are not negative, one call
appends the requests in non-decreasing offset order, every appended offset is at most the
offset of every request the call leaves in the internal buffer, and the only assertion that
can fail to hold is the one of line 119 where a pop has emptied the priority queue: all
assertions hold exactly when `top()` is never read on the emptied queue. -/
theorem get_requests_merge (s : throughput_comp_io_scheduler) (reqs : fifo_queue io_request)
    (hbuf : s.req_buf.is_empty = true) (hm : ∀ c ∈ s.computes, c.monotone)
    (hpos : ∀ c ∈ s.computes, ∀ r ∈ c.pending, 0 ≤ r.offset) :
    List.Pairwise (fun a b : io_request => a.offset ≤ b.offset) (s.appended reqs) ∧
    (∀ a ∈ s.appended reqs, ∀ b ∈ (s.get_requests reqs).sched.req_buf.buf,
      a.offset ≤ b.offset) ∧
    ((s.get_requests reqs).asserts_hold = true ↔
      (s.get_requests reqs).top_of_empty = false) ∧
    (s.get_requests reqs).reqs.buf = reqs.buf ++ s.appended reqs := by
  have hnil : s.req_buf.buf = [] := by
    simpa [fifo_queue.is_empty] using hbuf
  have hd1 : (s.drain reqs).1 = reqs := by
    simp [throughput_comp_io_scheduler.drain, hbuf]
  have hd2 : (s.drain reqs).2.1 = s.req_buf := by
    simp [throughput_comp_io_scheduler.drain, hbuf]
  by_cases hfull : (s.drain reqs).1.is_full = true
  · have happ : s.appended reqs = [] := by
      unfold throughput_comp_io_scheduler.appended
      rw [get_requests_reqs_full s reqs hfull, hd1]
      simp
    rw [happ]
    refine ⟨List.Pairwise.nil, fun _ h => absurd h (List.not_mem_nil _), ?_, ?_⟩
    · rw [get_requests_asserts_full s reqs hfull, get_requests_top_full s reqs hfull]
      exact ⟨fun _ => rfl, fun _ => rfl⟩
    · rw [get_requests_reqs_full s reqs hfull, hd1]
      simp
  · have hinv0 : sched_inv s.computes [] :=
      ⟨hm, List.sorted_nil, fun _ h => absurd h (List.not_mem_nil _)⟩
    have hinv := collect_computes_inv (List.range s.computes.length) s.computes [] hinv0
    have hnn := collect_computes_nonneg (List.range s.computes.length) s.computes [] hpos
      (fun _ h => absurd h (List.not_mem_nil _))
    obtain ⟨hok, _, popped, hp1, hp2, _, hp4⟩ := emit_loop_merge
      ((s.drain reqs).1.size - (s.drain reqs).1.buf.length)
      { reqs := (s.drain reqs).1,
        computes := (collect_computes (List.range s.computes.length) s.computes []).1,
        user_computes := (collect_computes (List.range s.computes.length) s.computes []).2,
        prev := 0, num := 0, asserts_hold := true, top_of_empty := false } hinv hnn rfl
    have hbufeq : (s.get_requests reqs).reqs.buf = reqs.buf ++ popped := by
      rw [get_requests_reqs_room s reqs hfull, hp1]
      dsimp only
      rw [hd1]
    have happ : s.appended reqs = popped := by
      unfold throughput_comp_io_scheduler.appended
      rw [hbufeq]
      simp
    rw [happ]
    refine ⟨hp2, ?_, ?_, hbufeq⟩
    · intro a ha b hb
      rw [get_requests_sched_room s reqs hfull] at hb
      dsimp only at hb
      rw [park_requests_buf, hd2, hnil, List.nil_append] at hb
      obtain ⟨x, hx, rfl⟩ := List.mem_map.mp hb
      exact hp4 a ha x hx
    · rw [get_requests_asserts_room s reqs hfull, get_requests_top_room s reqs hfull, hok]
      generalize (emit_loop ((s.drain reqs).1.size - (s.drain reqs).1.buf.length)
        { reqs := (s.drain reqs).1,
          computes := (collect_computes (List.range s.computes.length) s.computes []).1,
          user_computes := (collect_computes (List.range s.computes.length) s.computes []).2,
          prev := 0, num := 0, asserts_hold := true, top_of_empty := false }).top_of_empty = b
      cases b <;> simp

/-- The merge at an input: two user computes with the offsets `5, 9` and `7, 8`, an output
queue with room for three requests; no pop empties the priority queue. -/
theorem get_requests_merge_witness :
    (throughput_comp_io_scheduler.mk ⟨[], 512⟩
      [⟨[⟨5, 1⟩, ⟨9, 3⟩]⟩, ⟨[⟨7, 2⟩, ⟨8, 4⟩]⟩]).req_buf.is_empty = true ∧
    (∀ c ∈ (throughput_comp_io_scheduler.mk ⟨[], 512⟩
      [⟨[⟨5, 1⟩, ⟨9, 3⟩]⟩, ⟨[⟨7, 2⟩, ⟨8, 4⟩]⟩]).computes, c.monotone) ∧
    (∀ c ∈ (throughput_comp_io_scheduler.mk ⟨[], 512⟩
      [⟨[⟨5, 1⟩, ⟨9, 3⟩]⟩, ⟨[⟨7, 2⟩, ⟨8, 4⟩]⟩]).computes, ∀ r ∈ c.pending, 0 ≤ r.offset) ∧
    (throughput_comp_io_scheduler.mk ⟨[], 512⟩
      [⟨[⟨5, 1⟩, ⟨9, 3⟩]⟩, ⟨[⟨7, 2⟩, ⟨8, 4⟩]⟩]).appended ⟨[], 3⟩
        = [⟨5, 1⟩, ⟨7, 2⟩, ⟨8, 4⟩] ∧
    ((throughput_comp_io_scheduler.mk ⟨[], 512⟩
      [⟨[⟨5, 1⟩, ⟨9, 3⟩]⟩, ⟨[⟨7, 2⟩, ⟨8, 4⟩]⟩]).get_requests ⟨[], 3⟩).sched.req_buf.buf
        = [⟨9, 3⟩] ∧
    List.Pairwise (fun a b : io_request => a.offset ≤ b.offset)
      ((throughput_comp_io_scheduler.mk ⟨[], 512⟩
        [⟨[⟨5, 1⟩, ⟨9, 3⟩]⟩, ⟨[⟨7, 2⟩, ⟨8, 4⟩]⟩]).appended ⟨[], 3⟩) ∧
    (((throughput_comp_io_scheduler.mk ⟨[], 512⟩
      [⟨[⟨5, 1⟩, ⟨9, 3⟩]⟩, ⟨[⟨7, 2⟩, ⟨8, 4⟩]⟩]).get_requests ⟨[], 3⟩).asserts_hold
        = true ↔
      ((throughput_comp_io_scheduler.mk ⟨[], 512⟩
        [⟨[⟨5, 1⟩, ⟨9, 3⟩]⟩, ⟨[⟨7, 2⟩, ⟨8, 4⟩]⟩]).get_requests ⟨[], 3⟩).top_of_empty
          = false) ∧
    ((throughput_comp_io_scheduler.mk ⟨[], 512⟩
      [⟨[⟨5, 1⟩, ⟨9, 3⟩]⟩, ⟨[⟨7, 2⟩, ⟨8, 4⟩]⟩]).get_requests ⟨[], 3⟩).asserts_hold
        = true := by
  have hm : ∀ c ∈ (throughput_comp_io_scheduler.mk ⟨[], 512⟩
      [⟨[⟨5, 1⟩, ⟨9, 3⟩]⟩, ⟨[⟨7, 2⟩, ⟨8, 4⟩]⟩]).computes, c.monotone := by
    intro c hc
    simp only [List.mem_cons, List.mem_singleton, List.not_mem_nil, or_false] at hc
    rcases hc with rfl | rfl <;> simp [user_compute.monotone]
  have hpos : ∀ c ∈ (throughput_comp_io_scheduler.mk ⟨[], 512⟩
      [⟨[⟨5, 1⟩, ⟨9, 3⟩]⟩, ⟨[⟨7, 2⟩, ⟨8, 4⟩]⟩]).computes, ∀ r ∈ c.pending, 0 ≤ r.offset := by
    intro c hc
    simp only [List.mem_cons, List.mem_singleton, List.not_mem_nil, or_false] at hc
    rcases hc with rfl | rfl <;> simp
  have h := get_requests_merge (throughput_comp_io_scheduler.mk ⟨[], 512⟩
    [⟨[⟨5, 1⟩, ⟨9, 3⟩]⟩, ⟨[⟨7, 2⟩, ⟨8, 4⟩]⟩]) ⟨[], 3⟩ rfl hm hpos
  exact ⟨rfl, hm, hpos, by decide, by decide, h.1, h.2.2.1, by decide⟩

/-- C19 (the code at the failing input): with an empty internal buffer, two user computes
holding one request each (offsets 5 and 7, so each yields its requests in non-decreasing
order) and an empty output queue of capacity 4, one call of `get_requests` appends the
offsets 5, 7 in order and parks nothing, but the second pop empties the priority queue and
the assertion of line 119 is then evaluated on the empty queue: not every assertion that
compares an offset with `prev` holds.  The same happens in every iteration that pops the last
entry of the priority queue. -/
theorem get_requests_assertion_on_emptied_queue :
    (throughput_comp_io_scheduler.mk ⟨[], 512⟩
      [⟨[⟨5, 1⟩]⟩, ⟨[⟨7, 2⟩]⟩]).req_buf.is_empty = true ∧
    (∀ c ∈ (throughput_comp_io_scheduler.mk ⟨[], 512⟩ [⟨[⟨5, 1⟩]⟩, ⟨[⟨7, 2⟩]⟩]).computes,
      c.monotone) ∧
    ((throughput_comp_io_scheduler.mk ⟨[], 512⟩
      [⟨[⟨5, 1⟩]⟩, ⟨[⟨7, 2⟩]⟩]).appended ⟨[], 4⟩).map (fun r => r.offset) = [5, 7] ∧
    ((throughput_comp_io_scheduler.mk ⟨[], 512⟩
      [⟨[⟨5, 1⟩]⟩, ⟨[⟨7, 2⟩]⟩]).get_requests ⟨[], 4⟩).sched.req_buf.buf = [] ∧
    ((throughput_comp_io_scheduler.mk ⟨[], 512⟩
      [⟨[⟨5, 1⟩]⟩, ⟨[⟨7, 2⟩]⟩]).get_requests ⟨[], 4⟩).asserts_hold = false ∧
    ((throughput_comp_io_scheduler.mk ⟨[], 512⟩
      [⟨[⟨5, 1⟩]⟩, ⟨[⟨7, 2⟩]⟩]).get_requests ⟨[], 4⟩).top_of_empty = true ∧
    (∀ (s : emit_state) (prio_comp : prio_compute),
      (emit_step s prio_comp []).asserts_hold = false) := by
  refine ⟨rfl, ?_, by decide, by decide, by decide, by decide, ?_⟩
  · intro c hc
    simp only [List.mem_cons, List.mem_singleton, List.not_mem_nil, or_false] at hc
    rcases hc with rfl | rfl <;> simp [user_compute.monotone]
  · intro s prio_comp
    unfold emit_step
    cases new_prio_compute s.computes prio_comp.compute <;> simp

/-! ## The level barrier -/

theorem progress_enter_step (g : graph_engine) (i : Nat) (t : worker_thread)
    (ht : g.worker_threads[i]? = some t)
    (hn : g.num_threads + 1 ≠ g.worker_threads.length) :
    g.progress_enter i
      = ({ g with
            worker_threads := g.worker_threads.set i (t.enter_next_level g.partitioner).1
            tot_num_activates :=
              g.tot_num_activates + ((t.enter_next_level g.partitioner).2 : Int)
            num_threads := g.num_threads + 1 }, true) := by
  unfold graph_engine.progress_enter
  rw [ht]
  simp [graph_engine.get_num_threads, hn]

theorem progress_enter_last (g : graph_engine) (i : Nat) (t : worker_thread)
    (ht : g.worker_threads[i]? = some t)
    (hn : g.num_threads + 1 = g.worker_threads.length) :
    g.progress_enter i
      = ({ g with
            worker_threads := g.worker_threads.set i (t.enter_next_level g.partitioner).1
            level := g.level + 1
            num_remaining_vertices_in_level :=
              (g.tot_num_activates + ((t.enter_next_level g.partitioner).2 : Int)).toNat
            is_complete := decide
              (g.tot_num_activates + ((t.enter_next_level g.partitioner).2 : Int) = 0)
            tot_num_activates := 0
            num_threads := 0 },
          decide (g.num_remaining_vertices_in_level = 0)) := by
  unfold graph_engine.progress_enter
  rw [ht]
  simp [graph_engine.get_num_threads, hn]

theorem next_size_congr (g g1 : graph_engine) (i : Nat)
    (hp : g1.partitioner = g.partitioner)
    (hw : g1.worker_threads[i]? = g.worker_threads[i]?) : g1.next_size i = g.next_size i := by
  unfold graph_engine.next_size
  rw [hw, hp]

/-- When the workers of `l` are the last to enter, each once, the barrier cycle ends with
the level advanced, the total of the new frontier sizes published and the statics reset. -/
theorem progress_enter_all_spec (l : List Nat) (g : graph_engine) (hnd : l.Nodup)
    (hlt : ∀ i ∈ l, i < g.worker_threads.length) (hne : l ≠ [])
    (hcount : g.num_threads + l.length = g.worker_threads.length) :
    (∀ j, (g.progress_enter_all l).1.worker_threads[j]?
      = if j ∈ l then
          (g.worker_threads[j]?).map (fun t => (t.enter_next_level g.partitioner).1)
        else g.worker_threads[j]?) ∧
    (g.progress_enter_all l).1.partitioner = g.partitioner ∧
    (g.progress_enter_all l).1.level = g.level + 1 ∧
    (g.progress_enter_all l).1.num_remaining_vertices_in_level
      = (g.tot_num_activates + (((l.map g.next_size).sum : Nat) : Int)).toNat ∧
    (g.progress_enter_all l).1.is_complete
      = decide (g.tot_num_activates + (((l.map g.next_size).sum : Nat) : Int) = 0) ∧
    (g.progress_enter_all l).1.tot_num_activates = 0 ∧
    (g.progress_enter_all l).1.num_threads = 0 ∧
    (g.progress_enter_all l).2 = decide (g.num_remaining_vertices_in_level = 0) := by
  induction l generalizing g with
  | nil => exact absurd rfl hne
  | cons i rest ih =>
    have hi : i < g.worker_threads.length := hlt i (List.mem_cons_self _ _)
    have ht : g.worker_threads[i]? = some g.worker_threads[i] := List.getElem?_eq_getElem hi
    have hsize : g.next_size i
        = (g.worker_threads[i].enter_next_level g.partitioner).2 := by
      unfold graph_engine.next_size
      rw [ht]
    have hnd2 := List.nodup_cons.mp hnd
    by_cases hrest : rest = []
    · subst hrest
      have hn : g.num_threads + 1 = g.worker_threads.length := by
        simpa using hcount
      have hall : g.progress_enter_all [i] = g.progress_enter i := by
        simp [graph_engine.progress_enter_all]
      rw [hall, progress_enter_last g i _ ht hn]
      have hs : ([i].map g.next_size).sum
          = (g.worker_threads[i].enter_next_level g.partitioner).2 := by
        simp [hsize]
      rw [hs]
      refine ⟨?_, rfl, rfl, rfl, rfl, rfl, rfl, rfl⟩
      intro j
      by_cases hj : j = i
      · subst hj
        simp [ht, hi]
      · have hj2 : ¬ i = j := fun e => hj e.symm
        simp [hj, List.getElem?_set_ne hj2]
    · have hlen : 0 < rest.length := List.length_pos.mpr hrest
      have hn : g.num_threads + 1 ≠ g.worker_threads.length := by
        simp only [List.length_cons] at hcount
        omega
      have hstep := progress_enter_step g i _ ht hn
      have hih := ih
        { g with
          worker_threads :=
            g.worker_threads.set i (g.worker_threads[i].enter_next_level g.partitioner).1
          tot_num_activates := g.tot_num_activates
            + ((g.worker_threads[i].enter_next_level g.partitioner).2 : Int)
          num_threads := g.num_threads + 1 } hnd2.2
        (by
          intro k hk
          simpa using hlt k (List.mem_cons_of_mem _ hk))
        hrest
        (by
          simp only [List.length_cons, List.length_set] at hcount ⊢
          omega)
      obtain ⟨h1, h2, h3, h4, h5, h6, h7, h8⟩ := hih
      have hsum : (rest.map (graph_engine.next_size
          { g with
            worker_threads :=
              g.worker_threads.set i (g.worker_threads[i].enter_next_level g.partitioner).1
            tot_num_activates := g.tot_num_activates
              + ((g.worker_threads[i].enter_next_level g.partitioner).2 : Int)
            num_threads := g.num_threads + 1 })) = rest.map g.next_size := by
        apply List.map_congr_left
        intro k hk
        have hki : ¬ i = k := fun e => hnd2.1 (e ▸ hk)
        exact next_size_congr g _ k rfl (List.getElem?_set_ne hki)
      rw [hsum] at h4 h5
      simp only [graph_engine.progress_enter_all, hstep, Bool.true_and]
      refine ⟨?_, h2, h3, ?_, ?_, h6, h7, h8⟩
      · intro j
        rw [h1 j]
        by_cases hj : j = i
        · subst hj
          simp [hnd2.1, ht, hi]
        · have hj2 : ¬ i = j := fun e => hj e.symm
          simp only [List.mem_cons, hj, false_or, List.getElem?_set_ne hj2]
      · rw [h4]
        simp only [List.map_cons, List.sum_cons, hsize]
        push_cast
        congr 1
        ring
      · rw [h5]
        simp only [List.map_cons, List.sum_cons, hsize]
        push_cast
        congr 1
        rw [add_assoc]


theorem process_dest_no_activate (p : vertex_partitioner) (w : worker_thread)
    (id : vertex_id_t) (e : Bool) :
    (w.process_dest p id e false).next_activated_vertices = w.next_activated_vertices := by
  unfold worker_thread.process_dest
  cases e <;> simp

theorem process_multicast_msg_no_activate (p : vertex_partitioner) (w : worker_thread)
    (dests : List vertex_id_t) (e : Bool) :
    (w.process_multicast_msg p dests e false).next_activated_vertices
      = w.next_activated_vertices := by
  induction dests generalizing w with
  | nil => rfl
  | cons id rest ih =>
    simp only [worker_thread.process_multicast_msg]
    exact (ih _).trans (process_dest_no_activate p w id e)

theorem process_msg_no_activate (p : vertex_partitioner) (w : worker_thread) (msg : message)
    (h : ∀ m ∈ msg, m.is_activate = false) :
    (w.process_msg p msg).next_activated_vertices = w.next_activated_vertices := by
  induction msg generalizing w with
  | nil => rfl
  | cons m rest ih =>
    have hm := h m (List.mem_cons_self _ _)
    have hrest : ∀ m2 ∈ rest, m2.is_activate = false :=
      fun m2 h2 => h m2 (List.mem_cons_of_mem _ h2)
    cases m with
    | unicast dest e a =>
      simp only [vertex_message.is_activate] at hm
      subst hm
      simp only [worker_thread.process_msg]
      exact (ih _ hrest).trans (process_dest_no_activate p w dest e)
    | multicast dests e a =>
      simp only [vertex_message.is_activate] at hm
      subst hm
      simp only [worker_thread.process_msg]
      exact (ih _ hrest).trans (process_multicast_msg_no_activate p w dests e)

theorem process_msg_list_no_activate (p : vertex_partitioner) (w : worker_thread)
    (msgs : List message) (h : ∀ msg ∈ msgs, ∀ m ∈ msg, m.is_activate = false) :
    (w.process_msg_list p msgs).next_activated_vertices = w.next_activated_vertices := by
  induction msgs generalizing w with
  | nil => rfl
  | cons msg rest ih =>
    simp only [worker_thread.process_msg_list]
    exact (ih _ (fun m2 h2 => h m2 (List.mem_cons_of_mem _ h2))).trans
      (process_msg_no_activate p w msg (h msg (List.mem_cons_self _ _)))

theorem get_set_bits_nil (b : bitmap) (h : ∀ off, b.get off = false) :
    b.get_set_bits [] = [] := by
  simp only [bitmap.get_set_bits, List.nil_append, List.filter_eq_nil_iff]
  intro off _
  simp [h off]

/-- A worker for which no activation was produced enters the next level with an empty
frontier. -/
theorem enter_next_level_no_activation (p : vertex_partitioner) (w : worker_thread)
    (h : w.no_activation) (hs : w.curr_activated_vertices.scheduler.reorders) :
    (w.enter_next_level p).2 = 0 := by
  have hbits : (w.process_msgs p).next_activated_vertices = w.next_activated_vertices := by
    unfold worker_thread.process_msgs
    exact process_msg_list_no_activate p _ w.msg_q h.2
  have hperm := enter_next_level_frontier_perm p w hs
  rw [hbits, get_set_bits_nil _ h.1] at hperm
  have hnil : (w.enter_next_level p).1.curr_activated_vertices.sorted_vertices = [] := by
    simpa using hperm
  have hidx := (enter_next_level_frontier p w).1
  show (w.enter_next_level p).1.curr_activated_vertices.get_num_vertices = 0
  simp [sorted_vertex_queue.get_num_vertices, hnil]

theorem next_size_sum (g : graph_engine) (order : List Nat)
    (hperm : order.Perm (List.range g.worker_threads.length)) :
    (order.map g.next_size).sum
      = (g.enter_next_level_all.worker_threads.map
          (fun t => t.curr_activated_vertices.get_num_vertices)).sum := by
  rw [(hperm.map g.next_size).sum_eq]
  congr 1
  apply List.ext_getElem?
  intro j
  simp only [graph_engine.enter_next_level_all, List.getElem?_map, List.map_map]
  by_cases hj : j < g.worker_threads.length
  · rw [List.getElem?_range hj, List.getElem?_eq_getElem hj]
    simp [graph_engine.next_size, List.getElem?_eq_getElem hj,
      worker_thread.enter_next_level]
  · have hge : g.worker_threads.length ≤ j := Nat.le_of_not_lt hj
    rw [List.getElem?_eq_none (by simpa using hge), List.getElem?_eq_none hge]
    rfl

theorem progress_threads (g : graph_engine) (order : List Nat)
    (hperm : order.Perm (List.range g.worker_threads.length))
    (hW : 0 < g.worker_threads.length) (hnum : g.num_threads = 0) :
    (g.progress_enter_all order).1.worker_threads
      = g.enter_next_level_all.worker_threads := by
  have hnd : order.Nodup := hperm.nodup_iff.mpr (List.nodup_range _)
  have hlt : ∀ i ∈ order, i < g.worker_threads.length :=
    fun i hi => List.mem_range.mp (hperm.mem_iff.mp hi)
  have hlen : order.length = g.worker_threads.length := by
    rw [hperm.length_eq, List.length_range]
  have hne : order ≠ [] := by
    intro e
    rw [e] at hlen
    simp at hlen
    omega
  have h := (progress_enter_all_spec order g hnd hlt hne (by rw [hnum, hlen]; simp)).1
  apply List.ext_getElem?
  intro j
  rw [h j]
  simp only [graph_engine.enter_next_level_all, List.getElem?_map]
  by_cases hj : j < g.worker_threads.length
  · have hmem : j ∈ order := hperm.mem_iff.mpr (List.mem_range.mpr hj)
    simp [hmem]
  · have hmem : ¬ j ∈ order := fun hm => hj (hlt j hm)
    have hge : g.worker_threads.length ≤ j := Nat.le_of_not_lt hj
    simp [hmem, List.getElem?_eq_none hge]


/-- C12: one barrier cycle of `graph_engine::progress_next_level` for `W ≥ 1` workers, run
sequentially in any order `order` (each worker once) from reset statics.  After all workers
have entered, every worker has run `enter_next_level`, the level counter is one higher,
`num_remaining_vertices_in_level` is the sum of the `W` new frontier sizes, both static
accumulators are 0 again, and each of the `W` workers is returned `true` exactly when that
sum is 0.  The assertion of the cycle holds exactly when the counter was 0 on entry.  In
particular, when no activation was produced for any worker (whose scheduler only reorders),
every worker is returned `true`. -/
theorem progress_next_level_cycle (g : graph_engine) (order : List Nat)
    (hperm : order.Perm (List.range g.worker_threads.length))
    (hW : 0 < g.worker_threads.length)
    (htot : g.tot_num_activates = 0) (hnum : g.num_threads = 0) :
    (g.progress_next_level order).1.worker_threads = g.enter_next_level_all.worker_threads ∧
    (g.progress_next_level order).1.level = g.level + 1 ∧
    (g.progress_next_level order).1.num_remaining_vertices_in_level
      = ((g.progress_next_level order).1.worker_threads.map
          (fun t => t.curr_activated_vertices.get_num_vertices)).sum ∧
    (g.progress_next_level order).1.tot_num_activates = 0 ∧
    (g.progress_next_level order).1.num_threads = 0 ∧
    (g.progress_next_level order).2.1
      = List.replicate g.worker_threads.length
          (decide (((g.progress_next_level order).1.worker_threads.map
            (fun t => t.curr_activated_vertices.get_num_vertices)).sum = 0)) ∧
    (g.progress_next_level order).2.2 = decide (g.num_remaining_vertices_in_level = 0) ∧
    ((∀ t ∈ g.worker_threads,
        t.no_activation ∧ t.curr_activated_vertices.scheduler.reorders) →
      (g.progress_next_level order).2.1 = List.replicate g.worker_threads.length true) := by
  have hnd : order.Nodup := hperm.nodup_iff.mpr (List.nodup_range _)
  have hlt : ∀ i ∈ order, i < g.worker_threads.length :=
    fun i hi => List.mem_range.mp (hperm.mem_iff.mp hi)
  have hlen : order.length = g.worker_threads.length := by
    rw [hperm.length_eq, List.length_range]
  have hne : order ≠ [] := by
    intro e
    rw [e] at hlen
    simp at hlen
    omega
  obtain ⟨-, -, h3, h4, h5, h6, h7, h8⟩ :=
    progress_enter_all_spec order g hnd hlt hne (by rw [hnum, hlen]; simp)
  have hthreads := progress_threads g order hperm hW hnum
  have hsum := next_size_sum g order hperm
  rw [htot, Int.zero_add, hsum] at h4 h5
  have hmap : ∀ b : Bool, order.map (fun _ => b) = List.replicate g.worker_threads.length b := by
    intro b
    rw [← hlen]
    exact List.map_const' order b
  have hret : (g.progress_next_level order).2.1
      = List.replicate g.worker_threads.length
          (decide ((g.enter_next_level_all.worker_threads.map
            (fun t => t.curr_activated_vertices.get_num_vertices)).sum = 0)) := by
    simp only [graph_engine.progress_next_level]
    rw [hmap, h5]
    congr 1
    simp only [decide_eq_decide]
    exact Int.natCast_eq_zero
  simp only [graph_engine.progress_next_level] at hret ⊢
  refine ⟨hthreads, h3, ?_, h6, h7, ?_, h8, ?_⟩
  · rw [h4, hthreads]
    exact Int.toNat_ofNat _
  · simp only [hthreads]
    exact hret
  · intro hall
    rw [hret]
    congr 1
    rw [decide_eq_true_eq]
    apply List.sum_eq_zero
    intro n hn
    simp only [graph_engine.enter_next_level_all, List.map_map, List.mem_map] at hn
    obtain ⟨t, ht, rfl⟩ := hn
    exact enter_next_level_no_activation g.partitioner t (hall t ht).1 (hall t ht).2


/-- Witness for `progress_next_level_cycle`: two workers over the ids 0..9 entering in the
order 1, 0.  With activations of 4, 6, 8 waiting at worker 0 and of 3 at worker 1 the cycle
reaches level 1, publishes 4 vertices and returns `false` to both workers; with no activation
at all it returns `true` to both. -/
theorem progress_next_level_cycle_witness :
    [1, 0].Perm (List.range (graph_engine.new 2 9).worker_threads.length) ∧
    0 < (graph_engine.new 2 9).worker_threads.length ∧
    ((graph_engine.mk ⟨2⟩
        [{ worker_thread.new 0 2 9 with
            msg_q := [[.unicast 4 true true, .multicast [6, 8] true true]] },
          { worker_thread.new 1 2 9 with msg_q := [[.unicast 3 true true]] }]
        0 0 false 0 0).progress_next_level [1, 0]).1.level = 1 ∧
    ((graph_engine.mk ⟨2⟩
        [{ worker_thread.new 0 2 9 with
            msg_q := [[.unicast 4 true true, .multicast [6, 8] true true]] },
          { worker_thread.new 1 2 9 with msg_q := [[.unicast 3 true true]] }]
        0 0 false 0 0).progress_next_level [1, 0]).1.num_remaining_vertices_in_level = 4 ∧
    ((graph_engine.mk ⟨2⟩
        [{ worker_thread.new 0 2 9 with
            msg_q := [[.unicast 4 true true, .multicast [6, 8] true true]] },
          { worker_thread.new 1 2 9 with msg_q := [[.unicast 3 true true]] }]
        0 0 false 0 0).progress_next_level [1, 0]).2.1 = [false, false] ∧
    ((graph_engine.new 2 9).progress_next_level [1, 0]).2.1 = [true, true] := by
  have hp : [1, 0].Perm (List.range 2) := List.Perm.swap 0 1 []
  have ha := progress_next_level_cycle (graph_engine.mk ⟨2⟩
      [{ worker_thread.new 0 2 9 with
          msg_q := [[.unicast 4 true true, .multicast [6, 8] true true]] },
        { worker_thread.new 1 2 9 with msg_q := [[.unicast 3 true true]] }]
      0 0 false 0 0) [1, 0] hp (by decide) rfl rfl
  have hb := progress_next_level_cycle (graph_engine.new 2 9) [1, 0] hp (by decide) rfl rfl
  refine ⟨hp, by decide, ha.2.1, ?_, ?_, ?_⟩
  · rw [ha.2.2.1, ha.1]
    decide
  · rw [ha.2.2.2.2.2.1, ha.1]
    decide
  · apply hb.2.2.2.2.2.2.2
    intro t ht
    have ht2 : t = worker_thread.new 0 2 9 ∨ t = worker_thread.new 1 2 9 := by
      simpa [graph_engine.new, List.range, List.range.loop] using ht
    refine ⟨⟨?_, ?_⟩, ?_⟩
    · intro off
      have hrep : ∀ n : Nat, (List.replicate n false).getD off false = false := by
        intro n
        simp only [List.getD_eq_getElem?_getD, List.getElem?_replicate]
        split <;> rfl
      rcases ht2 with rfl | rfl <;> exact hrep _
    · intro msg hmsg
      rcases ht2 with rfl | rfl <;> simp [worker_thread.new] at hmsg
    · rcases ht2 with rfl | rfl <;> exact default_scheduler_reorders


/-! ## Breadth-first search: messages and the activation bitmap -/

theorem process_dest_bits (p : vertex_partitioner) (w : worker_thread) (id : vertex_id_t)
    (e a : Bool) :
    (w.process_dest p id e a).next_activated_vertices
      = (if a then w.next_activated_vertices.set (p.map2loc id).2
        else w.next_activated_vertices) ∧
    (w.process_dest p id e a).msg_q = w.msg_q := by
  unfold worker_thread.process_dest
  cases e <;> cases a <;> simp

theorem process_multicast_msg_bits (p : vertex_partitioner) (dests : List vertex_id_t)
    (e a : Bool) (w w1 : worker_thread)
    (h : w.next_activated_vertices = w1.next_activated_vertices) :
    (w.process_multicast_msg p dests e a).next_activated_vertices
      = (w1.process_multicast_msg p dests e a).next_activated_vertices ∧
    (w.process_multicast_msg p dests e a).msg_q = w.msg_q ∧
    (w.process_multicast_msg p dests e a).next_activated_vertices.bits.length
      = w.next_activated_vertices.bits.length := by
  induction dests generalizing w w1 with
  | nil => exact ⟨h, rfl, rfl⟩
  | cons id rest ih =>
    simp only [worker_thread.process_multicast_msg]
    have hb := process_dest_bits p w id e a
    have hb1 := process_dest_bits p w1 id e a
    have h2 := ih (w.process_dest p id e a) (w1.process_dest p id e a)
      (by rw [hb.1, hb1.1, h])
    refine ⟨h2.1, h2.2.1.trans hb.2, h2.2.2.trans ?_⟩
    rw [hb.1]
    cases a <;> simp [bitmap.set]

theorem process_msg_bits (p : vertex_partitioner) (msg : message) (w w1 : worker_thread)
    (h : w.next_activated_vertices = w1.next_activated_vertices) :
    (w.process_msg p msg).next_activated_vertices
      = (w1.process_msg p msg).next_activated_vertices ∧
    (w.process_msg p msg).msg_q = w.msg_q ∧
    (w.process_msg p msg).next_activated_vertices.bits.length
      = w.next_activated_vertices.bits.length := by
  induction msg generalizing w w1 with
  | nil => exact ⟨h, rfl, rfl⟩
  | cons m rest ih =>
    cases m with
    | unicast dest e a =>
      simp only [worker_thread.process_msg]
      have hb := process_dest_bits p w dest e a
      have hb1 := process_dest_bits p w1 dest e a
      have h2 := ih (w.process_dest p dest e a) (w1.process_dest p dest e a)
        (by rw [hb.1, hb1.1, h])
      refine ⟨h2.1, h2.2.1.trans hb.2, h2.2.2.trans ?_⟩
      rw [hb.1]
      cases a <;> simp [bitmap.set]
    | multicast dests e a =>
      simp only [worker_thread.process_msg]
      have hb := process_multicast_msg_bits p dests e a w w1 h
      have h2 := ih (w.process_multicast_msg p dests e a)
        (w1.process_multicast_msg p dests e a) hb.1
      exact ⟨h2.1, h2.2.1.trans hb.2.1, h2.2.2.trans hb.2.2⟩

theorem process_msg_list_bits (p : vertex_partitioner) (msgs : List message)
    (w w1 : worker_thread) (h : w.next_activated_vertices = w1.next_activated_vertices) :
    (w.process_msg_list p msgs).next_activated_vertices
      = (w1.process_msg_list p msgs).next_activated_vertices ∧
    (w.process_msg_list p msgs).msg_q = w.msg_q ∧
    (w.process_msg_list p msgs).next_activated_vertices.bits.length
      = w.next_activated_vertices.bits.length := by
  induction msgs generalizing w w1 with
  | nil => exact ⟨h, rfl, rfl⟩
  | cons m rest ih =>
    simp only [worker_thread.process_msg_list]
    have hb := process_msg_bits p m w w1 h
    have h2 := ih (w.process_msg p m) (w1.process_msg p m) hb.1
    exact ⟨h2.1, h2.2.1.trans hb.2.1, h2.2.2.trans hb.2.2⟩

theorem process_msg_list_append (p : vertex_partitioner) (a b : List message)
    (w : worker_thread) :
    w.process_msg_list p (a ++ b) = (w.process_msg_list p a).process_msg_list p b := by
  induction a generalizing w with
  | nil => rfl
  | cons m rest ih =>
    simp only [List.cons_append, worker_thread.process_msg_list]
    exact ih _

/-- After `process_msgs` the inbound queue is empty and the bitmap has kept its size. -/
theorem process_msgs_queue (p : vertex_partitioner) (w : worker_thread) :
    (w.process_msgs p).msg_q = [] ∧
    (w.process_msgs p).next_activated_vertices.bits.length
      = w.next_activated_vertices.bits.length := by
  unfold worker_thread.process_msgs
  have h := process_msg_list_bits p w.msg_q { w with msg_q := [] } { w with msg_q := [] } rfl
  exact ⟨h.2.1, h.2.2⟩

/-- Processing the messages a second time changes nothing. -/
theorem process_msgs_idem (p : vertex_partitioner) (w : worker_thread) :
    (w.process_msgs p).process_msgs p = w.process_msgs p := by
  have h := (process_msgs_queue p w).1
  generalize w.process_msgs p = w1 at h
  cases w1
  simp only at h
  subst h
  rfl

/-- The bitmap `process_msgs` leaves depends on the bitmap and the queue only. -/
theorem process_msgs_congr (p : vertex_partitioner) (w w1 : worker_thread)
    (hq : w.msg_q = w1.msg_q)
    (hb : w.next_activated_vertices = w1.next_activated_vertices) :
    (w.process_msgs p).next_activated_vertices
      = (w1.process_msgs p).next_activated_vertices := by
  unfold worker_thread.process_msgs
  rw [hq]
  exact (process_msg_list_bits p w1.msg_q { w with msg_q := [] } { w1 with msg_q := [] } hb).1

/-- One more activation of `id` in the inbound queue sets one more bit once the queue is
processed. -/
theorem process_msgs_push (p : vertex_partitioner) (w : worker_thread) (id : vertex_id_t) :
    (worker_thread.process_msgs p
        { w with msg_q := w.msg_q ++ [[.multicast [id] true true]] }).next_activated_vertices
      = (w.process_msgs p).next_activated_vertices.set (p.map2loc id).2 := by
  unfold worker_thread.process_msgs
  simp only
  rw [process_msg_list_append]
  simp only [worker_thread.process_msg_list, worker_thread.process_msg,
    worker_thread.process_multicast_msg]
  exact (process_dest_bits p _ id true true).1


/-! ## Breadth-first search: what each step leaves alone -/

theorem map_set_eq {α β : Type} (f : α → β) (l : List α) (i : Nat) (a : α)
    (h : ∀ b, l[i]? = some b → f a = f b) : (l.set i a).map f = l.map f := by
  apply List.ext_getElem?
  intro j
  simp only [List.getElem?_map, List.getElem?_set]
  by_cases hij : i = j
  · subst hij
    by_cases hlt : i < l.length
    · simp only [hlt, if_true]
      rw [List.getElem?_eq_getElem hlt]
      simp only [Option.map_some']
      rw [h _ (List.getElem?_eq_getElem hlt)]
    · simp [hlt, List.getElem?_eq_none (Nat.le_of_not_lt hlt)]
  · simp [hij]

theorem map_eq_getElem? {α β : Type} (f : α → β) (l l1 : List α)
    (h : l1.map f = l.map f) (i : Nat) (t1 : α) (h1 : l1[i]? = some t1) :
    ∃ t, l[i]? = some t ∧ f t1 = f t := by
  have h2 : (l1.map f)[i]? = (l.map f)[i]? := by rw [h]
  simp only [List.getElem?_map, h1, Option.map_some'] at h2
  cases ht : l[i]? with
  | none => simp [ht] at h2
  | some t =>
    refine ⟨t, rfl, ?_⟩
    simpa [ht] using h2

theorem same_inbox_refl (g : graph_engine) : g.same_inbox g := ⟨rfl, rfl, rfl, rfl⟩

theorem same_inbox_trans (g g1 g2 : graph_engine) (h1 : g.same_inbox g1)
    (h2 : g1.same_inbox g2) : g.same_inbox g2 :=
  ⟨h2.1.trans h1.1, h2.2.1.trans h1.2.1, h2.2.2.1.trans h1.2.2.1, h2.2.2.2.trans h1.2.2.2⟩

theorem same_queues_refl (g : graph_engine) : g.same_queues g := ⟨rfl, rfl, rfl, rfl⟩

theorem same_queues_trans (g g1 g2 : graph_engine) (h1 : g.same_queues g1)
    (h2 : g1.same_queues g2) : g.same_queues g2 :=
  ⟨h2.1.trans h1.1, h2.2.1.trans h1.2.1, h2.2.2.1.trans h1.2.2.1, h2.2.2.2.trans h1.2.2.2⟩

theorem same_inbox_ok (g g1 : graph_engine) (W N : Nat) (h : g.same_inbox g1)
    (hg : g.ok W N) : g1.ok W N := by
  obtain ⟨hW, hlen, hp, htot, hnum, hall⟩ := hg
  obtain ⟨h1, h2, h3, h4⟩ := h
  have hl : g1.worker_threads.length = g.worker_threads.length := by
    have := congrArg List.length h4
    simpa using this
  refine ⟨hW, hl.trans hlen, by rw [h1]; exact hp, h2.trans htot, h3.trans hnum, ?_⟩
  intro i t1 ht1
  obtain ⟨t, ht, hf⟩ := map_eq_getElem? _ _ _ h4 i t1 ht1
  have hok := hall i t ht
  simp only [worker_thread.inbox, Prod.mk.injEq] at hf
  obtain ⟨hid, -, hbits, hsch⟩ := hf
  exact ⟨hid.trans hok.1, by rw [hbits]; exact hok.2.1, by rw [hsch]; exact hok.2.2⟩

theorem same_queues_ok (g g1 : graph_engine) (W N : Nat) (h : g.same_queues g1)
    (hg : g.ok W N) : g1.ok W N := by
  obtain ⟨hW, hlen, hp, htot, hnum, hall⟩ := hg
  obtain ⟨h1, h2, h3, h4⟩ := h
  have hl : g1.worker_threads.length = g.worker_threads.length := by
    have := congrArg List.length h4
    simpa using this
  refine ⟨hW, hl.trans hlen, by rw [h1]; exact hp, h2.trans htot, h3.trans hnum, ?_⟩
  intro i t1 ht1
  obtain ⟨t, ht, hf⟩ := map_eq_getElem? _ _ _ h4 i t1 ht1
  have hok := hall i t ht
  simp only [worker_thread.queue_part, Prod.mk.injEq] at hf
  obtain ⟨hid, hq, hbits⟩ := hf
  exact ⟨hid.trans hok.1, by rw [hbits]; exact hok.2.1, by rw [hq]; exact hok.2.2⟩

theorem same_queues_remaining (g g1 : graph_engine) (h : g.same_queues g1) :
    g1.all_remaining = g.all_remaining ∧ ∀ i, g1.num_waiting i = g.num_waiting i := by
  have h4 := h.2.2.2
  have hq : g1.worker_threads.map (fun t => t.curr_activated_vertices)
      = g.worker_threads.map (fun t => t.curr_activated_vertices) := by
    have := congrArg (List.map (fun x : Nat × sorted_vertex_queue × Nat => x.2.1)) h4
    simpa [List.map_map, Function.comp, worker_thread.queue_part] using this
  constructor
  · have := congrArg (List.map (fun q : sorted_vertex_queue => q.remaining)) hq
    simp only [List.map_map] at this
    simp only [graph_engine.all_remaining]
    exact congrArg List.flatten this
  · intro i
    have h2 : (g1.worker_threads.map (fun t => t.curr_activated_vertices))[i]?
        = (g.worker_threads.map (fun t => t.curr_activated_vertices))[i]? := by rw [hq]
    simp only [List.getElem?_map] at h2
    unfold graph_engine.num_waiting
    cases h1 : g1.worker_threads[i]? <;> cases h0 : g.worker_threads[i]? <;>
      simp_all

theorem same_inbox_activated (g g1 : graph_engine) (h : g.same_inbox g1) (v : vertex_id_t) :
    g1.is_activated v = g.is_activated v := by
  obtain ⟨h1, -, -, h4⟩ := h
  unfold graph_engine.is_activated
  rw [h1]
  cases ht1 : g1.worker_threads[g.partitioner.map v]? with
  | none =>
    cases ht : g.worker_threads[g.partitioner.map v]? with
    | none => rfl
    | some t =>
      have h2 : (g1.worker_threads.map worker_thread.inbox)[g.partitioner.map v]?
          = (g.worker_threads.map worker_thread.inbox)[g.partitioner.map v]? := by rw [h4]
      simp [List.getElem?_map, ht1, ht] at h2
  | some t1 =>
    obtain ⟨t, ht, hf⟩ := map_eq_getElem? _ _ _ h4 _ t1 ht1
    rw [ht]
    simp only [worker_thread.inbox, Prod.mk.injEq] at hf
    simp only
    rw [process_msgs_congr g.partitioner t1 t hf.2.1 hf.2.2.1]


theorem steal_loop_inbox (num_threads more : Nat) (threads : List worker_thread) (sid : Nat) :
    (worker_thread.steal_loop num_threads more threads sid).worker_threads.map
        worker_thread.inbox
      = threads.map worker_thread.inbox := by
  rcases steal_loop_spec num_threads more threads sid with h | ⟨t, ht, -, -, hw⟩
  · rw [h.2]
  · rw [hw]
    apply map_set_eq
    intro b hb
    rw [ht] at hb
    cases hb
    rfl

theorem steal_inbox (g : graph_engine) (self buf_size : Nat) :
    g.same_inbox (worker_thread.steal_activated_vertices g self buf_size).graph := by
  unfold worker_thread.steal_activated_vertices
  cases hme : g.worker_threads[self]? with
  | none => exact same_inbox_refl g
  | some me =>
    dsimp only
    refine ⟨rfl, rfl, rfl, ?_⟩
    dsimp only
    generalize hst : worker_thread.steal_loop g.get_num_threads (g.get_num_threads - 1)
      g.worker_threads
      (if me.steal_thread_id = me.worker_id then (me.steal_thread_id + 1) % g.get_num_threads
        else me.steal_thread_id) = st
    have hl := steal_loop_inbox g.get_num_threads (g.get_num_threads - 1) g.worker_threads
      (if me.steal_thread_id = me.worker_id then (me.steal_thread_id + 1) % g.get_num_threads
        else me.steal_thread_id)
    rw [hst] at hl
    rw [← hl]
    cases hme1 : st.worker_threads[self]? with
    | none => rfl
    | some me1 =>
      dsimp only
      apply map_set_eq
      intro b hb
      rw [hme1] at hb
      cases hb
      split <;> rfl

theorem fetch_or_steal_inbox (g : graph_engine) (self : Nat) (me : worker_thread) (max : Nat)
    (hme : g.worker_threads[self]? = some me) :
    g.same_inbox (worker_thread.fetch_or_steal g self me max).1 := by
  unfold worker_thread.fetch_or_steal
  have h1 : g.same_inbox
      { g with
        worker_threads := g.worker_threads.set self
          { me with curr_activated_vertices := (me.curr_activated_vertices.fetch max).queue } } := by
    refine ⟨rfl, rfl, rfl, ?_⟩
    apply map_set_eq
    intro b hb
    rw [hme] at hb
    cases hb
    rfl
  dsimp only
  split
  · exact same_inbox_trans _ _ _ h1 (steal_inbox _ self max)
  · exact h1

/-- The call `process_activated_vertices` writes only frontier queues, steal cursors and
counters. -/
theorem process_inbox (g : graph_engine) (self : Nat) (max : Int)
    (pre_run : vertex_id_t → Bool) :
    g.same_inbox (worker_thread.process_activated_vertices g self max pre_run).graph := by
  unfold worker_thread.process_activated_vertices
  by_cases hmax : max ≤ 0
  · simp only [hmax, if_true]
    exact same_inbox_refl g
  · simp only [hmax, if_false]
    cases hme : g.worker_threads[self]? with
    | none => exact same_inbox_refl g
    | some me =>
      have hf := fetch_or_steal_inbox g self me max.toNat hme
      dsimp only
      generalize worker_thread.fetch_or_steal g self me max.toNat = got at hf ⊢
      have h2 : got.1.same_inbox
          (if got.2.2 > 0 then got.1.process_vertices got.2.2 else got.1) := by
        split
        · exact ⟨rfl, rfl, rfl, rfl⟩
        · exact same_inbox_refl _
      refine same_inbox_trans _ _ _ (same_inbox_trans _ _ _ hf h2) ?_
      generalize (if got.2.2 > 0 then got.1.process_vertices got.2.2 else got.1) = g2
      refine ⟨rfl, rfl, rfl, ?_⟩
      dsimp only
      cases hme1 : g2.worker_threads[self]? with
      | none => rfl
      | some me1 =>
        dsimp only
        apply map_set_eq
        intro b hb
        rw [hme1] at hb
        cases hb
        rfl


/-! ## Breadth-first search: activation and `bfs_vertex::run` -/

theorem activate_vertices_queues (ids : List vertex_id_t) (g : graph_engine) :
    g.same_queues (g.activate_vertices ids) := by
  induction ids generalizing g with
  | nil => exact same_queues_refl g
  | cons id rest ih =>
    simp only [graph_engine.activate_vertices]
    refine same_queues_trans _ _ _ ?_ (ih _)
    refine ⟨rfl, rfl, rfl, ?_⟩
    dsimp only
    cases ht : g.worker_threads[g.partitioner.map id]? with
    | none => rfl
    | some t =>
      dsimp only
      apply map_set_eq
      intro b hb
      rw [ht] at hb
      cases hb
      rfl

theorem div_mod_unique (W a b : Nat) (hm : a % W = b % W) (hd : a / W = b / W) : a = b := by
  rw [← Nat.div_add_mod a W, ← Nat.div_add_mod b W, hm, hd]

theorem activate_one_activated (g : graph_engine) (W N : Nat) (hg : g.ok W N)
    (id : vertex_id_t) (hid : id < N) (v : vertex_id_t) :
    (g.activate_vertices [id]).is_activated v = (g.is_activated v || decide (v = id)) := by
  obtain ⟨hW, hlen, hp, -, -, hall⟩ := hg
  have hidx : id % W < g.worker_threads.length := by
    rw [hlen]
    exact Nat.mod_lt _ hW
  have ht : g.worker_threads[id % W]? = some g.worker_threads[id % W] :=
    List.getElem?_eq_getElem hidx
  generalize g.worker_threads[id % W] = t at ht
  have hok := hall _ t ht
  simp only [graph_engine.activate_vertices, graph_engine.is_activated,
    vertex_partitioner.map, vertex_partitioner.map2loc, hp, ht]
  by_cases hv : v % W = id % W
  · rw [hv, List.getElem?_set_self hidx, ht]
    simp only
    rw [process_msgs_push, bitmap_get_set]
    simp only [vertex_partitioner.map2loc, hp]
    have hin : id / W < (t.process_msgs g.partitioner).next_activated_vertices.bits.length := by
      rw [(process_msgs_queue g.partitioner t).2]
      exact hok.2.1 id hid
    by_cases hd : v / W = id / W
    · have hvid : v = id := div_mod_unique W v id hv hd
      simp [hd, hin, hvid]
    · have hvid : ¬ v = id := fun e => hd (by rw [e])
      simp [hd, hvid]
  · have hne : ¬ id % W = v % W := fun e => hv e.symm
    rw [List.getElem?_set_ne hne]
    have hvid : ¬ v = id := fun e => hv (by rw [e])
    simp [hvid]

theorem activate_vertices_activated (ids : List vertex_id_t) (g : graph_engine) (W N : Nat)
    (hg : g.ok W N) (hids : ∀ id ∈ ids, id < N) (v : vertex_id_t) :
    (g.activate_vertices ids).is_activated v = (g.is_activated v || decide (v ∈ ids)) := by
  induction ids generalizing g with
  | nil => simp [graph_engine.activate_vertices]
  | cons id rest ih =>
    have hstep : g.activate_vertices (id :: rest)
        = (g.activate_vertices [id]).activate_vertices rest := rfl
    have hg1 : (g.activate_vertices [id]).ok W N :=
      same_queues_ok _ _ W N (activate_vertices_queues [id] g) hg
    rw [hstep, ih _ hg1 (fun x hx => hids x (List.mem_cons_of_mem _ hx)),
      activate_one_activated g W N hg id (hids id (List.mem_cons_self _ _)) v]
    simp only [List.mem_cons, Bool.or_assoc, Bool.decide_or]

theorem getD_set_true (l : List Bool) (i j : Nat) :
    (l.set i true).getD j false = (l.getD j false || (decide (j = i) && decide (i < l.length))) := by
  simp only [List.getD_eq_getElem?_getD, List.getElem?_set]
  by_cases h : i = j
  · subst h
    by_cases hlt : i < l.length
    · simp [hlt]
    · simp [hlt, List.getElem?_eq_none (Nat.le_of_not_lt hlt)]
  · have h2 : ¬ j = i := fun e => h e.symm
    simp [h, h2]

theorem edges_getD_lt (edges : List (List vertex_id_t))
    (hE : ∀ nb ∈ edges, ∀ v ∈ nb, v < edges.length) (u v : vertex_id_t)
    (hv : v ∈ edges.getD u []) : v < edges.length := by
  by_cases hu : u < edges.length
  · rw [List.getD_eq_getElem?_getD, List.getElem?_eq_getElem hu] at hv
    exact hE _ (List.getElem_mem hu) v hv
  · rw [List.getD_eq_getElem?_getD, List.getElem?_eq_none (Nat.le_of_not_lt hu)] at hv
    simp at hv

/-- What one call `run(graph, vertex)` on the vertex `id` does. -/
theorem bfs_run_spec (edges : List (List vertex_id_t)) (s : bfs_state) (W : Nat)
    (hg : s.graph.ok W edges.length)
    (hE : ∀ nb ∈ edges, ∀ v ∈ nb, v < edges.length) (id : vertex_id_t) :
    s.graph.same_queues (bfs_vertex.run edges s id).graph ∧
    (bfs_vertex.run edges s id).runs = s.runs ++ [id] ∧
    (bfs_vertex.run edges s id).visited.length = s.visited.length ∧
    (∀ v, (bfs_vertex.run edges s id).has_visited v
      = (s.has_visited v || (decide (v = id) && decide (id < s.visited.length)))) ∧
    (∀ v, (bfs_vertex.run edges s id).graph.is_activated v
      = (s.graph.is_activated v || decide (v ∈ edges.getD id []))) ∧
    (bfs_vertex.run edges s id).asserts_hold = (s.asserts_hold && !s.has_visited id) := by
  refine ⟨activate_vertices_queues _ _, rfl, ?_, ?_, ?_, ?_⟩
  · simp [bfs_vertex.run]
  · intro v
    simp only [bfs_vertex.run, bfs_state.has_visited]
    exact getD_set_true _ _ _
  · intro v
    exact activate_vertices_activated _ _ W _ hg (fun x hx => edges_getD_lt edges hE id x hx) v
  · simp only [bfs_vertex.run]
    have hall : (edges.getD id []).all (fun n => decide (0 ≤ n ∧ n ≤ edges.length - 1))
        = true := by
      rw [List.all_eq_true]
      intro x hx
      have hx2 : x < edges.length := edges_getD_lt edges hE id x hx
      have hx3 : x ≤ edges.length - 1 := Nat.le_sub_one_of_lt hx2
      simp [hx3]
    rw [hall, Bool.and_true]


/-- What the completion of the reads of the vertices `l`, in order, does. -/
theorem bfs_run_fold_spec (edges : List (List vertex_id_t)) (W : Nat)
    (hE : ∀ nb ∈ edges, ∀ v ∈ nb, v < edges.length) (l : List vertex_id_t) (s : bfs_state)
    (hg : s.graph.ok W edges.length) :
    s.graph.same_queues (l.foldl (bfs_vertex.run edges) s).graph ∧
    (l.foldl (bfs_vertex.run edges) s).runs = s.runs ++ l ∧
    (l.foldl (bfs_vertex.run edges) s).visited.length = s.visited.length ∧
    (∀ v, (l.foldl (bfs_vertex.run edges) s).has_visited v
      = (s.has_visited v || (decide (v ∈ l) && decide (v < s.visited.length)))) ∧
    (∀ v, (l.foldl (bfs_vertex.run edges) s).graph.is_activated v
      = (s.graph.is_activated v || l.any (fun u => decide (v ∈ edges.getD u [])))) ∧
    (s.asserts_hold = true → l.Nodup → (∀ u ∈ l, s.has_visited u = false) →
      (l.foldl (bfs_vertex.run edges) s).asserts_hold = true) := by
  induction l generalizing s with
  | nil =>
    refine ⟨same_queues_refl _, by simp, rfl, ?_, ?_, ?_⟩
    · intro v
      simp
    · intro v
      simp
    · intro h _ _
      exact h
  | cons id rest ih =>
    obtain ⟨h1, h2, h3, h4, h5, h6⟩ := bfs_run_spec edges s W hg hE id
    have hg1 : (bfs_vertex.run edges s id).graph.ok W edges.length :=
      same_queues_ok _ _ W _ h1 hg
    obtain ⟨i1, i2, i3, i4, i5, i6⟩ := ih (bfs_vertex.run edges s id) hg1
    simp only [List.foldl_cons]
    refine ⟨same_queues_trans _ _ _ h1 i1, ?_, i3.trans h3, ?_, ?_, ?_⟩
    · rw [i2, h2, List.append_assoc]
      rfl
    · intro v
      rw [i4 v, h4 v, h3]
      by_cases hv : v = id
      · subst hv
        by_cases hr : v ∈ rest <;> by_cases hl : v < s.visited.length <;> simp [hr, hl]
      · by_cases hr : v ∈ rest <;> by_cases hl : v < s.visited.length <;> simp [hr, hl, hv]
    · intro v
      rw [i5 v, h5 v, List.any_cons, Bool.or_assoc]
    · intro ha hnd hun
      have hnd2 := List.nodup_cons.mp hnd
      apply i6
      · rw [h6, ha, hun id (List.mem_cons_self _ _)]
        rfl
      · exact hnd2.2
      · intro u hu
        rw [h4 u, hun u (List.mem_cons_of_mem _ hu)]
        have hne : ¬ u = id := fun e => hnd2.1 (e ▸ hu)
        simp [hne]


/-! ## Breadth-first search: one iteration of a worker -/

/-- The call `process_msgs` of the worker at index `self` changes neither a frontier queue
nor what is activated for the next level. -/
theorem process_msgs_at (g : graph_engine) (self : Nat) :
    g.same_queues
      { g with
        worker_threads :=
          match g.worker_threads[self]? with
          | none => g.worker_threads
          | some me => g.worker_threads.set self (me.process_msgs g.partitioner) } ∧
    ∀ v, graph_engine.is_activated
      { g with
        worker_threads :=
          match g.worker_threads[self]? with
          | none => g.worker_threads
          | some me => g.worker_threads.set self (me.process_msgs g.partitioner) } v
      = g.is_activated v := by
  cases hme : g.worker_threads[self]? with
  | none => exact ⟨same_queues_refl g, fun _ => rfl⟩
  | some me =>
    dsimp only
    constructor
    · refine ⟨rfl, rfl, rfl, ?_⟩
      apply map_set_eq
      intro b hb
      rw [hme] at hb
      cases hb
      simp only [worker_thread.queue_part, (process_msgs_keeps g.partitioner me).1,
        (process_msgs_keeps g.partitioner me).2, (process_msgs_queue g.partitioner me).2]
    · intro v
      simp only [graph_engine.is_activated]
      by_cases hv : g.partitioner.map v = self
      · have hlt : self < g.worker_threads.length := by
          by_contra hge
          rw [List.getElem?_eq_none (Nat.le_of_not_lt hge)] at hme
          cases hme
        rw [hv, List.getElem?_set_self hlt, hme]
        simp only
        rw [process_msgs_idem]
      · have hne : ¬ self = g.partitioner.map v := fun e => hv e.symm
        rw [List.getElem?_set_ne hne]

/-- What one iteration of a worker's loop does: the ids `B` it takes from the frontiers get
their pre-run, and those not yet visited are run. -/
theorem run_iteration_spec (edges : List (List vertex_id_t)) (W : Nat)
    (hE : ∀ nb ∈ edges, ∀ v ∈ nb, v < edges.length) (s : bfs_state)
    (hg : s.graph.ok W edges.length) (self : Nat) (max : Int) :
    ∃ B : List vertex_id_t,
      (∀ v, List.count v B
          + List.count v (worker_thread.run_iteration edges s self max).graph.all_remaining
        = List.count v s.graph.all_remaining) ∧
      (worker_thread.run_iteration edges s self max).graph.ok W edges.length ∧
      (worker_thread.run_iteration edges s self max).runs
        = s.runs ++ B.filter (fun u => !s.has_visited u) ∧
      (worker_thread.run_iteration edges s self max).visited.length = s.visited.length ∧
      (∀ v, (worker_thread.run_iteration edges s self max).has_visited v
        = (s.has_visited v
          || (decide (v ∈ B.filter (fun u => !s.has_visited u))
            && decide (v < s.visited.length)))) ∧
      (∀ v, (worker_thread.run_iteration edges s self max).graph.is_activated v
        = (s.graph.is_activated v
          || (B.filter (fun u => !s.has_visited u)).any
              (fun u => decide (v ∈ edges.getD u [])))) ∧
      (s.asserts_hold = true → B.Nodup →
        (worker_thread.run_iteration edges s self max).asserts_hold = true) := by
  have hcons := process_conservation s.graph self max (fun id => bfs_vertex.pre_run s id)
  have hin := process_inbox s.graph self max (fun id => bfs_vertex.pre_run s id)
  have hreqs := (hcons 0).2
  unfold worker_thread.run_iteration
  generalize worker_thread.process_activated_vertices s.graph self max
    (fun id => bfs_vertex.pre_run s id) = r at hcons hin hreqs
  have hmid := process_msgs_at r.graph self
  dsimp only
  generalize hgm : ({ r.graph with
      worker_threads :=
        match r.graph.worker_threads[self]? with
        | none => r.graph.worker_threads
        | some me => r.graph.worker_threads.set self (me.process_msgs r.graph.partitioner) }
      : graph_engine) = gm at hmid
  have hgm_ok : gm.ok W edges.length :=
    same_queues_ok _ _ W _ hmid.1 (same_inbox_ok _ _ W _ hin hg)
  obtain ⟨f1, f2, f3, f4, f5, f6⟩ :=
    bfs_run_fold_spec edges W hE r.reqs { s with graph := gm } hgm_ok
  have hpre : (fun id => bfs_vertex.pre_run s id) = (fun u => !s.has_visited u) := rfl
  rw [hpre] at hreqs
  rw [hreqs] at f1 f2 f3 f4 f5 f6 ⊢
  refine ⟨r.vertex_buf, ?_, same_queues_ok _ _ W _ f1 hgm_ok, f2, f3, f4, ?_, ?_⟩
  · intro v
    rw [(same_queues_remaining _ _ f1).1, (same_queues_remaining _ _ hmid.1).1]
    exact (hcons v).1
  · intro v
    rw [f5 v]
    simp only
    rw [hmid.2 v, same_inbox_activated _ _ hin v]
  · intro ha hnd
    apply f6 ha (hnd.filter _)
    intro u hu
    have := (List.mem_filter.mp hu).2
    simpa [bfs_state.has_visited] using this


/-! ## Breadth-first search: one level -/

theorem level_inv_start (edges : List (List vertex_id_t)) (W : Nat) (s0 : bfs_state)
    (h0 : s0.level_start edges W) : bfs_state.level_inv edges W s0 s0 [] := by
  obtain ⟨hok, hlen, -, -, hact, ha⟩ := h0
  refine ⟨hok, hlen, ?_, ?_, ?_, ?_, ha⟩
  · intro v
    simp
  · simp
  · intro v
    simp
  · intro v
    simp [hact v]

theorem level_inv_step (edges : List (List vertex_id_t)) (W : Nat)
    (hE : ∀ nb ∈ edges, ∀ v ∈ nb, v < edges.length) (s0 s : bfs_state)
    (P : List vertex_id_t) (h0 : s0.level_start edges W)
    (h : bfs_state.level_inv edges W s0 s P) (self : Nat) (max : Int) :
    ∃ B, bfs_state.level_inv edges W s0 (worker_thread.run_iteration edges s self max)
      (P ++ B) := by
  obtain ⟨-, -, hnd0, hlt0, -, -⟩ := h0
  obtain ⟨hok, hlen, hcnt, hruns, hvis, hact, ha⟩ := h
  obtain ⟨B, b1, b2, b3, b4, b5, b6, b7⟩ := run_iteration_spec edges W hE s hok self max
  have hle1 : ∀ v, List.count v s0.graph.all_remaining ≤ 1 :=
    fun v => List.nodup_iff_count_le_one.mp hnd0 v
  have hB : ∀ u ∈ B, ¬ u ∈ P ∧ u ∈ s0.graph.all_remaining := by
    intro u hu
    have hpos : 0 < List.count u B := List.count_pos_iff.mpr hu
    have h1 := b1 u
    have h2 := hcnt u
    have h3 := hle1 u
    constructor
    · intro hp
      have : 0 < List.count u P := List.count_pos_iff.mpr hp
      omega
    · apply List.count_pos_iff.mp
      omega
  have hBnd : B.Nodup := by
    apply List.nodup_iff_count_le_one.mpr
    intro v
    have h1 := b1 v
    have h2 := hcnt v
    have h3 := hle1 v
    omega
  have hfilter : B.filter (fun u => !s.has_visited u)
      = B.filter (fun u => !s0.has_visited u) := by
    apply List.filter_congr
    intro u hu
    rw [hvis u]
    simp [(hB u hu).1]
  rw [hfilter] at b3 b5 b6
  refine ⟨B, b2, b4.trans hlen, ?_, ?_, ?_, ?_, b7 ha hBnd⟩
  · intro v
    have h1 := b1 v
    have h2 := hcnt v
    rw [List.count_append]
    omega
  · rw [b3, hruns, List.filter_append, List.append_assoc]
  · intro v
    rw [b5 v, hvis v, hlen]
    by_cases hvB : v ∈ B
    · have hvlt : v < edges.length := hlt0 v (hB v hvB).2
      cases hv0 : s0.has_visited v
      · simp [List.mem_filter, hvB, hv0, hvlt]
      · simp
    · simp [List.mem_filter, hvB]
  · intro v
    rw [b6 v, hact v, List.filter_append, List.any_append]

/-- Iterations of any workers with any budgets keep the level's progress. -/
theorem level_inv_fold {α : Type} (edges : List (List vertex_id_t)) (W : Nat)
    (hE : ∀ nb ∈ edges, ∀ v ∈ nb, v < edges.length) (s0 : bfs_state)
    (h0 : s0.level_start edges W) (w : α → Nat) (m : bfs_state → α → Int) (l : List α)
    (s : bfs_state) (P : List vertex_id_t) (h : bfs_state.level_inv edges W s0 s P) :
    ∃ P1, bfs_state.level_inv edges W s0
      (l.foldl (fun st c => worker_thread.run_iteration edges st (w c) (m st c)) s) P1 := by
  induction l generalizing s P with
  | nil => exact ⟨P, h⟩
  | cons c rest ih =>
    obtain ⟨B, hB⟩ := level_inv_step edges W hE s0 s P h0 h (w c) (m s c)
    simp only [List.foldl_cons]
    exact ih _ _ hB


theorem process_own_aux (g : graph_engine) (i n : Nat) (me : worker_thread)
    (pre_run : vertex_id_t → Bool) (hme : g.worker_threads[i]? = some me)
    (hn : n = me.curr_activated_vertices.get_num_vertices) (hz : ¬ n = 0) (j : Nat) :
    ((worker_thread.process_activated_vertices g i (n : Int)
        pre_run).graph.worker_threads[j]?).map (fun t => t.curr_activated_vertices)
      = if j = i then some (me.curr_activated_vertices.fetch n).queue
        else (g.worker_threads[j]?).map (fun t => t.curr_activated_vertices) := by
  have hlt : i < g.worker_threads.length := by
    by_contra hge
    rw [List.getElem?_eq_none (Nat.le_of_not_lt hge)] at hme
    cases hme
  have hpos : ¬ ((n : Int) ≤ 0) := by omega
  have hret0 : ¬ (me.curr_activated_vertices.fetch n).ret = 0 := by
    simp only [sorted_vertex_queue.fetch, hn, sorted_vertex_queue.get_num_vertices] at hz ⊢
    omega
  unfold worker_thread.process_activated_vertices
  simp only [hpos, if_false, hme, Int.toNat_ofNat, worker_thread.fetch_or_steal, hret0]
  have hg2 : ∀ c : Prop, ∀ _ : Decidable c, ∀ k : Nat, ∀ g1 : graph_engine,
      (if c then g1.process_vertices k else g1).worker_threads = g1.worker_threads := by
    intro c _ k g1
    split <;> rfl
  simp only [hg2, List.getElem?_set_self hlt]
  by_cases hj : j = i
  · subst hj
    rw [List.getElem?_set_self (by simpa using hlt)]
    simp
  · have hne : ¬ i = j := fun e => hj e.symm
    rw [List.getElem?_set_ne hne, List.getElem?_set_ne hne]
    simp [hj]

/-- With the budget its own queue still holds, a worker empties its queue and touches no
other. -/
theorem process_own (g : graph_engine) (i : Nat) (pre_run : vertex_id_t → Bool) (j : Nat) :
    (worker_thread.process_activated_vertices g i (g.num_waiting i : Int)
        pre_run).graph.num_waiting j
      = if j = i then 0 else g.num_waiting j := by
  by_cases hz : g.num_waiting i = 0
  · have hg : (worker_thread.process_activated_vertices g i (g.num_waiting i : Int)
        pre_run).graph = g := by
      unfold worker_thread.process_activated_vertices
      simp [hz]
    rw [hg]
    by_cases hj : j = i
    · simp [hj, hz]
    · simp [hj]
  · cases hme : g.worker_threads[i]? with
    | none => simp [graph_engine.num_waiting, hme] at hz
    | some me =>
      have hn : g.num_waiting i = me.curr_activated_vertices.get_num_vertices := by
        simp [graph_engine.num_waiting, hme]
      have haux := process_own_aux g i (g.num_waiting i) me pre_run hme hn hz j
      generalize (worker_thread.process_activated_vertices g i (g.num_waiting i : Int)
        pre_run).graph = g1 at haux
      have hq : (me.curr_activated_vertices.fetch
          (g.num_waiting i)).queue.get_num_vertices = 0 := by
        simp only [sorted_vertex_queue.fetch, hn, sorted_vertex_queue.get_num_vertices]
        omega
      by_cases hj : j = i
      · simp only [hj, if_true] at haux ⊢
        unfold graph_engine.num_waiting
        cases h1 : g1.worker_threads[i]? with
        | none => rfl
        | some t1 =>
          simp only [h1, Option.map_some', Option.some.injEq] at haux
          simp only
          rw [haux]
          exact hq
      · simp only [hj, if_false] at haux ⊢
        unfold graph_engine.num_waiting
        cases h1 : g1.worker_threads[j]? <;> cases h0 : g.worker_threads[j]? <;>
          simp_all


theorem run_iteration_own (edges : List (List vertex_id_t)) (W : Nat)
    (hE : ∀ nb ∈ edges, ∀ v ∈ nb, v < edges.length) (s : bfs_state)
    (hg : s.graph.ok W edges.length) (i j : Nat) :
    (worker_thread.run_iteration edges s i (s.graph.num_waiting i)).graph.num_waiting j
      = if j = i then 0 else s.graph.num_waiting j := by
  have hown := process_own s.graph i (fun id => bfs_vertex.pre_run s id) j
  have hin := process_inbox s.graph i (s.graph.num_waiting i)
    (fun id => bfs_vertex.pre_run s id)
  unfold worker_thread.run_iteration
  generalize worker_thread.process_activated_vertices s.graph i (s.graph.num_waiting i)
    (fun id => bfs_vertex.pre_run s id) = r at hown hin
  have hmid := process_msgs_at r.graph i
  dsimp only
  generalize hgm : ({ r.graph with
      worker_threads :=
        match r.graph.worker_threads[i]? with
        | none => r.graph.worker_threads
        | some me => r.graph.worker_threads.set i (me.process_msgs r.graph.partitioner) }
      : graph_engine) = gm at hmid
  have hgm_ok : gm.ok W edges.length :=
    same_queues_ok _ _ W _ hmid.1 (same_inbox_ok _ _ W _ hin hg)
  have hf := (bfs_run_fold_spec edges W hE r.reqs { s with graph := gm } hgm_ok).1
  rw [(same_queues_remaining _ _ hf).2 j]
  simp only
  rw [(same_queues_remaining _ _ hmid.1).2 j]
  exact hown

/-- After one more iteration of each of the first `k` workers with the budget its own queue
holds, the queues of these workers are empty. -/
theorem finish_fold (edges : List (List vertex_id_t)) (W : Nat)
    (hE : ∀ nb ∈ edges, ∀ v ∈ nb, v < edges.length) (s : bfs_state)
    (hg : s.graph.ok W edges.length) (k : Nat) :
    ((List.range k).foldl
        (fun st i => worker_thread.run_iteration edges st i (st.graph.num_waiting i))
        s).graph.ok W edges.length ∧
    ∀ j, ((List.range k).foldl
        (fun st i => worker_thread.run_iteration edges st i (st.graph.num_waiting i))
        s).graph.num_waiting j
      = if j < k then 0 else s.graph.num_waiting j := by
  induction k with
  | zero => exact ⟨hg, fun j => by simp⟩
  | succ k ih =>
    rw [List.range_succ, List.foldl_append]
    simp only [List.foldl_cons, List.foldl_nil]
    obtain ⟨hok, hw⟩ := ih
    generalize (List.range k).foldl
      (fun st i => worker_thread.run_iteration edges st i (st.graph.num_waiting i)) s
      = s1 at hok hw
    obtain ⟨B, -, b2, -⟩ := run_iteration_spec edges W hE s1 hok k (s1.graph.num_waiting k)
    refine ⟨b2, ?_⟩
    intro j
    rw [run_iteration_own edges W hE s1 hok k j, hw j]
    by_cases hjk : j = k
    · simp [hjk]
    · by_cases hlt : j < k
      · have : j < k + 1 := by omega
        simp [hjk, hlt, this]
      · have : ¬ j < k + 1 := by omega
        simp [hjk, hlt, this]

theorem all_remaining_nil (g : graph_engine) (h : ∀ j, g.num_waiting j = 0) :
    g.all_remaining = [] := by
  simp only [graph_engine.all_remaining, List.flatten_eq_nil_iff, List.mem_map]
  rintro l ⟨t, ht, rfl⟩
  obtain ⟨i, hi⟩ := List.getElem?_of_mem ht
  have h0 := h i
  simp only [graph_engine.num_waiting, hi, sorted_vertex_queue.get_num_vertices] at h0
  apply List.drop_eq_nil_of_le
  omega

/-- The level started in `s0` ends with every frontier empty, every id of the frontiers of
`s0` taken exactly once. -/
theorem run_level_spec (edges : List (List vertex_id_t)) (W : Nat)
    (hE : ∀ nb ∈ edges, ∀ v ∈ nb, v < edges.length) (s0 : bfs_state)
    (h0 : s0.level_start edges W) (calls : List (Nat × Int)) :
    ∃ P, bfs_state.level_inv edges W s0 (s0.run_level edges calls) P ∧
      (s0.run_level edges calls).graph.all_remaining = [] := by
  unfold bfs_state.run_level
  obtain ⟨P1, h1⟩ := level_inv_fold edges W hE s0 h0 (fun c : Nat × Int => c.1)
    (fun _ c => c.2) calls s0 [] (level_inv_start edges W s0 h0)
  dsimp only at h1 ⊢
  generalize calls.foldl (fun st c => worker_thread.run_iteration edges st c.1 c.2) s0
    = s1 at h1
  obtain ⟨P2, h2⟩ := level_inv_fold edges W hE s0 h0 (fun i : Nat => i)
    (fun st i => (st.graph.num_waiting i : Int)) (List.range s1.graph.get_num_threads)
    s1 P1 h1
  refine ⟨P2, h2, ?_⟩
  apply all_remaining_nil
  intro j
  have hf := (finish_fold edges W hE s1 h1.1 s1.graph.get_num_threads).2 j
  rw [hf]
  split
  · rfl
  · rename_i hj
    simp only [graph_engine.get_num_threads] at hj
    unfold graph_engine.num_waiting
    rw [List.getElem?_eq_none (Nat.le_of_not_lt hj)]


/-! ## Breadth-first search: the barrier -/

/-- The barrier cycle run by the workers in index order: every worker enters the next
level, the statics are 0 again, and `is_complete` tells whether all new frontiers are
empty. -/
theorem progress_barrier (g : graph_engine) (hW : 0 < g.worker_threads.length)
    (htot : g.tot_num_activates = 0) (hnum : g.num_threads = 0) :
    (g.progress_next_level (List.range g.get_num_threads)).1.worker_threads
      = g.enter_next_level_all.worker_threads ∧
    (g.progress_next_level (List.range g.get_num_threads)).1.partitioner = g.partitioner ∧
    (g.progress_next_level (List.range g.get_num_threads)).1.tot_num_activates = 0 ∧
    (g.progress_next_level (List.range g.get_num_threads)).1.num_threads = 0 ∧
    (g.progress_next_level (List.range g.get_num_threads)).1.is_complete
      = decide (g.enter_next_level_all.all_frontiers = []) := by
  have hperm : (List.range g.get_num_threads).Perm (List.range g.worker_threads.length) :=
    List.Perm.refl _
  have hne : List.range g.get_num_threads ≠ [] := by
    intro e
    have := congrArg List.length e
    rw [List.length_range] at this
    simp only [graph_engine.get_num_threads, List.length_nil] at this
    omega
  obtain ⟨-, h2, -, -, h5, h6, h7, -⟩ :=
    progress_enter_all_spec (List.range g.get_num_threads) g (List.nodup_range _)
      (fun i hi => List.mem_range.mp hi) hne
      (by rw [hnum]; simp [graph_engine.get_num_threads])
  have hthreads := progress_threads g _ hperm hW hnum
  have hsum := next_size_sum g _ hperm
  rw [htot, Int.zero_add, hsum] at h5
  simp only [graph_engine.progress_next_level]
  refine ⟨hthreads, h2, h6, h7, ?_⟩
  rw [h5]
  have hcur := enter_next_level_all_cursors g
  simp only [decide_eq_decide, Int.natCast_eq_zero, List.sum_eq_zero_iff, List.mem_map,
    graph_engine.all_frontiers, List.flatten_eq_nil_iff]
  constructor
  · rintro h l ⟨t, ht, rfl⟩
    have hz := h _ ⟨t, ht, rfl⟩
    simp only [sorted_vertex_queue.get_num_vertices, hcur t ht, Nat.sub_zero] at hz
    exact List.length_eq_zero.mp hz
  · rintro h n ⟨t, ht, rfl⟩
    have hz := h _ ⟨t, ht, rfl⟩
    simp [sorted_vertex_queue.get_num_vertices, hz]

theorem ok_wf (g : graph_engine) (W N : Nat) (hg : g.ok W N) : g.wf := by
  obtain ⟨hW, hlen, hp, -, -, hall⟩ := hg
  exact ⟨by rw [hlen]; exact hW, hp.trans hlen.symm, fun i t ht => (hall i t ht).1⟩

theorem ok_reorders (g : graph_engine) (W N : Nat) (hg : g.ok W N) :
    ∀ t ∈ g.worker_threads, t.curr_activated_vertices.scheduler.reorders := by
  intro t ht
  obtain ⟨i, hi⟩ := List.getElem?_of_mem ht
  exact (hg.2.2.2.2.2 i t hi).2.2

theorem bitmap_clear_get (b : bitmap) (off : Nat) : b.clear.get off = false := by
  simp only [bitmap.clear, bitmap.get, List.getD_eq_getElem?_getD, List.getElem?_replicate]
  split <;> rfl

/-- A worker that has entered the next level has nothing activated for the level after. -/
theorem enter_next_level_clear (p : vertex_partitioner) (t : worker_thread) (off : Nat) :
    (((t.enter_next_level p).1.process_msgs p).next_activated_vertices.get off) = false ∧
    (t.enter_next_level p).1.next_activated_vertices.bits.length
      = t.next_activated_vertices.bits.length := by
  have hq := process_msgs_queue p t
  constructor
  · have h1 : ((t.enter_next_level p).1.process_msgs p).next_activated_vertices
        = (t.process_msgs p).next_activated_vertices.clear := by
      simp only [worker_thread.enter_next_level]
      have hq2 : (t.process_msgs p).msg_q = [] := hq.1
      generalize t.process_msgs p = t1 at hq2
      unfold worker_thread.process_msgs
      simp only [hq2]
      rfl
    rw [h1]
    exact bitmap_clear_get _ _
  · simp only [worker_thread.enter_next_level, bitmap.clear, List.length_replicate]
    exact hq.2


/-- The frontiers after the barrier hold exactly the vertices activated during the level,
each once. -/
theorem enter_next_level_all_mem (g : graph_engine) (W N : Nat) (hg : g.ok W N)
    (v : vertex_id_t) :
    v ∈ g.enter_next_level_all.all_frontiers ↔ g.is_activated v = true := by
  obtain ⟨hW, hlen, hp, -, -, hall⟩ := hg
  simp only [graph_engine.all_frontiers, List.mem_flatten, List.mem_map]
  constructor
  · rintro ⟨l, ⟨t1, ht1, rfl⟩, hv⟩
    obtain ⟨i, hi⟩ := List.getElem?_of_mem ht1
    rw [enter_next_level_all_worker] at hi
    cases ht : g.worker_threads[i]? with
    | none => simp [ht] at hi
    | some t =>
      simp only [ht, Option.map_some', Option.some.injEq] at hi
      subst hi
      have hok := hall i t ht
      have hiW : i < W := by
        rw [← hlen]
        by_contra hge
        rw [List.getElem?_eq_none (Nat.le_of_not_lt hge)] at ht
        cases ht
      have hperm := enter_next_level_frontier_perm g.partitioner t hok.2.2
      have hv2 := hperm.mem_iff.mp hv
      obtain ⟨off, hoff, rfl⟩ := List.mem_map.mp hv2
      have hbit := (mem_get_set_bits _ off).mp hoff
      have hmod : (off * W + i) % W = i := by
        rw [Nat.add_comm, Nat.add_mul_mod_self_right]
        exact Nat.mod_eq_of_lt hiW
      have hdiv : (off * W + i) / W = off := by
        rw [Nat.add_comm, Nat.add_mul_div_right _ _ hW, Nat.div_eq_of_lt hiW, Nat.zero_add]
      simp only [graph_engine.is_activated, vertex_partitioner.map,
        vertex_partitioner.map2loc, vertex_partitioner.loc2map, hp, hok.1, hmod, hdiv, ht]
      exact hbit
  · intro h
    simp only [graph_engine.is_activated, vertex_partitioner.map,
      vertex_partitioner.map2loc, hp] at h
    cases ht : g.worker_threads[v % W]? with
    | none => simp [ht] at h
    | some t =>
      simp only [ht] at h
      have hok := hall _ t ht
      refine ⟨_, ⟨(t.enter_next_level g.partitioner).1, ?_, rfl⟩, ?_⟩
      · have hmem : g.enter_next_level_all.worker_threads[v % W]?
            = some (t.enter_next_level g.partitioner).1 := by
          rw [enter_next_level_all_worker, ht]
          rfl
        exact List.getElem?_mem hmem
      · apply (enter_next_level_frontier_perm g.partitioner t hok.2.2).mem_iff.mpr
        apply List.mem_map.mpr
        refine ⟨v / W, (mem_get_set_bits _ _).mpr h, ?_⟩
        simp only [vertex_partitioner.loc2map, hp, hok.1]
        exact Nat.div_add_mod' v W

/-- The barrier cycle of a BFS level: the new frontiers hold each vertex activated during
the level once, nothing is activated for the level after, and `is_complete` tells whether
the new frontiers are empty. -/
theorem barrier_spec (g : graph_engine) (W N : Nat) (hg : g.ok W N) :
    (g.progress_next_level (List.range g.get_num_threads)).1.ok W N ∧
    (g.progress_next_level (List.range g.get_num_threads)).1.all_remaining.Nodup ∧
    (∀ v, v ∈ (g.progress_next_level (List.range g.get_num_threads)).1.all_remaining
      ↔ g.is_activated v = true) ∧
    (∀ v, (g.progress_next_level (List.range g.get_num_threads)).1.is_activated v = false) ∧
    (g.progress_next_level (List.range g.get_num_threads)).1.is_complete
      = decide ((g.progress_next_level (List.range g.get_num_threads)).1.all_remaining
          = []) := by
  have hg0 := hg
  obtain ⟨hW, hlen, hp, htot, hnum, hall⟩ := hg
  obtain ⟨b1, b2, b3, b4, b5⟩ := progress_barrier g (by rw [hlen]; exact hW) htot hnum
  generalize (g.progress_next_level (List.range g.get_num_threads)).1 = g1 at b1 b2 b3 b4 b5 ⊢
  have hrem : g1.all_remaining = g.enter_next_level_all.all_frontiers := by
    rw [← all_remaining_eq_all_frontiers _ (enter_next_level_all_cursors g)]
    simp only [graph_engine.all_remaining, b1]
  have hthr : ∀ (i : Nat) (t1 : worker_thread), g1.worker_threads[i]? = some t1 →
      ∃ t, g.worker_threads[i]? = some t ∧ t1 = (t.enter_next_level g.partitioner).1 := by
    intro i t1 ht1
    rw [b1, enter_next_level_all_worker] at ht1
    cases ht : g.worker_threads[i]? with
    | none => simp [ht] at ht1
    | some t =>
      simp only [ht, Option.map_some', Option.some.injEq] at ht1
      exact ⟨t, rfl, ht1.symm⟩
  refine ⟨⟨hW, ?_, by rw [b2]; exact hp, b3, b4, ?_⟩, ?_, ?_, ?_, ?_⟩
  · rw [b1]
    simp [graph_engine.enter_next_level_all, hlen]
  · intro i t1 ht1
    obtain ⟨t, ht, rfl⟩ := hthr i t1 ht1
    have hok := hall i t ht
    refine ⟨(enter_next_level_worker_id _ t).trans hok.1, ?_, ?_⟩
    · rw [(enter_next_level_clear g.partitioner t 0).2]
      exact hok.2.1
    · rw [enter_next_level_scheduler]
      exact hok.2.2
  · rw [hrem]
    exact enter_next_level_all_nodup g (ok_wf g W N hg0) (ok_reorders g W N hg0)
  · intro v
    rw [hrem]
    exact enter_next_level_all_mem g W N hg0 v
  · intro v
    simp only [graph_engine.is_activated, b2]
    cases ht1 : g1.worker_threads[g.partitioner.map v]? with
    | none => rfl
    | some t1 =>
      obtain ⟨t, -, rfl⟩ := hthr _ t1 ht1
      exact (enter_next_level_clear g.partitioner t _).1
  · rw [b5, hrem]


/-! ## Breadth-first search: level by level -/

/-- A level and its barrier cycle keep what holds when a level begins; the barrier reports
completion exactly when the new frontiers are empty, and otherwise at least one more vertex
was run. -/
theorem level_step (edges : List (List vertex_id_t)) (W : Nat) (S : List vertex_id_t)
    (hE : ∀ nb ∈ edges, ∀ v ∈ nb, v < edges.length) (s : bfs_state)
    (h : s.bfs_inv edges W S) (calls : List (Nat × Int)) :
    bfs_state.bfs_inv edges W S
      { s.run_level edges calls with
        graph := ((s.run_level edges calls).graph.progress_next_level
          (List.range (s.run_level edges calls).graph.get_num_threads)).1 } ∧
    ((s.run_level edges calls).graph.progress_next_level
        (List.range (s.run_level edges calls).graph.get_num_threads)).1.is_complete
      = decide (((s.run_level edges calls).graph.progress_next_level
          (List.range (s.run_level edges calls).graph.get_num_threads)).1.all_remaining = []) ∧
    (((s.run_level edges calls).graph.progress_next_level
        (List.range (s.run_level edges calls).graph.get_num_threads)).1.all_remaining ≠ [] →
      s.runs.length < (s.run_level edges calls).runs.length) := by
  obtain ⟨h0, g1, g2, g3, g4, g5⟩ := h
  obtain ⟨P, ⟨iok, ilen, icnt, iruns, ivis, iact, ia⟩, hnil⟩ :=
    run_level_spec edges W hE s h0 calls
  obtain ⟨-, -, hnd0, hlt0, -, -⟩ := h0
  generalize s.run_level edges calls = s1 at iok ilen icnt iruns ivis iact ia hnil ⊢
  obtain ⟨b1, b2, b3, b4, b5⟩ := barrier_spec s1.graph W edges.length iok
  generalize (s1.graph.progress_next_level (List.range s1.graph.get_num_threads)).1
    = gn at b1 b2 b3 b4 b5 ⊢
  have hcntP : ∀ v, List.count v P = List.count v s.graph.all_remaining := by
    intro v
    have := icnt v
    rw [hnil] at this
    simpa using this
  have hmemP : ∀ v, v ∈ P ↔ v ∈ s.graph.all_remaining := by
    intro v
    rw [← List.count_pos_iff, ← List.count_pos_iff, hcntP v]
  have hvis2 : ∀ v, bfs_state.has_visited { s1 with graph := gn } v
      = (s.has_visited v || decide (v ∈ P)) := ivis
  have hnew : ∀ v, v ∈ gn.all_remaining ↔
      ∃ u, u ∈ P ∧ s.has_visited u = false ∧ v ∈ edges.getD u [] := by
    intro v
    rw [b3 v, iact v, List.any_eq_true]
    constructor
    · rintro ⟨u, hu, hv⟩
      have hu2 := List.mem_filter.mp hu
      exact ⟨u, hu2.1, by simpa using hu2.2, by simpa using hv⟩
    · rintro ⟨u, hu, hvu, hv⟩
      exact ⟨u, List.mem_filter.mpr ⟨hu, by simp [hvu]⟩, by simpa using hv⟩
  refine ⟨⟨⟨b1, ilen, b2, ?_, b4, ia⟩, ?_, ?_, ?_, ?_, ?_⟩, b5, ?_⟩
  · intro v hv
    obtain ⟨u, -, -, hvu⟩ := (hnew v).mp hv
    exact edges_getD_lt edges hE u v hvu
  · intro v hv
    rw [hvis2 v] at hv
    cases hv0 : s.has_visited v
    · rw [hv0] at hv
      simp only [Bool.false_or, decide_eq_true_eq] at hv
      exact g2 v ((hmemP v).mp hv)
    · exact g1 v hv0
  · intro v hv
    obtain ⟨u, hu, -, hvu⟩ := (hnew v).mp hv
    obtain ⟨a, ha, hr⟩ := g2 u ((hmemP u).mp hu)
    exact ⟨a, ha, Relation.ReflTransGen.tail hr hvu⟩
  · intro a ha
    left
    rw [hvis2 a]
    rcases g3 a ha with h1 | h1
    · simp [h1]
    · simp [(hmemP a).mpr h1]
  · intro u hu v hv
    rw [hvis2 u] at hu
    rw [hvis2 v]
    cases hu0 : s.has_visited u
    · rw [hu0] at hu
      simp only [Bool.false_or, decide_eq_true_eq] at hu
      right
      exact (hnew v).mpr ⟨u, hu, hu0, hv⟩
    · left
      rcases g4 u hu0 v hv with h1 | h1
      · simp [h1]
      · simp [(hmemP v).mpr h1]
  · intro v
    rw [hvis2 v]
    show List.count v s1.runs = _
    rw [iruns, List.count_append, g5 v]
    have hle : List.count v P ≤ 1 := by
      rw [hcntP v]
      exact List.nodup_iff_count_le_one.mp hnd0 v
    cases hv0 : s.has_visited v
    · rw [List.count_filter (by simp [hv0])]
      by_cases hvP : v ∈ P
      · have : 0 < List.count v P := List.count_pos_iff.mpr hvP
        simp [hvP]
        omega
      · simp [hvP, List.count_eq_zero.mpr hvP]
    · have hnot : ¬ v ∈ P.filter (fun u => !s.has_visited u) := by
        intro hm
        have := (List.mem_filter.mp hm).2
        simp [hv0] at this
      simp [List.count_eq_zero.mpr hnot]
  · intro hne
    obtain ⟨v, hv⟩ := List.exists_mem_of_ne_nil _ hne
    obtain ⟨u, hu, hvu, -⟩ := (hnew v).mp hv
    have hmem : u ∈ P.filter (fun u => !s.has_visited u) :=
      List.mem_filter.mpr ⟨hu, by simp [hvu]⟩
    rw [iruns, List.length_append]
    have : 0 < (P.filter (fun u => !s.has_visited u)).length :=
      List.length_pos_of_mem hmem
    omega


theorem has_visited_lt (s : bfs_state) (v : vertex_id_t) (h : s.has_visited v = true) :
    v < s.visited.length := by
  by_contra hge
  simp [bfs_state.has_visited, List.getD_eq_getElem?_getD,
    List.getElem?_eq_none (Nat.le_of_not_lt hge)] at h

theorem runs_length_le (edges : List (List vertex_id_t)) (W : Nat) (S : List vertex_id_t)
    (s : bfs_state) (h : s.bfs_inv edges W S) : s.runs.length ≤ edges.length := by
  obtain ⟨⟨-, hlen, -, -, -, -⟩, -, -, -, -, g5⟩ := h
  have hnd : s.runs.Nodup := by
    apply List.nodup_iff_count_le_one.mpr
    intro v
    rw [g5 v]
    split <;> omega
  have hsub : s.runs ⊆ List.range edges.length := by
    intro v hv
    have hpos : 0 < List.count v s.runs := List.count_pos_iff.mpr hv
    rw [g5 v] at hpos
    have hvis : s.has_visited v = true := by
      by_contra hn
      simp [hn] at hpos
    rw [List.mem_range, ← hlen]
    exact has_visited_lt s v hvis
  have := (List.subperm_of_subset hnd hsub).length_le
  simpa using this

/-- With one unit of fuel per vertex and one more, the levels run to completion, and what
holds when a level begins holds at the end, with every frontier empty. -/
theorem run_levels_spec (edges : List (List vertex_id_t)) (W : Nat) (S : List vertex_id_t)
    (hE : ∀ nb ∈ edges, ∀ v ∈ nb, v < edges.length) (fuel : Nat) :
    ∀ (sched : List (List (Nat × Int))) (s : bfs_state), s.bfs_inv edges W S →
      edges.length + 1 ≤ fuel + s.runs.length →
      ∃ s1, bfs_state.run_levels edges fuel sched s = some s1 ∧ s1.bfs_inv edges W S ∧
        s1.graph.all_remaining = [] := by
  induction fuel with
  | zero =>
    intro sched s h hf
    have := runs_length_le edges W S s h
    omega
  | succ fuel ih =>
    intro sched s h hf
    obtain ⟨l1, l2, l3⟩ := level_step edges W S hE s h (sched.headD [])
    simp only [bfs_state.run_levels]
    by_cases hc : ((s.run_level edges (sched.headD [])).graph.progress_next_level
        (List.range (s.run_level edges (sched.headD [])).graph.get_num_threads)).1.is_complete
          = true
    · rw [if_pos hc]
      rw [hc] at l2
      exact ⟨_, rfl, l1, of_decide_eq_true l2.symm⟩
    · rw [if_neg hc]
      apply ih _ _ l1
      have hne : ((s.run_level edges (sched.headD [])).graph.progress_next_level
          (List.range (s.run_level edges (sched.headD [])).graph.get_num_threads)).1.all_remaining
            ≠ [] := by
        intro e
        apply hc
        rw [l2, e]
        rfl
      have := l3 hne
      show edges.length + 1 ≤ fuel + (s.run_level edges (sched.headD [])).runs.length
      omega

/-- At the end of the run the visited vertices are the reachable ones. -/
theorem bfs_inv_final (edges : List (List vertex_id_t)) (W : Nat) (S : List vertex_id_t)
    (s : bfs_state) (h : s.bfs_inv edges W S) (hnil : s.graph.all_remaining = [])
    (v : vertex_id_t) : s.has_visited v = true ↔ bfs_reachable edges S v := by
  obtain ⟨-, g1, -, g3, g4, -⟩ := h
  rw [hnil] at g3 g4
  constructor
  · exact g1 v
  · rintro ⟨a, ha, hr⟩
    induction hr with
    | refl =>
      rcases g3 a ha with h1 | h1
      · exact h1
      · simp at h1
    | tail _ hstep ih =>
      rcases g4 _ ih _ hstep with h1 | h1
      · exact h1
      · simp at h1


/-! ## Breadth-first search: the whole run -/

theorem replicate_false_getD (n off : Nat) :
    (List.replicate n false).getD off false = false := by
  simp only [List.getD_eq_getElem?_getD, List.getElem?_replicate]
  split <;> rfl

theorem new_worker (W n i : Nat) (t : worker_thread)
    (h : (graph_engine.new W n).worker_threads[i]? = some t) :
    i < W ∧ t = worker_thread.new i W n := by
  simp only [graph_engine.new, List.getElem?_map] at h
  by_cases hi : i < W
  · rw [List.getElem?_range hi] at h
    simp only [Option.map_some', Option.some.injEq] at h
    exact ⟨hi, h.symm⟩
  · rw [List.getElem?_eq_none (by simpa using Nat.le_of_not_lt hi)] at h
    simp at h

theorem new_ok (W N : Nat) (hW : 0 < W) : (graph_engine.new W (N - 1)).ok W N := by
  refine ⟨hW, by simp [graph_engine.new], rfl, rfl, rfl, ?_⟩
  intro i t ht
  obtain ⟨-, rfl⟩ := new_worker W (N - 1) i t ht
  refine ⟨rfl, ?_, default_scheduler_reorders⟩
  intro id hid
  simp only [worker_thread.new, List.length_replicate]
  rw [Nat.div_lt_iff_lt_mul hW]
  have h1 := Nat.div_add_mod (N - 1 + 1 + (W - 1)) W
  have h2 := Nat.mod_lt (N - 1 + 1 + (W - 1)) hW
  have h3 : (N - 1 + 1 + (W - 1)) / W * W = W * ((N - 1 + 1 + (W - 1)) / W) :=
    Nat.mul_comm _ _
  have hid2 : id < N := hid
  omega

theorem new_not_activated (W n : Nat) (v : vertex_id_t) :
    (graph_engine.new W n).is_activated v = false := by
  unfold graph_engine.is_activated
  cases ht : (graph_engine.new W n).worker_threads[(graph_engine.new W n).partitioner.map v]?
    with
  | none => rfl
  | some t =>
    obtain ⟨-, rfl⟩ := new_worker W n _ t ht
    exact replicate_false_getD _ _

theorem start_inbox (g : graph_engine) (ids : List vertex_id_t) :
    g.same_inbox (g.start ids) := by
  refine ⟨rfl, rfl, rfl, ?_⟩
  apply List.ext_getElem?
  intro i
  rw [List.getElem?_map, List.getElem?_map, start_worker]
  cases g.worker_threads[i]? <;> rfl

/-- The state in which `main` starts the workers has what holds when a level begins. -/
theorem bfs_init_inv (edges : List (List vertex_id_t)) (W : Nat) (S : List vertex_id_t)
    (hW : 0 < W) (hS : S.Nodup) (hSlt : ∀ a ∈ S, a < edges.length) :
    bfs_state.bfs_inv edges W S
      { graph := (graph_engine.new W (edges.length - 1)).start S
        visited := List.replicate edges.length false
        runs := []
        asserts_hold := true } := by
  have hnew := new_ok W edges.length hW
  have hin := start_inbox (graph_engine.new W (edges.length - 1)) S
  have hre := ok_reorders _ W _ hnew
  have hrem : ((graph_engine.new W (edges.length - 1)).start S).all_remaining
      = ((graph_engine.new W (edges.length - 1)).start S).all_frontiers :=
    all_remaining_eq_all_frontiers _ (start_cursors _ S)
  have hcnt := start_count _ (ok_wf _ W _ hnew) S hre
  have hmem : ∀ v, v ∈ ((graph_engine.new W (edges.length - 1)).start S).all_remaining
      ↔ v ∈ S := by
    intro v
    rw [hrem, ← List.count_pos_iff, ← List.count_pos_iff, hcnt v]
  have hvis : ∀ v, bfs_state.has_visited
      { graph := (graph_engine.new W (edges.length - 1)).start S
        visited := List.replicate edges.length false
        runs := []
        asserts_hold := true } v = false :=
    fun v => replicate_false_getD _ _
  refine ⟨⟨same_inbox_ok _ _ W _ hin hnew, by simp, ?_, ?_, ?_, rfl⟩, ?_, ?_, ?_, ?_, ?_⟩
  · show ((graph_engine.new W (edges.length - 1)).start S).all_remaining.Nodup
    rw [hrem]
    exact start_nodup _ S hre hS
  · intro v hv
    exact hSlt v ((hmem v).mp hv)
  · intro v
    show ((graph_engine.new W (edges.length - 1)).start S).is_activated v = false
    rw [same_inbox_activated _ _ hin v]
    exact new_not_activated W _ v
  · intro v hv
    rw [hvis v] at hv
    cases hv
  · intro v hv
    exact ⟨v, (hmem v).mp hv, Relation.ReflTransGen.refl⟩
  · intro a ha
    right
    exact (hmem a).mpr ha
  · intro u hu
    rw [hvis u] at hu
    cases hu
  · intro v
    rw [hvis v]
    simp

/-- The BFS run ends, and at its end the visited vertices are the reachable ones, each run
once. -/
theorem bfs_spec (edges : List (List vertex_id_t)) (W : Nat) (S : List vertex_id_t)
    (sched : List (List (Nat × Int))) (fuel : Nat) (hW : 0 < W) (hS : S.Nodup)
    (hSlt : ∀ a ∈ S, a < edges.length)
    (hE : ∀ nb ∈ edges, ∀ v ∈ nb, v < edges.length) (hfuel : edges.length + 1 ≤ fuel) :
    ∃ s, bfs edges W S sched fuel = some s ∧
      s.visited.length = edges.length ∧
      (∀ v, s.has_visited v = true ↔ bfs_reachable edges S v) ∧
      (∀ v, List.count v s.runs = if s.has_visited v = true then 1 else 0) ∧
      s.asserts_hold = true ∧ s.graph.all_remaining = [] := by
  obtain ⟨s, h1, h2, h3⟩ := run_levels_spec edges W S hE fuel sched _
    (bfs_init_inv edges W S hW hS hSlt) (by simp only [List.length_nil]; omega)
  exact ⟨s, h1, h2.1.2.1, bfs_inv_final edges W S s h2 h3, h2.2.2.2.2.2, h2.1.2.2.2.2.2, h3⟩

theorem visited_ext (l1 l2 : List Bool) (hlen : l1.length = l2.length)
    (h : ∀ v, l1.getD v false = l2.getD v false) : l1 = l2 := by
  apply List.ext_getElem?
  intro i
  by_cases hi : i < l1.length
  · have hi2 : i < l2.length := hlen ▸ hi
    have := h i
    simp only [List.getD_eq_getElem?_getD, List.getElem?_eq_getElem hi,
      List.getElem?_eq_getElem hi2, Option.getD_some] at this
    rw [List.getElem?_eq_getElem hi, List.getElem?_eq_getElem hi2, this]
  · have hi2 : ¬ i < l2.length := hlen ▸ hi
    rw [List.getElem?_eq_none (Nat.le_of_not_lt hi), List.getElem?_eq_none (Nat.le_of_not_lt hi2)]


/-- C13: in the sequential model `bfs` of the engine running the BFS vertex program from a
set `S` of distinct start vertices on any finite directed graph `edges` (every edge leading
to a vertex of the graph), for every worker count `W ≥ 1`, every schedule of the workers'
iterations and a level bound above the number of vertices, the run ends; at its end the
vertices with the VISITED flag are exactly those reachable from `S` along out-edges,
`run(graph, vertex)` was invoked exactly once on each of them and on no other vertex, no
assertion of `bfs_vertex::run` has failed, and the flags are those of the runs with 1 worker
and with 8 workers under any schedules. -/
theorem bfs_visits_reachable (edges : List (List vertex_id_t)) (W : Nat)
    (S : List vertex_id_t) (sched sched1 sched8 : List (List (Nat × Int))) (fuel : Nat)
    (hW : 0 < W) (hS : S.Nodup) (hSlt : ∀ a ∈ S, a < edges.length)
    (hE : ∀ nb ∈ edges, ∀ v ∈ nb, v < edges.length) (hfuel : edges.length + 1 ≤ fuel) :
    ∃ s s1 s8, bfs edges W S sched fuel = some s ∧ bfs edges 1 S sched1 fuel = some s1 ∧
      bfs edges 8 S sched8 fuel = some s8 ∧
      (∀ v, s.has_visited v = true ↔ bfs_reachable edges S v) ∧
      (∀ v, bfs_reachable edges S v → List.count v s.runs = 1) ∧
      (∀ v, ¬ bfs_reachable edges S v → List.count v s.runs = 0) ∧
      s.asserts_hold = true ∧
      s1.visited = s8.visited ∧ s.visited = s1.visited := by
  obtain ⟨s, a1, a2, a3, a4, a5, -⟩ := bfs_spec edges W S sched fuel hW hS hSlt hE hfuel
  obtain ⟨s1, b1, b2, b3, -, -, -⟩ :=
    bfs_spec edges 1 S sched1 fuel (by decide) hS hSlt hE hfuel
  obtain ⟨s8, c1, c2, c3, -, -, -⟩ :=
    bfs_spec edges 8 S sched8 fuel (by decide) hS hSlt hE hfuel
  have hsame : ∀ (x y : bfs_state), x.visited.length = edges.length →
      y.visited.length = edges.length →
      (∀ v, x.has_visited v = true ↔ bfs_reachable edges S v) →
      (∀ v, y.has_visited v = true ↔ bfs_reachable edges S v) → x.visited = y.visited := by
    intro x y hx hy hxr hyr
    apply visited_ext _ _ (hx.trans hy.symm)
    intro v
    have hiff : x.has_visited v = true ↔ y.has_visited v = true :=
      (hxr v).trans (hyr v).symm
    have : x.has_visited v = y.has_visited v := by
      cases hxv : x.has_visited v <;> cases hyv : y.has_visited v <;> simp_all
    exact this
  refine ⟨s, s1, s8, a1, b1, c1, a3, ?_, ?_, a5, hsame s1 s8 b2 c2 b3 c3,
    hsame s s1 a2 b2 a3 b3⟩
  · intro v hv
    rw [a4 v, if_pos ((a3 v).mpr hv)]
  · intro v hv
    rw [a4 v, if_neg (fun h => hv ((a3 v).mp h))]

/-- Witness for `bfs_visits_reachable`: two directed triangles 0, 1, 2 and 3, 4, 5, three
workers, start vertex 0, a first level in which worker 1 and then worker 2 iterate before
the others (so worker 2 steals vertex 0).  The run ends with exactly 0, 1, 2 visited. -/
theorem bfs_visits_reachable_witness :
    0 < 3 ∧ [0].Nodup ∧
    (∀ a ∈ [0], a < [[1, 2], [2, 0], [0, 1], [4, 5], [5, 3], [3, 4]].length) ∧
    (∀ nb ∈ [[1, 2], [2, 0], [0, 1], [4, 5], [5, 3], [3, 4]], ∀ v ∈ nb,
      v < [[1, 2], [2, 0], [0, 1], [4, 5], [5, 3], [3, 4]].length) ∧
    ∃ s, bfs [[1, 2], [2, 0], [0, 1], [4, 5], [5, 3], [3, 4]] 3 [0] [[(1, 1), (2, 5)]] 7
        = some s ∧
      s.visited = [true, true, true, false, false, false] ∧
      (∀ v, s.has_visited v = true
        ↔ bfs_reachable [[1, 2], [2, 0], [0, 1], [4, 5], [5, 3], [3, 4]] [0] v) ∧
      List.count 2 s.runs = 1 := by
  have hSlt : ∀ a ∈ [0], a < [[1, 2], [2, 0], [0, 1], [4, 5], [5, 3], [3, 4]].length := by
    decide
  have hE : ∀ nb ∈ [[1, 2], [2, 0], [0, 1], [4, 5], [5, 3], [3, 4]], ∀ v ∈ nb,
      v < [[1, 2], [2, 0], [0, 1], [4, 5], [5, 3], [3, 4]].length := by
    decide
  obtain ⟨s, s1, s8, h1, -, -, h4, h5, -, -, -, -⟩ :=
    bfs_visits_reachable [[1, 2], [2, 0], [0, 1], [4, 5], [5, 3], [3, 4]] 3 [0]
      [[(1, 1), (2, 5)]] [] [] 7 (by decide) (by decide) hSlt hE (by decide)
  have hv : (bfs [[1, 2], [2, 0], [0, 1], [4, 5], [5, 3], [3, 4]] 3 [0]
      [[(1, 1), (2, 5)]] 7).map (fun s => s.visited)
        = some [true, true, true, false, false, false] := by
    decide!
  rw [h1] at hv
  refine ⟨by decide, by decide, hSlt, hE, s, h1, by simpa using hv, h4, ?_⟩
  apply h5
  rw [← h4]
  have hv2 : s.visited = [true, true, true, false, false, false] := by simpa using hv
  simp [bfs_state.has_visited, hv2]


/-! ## Reading the top of the priority queue -/

/-- C29 (failing input): a scheduler with an empty buffer and one user compute holding one
request, at offset 5, and an output queue with four free slots.  The emitting loop takes the
request from the top and pops it, which empties the priority queue, and the assertion of
line 119 then reads `user_computes.top()` of the empty queue; the request is appended all
the same.  So does every iteration that pops the last entry. -/
theorem get_requests_reads_top_of_empty :
    ((throughput_comp_io_scheduler.mk ⟨[], 512⟩ [⟨[⟨5, 1⟩]⟩]).get_requests
      ⟨[], 4⟩).top_of_empty = true ∧
    ((throughput_comp_io_scheduler.mk ⟨[], 512⟩ [⟨[⟨5, 1⟩]⟩]).get_requests
      ⟨[], 4⟩).reqs.buf = [⟨5, 1⟩] ∧
    (∀ (s : emit_state) (prio_comp : prio_compute),
      (emit_step s prio_comp []).top_of_empty = true) := by
  refine ⟨by decide, by decide, ?_⟩
  intro s prio_comp
  unfold emit_step
  cases new_prio_compute s.computes prio_comp.compute with
  | none => simp
  | some x => simp

/-! ## `has_requests` of a partial read -/

/-- C30 (failing input): a `part_ts_vertex_compute` just constructed and initialised for the
vertex 4, before its header page has arrived: `has_requests()` is true, since `num_issued`
is 0, and `get_next_request()` fails `assert(required_vertex_header)`.  Once the header is
there, `has_requests()` is true exactly when `get_next_request()` succeeds. -/
theorem part_has_requests_before_header :
    (part_ts_vertex_compute.new 4).has_requests = true ∧
    (∀ ext_mem_off, (part_ts_vertex_compute.new 4).get_next_request ext_mem_off = none) ∧
    (∀ (c : part_ts_vertex_compute) (header : ts_header) (ext_mem_off : vertex_id_t → Int),
      c.required_vertex_header = some header →
      (c.has_requests = true ↔ (c.get_next_request ext_mem_off).isSome = true)) := by
  refine ⟨by decide, fun _ => rfl, ?_⟩
  intro c header ext hh
  unfold part_ts_vertex_compute.has_requests part_ts_vertex_compute.get_next_request
  rw [hh]
  by_cases h0 : c.num_issued = 0 <;> simp [h0]


/-! ## The victim-selection loop: how many tries, and which -/

/-- The shape of the tries of the victim-selection loop started at the worker `sid` with
`more` further tries allowed: consecutive workers round-robin, only the last try may obtain
something, and all tries are used when nothing is stolen. -/
theorem steal_tries_shape (W : Nat) (hW : 0 < W) (threads : List worker_thread)
    (hlen : threads.length = W) (more : Nat) :
    ∀ sid, sid < W →
      0 < (worker_thread.steal_tries W more threads sid).length ∧
      (worker_thread.steal_tries W more threads sid).length ≤ more + 1 ∧
      (∀ k x, (worker_thread.steal_tries W more threads sid)[k]? = some x →
        x.victim = (sid + k) % W ∧
        (k + 1 < (worker_thread.steal_tries W more threads sid).length → x.obtained = 0) ∧
        (k + 1 = (worker_thread.steal_tries W more threads sid).length →
          x.obtained = (worker_thread.steal_loop W more threads sid).steal_buf.length)) ∧
      ((worker_thread.steal_loop W more threads sid).steal_buf = [] →
        (worker_thread.steal_tries W more threads sid).length = more + 1) := by
  induction more with
  | zero =>
    intro sid hsid
    have hlt : sid < threads.length := hlen ▸ hsid
    have ht : threads[sid]? = some threads[sid] := List.getElem?_eq_getElem hlt
    generalize threads[sid] = t at ht
    unfold worker_thread.steal_tries worker_thread.steal_loop
    rw [ht]
    dsimp only
    split
    · rename_i hz
      refine ⟨by simp, by simp, ?_, fun _ => rfl⟩
      intro k x hk
      cases k with
      | zero =>
        simp only [List.getElem?_cons_zero, Option.some.injEq] at hk
        subst hk
        exact ⟨by simp [Nat.mod_eq_of_lt hsid], fun h => by simp at h, fun _ => by simp [hz]⟩
      | succ k => simp at hk
    · rename_i hz
      refine ⟨by simp, by simp, ?_, ?_⟩
      · intro k x hk
        cases k with
        | zero =>
          simp only [List.getElem?_cons_zero, Option.some.injEq] at hk
          subst hk
          exact ⟨by simp [Nat.mod_eq_of_lt hsid], fun h => by simp at h,
            fun _ => (fetch_vertices_length _ _).symm⟩
        | succ k => simp at hk
      · intro hnil
        exfalso
        apply hz
        rw [← fetch_vertices_length]
        simp only at hnil
        rw [hnil]
        rfl
  | succ m ih =>
    intro sid hsid
    have hlt : sid < threads.length := hlen ▸ hsid
    have ht : threads[sid]? = some threads[sid] := List.getElem?_eq_getElem hlt
    generalize threads[sid] = t at ht
    unfold worker_thread.steal_tries worker_thread.steal_loop
    rw [ht]
    dsimp only
    split
    · rename_i hz
      simp only [fetch_zero_queue _ _ hz]
      rw [set_same threads sid t ht]
      have hnext : (sid + 1) % W < W := Nat.mod_lt _ hW
      obtain ⟨i1, i2, i3, i4⟩ := ih ((sid + 1) % W) hnext
      refine ⟨by simp, by simp only [List.length_cons]; omega, ?_, ?_⟩
      · intro k x hk
        cases k with
        | zero =>
          simp only [List.getElem?_cons_zero, Option.some.injEq] at hk
          subst hk
          refine ⟨by simp [Nat.mod_eq_of_lt hsid], fun _ => hz, ?_⟩
          intro hk1
          simp only [List.length_cons] at hk1
          omega
        | succ k =>
          simp only [List.getElem?_cons_succ] at hk
          obtain ⟨j1, j2, j3⟩ := i3 k x hk
          refine ⟨?_, ?_, ?_⟩
          · rw [j1, Nat.mod_add_mod]
            congr 1
            omega
          · intro hk1
            apply j2
            simp only [List.length_cons] at hk1
            omega
          · intro hk1
            apply j3
            simp only [List.length_cons] at hk1
            omega
      · intro hnil
        simp only [List.length_cons]
        rw [i4 hnil]
    · rename_i hz
      refine ⟨by simp, by simp, ?_, ?_⟩
      · intro k x hk
        cases k with
        | zero =>
          simp only [List.getElem?_cons_zero, Option.some.injEq] at hk
          subst hk
          exact ⟨by simp [Nat.mod_eq_of_lt hsid], fun h => by simp at h,
            fun _ => (fetch_vertices_length _ _).symm⟩
        | succ k => simp at hk
      · intro hnil
        exfalso
        apply hz
        rw [← fetch_vertices_length]
        simp only at hnil
        rw [hnil]
        rfl


/-- C21: for every engine of `W ≥ 1` workers and every state of their frontiers, the
victim-selection loop of a call `steal_activated_vertices` by the worker `me` (whose
`steal_thread_id` names a worker, as it always does) makes at least one and at most `W`
tries; the tries go to consecutive worker indices round-robin, every try but the last
obtains nothing and the last obtains what the call steals, so the loop stops at the first
queue that yields an id; and when nothing is stolen there were exactly `W` tries, one for
every worker index, hence for every peer, each found with an empty queue. -/
theorem steal_round_robin (g : graph_engine) (self buf_size : Nat) (me : worker_thread)
    (hme : g.worker_threads[self]? = some me)
    (hsid : me.steal_thread_id < g.get_num_threads) :
    0 < (worker_thread.steal_tries_of g self).length ∧
    (worker_thread.steal_tries_of g self).length ≤ g.get_num_threads ∧
    (∃ first, first < g.get_num_threads ∧
      ∀ k x, (worker_thread.steal_tries_of g self)[k]? = some x →
        x.victim = (first + k) % g.get_num_threads ∧
        (k + 1 < (worker_thread.steal_tries_of g self).length → x.obtained = 0) ∧
        (k + 1 = (worker_thread.steal_tries_of g self).length →
          x.obtained
            = (worker_thread.steal_activated_vertices g self buf_size).stolen.length)) ∧
    ((worker_thread.steal_activated_vertices g self buf_size).stolen = [] →
      (worker_thread.steal_tries_of g self).length = g.get_num_threads ∧
      ∀ j, j < g.get_num_threads →
        ∃ x ∈ worker_thread.steal_tries_of g self, x.victim = j ∧ x.obtained = 0 ∧
          ∃ t, g.worker_threads[j]? = some t ∧
            t.curr_activated_vertices.is_empty = true) := by
  have hW : 0 < g.get_num_threads := by
    simp only [graph_engine.get_num_threads]
    by_contra h0
    have hl : g.worker_threads.length ≤ self := by omega
    rw [List.getElem?_eq_none hl] at hme
    cases hme
  have hfirst : (if me.steal_thread_id = me.worker_id
      then (me.steal_thread_id + 1) % g.get_num_threads else me.steal_thread_id)
      < g.get_num_threads := by
    split
    · exact Nat.mod_lt _ hW
    · exact hsid
  obtain ⟨s1, s2, s3, s4⟩ := steal_tries_shape g.get_num_threads hW g.worker_threads rfl
    (g.get_num_threads - 1) _ hfirst
  have hspec := steal_tries_spec g.get_num_threads (g.get_num_threads - 1) g.worker_threads
    (if me.steal_thread_id = me.worker_id
      then (me.steal_thread_id + 1) % g.get_num_threads else me.steal_thread_id)
  have htries : worker_thread.steal_tries_of g self
      = worker_thread.steal_tries g.get_num_threads (g.get_num_threads - 1) g.worker_threads
          (if me.steal_thread_id = me.worker_id
            then (me.steal_thread_id + 1) % g.get_num_threads else me.steal_thread_id) := by
    unfold worker_thread.steal_tries_of
    rw [hme]
  have hstolen : (worker_thread.steal_activated_vertices g self buf_size).stolen
      = (worker_thread.steal_loop g.get_num_threads (g.get_num_threads - 1) g.worker_threads
          (if me.steal_thread_id = me.worker_id
            then (me.steal_thread_id + 1) % g.get_num_threads
            else me.steal_thread_id)).steal_buf := by
    unfold worker_thread.steal_activated_vertices
    rw [hme]
  rw [htries, hstolen]
  generalize (if me.steal_thread_id = me.worker_id
      then (me.steal_thread_id + 1) % g.get_num_threads else me.steal_thread_id) = first
    at hfirst s1 s2 s3 s4 hspec ⊢
  generalize worker_thread.steal_tries g.get_num_threads (g.get_num_threads - 1)
    g.worker_threads first = tries at s1 s2 s3 s4 hspec ⊢
  refine ⟨s1, by omega, ⟨first, hfirst, s3⟩, ?_⟩
  intro hnil
  have hl : tries.length = g.get_num_threads := by
    have := s4 hnil
    omega
  refine ⟨hl, ?_⟩
  intro j hj
  have hk : (j + g.get_num_threads - first) % g.get_num_threads < tries.length := by
    rw [hl]
    exact Nat.mod_lt _ hW
  have hx : tries[(j + g.get_num_threads - first) % g.get_num_threads]?
      = some tries[(j + g.get_num_threads - first) % g.get_num_threads] :=
    List.getElem?_eq_getElem hk
  generalize tries[(j + g.get_num_threads - first) % g.get_num_threads] = x at hx
  obtain ⟨x1, x2, x3⟩ := s3 _ x hx
  have hxmem : x ∈ tries := List.getElem?_mem hx
  have hvict : x.victim = j := by
    rw [x1, Nat.add_mod_mod]
    have e : first + (j + g.get_num_threads - first) = j + g.get_num_threads := by omega
    rw [e, Nat.add_mod_right]
    exact Nat.mod_eq_of_lt hj
  have hob : x.obtained = 0 := by
    by_cases hlast : (j + g.get_num_threads - first) % g.get_num_threads + 1 < tries.length
    · exact x2 hlast
    · have := x3 (by omega)
      rw [this, hnil]
      rfl
  obtain ⟨t, t1, t2, t3⟩ := hspec x hxmem
  refine ⟨x, hxmem, hvict, hob, t, by rw [← hvict]; exact t1, ?_⟩
  rw [hob] at t3
  have hreq : 1 ≤ x.requested := by
    rw [t2]
    simp only [MAX_STOLEN_VERTICES]
    omega
  simp only [sorted_vertex_queue.fetch] at t3
  simp only [sorted_vertex_queue.is_empty, decide_eq_true_eq]
  omega

/-- Witness for `steal_round_robin`: three workers with empty frontiers; worker 0 tries the
workers 1, 2 and 0 and steals nothing. -/
theorem steal_round_robin_witness :
    (graph_engine.new 3 9).worker_threads[0]? = some (worker_thread.new 0 3 9) ∧
    (worker_thread.new 0 3 9).steal_thread_id < (graph_engine.new 3 9).get_num_threads ∧
    (worker_thread.steal_tries_of (graph_engine.new 3 9) 0).map (fun x => x.victim)
      = [1, 2, 0] ∧
    (worker_thread.steal_tries_of (graph_engine.new 3 9) 0).length
      = (graph_engine.new 3 9).get_num_threads := by
  have h := steal_round_robin (graph_engine.new 3 9) 0 4 (worker_thread.new 0 3 9) rfl
    (by decide)
  exact ⟨rfl, by decide, by decide, (h.2.2.2 (by decide)).1⟩


/-! ## The counters of `process_activated_vertices` -/

theorem map_eq_getElem?_some {α β : Type} (f : α → β) (l l1 : List α)
    (h : l1.map f = l.map f) (i : Nat) (t : α) (ht : l[i]? = some t) :
    ∃ t1, l1[i]? = some t1 ∧ f t1 = f t := by
  have h2 : (l1.map f)[i]? = (l.map f)[i]? := by rw [h]
  simp only [List.getElem?_map, ht, Option.map_some'] at h2
  cases ht1 : l1[i]? with
  | none => simp [ht1] at h2
  | some t1 =>
    refine ⟨t1, rfl, ?_⟩
    simpa [ht1] using h2

theorem steal_loop_counters (num_threads more : Nat) (threads : List worker_thread)
    (sid : Nat) :
    (worker_thread.steal_loop num_threads more threads sid).worker_threads.map
        worker_thread.counters
      = threads.map worker_thread.counters := by
  rcases steal_loop_spec num_threads more threads sid with h | ⟨t, ht, -, -, hw⟩
  · rw [h.2]
  · rw [hw]
    apply map_set_eq
    intro b hb
    rw [ht] at hb
    cases hb
    rfl

/-- Stealing changes no counter; it returns as many ids as it puts in the buffer, at most
`buf_size`. -/
theorem steal_counters (g : graph_engine) (self buf_size : Nat) :
    (worker_thread.steal_activated_vertices g self buf_size).graph.worker_threads.map
        worker_thread.counters
      = g.worker_threads.map worker_thread.counters ∧
    (worker_thread.steal_activated_vertices g self buf_size).vertex_buf.length
      = (worker_thread.steal_activated_vertices g self buf_size).ret ∧
    (worker_thread.steal_activated_vertices g self buf_size).ret ≤ buf_size := by
  unfold worker_thread.steal_activated_vertices
  cases hme : g.worker_threads[self]? with
  | none => exact ⟨rfl, rfl, Nat.zero_le _⟩
  | some me =>
    dsimp only
    generalize hst : worker_thread.steal_loop g.get_num_threads (g.get_num_threads - 1)
      g.worker_threads
      (if me.steal_thread_id = me.worker_id then (me.steal_thread_id + 1) % g.get_num_threads
        else me.steal_thread_id) = st
    have hl := steal_loop_counters g.get_num_threads (g.get_num_threads - 1) g.worker_threads
      (if me.steal_thread_id = me.worker_id then (me.steal_thread_id + 1) % g.get_num_threads
        else me.steal_thread_id)
    rw [hst] at hl
    refine ⟨?_, ?_, Nat.min_le_left _ _⟩
    · rw [← hl]
      cases hme1 : st.worker_threads[self]? with
      | none => rfl
      | some me1 =>
        dsimp only
        apply map_set_eq
        intro b hb
        rw [hme1] at hb
        cases hb
        split <;> rfl
    · simp only [List.length_take]
      omega

theorem fetch_or_steal_counts (g : graph_engine) (self : Nat) (me : worker_thread) (n : Nat)
    (hme : g.worker_threads[self]? = some me) :
    (worker_thread.fetch_or_steal g self me n).2.1.length
      = (worker_thread.fetch_or_steal g self me n).2.2 ∧
    (worker_thread.fetch_or_steal g self me n).2.2 ≤ n ∧
    ∃ me1, (worker_thread.fetch_or_steal g self me n).1.worker_threads[self]? = some me1 ∧
      me1.counters = me.counters := by
  have hlt : self < g.worker_threads.length := by
    by_contra hge
    rw [List.getElem?_eq_none (Nat.le_of_not_lt hge)] at hme
    cases hme
  unfold worker_thread.fetch_or_steal
  dsimp only
  split
  · have hs := steal_counters
      { g with
        worker_threads := g.worker_threads.set self
          { me with curr_activated_vertices := (me.curr_activated_vertices.fetch n).queue } }
      self n
    refine ⟨hs.2.1, hs.2.2, ?_⟩
    have hself : (g.worker_threads.set self
        { me with curr_activated_vertices := (me.curr_activated_vertices.fetch n).queue })[self]?
        = some { me with
            curr_activated_vertices := (me.curr_activated_vertices.fetch n).queue } :=
      List.getElem?_set_self hlt
    obtain ⟨me1, h1, h2⟩ := map_eq_getElem?_some _ _ _ hs.1 self _ hself
    exact ⟨me1, h1, h2⟩
  · refine ⟨fetch_vertices_length _ _, ?_, _, List.getElem?_set_self hlt, rfl⟩
    simp only [sorted_vertex_queue.fetch]
    exact Nat.min_le_left _ _


theorem filter_length_split (l : List vertex_id_t) (p : vertex_id_t → Bool) :
    (l.filter p).length + (l.filter (fun id => !p id)).length = l.length := by
  induction l with
  | nil => rfl
  | cons x xs ih =>
    cases hp : p x <;> simp [List.filter_cons, hp] <;> omega

/-- C22: for every call `process_activated_vertices(max)` of a worker `me`: when `max ≤ 0` it
returns 0 and leaves the engine, with every counter and queue, as it was.  Otherwise, with
`num` the number of ids accepted in `vertex_buf` (fetched from the own frontier, or stolen
when the own fetch returned 0), `num ≤ max` is returned, `num_activated_vertices_in_level`
of the worker grows by exactly `num`, `num_completed_vertices_in_level` grows by the number
of accepted vertices whose pre-run returned false, a read request is issued for exactly the
accepted vertices whose pre-run returned true, and the requests issued plus the growth of
the completed counter make `num`. -/
theorem process_activated_vertices_counters (g : graph_engine) (self : Nat) (max : Int)
    (pre_run : vertex_id_t → Bool) (me : worker_thread)
    (hme : g.worker_threads[self]? = some me) :
    (max ≤ 0 →
      (worker_thread.process_activated_vertices g self max pre_run).graph = g ∧
      (worker_thread.process_activated_vertices g self max pre_run).ret = 0 ∧
      (worker_thread.process_activated_vertices g self max pre_run).reqs = []) ∧
    (0 < max →
      ∃ me1, (worker_thread.process_activated_vertices g self max
          pre_run).graph.worker_threads[self]? = some me1 ∧
        ((worker_thread.process_activated_vertices g self max pre_run).ret : Int) ≤ max ∧
        (worker_thread.process_activated_vertices g self max pre_run).vertex_buf.length
          = (worker_thread.process_activated_vertices g self max pre_run).ret ∧
        (worker_thread.process_activated_vertices g self max pre_run).vertex_buf
          = (worker_thread.fetch_or_steal g self me max.toNat).2.1 ∧
        me1.num_activated_vertices_in_level
          = me.num_activated_vertices_in_level
            + (worker_thread.process_activated_vertices g self max pre_run).ret ∧
        me1.num_completed_vertices_in_level
          = me.num_completed_vertices_in_level
            + (((worker_thread.process_activated_vertices g self max pre_run).vertex_buf.filter
                (fun id => !pre_run id)).length : Int) ∧
        (worker_thread.process_activated_vertices g self max pre_run).reqs
          = (worker_thread.process_activated_vertices g self max pre_run).vertex_buf.filter
              pre_run ∧
        (worker_thread.process_activated_vertices g self max pre_run).reqs.length
          + ((worker_thread.process_activated_vertices g self max pre_run).vertex_buf.filter
              (fun id => !pre_run id)).length
          = (worker_thread.process_activated_vertices g self max pre_run).ret) := by
  constructor
  · intro hmax
    unfold worker_thread.process_activated_vertices
    simp [hmax]
  · intro hmax
    have hpos : ¬ max ≤ 0 := by omega
    obtain ⟨f1, f2, me0, f3, f4⟩ := fetch_or_steal_counts g self me max.toNat hme
    unfold worker_thread.process_activated_vertices
    simp only [hpos, if_false, hme]
    generalize worker_thread.fetch_or_steal g self me max.toNat = got at f1 f2 f3 ⊢
    have hthreads : (if got.2.2 > 0 then got.1.process_vertices got.2.2 else got.1).worker_threads
        = got.1.worker_threads := by
      split <;> rfl
    have hlt : self < got.1.worker_threads.length := by
      by_contra hge
      rw [List.getElem?_eq_none (Nat.le_of_not_lt hge)] at f3
      cases f3
    simp only [hthreads, f3, List.getElem?_set_self hlt, Option.some.injEq, exists_eq_left']
    simp only [worker_thread.counters, Prod.mk.injEq] at f4
    refine ⟨by omega, f1, trivial, ?_, ?_, trivial, ?_⟩
    · rw [f4.1]
      split
      · rfl
      · rename_i hz
        have : got.2.2 = 0 := by omega
        simp [this]
    · rw [f4.2]
      split
      · rfl
      · rename_i hz
        have : (got.2.1.filter (fun id => !pre_run id)).length = 0 := by omega
        simp [this]
    · rw [filter_length_split, f1]

/-- Witness for `process_activated_vertices_counters`: two workers over the ids 0..9 started
on 2, 4 and 6; worker 0 accepts 2 and 4 with budget 2, the pre-run being true on 4 only. -/
theorem process_activated_vertices_counters_witness :
    ((graph_engine.new 2 9).start [2, 4, 6]).worker_threads[0]?
      = some ((worker_thread.new 0 2 9).start_vertices [2, 4, 6]) ∧
    (worker_thread.process_activated_vertices ((graph_engine.new 2 9).start [2, 4, 6]) 0 2
      (fun id => decide (id = 4))).ret = 2 ∧
    (worker_thread.process_activated_vertices ((graph_engine.new 2 9).start [2, 4, 6]) 0 2
      (fun id => decide (id = 4))).reqs = [4] ∧
    (worker_thread.process_activated_vertices ((graph_engine.new 2 9).start [2, 4, 6]) 0 2
        (fun id => decide (id = 4))).reqs.length
      + ((worker_thread.process_activated_vertices ((graph_engine.new 2 9).start [2, 4, 6]) 0
          2 (fun id => decide (id = 4))).vertex_buf.filter
            (fun id => !decide (id = 4))).length
      = (worker_thread.process_activated_vertices ((graph_engine.new 2 9).start [2, 4, 6]) 0 2
          (fun id => decide (id = 4))).ret := by
  obtain ⟨me1, -, -, -, -, -, -, -, h⟩ :=
    (process_activated_vertices_counters ((graph_engine.new 2 9).start [2, 4, 6]) 0 2
      (fun id => decide (id = 4)) ((worker_thread.new 0 2 9).start_vertices [2, 4, 6])
      rfl).2 (by decide)
  exact ⟨rfl, by decide, by decide, h⟩


/-! ## `enter_next_level`: from the messages and the bitmap to the frontier -/

theorem set_bits_get (offs : List Nat) (b : bitmap) (off : Nat) :
    (offs.foldl bitmap.set b).get off
      = (b.get off || (decide (off < b.bits.length) && decide (off ∈ offs))) ∧
    (offs.foldl bitmap.set b).bits.length = b.bits.length := by
  induction offs generalizing b with
  | nil => simp
  | cons o rest ih =>
    simp only [List.foldl_cons]
    have hl : (b.set o).bits.length = b.bits.length := by simp [bitmap.set]
    rw [(ih (b.set o)).1, (ih (b.set o)).2, hl, bitmap_get_set]
    refine ⟨?_, rfl⟩
    by_cases h1 : off = o
    · subst h1
      by_cases h2 : off < b.bits.length <;> simp [h2]
    · by_cases h2 : off < b.bits.length <;> by_cases h3 : off ∈ rest <;> simp [h1, h2, h3]

theorem process_multicast_msg_sets (p : vertex_partitioner) (dests : List vertex_id_t)
    (e : Bool) (w : worker_thread) :
    (w.process_multicast_msg p dests e true).next_activated_vertices
      = (dests.map (fun d => (p.map2loc d).2)).foldl bitmap.set w.next_activated_vertices := by
  induction dests generalizing w with
  | nil => rfl
  | cons d rest ih =>
    simp only [worker_thread.process_multicast_msg, List.map_cons, List.foldl_cons]
    rw [ih, (process_dest_bits p w d e true).1]
    rfl

theorem process_msg_sets (p : vertex_partitioner) (msg : message) (w : worker_thread) :
    (w.process_msg p msg).next_activated_vertices
      = ((activated_dests [msg]).map (fun d => (p.map2loc d).2)).foldl bitmap.set
          w.next_activated_vertices := by
  induction msg generalizing w with
  | nil => rfl
  | cons m rest ih =>
    have hrest : ∀ w1 : worker_thread, (w1.process_msg p rest).next_activated_vertices
        = ((((rest.filter (fun m => m.is_activate)).map (fun m => m.dests)).flatten).map
            (fun d => (p.map2loc d).2)).foldl bitmap.set w1.next_activated_vertices := by
      intro w1
      have := ih w1
      simpa [activated_dests] using this
    cases m with
    | unicast dest e a =>
      simp only [worker_thread.process_msg]
      rw [hrest, (process_dest_bits p w dest e a).1]
      cases a <;>
        simp [activated_dests, vertex_message.is_activate, vertex_message.dests,
          List.filter_cons]
    | multicast dests e a =>
      simp only [worker_thread.process_msg]
      rw [hrest]
      cases a
      · rw [process_multicast_msg_no_activate]
        simp [activated_dests, vertex_message.is_activate, List.filter_cons]
      · rw [process_multicast_msg_sets]
        simp [activated_dests, vertex_message.is_activate, vertex_message.dests,
          List.filter_cons, List.foldl_append]

theorem process_msg_list_sets (p : vertex_partitioner) (msgs : List message)
    (w : worker_thread) :
    (w.process_msg_list p msgs).next_activated_vertices
      = ((activated_dests msgs).map (fun d => (p.map2loc d).2)).foldl bitmap.set
          w.next_activated_vertices := by
  induction msgs generalizing w with
  | nil => rfl
  | cons m rest ih =>
    simp only [worker_thread.process_msg_list]
    rw [ih, process_msg_sets]
    simp [activated_dests, List.foldl_append]

/-- The bits set once the inbound queue is processed: those set before, and those of the
destinations of the activating messages. -/
theorem process_msgs_sets (p : vertex_partitioner) (w : worker_thread) (off : Nat) :
    (w.process_msgs p).next_activated_vertices.get off
      = (w.next_activated_vertices.get off
        || (decide (off < w.next_activated_vertices.bits.length)
          && (activated_dests w.msg_q).any (fun d => decide ((p.map2loc d).2 = off)))) := by
  unfold worker_thread.process_msgs
  rw [process_msg_list_sets, (set_bits_get _ _ off).1]
  congr 2
  simp only [List.mem_map, Bool.decide_eq_true, List.any_eq, decide_eq_decide]
  constructor
  · rintro ⟨d, hd, rfl⟩
    exact ⟨d, hd, by simp⟩
  · rintro ⟨d, hd, he⟩
    exact ⟨d, hd, by simpa using he⟩


/-- C23: `worker_thread::enter_next_level` of a worker whose scheduler only reorders: every
batch of the inbound queue is processed first (the queue is empty afterwards and the
callbacks made are those of `process_msgs`); the bits then set in the next-level bitmap are
the bits set earlier plus the bits of the destinations of the activating messages; the new
frontier, with its cursor at 0, holds exactly the ids `loc2map(worker_id, off)` of these set
bits (in ascending order of `off` under the default scheduler); the bitmap is cleared and
keeps its size; and the value returned is the size of the new frontier, which is the number
of bits that were set. -/
theorem enter_next_level_contract (p : vertex_partitioner) (w : worker_thread)
    (hs : w.curr_activated_vertices.scheduler.reorders) :
    (w.enter_next_level p).1.msg_q = [] ∧
    (w.enter_next_level p).1.delivered = (w.process_msgs p).delivered ∧
    (∀ off, (w.process_msgs p).next_activated_vertices.get off
      = (w.next_activated_vertices.get off
        || (decide (off < w.next_activated_vertices.bits.length)
          && (activated_dests w.msg_q).any (fun d => decide ((p.map2loc d).2 = off))))) ∧
    (w.enter_next_level p).1.curr_activated_vertices.fetch_idx = 0 ∧
    List.Perm (w.enter_next_level p).1.curr_activated_vertices.sorted_vertices
      (((List.range w.next_activated_vertices.bits.length).filter
          (fun off => (w.process_msgs p).next_activated_vertices.get off)).map
        (fun off => p.loc2map w.worker_id off)) ∧
    (w.curr_activated_vertices.scheduler.is_custom = false →
      (w.enter_next_level p).1.curr_activated_vertices.sorted_vertices
        = ((List.range w.next_activated_vertices.bits.length).filter
            (fun off => (w.process_msgs p).next_activated_vertices.get off)).map
          (fun off => p.loc2map w.worker_id off)) ∧
    (∀ off, (w.enter_next_level p).1.next_activated_vertices.get off = false) ∧
    (w.enter_next_level p).1.next_activated_vertices.bits.length
      = w.next_activated_vertices.bits.length ∧
    (w.enter_next_level p).2
      = (w.enter_next_level p).1.curr_activated_vertices.sorted_vertices.length ∧
    (w.enter_next_level p).2
      = ((List.range w.next_activated_vertices.bits.length).filter
          (fun off => (w.process_msgs p).next_activated_vertices.get off)).length := by
  have hq := process_msgs_queue p w
  have hbits : (w.process_msgs p).next_activated_vertices.get_set_bits []
      = (List.range w.next_activated_vertices.bits.length).filter
          (fun off => (w.process_msgs p).next_activated_vertices.get off) := by
    simp only [bitmap.get_set_bits, List.nil_append, hq.2]
  have hperm := enter_next_level_frontier_perm p w hs
  have hfr := enter_next_level_frontier p w
  rw [hbits] at hperm
  rw [hbits] at hfr
  have hret : (w.enter_next_level p).2
      = (w.enter_next_level p).1.curr_activated_vertices.sorted_vertices.length := by
    show (w.enter_next_level p).1.curr_activated_vertices.get_num_vertices = _
    simp only [sorted_vertex_queue.get_num_vertices, hfr.1, Nat.sub_zero]
  refine ⟨hq.1, rfl, process_msgs_sets p w, hfr.1, hperm, ?_, ?_,
    (enter_next_level_clear p w 0).2, hret, ?_⟩
  · intro hc
    rw [hfr.2, hc]
    rfl
  · intro off
    exact bitmap_clear_get _ off
  · rw [hret, hperm.length_eq, List.length_map]

/-- Witness for `enter_next_level_contract`: worker 0 of 2 over the ids 0..9 with the bit of
vertex 2 already set and a batch that activates 4 (point-to-point) and 6, 8 (multicast): the
new frontier is 2, 4, 6, 8 and 4 is returned. -/
theorem enter_next_level_contract_witness :
    (worker_thread.new 0 2 9).curr_activated_vertices.scheduler.reorders ∧
    (worker_thread.enter_next_level ⟨2⟩
      { worker_thread.new 0 2 9 with
        next_activated_vertices := ⟨[false, true, false, false, false]⟩
        msg_q := [[.unicast 4 true true, .multicast [6, 8] false true]]
      }).1.curr_activated_vertices.sorted_vertices = [2, 4, 6, 8] ∧
    (worker_thread.enter_next_level ⟨2⟩
      { worker_thread.new 0 2 9 with
        next_activated_vertices := ⟨[false, true, false, false, false]⟩
        msg_q := [[.unicast 4 true true, .multicast [6, 8] false true]] }).2 = 4 ∧
    (worker_thread.enter_next_level ⟨2⟩
      { worker_thread.new 0 2 9 with
        next_activated_vertices := ⟨[false, true, false, false, false]⟩
        msg_q := [[.unicast 4 true true, .multicast [6, 8] false true]] }).2
      = (worker_thread.enter_next_level ⟨2⟩
          { worker_thread.new 0 2 9 with
            next_activated_vertices := ⟨[false, true, false, false, false]⟩
            msg_q := [[.unicast 4 true true, .multicast [6, 8] false true]]
          }).1.curr_activated_vertices.sorted_vertices.length := by
  have h := enter_next_level_contract ⟨2⟩
    { worker_thread.new 0 2 9 with
      next_activated_vertices := ⟨[false, true, false, false, false]⟩
      msg_q := [[.unicast 4 true true, .multicast [6, 8] false true]] }
    default_scheduler_reorders
  exact ⟨default_scheduler_reorders, by decide, by decide, h.2.2.2.2.2.2.2.2.1⟩


/-! ## File mappers -/

/-- A value within the range of `int` is kept by `wrap_int`. -/
theorem wrap_int_eq (x : Int) (h0 : -2147483648 ≤ x) (h1 : x < 2147483648) :
    wrap_int x = x := by
  unfold wrap_int
  omega

/-- A value within the range of `off_t` is kept by `wrap_off_t`. -/
theorem wrap_off_t_eq (x : Int) (h0 : -9223372036854775808 ≤ x)
    (h1 : x < 9223372036854775808) : wrap_off_t x = x := by
  unfold wrap_off_t
  omega

/-- The offset in the file of a block of a stripe is not beyond the offset mapped. -/
theorem block_bound (off B n : Int) (hoff : 0 ≤ off) (hB : 1 ≤ B) (hn : 1 ≤ n) :
    0 ≤ off / B ∧ off / B ≤ off ∧ 0 ≤ off / B / n ∧ off / B / n ≤ off / B ∧
    0 ≤ off / B / n * B ∧ off / B / n * B + off % B ≤ off ∧
    0 ≤ off % B ∧ off % B < B := by
  have hq : 0 ≤ off / B := Int.ediv_nonneg hoff (by omega)
  have hqn : 0 ≤ off / B / n := Int.ediv_nonneg hq (by omega)
  have h1 : off / B / n ≤ off / B := Int.ediv_le_self _ hq
  have h2 : off / B / n * B ≤ off / B * B := Int.mul_le_mul_of_nonneg_right h1 (by omega)
  have h3 : off / B * B + off % B = off := Int.ediv_add_emod' off B
  have h4 : 0 ≤ off % B := Int.emod_nonneg _ (by omega)
  have h5 : off % B < B := Int.emod_lt_of_pos _ (by omega)
  have h6 : off / B ≤ off := Int.ediv_le_self _ hoff
  exact ⟨hq, h6, hqn, h1, Int.mul_nonneg hqn (by omega), by omega, h4, h5⟩

theorem RAID0_map_eq (m : RAID0_mapper) (off : Int) (hn : 1 ≤ m.num_files)
    (hn31 : m.num_files < 2147483648)
    (hB : 1 ≤ m.STRIPE_BLOCK_SIZE) (hB31 : m.STRIPE_BLOCK_SIZE < 2147483648)
    (hr : 0 ≤ m.rand_start) (hoff : 0 ≤ off) (hoff63 : off < 9223372036854775808)
    (hsum : off / m.STRIPE_BLOCK_SIZE + m.rand_start < 9223372036854775808) :
    (m.map off).idx = (off / m.STRIPE_BLOCK_SIZE + m.rand_start) % m.num_files ∧
    (m.map off).off
      = off / m.STRIPE_BLOCK_SIZE / m.num_files * m.STRIPE_BLOCK_SIZE
        + off % m.STRIPE_BLOCK_SIZE ∧
    m.map2file off = (m.map off).idx := by
  have hB0 : 0 ≤ m.STRIPE_BLOCK_SIZE := by omega
  have hn0 : 0 ≤ m.num_files := by omega
  obtain ⟨hb, -, -, -, hq0, hqle, hi0, hiB⟩ :=
    block_bound off m.STRIPE_BLOCK_SIZE m.num_files hoff hB hn
  have hk0 : 0 ≤ (off / m.STRIPE_BLOCK_SIZE + m.rand_start) % m.num_files :=
    Int.emod_nonneg _ (by omega)
  have hkn : (off / m.STRIPE_BLOCK_SIZE + m.rand_start) % m.num_files < m.num_files :=
    Int.emod_lt_of_pos _ (by omega)
  have e1 : off.tdiv m.STRIPE_BLOCK_SIZE = off / m.STRIPE_BLOCK_SIZE :=
    Int.tdiv_eq_ediv hoff hB0
  have e2 : off.tmod m.STRIPE_BLOCK_SIZE = off % m.STRIPE_BLOCK_SIZE :=
    Int.tmod_eq_emod hoff hB0
  have e3 : wrap_int (off % m.STRIPE_BLOCK_SIZE) = off % m.STRIPE_BLOCK_SIZE :=
    wrap_int_eq _ (by omega) (by omega)
  have e4 : wrap_off_t (off / m.STRIPE_BLOCK_SIZE + m.rand_start)
      = off / m.STRIPE_BLOCK_SIZE + m.rand_start := wrap_off_t_eq _ (by omega) hsum
  have e5 : (off / m.STRIPE_BLOCK_SIZE + m.rand_start).tmod m.num_files
      = (off / m.STRIPE_BLOCK_SIZE + m.rand_start) % m.num_files :=
    Int.tmod_eq_emod (by omega) hn0
  have e6 : wrap_int ((off / m.STRIPE_BLOCK_SIZE + m.rand_start) % m.num_files)
      = (off / m.STRIPE_BLOCK_SIZE + m.rand_start) % m.num_files :=
    wrap_int_eq _ (by omega) (by omega)
  have e7 : (off / m.STRIPE_BLOCK_SIZE).tdiv m.num_files
      = off / m.STRIPE_BLOCK_SIZE / m.num_files := Int.tdiv_eq_ediv hb hn0
  have e8 : wrap_off_t (off / m.STRIPE_BLOCK_SIZE / m.num_files * m.STRIPE_BLOCK_SIZE)
      = off / m.STRIPE_BLOCK_SIZE / m.num_files * m.STRIPE_BLOCK_SIZE :=
    wrap_off_t_eq _ (by omega) (by omega)
  have e9 : wrap_off_t (off / m.STRIPE_BLOCK_SIZE / m.num_files * m.STRIPE_BLOCK_SIZE
        + off % m.STRIPE_BLOCK_SIZE)
      = off / m.STRIPE_BLOCK_SIZE / m.num_files * m.STRIPE_BLOCK_SIZE
        + off % m.STRIPE_BLOCK_SIZE := wrap_off_t_eq _ (by omega) (by omega)
  refine ⟨?_, ?_, ?_⟩ <;>
    simp only [RAID0_mapper.map, RAID0_mapper.map2file, e1, e2, e3, e4, e5, e6, e7, e8, e9]

theorem RAID0_map_backwards_eq (m : RAID0_mapper) (idx o : Int) (hn : 1 ≤ m.num_files)
    (hn30 : m.num_files ≤ 1073741824)
    (hB : 1 ≤ m.STRIPE_BLOCK_SIZE) (hB31 : m.STRIPE_BLOCK_SIZE < 2147483648)
    (hr0 : 0 ≤ m.rand_start) (hr : m.rand_start < m.num_files) (hidx : 0 ≤ idx)
    (hidxn : idx < m.num_files) (ho : 0 ≤ o)
    (hE : (o / m.STRIPE_BLOCK_SIZE * m.num_files
          + (idx - m.rand_start + m.num_files) % m.num_files) * m.STRIPE_BLOCK_SIZE
        + o % m.STRIPE_BLOCK_SIZE < 9223372036854775808) :
    m.map_backwards idx o
      = (o / m.STRIPE_BLOCK_SIZE * m.num_files
          + (idx - m.rand_start + m.num_files) % m.num_files) * m.STRIPE_BLOCK_SIZE
        + o % m.STRIPE_BLOCK_SIZE := by
  have hB0 : 0 ≤ m.STRIPE_BLOCK_SIZE := by omega
  have hn0 : 0 ≤ m.num_files := by omega
  have hq : 0 ≤ o / m.STRIPE_BLOCK_SIZE := Int.ediv_nonneg ho hB0
  have ha : 0 ≤ o / m.STRIPE_BLOCK_SIZE * m.num_files := Int.mul_nonneg hq hn0
  have hk0 : 0 ≤ (idx - m.rand_start + m.num_files) % m.num_files :=
    Int.emod_nonneg _ (by omega)
  have hi0 : 0 ≤ o % m.STRIPE_BLOCK_SIZE := Int.emod_nonneg _ (by omega)
  have hiB : o % m.STRIPE_BLOCK_SIZE < m.STRIPE_BLOCK_SIZE := Int.emod_lt_of_pos _ (by omega)
  have hc : 0 ≤ o / m.STRIPE_BLOCK_SIZE * m.num_files
      + (idx - m.rand_start + m.num_files) % m.num_files := by omega
  have hd : o / m.STRIPE_BLOCK_SIZE * m.num_files
        + (idx - m.rand_start + m.num_files) % m.num_files
      ≤ (o / m.STRIPE_BLOCK_SIZE * m.num_files
        + (idx - m.rand_start + m.num_files) % m.num_files) * m.STRIPE_BLOCK_SIZE :=
    le_mul_of_one_le_right hc hB
  have e1 : o.tdiv m.STRIPE_BLOCK_SIZE = o / m.STRIPE_BLOCK_SIZE := Int.tdiv_eq_ediv ho hB0
  have e2 : o.tmod m.STRIPE_BLOCK_SIZE = o % m.STRIPE_BLOCK_SIZE := Int.tmod_eq_emod ho hB0
  have e3 : wrap_int (o % m.STRIPE_BLOCK_SIZE) = o % m.STRIPE_BLOCK_SIZE :=
    wrap_int_eq _ (by omega) (by omega)
  have e4 : wrap_int (idx - m.rand_start) = idx - m.rand_start :=
    wrap_int_eq _ (by omega) (by omega)
  have e5 : wrap_int (idx - m.rand_start + m.num_files) = idx - m.rand_start + m.num_files :=
    wrap_int_eq _ (by omega) (by omega)
  have e6 : (idx - m.rand_start + m.num_files).tmod m.num_files
      = (idx - m.rand_start + m.num_files) % m.num_files := Int.tmod_eq_emod (by omega) hn0
  have e7 : wrap_off_t (o / m.STRIPE_BLOCK_SIZE * m.num_files)
      = o / m.STRIPE_BLOCK_SIZE * m.num_files := wrap_off_t_eq _ (by omega) (by omega)
  have e8 : wrap_off_t (o / m.STRIPE_BLOCK_SIZE * m.num_files
        + (idx - m.rand_start + m.num_files) % m.num_files)
      = o / m.STRIPE_BLOCK_SIZE * m.num_files
        + (idx - m.rand_start + m.num_files) % m.num_files :=
    wrap_off_t_eq _ (by omega) (by omega)
  have e9 : wrap_off_t ((o / m.STRIPE_BLOCK_SIZE * m.num_files
        + (idx - m.rand_start + m.num_files) % m.num_files) * m.STRIPE_BLOCK_SIZE)
      = (o / m.STRIPE_BLOCK_SIZE * m.num_files
        + (idx - m.rand_start + m.num_files) % m.num_files) * m.STRIPE_BLOCK_SIZE :=
    wrap_off_t_eq _ (by omega) (by omega)
  have e10 : wrap_off_t ((o / m.STRIPE_BLOCK_SIZE * m.num_files
        + (idx - m.rand_start + m.num_files) % m.num_files) * m.STRIPE_BLOCK_SIZE
        + o % m.STRIPE_BLOCK_SIZE)
      = (o / m.STRIPE_BLOCK_SIZE * m.num_files
        + (idx - m.rand_start + m.num_files) % m.num_files) * m.STRIPE_BLOCK_SIZE
        + o % m.STRIPE_BLOCK_SIZE := wrap_off_t_eq _ (by omega) hE
  simp only [RAID0_mapper.map_backwards, e1, e2, e3, e4, e5, e6, e7, e8, e9, e10]

/-- Splitting `q * B + i` with `0 ≤ i < B` by `B` gives back `q` and `i`. -/
theorem block_split (q i B : Int) (hi : 0 ≤ i) (hiB : i < B) :
    (q * B + i) / B = q ∧ (q * B + i) % B = i := by
  have hB : B ≠ 0 := by omega
  constructor
  · rw [Int.add_comm, Int.add_mul_ediv_right _ _ hB, Int.ediv_eq_zero_of_lt hi hiB]
    omega
  · rw [Int.add_comm, Int.add_mul_emod_self, Int.emod_eq_of_lt hi hiB]

theorem shift_back (b r n : Int) :
    ((b + r) % n - r + n) % n = b % n := by
  have h : (b + r) % n - r + n = b + n * (1 - (b + r) / n) := by
    rw [Int.emod_def]
    ring
  rw [h, Int.add_mul_emod_self_left]

theorem RAID0_back_map (m : RAID0_mapper) (off : Int) (hn : 1 ≤ m.num_files)
    (hn30 : m.num_files ≤ 1073741824)
    (hB : 1 ≤ m.STRIPE_BLOCK_SIZE) (hB31 : m.STRIPE_BLOCK_SIZE < 2147483648)
    (hr0 : 0 ≤ m.rand_start) (hr : m.rand_start < m.num_files) (hoff : 0 ≤ off)
    (hoff63 : off < 9223372036854775808)
    (hsum : off / m.STRIPE_BLOCK_SIZE + m.rand_start < 9223372036854775808) :
    0 ≤ (m.map off).idx ∧ (m.map off).idx < m.num_files ∧
    m.map_backwards (m.map off).idx (m.map off).off = off := by
  obtain ⟨h1, h2, -⟩ := RAID0_map_eq m off hn (by omega) hB hB31 hr0 hoff hoff63 hsum
  have hB0 : 0 ≤ m.STRIPE_BLOCK_SIZE := by omega
  have hn0 : 0 ≤ m.num_files := by omega
  have hi0 : 0 ≤ off % m.STRIPE_BLOCK_SIZE := Int.emod_nonneg _ (by omega)
  have hiB : off % m.STRIPE_BLOCK_SIZE < m.STRIPE_BLOCK_SIZE :=
    Int.emod_lt_of_pos _ (by omega)
  have hb : 0 ≤ off / m.STRIPE_BLOCK_SIZE := Int.ediv_nonneg hoff hB0
  have hs : 0 ≤ off / m.STRIPE_BLOCK_SIZE / m.num_files := Int.ediv_nonneg hb hn0
  have hidx0 : 0 ≤ (m.map off).idx := by
    rw [h1]
    exact Int.emod_nonneg _ (by omega)
  have hidxn : (m.map off).idx < m.num_files := by
    rw [h1]
    exact Int.emod_lt_of_pos _ (by omega)
  have ho0 : 0 ≤ (m.map off).off := by
    rw [h2]
    have := Int.mul_nonneg hs hB0
    omega
  have hex : ((m.map off).off / m.STRIPE_BLOCK_SIZE * m.num_files
        + ((m.map off).idx - m.rand_start + m.num_files) % m.num_files)
          * m.STRIPE_BLOCK_SIZE
        + (m.map off).off % m.STRIPE_BLOCK_SIZE = off := by
    rw [h2, (block_split _ _ _ hi0 hiB).1, (block_split _ _ _ hi0 hiB).2, h1, shift_back,
      Int.ediv_add_emod', Int.ediv_add_emod']
  refine ⟨hidx0, hidxn, ?_⟩
  rw [RAID0_map_backwards_eq m _ _ hn hn30 hB hB31 hr0 hr hidx0 hidxn ho0
    (by rw [hex]; exact hoff63), hex]

/-- C24 (counterexample): with 3 files, blocks of one page and `rand_start = 1`, the offset
`2^63 - 1` is mapped to the file index -2, by `map` and by `map2file`: the sum
`block_idx + rand_start` leaves the range of `off_t`.  The index is not in `[0, 3)`. -/
theorem RAID0_map_wraps :
    ((RAID0_mapper.mk 3 1 1).map 9223372036854775807).idx = -2 ∧
    (RAID0_mapper.mk 3 1 1).map2file 9223372036854775807 = -2 := by
  decide

/-- C24: the round trip of `RAID0_mapper`, for every number of files `1 ≤ n ≤ 2^30`, stripe
block size `B ≥ 1` (an `int`), `rand_start` in `[0, n)` and offset `off ≥ 0` (an `off_t`)
with `off / B + rand_start < 2^63`: `map(off)` yields a file index in `[0, n)`, the one
`map2file(off)` returns, and `map_backwards(bid.idx, bid.off) = off`; hence no other such
offset is mapped to the same block identifier. -/
theorem RAID0_round_trip (m : RAID0_mapper) (off : Int) (hn : 1 ≤ m.num_files)
    (hn30 : m.num_files ≤ 1073741824)
    (hB : 1 ≤ m.STRIPE_BLOCK_SIZE) (hB31 : m.STRIPE_BLOCK_SIZE < 2147483648)
    (hr0 : 0 ≤ m.rand_start) (hr : m.rand_start < m.num_files) (hoff : 0 ≤ off)
    (hoff63 : off < 9223372036854775808)
    (hsum : off / m.STRIPE_BLOCK_SIZE + m.rand_start < 9223372036854775808) :
    0 ≤ (m.map off).idx ∧ (m.map off).idx < m.num_files ∧
    m.map2file off = (m.map off).idx ∧
    m.map_backwards (m.map off).idx (m.map off).off = off ∧
    ∀ off2, 0 ≤ off2 → off2 < 9223372036854775808 →
      off2 / m.STRIPE_BLOCK_SIZE + m.rand_start < 9223372036854775808 →
      m.map off2 = m.map off → off2 = off := by
  obtain ⟨a1, a2, a3⟩ := RAID0_back_map m off hn hn30 hB hB31 hr0 hr hoff hoff63 hsum
  refine ⟨a1, a2, (RAID0_map_eq m off hn (by omega) hB hB31 hr0 hoff hoff63 hsum).2.2, a3, ?_⟩
  intro off2 hoff2 hoff2b hsum2 he
  have b3 := (RAID0_back_map m off2 hn hn30 hB hB31 hr0 hr hoff2 hoff2b hsum2).2.2
  rw [he] at b3
  rw [← b3, a3]

/-- Witness for `RAID0_round_trip`: 3 files, blocks of 4 pages, `rand_start = 1`, offset
29. -/
theorem RAID0_round_trip_witness :
    (1 : Int) ≤ 3 ∧ (3 : Int) ≤ 1073741824 ∧ (1 : Int) ≤ 4 ∧ (4 : Int) < 2147483648 ∧
    (0 : Int) ≤ 1 ∧ (1 : Int) < 3 ∧ (0 : Int) ≤ 29 ∧ (29 : Int) < 9223372036854775808 ∧
    (29 : Int) / 4 + 1 < 9223372036854775808 ∧
    (RAID0_mapper.mk 3 4 1).map 29 = ⟨2, 9⟩ ∧
    (RAID0_mapper.mk 3 4 1).map_backwards
      ((RAID0_mapper.mk 3 4 1).map 29).idx ((RAID0_mapper.mk 3 4 1).map 29).off = 29 :=
  ⟨by decide, by decide, by decide, by decide, by decide, by decide, by decide, by decide,
    by decide, by decide,
    (RAID0_round_trip (RAID0_mapper.mk 3 4 1) 29 (by decide) (by decide) (by decide)
      (by decide) (by decide) (by decide) (by decide) (by decide) (by decide)).2.2.2.1⟩

theorem RAID5_map_eq (m : RAID5_mapper) (off : Int) (hn : 1 ≤ m.num_files)
    (hB : 1 ≤ m.STRIPE_BLOCK_SIZE) (hB31 : m.STRIPE_BLOCK_SIZE < 2147483648)
    (hr : 0 ≤ m.rand_start)
    (hint : 2 * (m.num_files - 1) + m.rand_start < 2147483648)
    (hoff : 0 ≤ off) (hoff63 : off < 9223372036854775808) :
    (m.map off).idx
      = (off / m.STRIPE_BLOCK_SIZE % m.num_files
          + off / m.STRIPE_BLOCK_SIZE / m.num_files % m.num_files + m.rand_start)
        % m.num_files ∧
    (m.map off).off
      = off / m.STRIPE_BLOCK_SIZE / m.num_files * m.STRIPE_BLOCK_SIZE
        + off % m.STRIPE_BLOCK_SIZE ∧
    m.map2file off = (m.map off).idx := by
  have hB0 : 0 ≤ m.STRIPE_BLOCK_SIZE := by omega
  have hn0 : 0 ≤ m.num_files := by omega
  obtain ⟨hb, -, hs, -, hq0, hqle, hi0, hiB⟩ :=
    block_bound off m.STRIPE_BLOCK_SIZE m.num_files hoff hB hn
  have h1 : 0 ≤ off / m.STRIPE_BLOCK_SIZE % m.num_files := Int.emod_nonneg _ (by omega)
  have h1n : off / m.STRIPE_BLOCK_SIZE % m.num_files < m.num_files :=
    Int.emod_lt_of_pos _ (by omega)
  have h2 : 0 ≤ off / m.STRIPE_BLOCK_SIZE / m.num_files % m.num_files :=
    Int.emod_nonneg _ (by omega)
  have h2n : off / m.STRIPE_BLOCK_SIZE / m.num_files % m.num_files < m.num_files :=
    Int.emod_lt_of_pos _ (by omega)
  have h3 : 0 ≤ (off / m.STRIPE_BLOCK_SIZE % m.num_files
      + off / m.STRIPE_BLOCK_SIZE / m.num_files % m.num_files + m.rand_start)
        % m.num_files := Int.emod_nonneg _ (by omega)
  have h3n : (off / m.STRIPE_BLOCK_SIZE % m.num_files
      + off / m.STRIPE_BLOCK_SIZE / m.num_files % m.num_files + m.rand_start)
        % m.num_files < m.num_files := Int.emod_lt_of_pos _ (by omega)
  have e1 : off.tdiv m.STRIPE_BLOCK_SIZE = off / m.STRIPE_BLOCK_SIZE :=
    Int.tdiv_eq_ediv hoff hB0
  have e2 : off.tmod m.STRIPE_BLOCK_SIZE = off % m.STRIPE_BLOCK_SIZE :=
    Int.tmod_eq_emod hoff hB0
  have e3 : wrap_int (off % m.STRIPE_BLOCK_SIZE) = off % m.STRIPE_BLOCK_SIZE :=
    wrap_int_eq _ (by omega) (by omega)
  have e4 : (off / m.STRIPE_BLOCK_SIZE).tmod m.num_files
      = off / m.STRIPE_BLOCK_SIZE % m.num_files := Int.tmod_eq_emod hb hn0
  have e5 : wrap_int (off / m.STRIPE_BLOCK_SIZE % m.num_files)
      = off / m.STRIPE_BLOCK_SIZE % m.num_files := wrap_int_eq _ (by omega) (by omega)
  have e6 : (off / m.STRIPE_BLOCK_SIZE).tdiv m.num_files
      = off / m.STRIPE_BLOCK_SIZE / m.num_files := Int.tdiv_eq_ediv hb hn0
  have e7 : (off / m.STRIPE_BLOCK_SIZE / m.num_files).tmod m.num_files
      = off / m.STRIPE_BLOCK_SIZE / m.num_files % m.num_files := Int.tmod_eq_emod hs hn0
  have e8 : wrap_int (off / m.STRIPE_BLOCK_SIZE / m.num_files % m.num_files)
      = off / m.STRIPE_BLOCK_SIZE / m.num_files % m.num_files :=
    wrap_int_eq _ (by omega) (by omega)
  have e9 : wrap_int (off / m.STRIPE_BLOCK_SIZE % m.num_files
        + off / m.STRIPE_BLOCK_SIZE / m.num_files % m.num_files)
      = off / m.STRIPE_BLOCK_SIZE % m.num_files
        + off / m.STRIPE_BLOCK_SIZE / m.num_files % m.num_files :=
    wrap_int_eq _ (by omega) (by omega)
  have e10 : wrap_int (off / m.STRIPE_BLOCK_SIZE % m.num_files
        + off / m.STRIPE_BLOCK_SIZE / m.num_files % m.num_files + m.rand_start)
      = off / m.STRIPE_BLOCK_SIZE % m.num_files
        + off / m.STRIPE_BLOCK_SIZE / m.num_files % m.num_files + m.rand_start :=
    wrap_int_eq _ (by omega) (by omega)
  have e11 : (off / m.STRIPE_BLOCK_SIZE % m.num_files
        + off / m.STRIPE_BLOCK_SIZE / m.num_files % m.num_files + m.rand_start).tmod
          m.num_files
      = (off / m.STRIPE_BLOCK_SIZE % m.num_files
        + off / m.STRIPE_BLOCK_SIZE / m.num_files % m.num_files + m.rand_start)
          % m.num_files := Int.tmod_eq_emod (by omega) hn0
  have e12 : wrap_off_t (off / m.STRIPE_BLOCK_SIZE / m.num_files * m.STRIPE_BLOCK_SIZE)
      = off / m.STRIPE_BLOCK_SIZE / m.num_files * m.STRIPE_BLOCK_SIZE :=
    wrap_off_t_eq _ (by omega) (by omega)
  have e13 : wrap_off_t (off / m.STRIPE_BLOCK_SIZE / m.num_files * m.STRIPE_BLOCK_SIZE
        + off % m.STRIPE_BLOCK_SIZE)
      = off / m.STRIPE_BLOCK_SIZE / m.num_files * m.STRIPE_BLOCK_SIZE
        + off % m.STRIPE_BLOCK_SIZE := wrap_off_t_eq _ (by omega) (by omega)
  have e14 : wrap_off_t (off / m.STRIPE_BLOCK_SIZE % m.num_files
        + off / m.STRIPE_BLOCK_SIZE / m.num_files % m.num_files)
      = off / m.STRIPE_BLOCK_SIZE % m.num_files
        + off / m.STRIPE_BLOCK_SIZE / m.num_files % m.num_files :=
    wrap_off_t_eq _ (by omega) (by omega)
  have e15 : wrap_off_t (off / m.STRIPE_BLOCK_SIZE % m.num_files
        + off / m.STRIPE_BLOCK_SIZE / m.num_files % m.num_files + m.rand_start)
      = off / m.STRIPE_BLOCK_SIZE % m.num_files
        + off / m.STRIPE_BLOCK_SIZE / m.num_files % m.num_files + m.rand_start :=
    wrap_off_t_eq _ (by omega) (by omega)
  have e16 : wrap_int ((off / m.STRIPE_BLOCK_SIZE % m.num_files
        + off / m.STRIPE_BLOCK_SIZE / m.num_files % m.num_files + m.rand_start)
          % m.num_files)
      = (off / m.STRIPE_BLOCK_SIZE % m.num_files
        + off / m.STRIPE_BLOCK_SIZE / m.num_files % m.num_files + m.rand_start)
          % m.num_files := wrap_int_eq _ (by omega) (by omega)
  refine ⟨?_, ?_, ?_⟩ <;>
    simp only [RAID5_mapper.map, RAID5_mapper.map2file, e1, e2, e3, e4, e5, e6, e7, e8, e9,
      e10, e11, e12, e13, e14, e15, e16]

theorem RAID5_map_backwards_eq (m : RAID5_mapper) (idx o : Int) (hn : 1 ≤ m.num_files)
    (hn30 : m.num_files ≤ 1073741824)
    (hB : 1 ≤ m.STRIPE_BLOCK_SIZE) (hB31 : m.STRIPE_BLOCK_SIZE < 2147483648)
    (hr0 : 0 ≤ m.rand_start) (hidx : 0 ≤ idx) (hidxn : idx < m.num_files) (ho : 0 ≤ o)
    (hsum : m.rand_start + o / m.STRIPE_BLOCK_SIZE < 9223372036854775808)
    (hE : (o / m.STRIPE_BLOCK_SIZE * m.num_files
          + (idx - (m.rand_start + o / m.STRIPE_BLOCK_SIZE) % m.num_files + m.num_files)
            % m.num_files) * m.STRIPE_BLOCK_SIZE
        + o % m.STRIPE_BLOCK_SIZE < 9223372036854775808) :
    m.map_backwards idx o
      = (o / m.STRIPE_BLOCK_SIZE * m.num_files
          + (idx - (m.rand_start + o / m.STRIPE_BLOCK_SIZE) % m.num_files + m.num_files)
            % m.num_files) * m.STRIPE_BLOCK_SIZE
        + o % m.STRIPE_BLOCK_SIZE := by
  have hB0 : 0 ≤ m.STRIPE_BLOCK_SIZE := by omega
  have hn0 : 0 ≤ m.num_files := by omega
  have hb : 0 ≤ o / m.STRIPE_BLOCK_SIZE := Int.ediv_nonneg ho hB0
  have ha : 0 ≤ o / m.STRIPE_BLOCK_SIZE * m.num_files := Int.mul_nonneg hb hn0
  have hs0 : 0 ≤ (m.rand_start + o / m.STRIPE_BLOCK_SIZE) % m.num_files :=
    Int.emod_nonneg _ (by omega)
  have hlt : (m.rand_start + o / m.STRIPE_BLOCK_SIZE) % m.num_files < m.num_files :=
    Int.emod_lt_of_pos _ (by omega)
  have hk0 : 0 ≤ (idx - (m.rand_start + o / m.STRIPE_BLOCK_SIZE) % m.num_files
      + m.num_files) % m.num_files := Int.emod_nonneg _ (by omega)
  have hi0 : 0 ≤ o % m.STRIPE_BLOCK_SIZE := Int.emod_nonneg _ (by omega)
  have hiB : o % m.STRIPE_BLOCK_SIZE < m.STRIPE_BLOCK_SIZE := Int.emod_lt_of_pos _ (by omega)
  have hc : 0 ≤ o / m.STRIPE_BLOCK_SIZE * m.num_files
      + (idx - (m.rand_start + o / m.STRIPE_BLOCK_SIZE) % m.num_files + m.num_files)
        % m.num_files := by omega
  have hd : o / m.STRIPE_BLOCK_SIZE * m.num_files
        + (idx - (m.rand_start + o / m.STRIPE_BLOCK_SIZE) % m.num_files + m.num_files)
          % m.num_files
      ≤ (o / m.STRIPE_BLOCK_SIZE * m.num_files
        + (idx - (m.rand_start + o / m.STRIPE_BLOCK_SIZE) % m.num_files + m.num_files)
          % m.num_files) * m.STRIPE_BLOCK_SIZE :=
    le_mul_of_one_le_right hc hB
  have e1 : o.tdiv m.STRIPE_BLOCK_SIZE = o / m.STRIPE_BLOCK_SIZE := Int.tdiv_eq_ediv ho hB0
  have e2 : o.tmod m.STRIPE_BLOCK_SIZE = o % m.STRIPE_BLOCK_SIZE := Int.tmod_eq_emod ho hB0
  have e3 : wrap_int (o % m.STRIPE_BLOCK_SIZE) = o % m.STRIPE_BLOCK_SIZE :=
    wrap_int_eq _ (by omega) (by omega)
  have e4 : wrap_off_t (m.rand_start + o / m.STRIPE_BLOCK_SIZE)
      = m.rand_start + o / m.STRIPE_BLOCK_SIZE := wrap_off_t_eq _ (by omega) hsum
  have e5 : (m.rand_start + o / m.STRIPE_BLOCK_SIZE).tmod m.num_files
      = (m.rand_start + o / m.STRIPE_BLOCK_SIZE) % m.num_files :=
    Int.tmod_eq_emod (by omega) hn0
  have e6 : wrap_int ((m.rand_start + o / m.STRIPE_BLOCK_SIZE) % m.num_files)
      = (m.rand_start + o / m.STRIPE_BLOCK_SIZE) % m.num_files :=
    wrap_int_eq _ (by omega) (by omega)
  have e7 : wrap_int (idx - (m.rand_start + o / m.STRIPE_BLOCK_SIZE) % m.num_files)
      = idx - (m.rand_start + o / m.STRIPE_BLOCK_SIZE) % m.num_files :=
    wrap_int_eq _ (by omega) (by omega)
  have e8 : wrap_int (idx - (m.rand_start + o / m.STRIPE_BLOCK_SIZE) % m.num_files
        + m.num_files)
      = idx - (m.rand_start + o / m.STRIPE_BLOCK_SIZE) % m.num_files + m.num_files :=
    wrap_int_eq _ (by omega) (by omega)
  have e9 : (idx - (m.rand_start + o / m.STRIPE_BLOCK_SIZE) % m.num_files
        + m.num_files).tmod m.num_files
      = (idx - (m.rand_start + o / m.STRIPE_BLOCK_SIZE) % m.num_files + m.num_files)
        % m.num_files := Int.tmod_eq_emod (by omega) hn0
  have e10 : wrap_off_t (o / m.STRIPE_BLOCK_SIZE * m.num_files)
      = o / m.STRIPE_BLOCK_SIZE * m.num_files := wrap_off_t_eq _ (by omega) (by omega)
  have e11 : wrap_off_t (o / m.STRIPE_BLOCK_SIZE * m.num_files
        + (idx - (m.rand_start + o / m.STRIPE_BLOCK_SIZE) % m.num_files + m.num_files)
          % m.num_files)
      = o / m.STRIPE_BLOCK_SIZE * m.num_files
        + (idx - (m.rand_start + o / m.STRIPE_BLOCK_SIZE) % m.num_files + m.num_files)
          % m.num_files := wrap_off_t_eq _ (by omega) (by omega)
  have e12 : wrap_off_t ((o / m.STRIPE_BLOCK_SIZE * m.num_files
        + (idx - (m.rand_start + o / m.STRIPE_BLOCK_SIZE) % m.num_files + m.num_files)
          % m.num_files) * m.STRIPE_BLOCK_SIZE)
      = (o / m.STRIPE_BLOCK_SIZE * m.num_files
        + (idx - (m.rand_start + o / m.STRIPE_BLOCK_SIZE) % m.num_files + m.num_files)
          % m.num_files) * m.STRIPE_BLOCK_SIZE := wrap_off_t_eq _ (by omega) (by omega)
  have e13 : wrap_off_t ((o / m.STRIPE_BLOCK_SIZE * m.num_files
        + (idx - (m.rand_start + o / m.STRIPE_BLOCK_SIZE) % m.num_files + m.num_files)
          % m.num_files) * m.STRIPE_BLOCK_SIZE + o % m.STRIPE_BLOCK_SIZE)
      = (o / m.STRIPE_BLOCK_SIZE * m.num_files
        + (idx - (m.rand_start + o / m.STRIPE_BLOCK_SIZE) % m.num_files + m.num_files)
          % m.num_files) * m.STRIPE_BLOCK_SIZE + o % m.STRIPE_BLOCK_SIZE :=
    wrap_off_t_eq _ (by omega) hE
  simp only [RAID5_mapper.map_backwards, e1, e2, e3, e4, e5, e6, e7, e8, e9, e10, e11, e12,
    e13]

theorem stripe_back (b s r n : Int) :
    ((b % n + s % n + r) % n - (r + s) % n + n) % n = b % n := by
  have h : (b % n + s % n + r) % n - (r + s) % n + n
      = b % n + n * (1 - s / n - (b % n + s % n + r) / n + (r + s) / n) := by
    rw [Int.emod_def (b % n + s % n + r) n, Int.emod_def (r + s) n, Int.emod_def s n]
    ring
  rw [h, Int.add_mul_emod_self_left, Int.emod_emod_of_dvd _ (dvd_refl n)]

/-- The stripe of an `off_t` offset, moved by a `rand_start` below the number of files, is
within the range of `off_t`. -/
theorem stripe_bound (off B n r : Int) (hoff : 0 ≤ off) (hoff63 : off < 9223372036854775808)
    (hB : 1 ≤ B) (hn : 1 ≤ n) (hr : r < n) (hr31 : r < 2147483648) :
    r + off / B / n < 9223372036854775808 := by
  obtain ⟨hq, hqle, hs, hsle, -, -, -, -⟩ := block_bound off B n hoff hB hn
  by_cases hn1 : n = 1
  · omega
  · have h1 : off / B / n * n ≤ off / B := Int.ediv_mul_le _ (by omega)
    have h2 : off / B / n * 2 ≤ off / B / n * n :=
      Int.mul_le_mul_of_nonneg_left (by omega) hs
    omega

theorem RAID5_back_map (m : RAID5_mapper) (off : Int) (hn : 1 ≤ m.num_files)
    (hB : 1 ≤ m.STRIPE_BLOCK_SIZE) (hB31 : m.STRIPE_BLOCK_SIZE < 2147483648)
    (hr0 : 0 ≤ m.rand_start) (hr : m.rand_start < m.num_files)
    (hint : 2 * (m.num_files - 1) + m.rand_start < 2147483648)
    (hoff : 0 ≤ off) (hoff63 : off < 9223372036854775808) :
    0 ≤ (m.map off).idx ∧ (m.map off).idx < m.num_files ∧
    m.map_backwards (m.map off).idx (m.map off).off = off := by
  obtain ⟨h1, h2, -⟩ := RAID5_map_eq m off hn hB hB31 hr0 hint hoff hoff63
  have hB0 : 0 ≤ m.STRIPE_BLOCK_SIZE := by omega
  have hn0 : 0 ≤ m.num_files := by omega
  have hi0 : 0 ≤ off % m.STRIPE_BLOCK_SIZE := Int.emod_nonneg _ (by omega)
  have hiB : off % m.STRIPE_BLOCK_SIZE < m.STRIPE_BLOCK_SIZE :=
    Int.emod_lt_of_pos _ (by omega)
  have hb : 0 ≤ off / m.STRIPE_BLOCK_SIZE := Int.ediv_nonneg hoff hB0
  have hs : 0 ≤ off / m.STRIPE_BLOCK_SIZE / m.num_files := Int.ediv_nonneg hb hn0
  have hidx0 : 0 ≤ (m.map off).idx := by
    rw [h1]
    exact Int.emod_nonneg _ (by omega)
  have hidxn : (m.map off).idx < m.num_files := by
    rw [h1]
    exact Int.emod_lt_of_pos _ (by omega)
  have ho0 : 0 ≤ (m.map off).off := by
    rw [h2]
    have := Int.mul_nonneg hs hB0
    omega
  have hblock : (m.map off).off / m.STRIPE_BLOCK_SIZE
      = off / m.STRIPE_BLOCK_SIZE / m.num_files := by
    rw [h2, (block_split _ _ _ hi0 hiB).1]
  have hsum : m.rand_start + (m.map off).off / m.STRIPE_BLOCK_SIZE
      < 9223372036854775808 := by
    rw [hblock]
    exact stripe_bound off _ _ _ hoff hoff63 hB hn hr (by omega)
  have hex : ((m.map off).off / m.STRIPE_BLOCK_SIZE * m.num_files
        + ((m.map off).idx - (m.rand_start + (m.map off).off / m.STRIPE_BLOCK_SIZE)
            % m.num_files + m.num_files) % m.num_files) * m.STRIPE_BLOCK_SIZE
        + (m.map off).off % m.STRIPE_BLOCK_SIZE = off := by
    rw [h2, (block_split _ _ _ hi0 hiB).1, (block_split _ _ _ hi0 hiB).2, h1, stripe_back,
      Int.ediv_add_emod', Int.ediv_add_emod']
  refine ⟨hidx0, hidxn, ?_⟩
  rw [RAID5_map_backwards_eq m _ _ hn (by omega) hB hB31 hr0 hidx0 hidxn ho0 hsum
    (by rw [hex]; exact hoff63), hex]

/-- C25 (counterexample): with `10^9` files, blocks of one page and `rand_start = 10^9 - 1`,
the offset `10^18 - 1` is mapped by `map` to the file index -294967299: the `int` sum
`bid.idx + shift + rand_start = 2999999997` leaves the range of `int`.  The index is not in
`[0, 10^9)`, and `map2file`, which adds in `off_t`, returns another one. -/
theorem RAID5_map_wraps :
    ((RAID5_mapper.mk 1000000000 1 999999999).map 999999999999999999).idx = -294967299 ∧
    (RAID5_mapper.mk 1000000000 1 999999999).map2file 999999999999999999 = 999999997 := by
  decide

/-- C25: the round trip of `RAID5_mapper`, for every number of files `n ≥ 1`, stripe block
size `B ≥ 1` (an `int`), `rand_start` in `[0, n)` with `2 (n - 1) + rand_start < 2^31` and
offset `off ≥ 0` (an `off_t`): `map(off)` yields a file index in `[0, n)`, the one
`map2file(off)` returns, and `map_backwards(bid.idx, bid.off) = off`; hence no other offset
`off2 ≥ 0` is mapped to the same block identifier. -/
theorem RAID5_round_trip (m : RAID5_mapper) (off : Int) (hn : 1 ≤ m.num_files)
    (hB : 1 ≤ m.STRIPE_BLOCK_SIZE) (hB31 : m.STRIPE_BLOCK_SIZE < 2147483648)
    (hr0 : 0 ≤ m.rand_start) (hr : m.rand_start < m.num_files)
    (hint : 2 * (m.num_files - 1) + m.rand_start < 2147483648)
    (hoff : 0 ≤ off) (hoff63 : off < 9223372036854775808) :
    0 ≤ (m.map off).idx ∧ (m.map off).idx < m.num_files ∧
    m.map2file off = (m.map off).idx ∧
    m.map_backwards (m.map off).idx (m.map off).off = off ∧
    ∀ off2, 0 ≤ off2 → off2 < 9223372036854775808 →
      m.map off2 = m.map off → off2 = off := by
  obtain ⟨a1, a2, a3⟩ := RAID5_back_map m off hn hB hB31 hr0 hr hint hoff hoff63
  refine ⟨a1, a2, (RAID5_map_eq m off hn hB hB31 hr0 hint hoff hoff63).2.2, a3, ?_⟩
  intro off2 hoff2 hoff2b he
  have b3 := (RAID5_back_map m off2 hn hB hB31 hr0 hr hint hoff2 hoff2b).2.2
  rw [he] at b3
  rw [← b3, a3]

/-- Witness for `RAID5_round_trip`: 3 files, blocks of 4 pages, `rand_start = 1`, offset
29. -/
theorem RAID5_round_trip_witness :
    (1 : Int) ≤ 3 ∧ (1 : Int) ≤ 4 ∧ (4 : Int) < 2147483648 ∧ (0 : Int) ≤ 1 ∧
    (1 : Int) < 3 ∧ (2 : Int) * (3 - 1) + 1 < 2147483648 ∧ (0 : Int) ≤ 29 ∧
    (29 : Int) < 9223372036854775808 ∧
    (RAID5_mapper.mk 3 4 1).map 29 = ⟨1, 9⟩ ∧
    (RAID5_mapper.mk 3 4 1).map_backwards
      ((RAID5_mapper.mk 3 4 1).map 29).idx ((RAID5_mapper.mk 3 4 1).map 29).off = 29 :=
  ⟨by decide, by decide, by decide, by decide, by decide, by decide, by decide, by decide,
    by decide,
    (RAID5_round_trip (RAID5_mapper.mk 3 4 1) 29 (by decide) (by decide) (by decide)
      (by decide) (by decide) (by decide) (by decide) (by decide)).2.2.2.1⟩

theorem hash_map_eq (m : hash_mapper) (off : Int) (hn : 1 ≤ m.num_files)
    (hn31 : m.num_files < 2147483648)
    (hB : 1 ≤ m.STRIPE_BLOCK_SIZE) (hB31 : m.STRIPE_BLOCK_SIZE < 2147483648)
    (hoff : 0 ≤ off) (hmul : 31 * (off / m.STRIPE_BLOCK_SIZE) < 9223372036854775808)
    (hroom : off + 190 * m.STRIPE_BLOCK_SIZE < 9223372036854775808) :
    (m.map off).idx = 31 * (off / m.STRIPE_BLOCK_SIZE) % 191 % m.num_files ∧
    (m.map off).off
      = (off / m.STRIPE_BLOCK_SIZE / 191
            * (if (m.map off).idx < 191 % m.num_files then 191 / m.num_files + 1
              else 191 / m.num_files)
          + 31 * (off / m.STRIPE_BLOCK_SIZE) % 191 / m.num_files) * m.STRIPE_BLOCK_SIZE
        + off % m.STRIPE_BLOCK_SIZE ∧
    m.map2file off = (m.map off).idx := by
  have hB0 : 0 ≤ m.STRIPE_BLOCK_SIZE := by omega
  have hn0 : 0 ≤ m.num_files := by omega
  obtain ⟨hb, hble, -, -, -, -, hi0, hiB⟩ :=
    block_bound off m.STRIPE_BLOCK_SIZE 1 hoff hB (le_refl 1)
  have hqB : off / m.STRIPE_BLOCK_SIZE * m.STRIPE_BLOCK_SIZE + off % m.STRIPE_BLOCK_SIZE
      = off := Int.ediv_add_emod' off m.STRIPE_BLOCK_SIZE
  have hp : 0 ≤ 31 * (off / m.STRIPE_BLOCK_SIZE) % 191 := Int.emod_nonneg _ (by decide)
  have hp191 : 31 * (off / m.STRIPE_BLOCK_SIZE) % 191 < 191 :=
    Int.emod_lt_of_pos _ (by decide)
  have hx0 : 0 ≤ 31 * (off / m.STRIPE_BLOCK_SIZE) % 191 % m.num_files :=
    Int.emod_nonneg _ (by omega)
  have hxn : 31 * (off / m.STRIPE_BLOCK_SIZE) % 191 % m.num_files < m.num_files :=
    Int.emod_lt_of_pos _ (by omega)
  have hk0 : 0 ≤ 31 * (off / m.STRIPE_BLOCK_SIZE) % 191 / m.num_files :=
    Int.ediv_nonneg hp hn0
  have hk : 31 * (off / m.STRIPE_BLOCK_SIZE) % 191 / m.num_files
      ≤ 31 * (off / m.STRIPE_BLOCK_SIZE) % 191 := Int.ediv_le_self _ hp
  have hd0 : (0 : Int) ≤ 191 / m.num_files := Int.ediv_nonneg (by decide) hn0
  have hd : (191 : Int) / m.num_files ≤ 191 := Int.ediv_le_self _ (by decide)
  have hL0 : 0 ≤ (if 31 * (off / m.STRIPE_BLOCK_SIZE) % 191 % m.num_files < 191 % m.num_files
      then 191 / m.num_files + 1 else 191 / m.num_files) := by
    split <;> omega
  have hL : (if 31 * (off / m.STRIPE_BLOCK_SIZE) % 191 % m.num_files < 191 % m.num_files
      then 191 / m.num_files + 1 else 191 / m.num_files) ≤ 191 := by
    split
    · rename_i hlt
      have h191 : (191 : Int) / m.num_files * m.num_files + 191 % m.num_files = 191 :=
        Int.ediv_add_emod' 191 m.num_files
      have hmn : (191 : Int) % m.num_files < m.num_files := Int.emod_lt_of_pos _ (by omega)
      have h2 : (191 : Int) / m.num_files * 2 ≤ 191 / m.num_files * m.num_files :=
        Int.mul_le_mul_of_nonneg_left (by omega) hd0
      omega
    · omega
  generalize hLdef : (if 31 * (off / m.STRIPE_BLOCK_SIZE) % 191 % m.num_files
      < 191 % m.num_files then 191 / m.num_files + 1 else 191 / m.num_files) = L at hL0 hL
  have hc0 : 0 ≤ off / m.STRIPE_BLOCK_SIZE / 191 := Int.ediv_nonneg hb (by decide)
  have hcL0 : 0 ≤ off / m.STRIPE_BLOCK_SIZE / 191 * L := Int.mul_nonneg hc0 hL0
  have hcL : off / m.STRIPE_BLOCK_SIZE / 191 * L ≤ off / m.STRIPE_BLOCK_SIZE / 191 * 191 :=
    Int.mul_le_mul_of_nonneg_left hL hc0
  have ht0 : 0 ≤ off / m.STRIPE_BLOCK_SIZE / 191 * L
      + 31 * (off / m.STRIPE_BLOCK_SIZE) % 191 / m.num_files := by omega
  have ht : off / m.STRIPE_BLOCK_SIZE / 191 * L
      + 31 * (off / m.STRIPE_BLOCK_SIZE) % 191 / m.num_files
      ≤ off / m.STRIPE_BLOCK_SIZE + 190 := by omega
  have htB0 : 0 ≤ (off / m.STRIPE_BLOCK_SIZE / 191 * L
      + 31 * (off / m.STRIPE_BLOCK_SIZE) % 191 / m.num_files) * m.STRIPE_BLOCK_SIZE :=
    Int.mul_nonneg ht0 hB0
  have htB1 : (off / m.STRIPE_BLOCK_SIZE / 191 * L
        + 31 * (off / m.STRIPE_BLOCK_SIZE) % 191 / m.num_files) * m.STRIPE_BLOCK_SIZE
      ≤ (off / m.STRIPE_BLOCK_SIZE + 190) * m.STRIPE_BLOCK_SIZE :=
    Int.mul_le_mul_of_nonneg_right ht hB0
  have hring : (off / m.STRIPE_BLOCK_SIZE + 190) * m.STRIPE_BLOCK_SIZE
      = off / m.STRIPE_BLOCK_SIZE * m.STRIPE_BLOCK_SIZE + 190 * m.STRIPE_BLOCK_SIZE := by
    ring
  have htB : (off / m.STRIPE_BLOCK_SIZE / 191 * L
        + 31 * (off / m.STRIPE_BLOCK_SIZE) % 191 / m.num_files) * m.STRIPE_BLOCK_SIZE
        + off % m.STRIPE_BLOCK_SIZE
      ≤ off + 190 * m.STRIPE_BLOCK_SIZE := by
    rw [hring] at htB1
    omega
  have e1 : off.tdiv m.STRIPE_BLOCK_SIZE = off / m.STRIPE_BLOCK_SIZE :=
    Int.tdiv_eq_ediv hoff hB0
  have e2 : off.tmod m.STRIPE_BLOCK_SIZE = off % m.STRIPE_BLOCK_SIZE :=
    Int.tmod_eq_emod hoff hB0
  have e3 : wrap_int (off % m.STRIPE_BLOCK_SIZE) = off % m.STRIPE_BLOCK_SIZE :=
    wrap_int_eq _ (by omega) (by omega)
  have e4 : wrap_off_t (31 * (off / m.STRIPE_BLOCK_SIZE)) = 31 * (off / m.STRIPE_BLOCK_SIZE) :=
    wrap_off_t_eq _ (by omega) (by omega)
  have e5 : (31 * (off / m.STRIPE_BLOCK_SIZE)).tmod 191
      = 31 * (off / m.STRIPE_BLOCK_SIZE) % 191 := Int.tmod_eq_emod (by omega) (by decide)
  have e6 : (31 * (off / m.STRIPE_BLOCK_SIZE) % 191).tmod m.num_files
      = 31 * (off / m.STRIPE_BLOCK_SIZE) % 191 % m.num_files := Int.tmod_eq_emod hp hn0
  have e7 : wrap_int (31 * (off / m.STRIPE_BLOCK_SIZE) % 191 % m.num_files)
      = 31 * (off / m.STRIPE_BLOCK_SIZE) % 191 % m.num_files :=
    wrap_int_eq _ (by omega) (by omega)
  have e8 : (31 * (off / m.STRIPE_BLOCK_SIZE) % 191).tdiv m.num_files
      = 31 * (off / m.STRIPE_BLOCK_SIZE) % 191 / m.num_files := Int.tdiv_eq_ediv hp hn0
  have e9 : (off / m.STRIPE_BLOCK_SIZE).tdiv 191 = off / m.STRIPE_BLOCK_SIZE / 191 :=
    Int.tdiv_eq_ediv hb (by decide)
  have e10 : (191 : Int).tmod m.num_files = 191 % m.num_files :=
    Int.tmod_eq_emod (by decide) hn0
  have e11 : (191 : Int).tdiv m.num_files = 191 / m.num_files :=
    Int.tdiv_eq_ediv (by decide) hn0
  have e12 : wrap_off_t (off / m.STRIPE_BLOCK_SIZE / 191 * L)
      = off / m.STRIPE_BLOCK_SIZE / 191 * L := wrap_off_t_eq _ (by omega) (by omega)
  have e13 : wrap_off_t (off / m.STRIPE_BLOCK_SIZE / 191 * L
        + 31 * (off / m.STRIPE_BLOCK_SIZE) % 191 / m.num_files)
      = off / m.STRIPE_BLOCK_SIZE / 191 * L
        + 31 * (off / m.STRIPE_BLOCK_SIZE) % 191 / m.num_files :=
    wrap_off_t_eq _ (by omega) (by omega)
  have e14 : wrap_off_t ((off / m.STRIPE_BLOCK_SIZE / 191 * L
        + 31 * (off / m.STRIPE_BLOCK_SIZE) % 191 / m.num_files) * m.STRIPE_BLOCK_SIZE)
      = (off / m.STRIPE_BLOCK_SIZE / 191 * L
        + 31 * (off / m.STRIPE_BLOCK_SIZE) % 191 / m.num_files) * m.STRIPE_BLOCK_SIZE :=
    wrap_off_t_eq _ (by omega) (by omega)
  have e15 : wrap_off_t ((off / m.STRIPE_BLOCK_SIZE / 191 * L
        + 31 * (off / m.STRIPE_BLOCK_SIZE) % 191 / m.num_files) * m.STRIPE_BLOCK_SIZE
        + off % m.STRIPE_BLOCK_SIZE)
      = (off / m.STRIPE_BLOCK_SIZE / 191 * L
        + 31 * (off / m.STRIPE_BLOCK_SIZE) % 191 / m.num_files) * m.STRIPE_BLOCK_SIZE
        + off % m.STRIPE_BLOCK_SIZE := wrap_off_t_eq _ (by omega) (by omega)
  refine ⟨?_, ?_, ?_⟩ <;>
    simp only [hash_mapper.map, hash_mapper.map2file, hash_mapper.cycle_size_in_bucket,
      hash_mapper.P_MOD_N, FILE_CONST_A, FILE_CONST_P, e1, e2, e3, e4, e5, e6, e7, e8, e9, e10,
      e11, hLdef, e12, e13, e14, e15]

/-- A residue `p` below 191 has, among the residues of its bucket, a position below the size
of the bucket. -/
theorem bucket_pos (p n : Int) (hn : 1 ≤ n) (hp0 : 0 ≤ p) (hp : p < 191) :
    0 ≤ p / n ∧
    p / n < (if p % n < 191 % n then 191 / n + 1 else 191 / n) := by
  have hn0 : 0 ≤ n := by omega
  have h1 := Int.ediv_add_emod p n
  have h2 := Int.ediv_add_emod 191 n
  have h3 : 0 ≤ p % n := Int.emod_nonneg _ (by omega)
  have h4 : (191 : Int) % n < n := Int.emod_lt_of_pos _ (by omega)
  refine ⟨Int.ediv_nonneg hp0 hn0, ?_⟩
  split
  · rename_i hlt
    by_contra hge
    have hge2 : 191 / n + 1 ≤ p / n := by omega
    have := Int.mul_le_mul_of_nonneg_left hge2 hn0
    nlinarith
  · rename_i hlt
    by_contra hge
    have hge2 : 191 / n ≤ p / n := by omega
    have := Int.mul_le_mul_of_nonneg_left hge2 hn0
    nlinarith

/-- The hash mapper maps no two offsets to one block identifier. -/
theorem hash_map_injective (m : hash_mapper) (off1 off2 : Int) (hn : 1 ≤ m.num_files)
    (hn31 : m.num_files < 2147483648)
    (hB : 1 ≤ m.STRIPE_BLOCK_SIZE) (hB31 : m.STRIPE_BLOCK_SIZE < 2147483648)
    (h1 : 0 ≤ off1) (h2 : 0 ≤ off2)
    (hm1 : 31 * (off1 / m.STRIPE_BLOCK_SIZE) < 9223372036854775808)
    (hr1 : off1 + 190 * m.STRIPE_BLOCK_SIZE < 9223372036854775808)
    (hm2 : 31 * (off2 / m.STRIPE_BLOCK_SIZE) < 9223372036854775808)
    (hr2 : off2 + 190 * m.STRIPE_BLOCK_SIZE < 9223372036854775808)
    (he : m.map off1 = m.map off2) : off1 = off2 := by
  obtain ⟨a1, a2, -⟩ := hash_map_eq m off1 hn hn31 hB hB31 h1 hm1 hr1
  obtain ⟨b1, b2, -⟩ := hash_map_eq m off2 hn hn31 hB hB31 h2 hm2 hr2
  have hidx : (m.map off1).idx = (m.map off2).idx := by rw [he]
  have hoff : (m.map off1).off = (m.map off2).off := by rw [he]
  have hB0 : 0 ≤ m.STRIPE_BLOCK_SIZE := by omega
  have hp1 : 0 ≤ 31 * (off1 / m.STRIPE_BLOCK_SIZE) % 191 := Int.emod_nonneg _ (by decide)
  have hp1b : 31 * (off1 / m.STRIPE_BLOCK_SIZE) % 191 < 191 :=
    Int.emod_lt_of_pos _ (by decide)
  have hp2 : 0 ≤ 31 * (off2 / m.STRIPE_BLOCK_SIZE) % 191 := Int.emod_nonneg _ (by decide)
  have hp2b : 31 * (off2 / m.STRIPE_BLOCK_SIZE) % 191 < 191 :=
    Int.emod_lt_of_pos _ (by decide)
  have k1 := bucket_pos _ m.num_files hn hp1 hp1b
  have k2 := bucket_pos _ m.num_files hn hp2 hp2b
  rw [← a1] at k1
  rw [← b1, ← hidx] at k2
  rw [← hidx] at b2
  generalize (if (m.map off1).idx < 191 % m.num_files then 191 / m.num_files + 1
    else 191 / m.num_files) = len at a2 b2 k1 k2
  have hi1 : 0 ≤ off1 % m.STRIPE_BLOCK_SIZE := Int.emod_nonneg _ (by omega)
  have hi1B : off1 % m.STRIPE_BLOCK_SIZE < m.STRIPE_BLOCK_SIZE :=
    Int.emod_lt_of_pos _ (by omega)
  have hi2 : 0 ≤ off2 % m.STRIPE_BLOCK_SIZE := Int.emod_nonneg _ (by omega)
  have hi2B : off2 % m.STRIPE_BLOCK_SIZE < m.STRIPE_BLOCK_SIZE :=
    Int.emod_lt_of_pos _ (by omega)
  have e := (a2.symm.trans hoff).trans b2
  have s1 := block_split (off1 / m.STRIPE_BLOCK_SIZE / 191 * len
    + 31 * (off1 / m.STRIPE_BLOCK_SIZE) % 191 / m.num_files) _ _ hi1 hi1B
  have s2 := block_split (off2 / m.STRIPE_BLOCK_SIZE / 191 * len
    + 31 * (off2 / m.STRIPE_BLOCK_SIZE) % 191 / m.num_files) _ _ hi2 hi2B
  rw [e] at s1
  have hq : off1 / m.STRIPE_BLOCK_SIZE / 191 * len
        + 31 * (off1 / m.STRIPE_BLOCK_SIZE) % 191 / m.num_files
      = off2 / m.STRIPE_BLOCK_SIZE / 191 * len
        + 31 * (off2 / m.STRIPE_BLOCK_SIZE) % 191 / m.num_files := s1.1.symm.trans s2.1
  have hi : off1 % m.STRIPE_BLOCK_SIZE = off2 % m.STRIPE_BLOCK_SIZE :=
    s1.2.symm.trans s2.2
  have t1 := block_split (off1 / m.STRIPE_BLOCK_SIZE / 191) _ len k1.1 k1.2
  have t2 := block_split (off2 / m.STRIPE_BLOCK_SIZE / 191) _ len k2.1 k2.2
  rw [hq] at t1
  have hc : off1 / m.STRIPE_BLOCK_SIZE / 191 = off2 / m.STRIPE_BLOCK_SIZE / 191 :=
    t1.1.symm.trans t2.1
  have hk : 31 * (off1 / m.STRIPE_BLOCK_SIZE) % 191 / m.num_files
      = 31 * (off2 / m.STRIPE_BLOCK_SIZE) % 191 / m.num_files := t1.2.symm.trans t2.2
  have hp : 31 * (off1 / m.STRIPE_BLOCK_SIZE) % 191
      = 31 * (off2 / m.STRIPE_BLOCK_SIZE) % 191 := by
    rw [← Int.ediv_add_emod' (31 * (off1 / m.STRIPE_BLOCK_SIZE) % 191) m.num_files,
      ← Int.ediv_add_emod' (31 * (off2 / m.STRIPE_BLOCK_SIZE) % 191) m.num_files, hk, ← a1,
      ← b1, hidx]
  have hb : off1 / m.STRIPE_BLOCK_SIZE = off2 / m.STRIPE_BLOCK_SIZE := by omega
  rw [← Int.ediv_add_emod' off1 m.STRIPE_BLOCK_SIZE,
    ← Int.ediv_add_emod' off2 m.STRIPE_BLOCK_SIZE, hb, hi]


/-- The bucket `idx` holds as many blocks of a cycle as there are residues below 191 that
fall into it. -/
theorem cycle_size_count (m : hash_mapper) (idx : Int) (hn : 1 ≤ m.num_files)
    (hidx0 : 0 ≤ idx) (hidx : idx < m.num_files) :
    m.cycle_size_in_bucket idx
      = (((Finset.range 191).filter
          (fun p : Nat => (p : Int).tmod m.num_files = idx)).card : Int) := by
  obtain ⟨N, hN⟩ : ∃ N : Nat, m.num_files = (N : Int) :=
    ⟨m.num_files.toNat, (Int.toNat_of_nonneg (by omega)).symm⟩
  obtain ⟨I, hI⟩ : ∃ I : Nat, idx = (I : Int) :=
    ⟨idx.toNat, (Int.toNat_of_nonneg hidx0).symm⟩
  have hNpos : 0 < N := by omega
  have hIN : I < N := by omega
  have hfilter : (Finset.range 191).filter (fun p : Nat => (p : Int).tmod m.num_files = idx)
      = (Finset.range 191).filter (fun p : Nat => p ≡ I [MOD N]) := by
    apply Finset.filter_congr
    intro p _
    rw [hN, hI, ← Int.ofNat_tmod, Nat.cast_inj]
    simp only [Nat.ModEq, Nat.mod_eq_of_lt hIN]
  rw [hfilter, ← Nat.count_eq_card_filter_range, Nat.count_modEq_card 191 hNpos I,
    Nat.mod_eq_of_lt hIN]
  have e1 : (191 : Int).tmod (N : Int) = ((191 % N : Nat) : Int) := by
    rw [Int.ofNat_tmod]
    rfl
  have e2 : (191 : Int).tdiv (N : Int) = ((191 / N : Nat) : Int) := by
    rw [Int.ofNat_tdiv]
    rfl
  simp only [hash_mapper.cycle_size_in_bucket, hash_mapper.P_MOD_N, FILE_CONST_P, hN, hI, e1,
    e2, Nat.cast_lt]
  split <;> simp

/-- C26 (counterexample): with 4 files and blocks of one page, the offset `3 * 10^17` is
mapped to the file index -3, by `map` and by `map2file`: the product `CONST_A * block_idx`
leaves the range of `off_t`.  The index is not in `[0, 4)`. -/
theorem hash_map_wraps :
    ((hash_mapper.mk 4 1).map 300000000000000000).idx = -3 ∧
    (hash_mapper.mk 4 1).map2file 300000000000000000 = -3 := by
  decide

/-- C26: `hash_mapper::map` is injective on the offsets it maps without leaving the range of
`off_t`: for every number of files `n ≥ 1` and block size `B ≥ 1` (both `int`) and offsets
`off1 ≠ off2`, both `≥ 0` and with `31 * (off / B) < 2^63` and `off + 190 * B < 2^63`, the
block identifiers `map(off1)` and `map(off2)` differ in the file index or in the offset in
the file; the file index of `map(off1)` lies in `[0, n)` and is what `map2file(off1)`
returns; and for every file index `idx` in `[0, n)`, `cycle_size_in_bucket(idx)` is the
number of residues `p` in `[0, 191)` with `p % n = idx`. -/
theorem hash_mapper_injective (m : hash_mapper) (off1 off2 : Int) (hn : 1 ≤ m.num_files)
    (hn31 : m.num_files < 2147483648)
    (hB : 1 ≤ m.STRIPE_BLOCK_SIZE) (hB31 : m.STRIPE_BLOCK_SIZE < 2147483648)
    (h1 : 0 ≤ off1) (h2 : 0 ≤ off2)
    (hm1 : 31 * (off1 / m.STRIPE_BLOCK_SIZE) < 9223372036854775808)
    (hr1 : off1 + 190 * m.STRIPE_BLOCK_SIZE < 9223372036854775808)
    (hm2 : 31 * (off2 / m.STRIPE_BLOCK_SIZE) < 9223372036854775808)
    (hr2 : off2 + 190 * m.STRIPE_BLOCK_SIZE < 9223372036854775808)
    (hne : off1 ≠ off2) :
    ((m.map off1).idx ≠ (m.map off2).idx ∨ (m.map off1).off ≠ (m.map off2).off) ∧
    0 ≤ (m.map off1).idx ∧ (m.map off1).idx < m.num_files ∧
    m.map2file off1 = (m.map off1).idx ∧
    ∀ idx, 0 ≤ idx → idx < m.num_files →
      m.cycle_size_in_bucket idx
        = (((Finset.range 191).filter
            (fun p : Nat => (p : Int).tmod m.num_files = idx)).card : Int) := by
  obtain ⟨a1, -, a3⟩ := hash_map_eq m off1 hn hn31 hB hB31 h1 hm1 hr1
  refine ⟨?_, ?_, ?_, a3, fun idx h0 hlt => cycle_size_count m idx hn h0 hlt⟩
  · by_contra hcon
    apply hne
    apply hash_map_injective m off1 off2 hn hn31 hB hB31 h1 h2 hm1 hr1 hm2 hr2
    have hi : (m.map off1).idx = (m.map off2).idx := by
      by_contra hx
      exact hcon (Or.inl hx)
    have ho : (m.map off1).off = (m.map off2).off := by
      by_contra hx
      exact hcon (Or.inr hx)
    cases hmap1 : m.map off1
    cases hmap2 : m.map off2
    rw [hmap1, hmap2] at hi ho
    simp only at hi ho
    rw [hi, ho]
  · rw [a1]
    exact Int.emod_nonneg _ (by omega)
  · rw [a1]
    exact Int.emod_lt_of_pos _ (by omega)

/-- Witness for `hash_mapper_injective`: 4 files, blocks of 2 pages; the offsets 5 and 387
fall into the same file, at different places. -/
theorem hash_mapper_injective_witness :
    (1 : Int) ≤ 4 ∧ (4 : Int) < 2147483648 ∧ (1 : Int) ≤ 2 ∧ (2 : Int) < 2147483648 ∧
    (0 : Int) ≤ 5 ∧ (0 : Int) ≤ 387 ∧ (31 : Int) * (5 / 2) < 9223372036854775808 ∧
    (5 : Int) + 190 * 2 < 9223372036854775808 ∧
    (31 : Int) * (387 / 2) < 9223372036854775808 ∧
    (387 : Int) + 190 * 2 < 9223372036854775808 ∧ (5 : Int) ≠ 387 ∧
    (hash_mapper.mk 4 2).map 5 = ⟨2, 31⟩ ∧ (hash_mapper.mk 4 2).map 387 = ⟨2, 127⟩ ∧
    (hash_mapper.mk 4 2).cycle_size_in_bucket 2 = 48 ∧
    (((hash_mapper.mk 4 2).map 5).idx ≠ ((hash_mapper.mk 4 2).map 387).idx ∨
      ((hash_mapper.mk 4 2).map 5).off ≠ ((hash_mapper.mk 4 2).map 387).off) :=
  ⟨by decide, by decide, by decide, by decide, by decide, by decide, by decide, by decide,
    by decide, by decide, by decide, by decide, by decide, by decide,
    (hash_mapper_injective (hash_mapper.mk 4 2) 5 387 (by decide) (by decide) (by decide)
      (by decide) (by decide) (by decide) (by decide) (by decide) (by decide) (by decide)
      (by decide)).1⟩

/-! ## `unique_merge` -/

theorem advance_spec (v : vertex_id_t) (l : List vertex_id_t)
    (hs : l.Sorted (fun a b => a ≤ b)) (hv : ∀ x ∈ l, v ≤ x) :
    (unique_merge.advance v l).Sorted (fun a b => a ≤ b) ∧
    (∀ x, x ∈ unique_merge.advance v l ↔ x ∈ l ∧ x ≠ v) ∧
    (∀ x ∈ unique_merge.advance v l, v < x) ∧
    (unique_merge.advance v l).length ≤ l.length := by
  induction l with
  | nil => simp [unique_merge.advance]
  | cons x rest ih =>
    have hs2 := List.sorted_cons.mp hs
    by_cases hx : x = v
    · obtain ⟨i1, i2, i3, i4⟩ := ih hs2.2 (fun y hy => hv y (List.mem_cons_of_mem _ hy))
      simp only [unique_merge.advance, hx, if_true]
      refine ⟨i1, ?_, i3, by simp only [List.length_cons]; omega⟩
      intro y
      rw [i2 y, List.mem_cons]
      constructor
      · rintro ⟨h1, h2⟩
        exact ⟨Or.inr h1, h2⟩
      · rintro ⟨h1 | h1, h2⟩
        · exact absurd h1 h2
        · exact ⟨h1, h2⟩
    · simp only [unique_merge.advance, hx, if_false]
      have hvx : v < x := lt_of_le_of_ne (hv x (List.mem_cons_self _ _)) (fun e => hx e.symm)
      have hall : ∀ y ∈ x :: rest, v < y := by
        intro y hy
        rcases List.mem_cons.mp hy with rfl | hy
        · exact hvx
        · exact lt_of_lt_of_le hvx (hs2.1 y hy)
      refine ⟨hs, ?_, hall, le_refl _⟩
      intro y
      constructor
      · intro hy
        exact ⟨hy, fun e => (lt_irrefl v) (e ▸ hall y hy)⟩
      · exact fun h => h.1

theorem advance_head (v : vertex_id_t) (l : List vertex_id_t) :
    unique_merge.advance v (v :: l) = unique_merge.advance v l := by
  simp [unique_merge.advance]

theorem put_spec (o : merge_output) (skip : vertex_id_t → Bool) (v : vertex_id_t) :
    o.put skip v
      = { written := o.written ++ (if skip v then [] else [v]),
          result := o.result + (if skip v then [] else [v]).length } := by
  unfold merge_output.put
  cases skip v <;> simp

/-- The loop over one range writes the values of the range that are not skipped, each once,
in strictly ascending order. -/
theorem rest_loop_spec (skip : vertex_id_t → Bool) (fuel : Nat) :
    ∀ (l : List vertex_id_t) (o : merge_output), l.length < fuel →
      l.Sorted (fun a b => a ≤ b) →
      ∃ res, unique_merge.rest_loop skip fuel l o
          = some { written := o.written ++ res, result := o.result + res.length } ∧
        res.Sorted (fun a b => a < b) ∧
        ∀ x, x ∈ res ↔ x ∈ l ∧ skip x = false := by
  induction fuel with
  | zero => intro l o h; omega
  | succ fuel ih =>
    intro l o hlen hs
    cases l with
    | nil =>
      exact ⟨[], by simp [unique_merge.rest_loop], List.sorted_nil, by simp⟩
    | cons x r =>
      have hs2 := List.sorted_cons.mp hs
      obtain ⟨a1, a2, a3, a4⟩ := advance_spec x r hs2.2 hs2.1
      simp only [List.length_cons] at hlen
      obtain ⟨res, r1, r2, r3⟩ := ih (unique_merge.advance x r) (o.put skip x)
        (by omega) a1
      refine ⟨(if skip x then [] else [x]) ++ res, ?_, ?_, ?_⟩
      · simp only [unique_merge.rest_loop, advance_head]
        rw [r1, put_spec]
        simp only [List.append_assoc, List.length_append, Nat.add_assoc]
      · cases skip x
        · simp only [Bool.false_eq_true, if_false, List.singleton_append]
          apply List.sorted_cons.mpr
          exact ⟨fun y hy => a3 y ((r3 y).mp hy).1, r2⟩
        · simpa using r2
      · intro y
        rw [List.mem_append, r3 y, a2 y, List.mem_cons]
        by_cases hy : y = x
        · subst hy
          cases hsk : skip y <;> simp
        · cases hsx : skip x <;> simp [hy]


/-- One iteration of the first loop: the smaller head `v` is written unless skipped, and the
ranges `a1`, `b1` it leaves hold the other values, all above `v`. -/
theorem first_post_step (skip : vertex_id_t → Bool) (v : vertex_id_t)
    (a b a1 b1 : List vertex_id_t) (o : merge_output)
    (r : Option (List vertex_id_t × List vertex_id_t × merge_output))
    (hmem : ∀ z, (z ∈ a ∨ z ∈ b) ↔ (z = v ∨ z ∈ a1 ∨ z ∈ b1))
    (hgt : ∀ z, (z ∈ a1 ∨ z ∈ b1) → v < z)
    (hla : a1.length ≤ a.length) (hlb : b1.length ≤ b.length)
    (h : unique_merge.first_post skip a1 b1 (o.put skip v) r) :
    unique_merge.first_post skip a b o r := by
  obtain ⟨res, a2, b2, h1, h2, h3, h4, h5, h6, h7, h8, h9, h10⟩ := h
  refine ⟨(if skip v then [] else [v]) ++ res, a2, b2, ?_, h2, h3, h4, by omega, by omega,
    ?_, ?_, ?_, ?_⟩
  · rw [h1, put_spec]
    simp only [List.append_assoc, List.length_append, Nat.add_assoc]
  · cases hsk : skip v
    · simp only [Bool.false_eq_true, if_false, List.singleton_append]
      apply List.sorted_cons.mpr
      refine ⟨?_, h7⟩
      intro y hy
      exact hgt y ((h10 y).mpr (Or.inl hy)).1
    · simpa using h7
  · intro x hx y hy
    rcases List.mem_append.mp hx with hx | hx
    · have hxv : x = v := by
        cases hsk : skip v
        · simpa [hsk] using hx
        · simp [hsk] at hx
      rw [hxv]
      exact hgt y (h9 y hy)
    · exact h8 x hx y hy
  · intro y hy
    exact (hmem y).mpr (Or.inr (h9 y hy))
  · intro x
    rw [hmem x, List.mem_append]
    constructor
    · rintro ⟨hx | hx, hsk⟩
      · subst hx
        left
        left
        simp [hsk]
      · rcases (h10 x).mp ⟨hx, hsk⟩ with h | h
        · exact Or.inl (Or.inr h)
        · exact Or.inr h
    · rintro (hx | hx)
      · rcases hx with hx | hx
        · have hxv : x = v ∧ skip v = false := by
            cases hsk : skip v
            · simpa [hsk] using hx
            · simp [hsk] at hx
          exact ⟨Or.inl hxv.1, hxv.1 ▸ hxv.2⟩
        · have := (h10 x).mpr (Or.inl hx)
          exact ⟨Or.inr this.1, this.2⟩
      · have := (h10 x).mpr (Or.inr hx)
        exact ⟨Or.inr this.1, this.2⟩

theorem first_loop_spec (skip : vertex_id_t → Bool) (fuel : Nat) :
    ∀ (a b : List vertex_id_t) (o : merge_output), a.length + b.length < fuel →
      a.Sorted (fun x y => x ≤ y) → b.Sorted (fun x y => x ≤ y) →
      unique_merge.first_post skip a b o (unique_merge.first_loop skip fuel a b o) := by
  induction fuel with
  | zero => intro a b o h; omega
  | succ fuel ih =>
    intro a b o hlen hsa hsb
    cases a with
    | nil =>
      refine ⟨[], [], b, by simp [unique_merge.first_loop], Or.inl rfl, List.sorted_nil, hsb,
        le_refl _, le_refl _, List.sorted_nil, by simp, fun y hy => hy, by simp⟩
    | cons x r1 =>
      cases b with
      | nil =>
        refine ⟨[], x :: r1, [], by simp [unique_merge.first_loop], Or.inr rfl, hsa,
          List.sorted_nil, le_refl _, le_refl _, List.sorted_nil, by simp, fun y hy => hy,
          by simp⟩
      | cons y r2 =>
        have ha2 := List.sorted_cons.mp hsa
        have hb2 := List.sorted_cons.mp hsb
        simp only [List.length_cons] at hlen
        simp only [unique_merge.first_loop, advance_head]
        by_cases hgt : x > y
        · simp only [hgt, if_true]
          obtain ⟨s1, s2, s3, s4⟩ := advance_spec y r2 hb2.2 hb2.1
          apply first_post_step skip y (x :: r1) (y :: r2) (x :: r1)
            (unique_merge.advance y r2)
          · intro z
            simp only [List.mem_cons, s2 z]
            by_cases hz : z = y <;> simp [hz]
          · rintro z (hz | hz)
            · rcases List.mem_cons.mp hz with rfl | hz
              · exact hgt
              · exact lt_of_lt_of_le hgt (ha2.1 z hz)
            · exact s3 z hz
          · exact le_refl _
          · simp only [List.length_cons]
            omega
          · have hl : (x :: r1).length + (unique_merge.advance y r2).length < fuel := by
              simp only [List.length_cons]
              omega
            exact ih (x :: r1) (unique_merge.advance y r2) (o.put skip y) hl hsa s1
        · simp only [hgt, if_false]
          by_cases hlt : x < y
          · simp only [hlt, if_true]
            obtain ⟨s1, s2, s3, s4⟩ := advance_spec x r1 ha2.2 ha2.1
            apply first_post_step skip x (x :: r1) (y :: r2) (unique_merge.advance x r1)
              (y :: r2)
            · intro z
              simp only [List.mem_cons, s2 z]
              by_cases hz : z = x <;> simp [hz]
            · rintro z (hz | hz)
              · exact s3 z hz
              · rcases List.mem_cons.mp hz with rfl | hz
                · exact hlt
                · exact lt_of_lt_of_le hlt (hb2.1 z hz)
            · simp only [List.length_cons]
              omega
            · exact le_refl _
            · have hl : (unique_merge.advance x r1).length + (y :: r2).length < fuel := by
                simp only [List.length_cons]
                omega
              exact ih (unique_merge.advance x r1) (y :: r2) (o.put skip x) hl s1 hsb
          · simp only [hlt, if_false]
            have hxy : y = x := le_antisymm (not_lt.mp hlt) (not_lt.mp hgt)
            subst hxy
            rw [advance_head]
            obtain ⟨s1, s2, s3, s4⟩ := advance_spec y r1 ha2.2 ha2.1
            obtain ⟨t1, t2, t3, t4⟩ := advance_spec y r2 hb2.2 hb2.1
            apply first_post_step skip y (y :: r1) (y :: r2) (unique_merge.advance y r1)
              (unique_merge.advance y r2)
            · intro z
              simp only [List.mem_cons, s2 z, t2 z]
              by_cases hz : z = y <;> simp [hz]
            · rintro z (hz | hz)
              · exact s3 z hz
              · exact t3 z hz
            · simp only [List.length_cons]
              omega
            · simp only [List.length_cons]
              omega
            · have hl : (unique_merge.advance y r1).length
                  + (unique_merge.advance y r2).length < fuel := by
                omega
              exact ih (unique_merge.advance y r1) (unique_merge.advance y r2)
                (o.put skip y) hl s1 t1


/-- C27: for every pair of non-decreasing input ranges and every skip predicate,
`unique_merge` returns, and it has written a strictly ascending sequence that holds exactly
the values occurring in either input for which `skip` is false, each once; the value
returned is the number of values written. -/
theorem unique_merge_contract (r1 r2 : List vertex_id_t) (skip : vertex_id_t → Bool)
    (h1 : r1.Sorted (fun x y => x ≤ y)) (h2 : r2.Sorted (fun x y => x ≤ y)) :
    ∃ o, unique_merge r1 r2 skip = some o ∧
      o.written.Sorted (fun x y => x < y) ∧
      (∀ x, x ∈ o.written ↔ (x ∈ r1 ∨ x ∈ r2) ∧ skip x = false) ∧
      o.result = o.written.length := by
  obtain ⟨res, a1, b1, f1, f2, f3, f4, f5, f6, f7, f8, -, f10⟩ :=
    first_loop_spec skip (r1.length + r2.length + 1) r1 r2 { written := [], result := 0 }
      (by omega) h1 h2
  obtain ⟨resA, g1, g2, g3⟩ := rest_loop_spec skip (r1.length + r2.length + 1) a1
    { written := [] ++ res, result := 0 + res.length } (by omega) f3
  obtain ⟨resB, k1, k2, k3⟩ := rest_loop_spec skip (r1.length + r2.length + 1) b1
    { written := [] ++ res ++ resA, result := 0 + res.length + resA.length } (by omega) f4
  refine ⟨{ written := [] ++ res ++ resA ++ resB,
            result := 0 + res.length + resA.length + resB.length }, ?_, ?_, ?_, ?_⟩
  · unfold unique_merge
    rw [f1]
    simp only
    rw [g1]
    simp only
    rw [k1]
  · simp only [List.nil_append]
    have hAB : ∀ x ∈ resA, ∀ y ∈ resB, x < y := by
      intro x hx y hy
      rcases f2 with e | e
      · rw [g3 x, e] at hx
        simp at hx
      · rw [k3 y, e] at hy
        simp at hy
    apply List.pairwise_append.mpr
    refine ⟨List.pairwise_append.mpr ⟨f7, g2, ?_⟩, k2, ?_⟩
    · intro x hx y hy
      exact f8 x hx y (Or.inl ((g3 y).mp hy).1)
    · intro x hx y hy
      rcases List.mem_append.mp hx with hx | hx
      · exact f8 x hx y (Or.inr ((k3 y).mp hy).1)
      · exact hAB x hx y hy
  · intro x
    simp only [List.nil_append, List.mem_append, g3 x, k3 x]
    rw [f10 x]
    constructor
    · rintro ((h | h) | h)
      · exact Or.inl h
      · exact Or.inr ⟨Or.inl h.1, h.2⟩
      · exact Or.inr ⟨Or.inr h.1, h.2⟩
    · rintro (h | ⟨h | h, hs⟩)
      · exact Or.inl (Or.inl h)
      · exact Or.inl (Or.inr ⟨h, hs⟩)
      · exact Or.inr ⟨h, hs⟩
  · simp only [List.nil_append, List.length_append, Nat.zero_add]

/-- Witness for `unique_merge_contract`: the ranges 1, 1, 3, 5, 5, 9 and 0, 1, 2, 5, 7, 7
with 5 skipped give 0, 1, 2, 3, 7, 9 and the value 6. -/
theorem unique_merge_contract_witness :
    [1, 1, 3, 5, 5, 9].Sorted (fun x y : vertex_id_t => x ≤ y) ∧
    [0, 1, 2, 5, 7, 7].Sorted (fun x y : vertex_id_t => x ≤ y) ∧
    unique_merge [1, 1, 3, 5, 5, 9] [0, 1, 2, 5, 7, 7] (fun v => decide (v = 5))
      = some { written := [0, 1, 2, 3, 7, 9], result := 6 } ∧
    ∃ o, unique_merge [1, 1, 3, 5, 5, 9] [0, 1, 2, 5, 7, 7] (fun v => decide (v = 5))
        = some o ∧ o.result = o.written.length := by
  have hs1 : [1, 1, 3, 5, 5, 9].Sorted (fun x y : vertex_id_t => x ≤ y) := by
    simp [List.Sorted]
  have hs2 : [0, 1, 2, 5, 7, 7].Sorted (fun x y : vertex_id_t => x ≤ y) := by
    simp [List.Sorted]
  obtain ⟨o, h1, -, -, h4⟩ := unique_merge_contract [1, 1, 3, 5, 5, 9] [0, 1, 2, 5, 7, 7]
    (fun v => decide (v = 5)) hs1 hs2
  exact ⟨hs1, hs2, by decide, o, h1, h4⟩

/-- The loop continuation of `count_edges` adds the counts of the leading entries equal to
the neighbor and stops at the first other entry. -/
theorem equal_while_spec (n : vertex_id_t) (l : List (vertex_id_t × Int)) (acc : Int) :
    count_edges.equal_while n l acc =
      (acc + ((l.takeWhile (fun e => decide (n = e.1))).map (fun e => e.2)).sum,
        l.dropWhile (fun e => decide (n = e.1))) := by
  induction l generalizing acc with
  | nil => simp [count_edges.equal_while]
  | cons x rest ih =>
    by_cases h : n = x.1
    · subst h
      rw [count_edges.equal_while, if_pos rfl, ih]
      simp only [List.takeWhile_cons, List.dropWhile_cons, decide_True, if_true, List.map_cons,
        List.sum_cons, add_assoc]
    · simp [count_edges.equal_while, h, List.takeWhile_cons, List.dropWhile_cons]

/-- The do-while loop of `count_edges`, entered at an entry equal to the neighbor. -/
theorem equal_run_spec (n : vertex_id_t) (e : vertex_id_t × Int)
    (rest : List (vertex_id_t × Int)) (acc : Int) (h : n = e.1) :
    count_edges.equal_run n (e :: rest) acc =
      (acc + (((e :: rest).takeWhile (fun e => decide (n = e.1))).map (fun e => e.2)).sum,
        (e :: rest).dropWhile (fun e => decide (n = e.1))) := by
  subst h
  rw [count_edges.equal_run, equal_while_spec]
  simp only [List.takeWhile_cons, List.dropWhile_cons, decide_True, if_true, List.map_cons,
    List.sum_cons, add_assoc]

/-- The entries the do-while loop leaves are not more than it was given. -/
theorem equal_while_length (n : vertex_id_t) (l : List (vertex_id_t × Int)) (acc : Int) :
    (count_edges.equal_while n l acc).2.length ≤ l.length := by
  induction l generalizing acc with
  | nil => simp [count_edges.equal_while]
  | cons x rest ih =>
    by_cases h : n = x.1
    · rw [count_edges.equal_while, if_pos h]
      have := ih (acc + x.2)
      simp only [List.length_cons]
      omega
    · simp [count_edges.equal_while, h]

/-- Dropping as many entries as `lower_bound` counts is dropping the entries with a smaller
id. -/
theorem drop_lower_bound (edges : List (vertex_id_t × Int)) (n : vertex_id_t) :
    edges.drop (std_lower_bound (edges.map (fun e => e.1)) n) =
      edges.dropWhile (fun e => decide (e.1 < n)) := by
  unfold std_lower_bound
  induction edges with
  | nil => simp
  | cons x rest ih =>
    by_cases h : x.1 < n
    · simp only [List.map_cons, List.takeWhile_cons, h, decide_True, if_true, List.length_cons,
        List.drop_succ_cons, List.dropWhile_cons]
      exact ih
    · simp [List.takeWhile_cons, List.dropWhile_cons, h]

/-- The same for a plain list of ids. -/
theorem drop_lower_bound_ids (l : List vertex_id_t) (n : vertex_id_t) :
    l.drop (std_lower_bound l n) = l.dropWhile (fun x => decide (x < n)) := by
  unfold std_lower_bound
  induction l with
  | nil => simp
  | cons x rest ih =>
    by_cases h : x < n
    · simp only [List.takeWhile_cons, h, decide_True, if_true, List.length_cons,
        List.drop_succ_cons, List.dropWhile_cons]
      exact ih
    · simp [List.takeWhile_cons, List.dropWhile_cons, h]

/-- On a non-decreasing list `binary_search` decides membership. -/
theorem binary_search_spec (l : List vertex_id_t) (x : vertex_id_t)
    (hl : l.Sorted (fun a b => a ≤ b)) :
    std_binary_search l x = decide (x ∈ l) := by
  unfold std_binary_search
  rw [drop_lower_bound_ids]
  induction l with
  | nil => simp
  | cons y rest ih =>
    rw [List.sorted_cons] at hl
    by_cases h : y < x
    · have hne : x ≠ y := fun e => by rw [e] at h; exact lt_irrefl _ h
      simp only [List.dropWhile_cons, h, decide_True, if_true, ih hl.2, List.mem_cons, hne,
        false_or]
    · simp only [List.dropWhile_cons, h, decide_False, Bool.false_eq_true, if_false]
      by_cases hxy : x < y
      · have hnot : x ∉ y :: rest := by
          intro hm
          rcases List.mem_cons.mp hm with e | hm
          · rw [e] at hxy; exact lt_irrefl _ hxy
          · exact absurd (hl.1 x hm) (not_le.mpr hxy)
        simp [hxy, hnot]
      · have e : x = y := le_antisymm (not_lt.mp h) (not_lt.mp hxy)
        simp [e]
/-- An entry among the neighbors that is not a loop adds its count to the specified sum. -/
theorem spec_cons_in (v t : vertex_id_t) (e : vertex_id_t × Int)
    (edges : List (vertex_id_t × Int)) (nb : List vertex_id_t)
    (h1 : e.1 ∈ nb) (h2 : e.1 ≠ v) (h3 : e.1 ≠ t) :
    count_edges_spec v t (e :: edges) nb = e.2 + count_edges_spec v t edges nb := by
  simp [count_edges_spec, List.filter_cons, h1, h2, h3]

/-- Any other entry adds nothing to the specified sum. -/
theorem spec_cons_out (v t : vertex_id_t) (e : vertex_id_t × Int)
    (edges : List (vertex_id_t × Int)) (nb : List vertex_id_t)
    (h : ¬ (e.1 ∈ nb ∧ e.1 ≠ v ∧ e.1 ≠ t)) :
    count_edges_spec v t (e :: edges) nb = count_edges_spec v t edges nb := by
  have : (decide (e.1 ∈ nb) && decide (e.1 ≠ v) && decide (e.1 ≠ t)) = false := by
    by_contra hc
    apply h
    simpa [and_assoc] using hc
  simp only [count_edges_spec, List.filter_cons, this, Bool.false_eq_true, if_false]

/-- The specified sum of a concatenation. -/
theorem spec_append (v t : vertex_id_t) (l1 l2 : List (vertex_id_t × Int))
    (nb : List vertex_id_t) :
    count_edges_spec v t (l1 ++ l2) nb = count_edges_spec v t l1 nb + count_edges_spec v t l2 nb := by
  simp [count_edges_spec]

/-- The specified sum of entries that all count. -/
theorem spec_all (v t : vertex_id_t) (l : List (vertex_id_t × Int)) (nb : List vertex_id_t)
    (h : ∀ x ∈ l, x.1 ∈ nb ∧ x.1 ≠ v ∧ x.1 ≠ t) :
    count_edges_spec v t l nb = (l.map (fun e => e.2)).sum := by
  induction l with
  | nil => simp [count_edges_spec]
  | cons x rest ih =>
    have hx := h x (List.mem_cons_self _ _)
    rw [spec_cons_in v t x rest nb hx.1 hx.2.1 hx.2.2,
      ih (fun y hy => h y (List.mem_cons_of_mem _ hy))]
    simp

/-- Without neighbors the specified sum is zero. -/
theorem spec_no_neighbors (v t : vertex_id_t) (l : List (vertex_id_t × Int)) :
    count_edges_spec v t l [] = 0 := by
  simp [count_edges_spec]

/-- A neighbor that no counted entry has can be left out. -/
theorem spec_drop_neighbor (v t n : vertex_id_t) (l : List (vertex_id_t × Int))
    (rest : List vertex_id_t) (h : ∀ x ∈ l, x.1 = n → x.1 = v ∨ x.1 = t) :
    count_edges_spec v t l (n :: rest) = count_edges_spec v t l rest := by
  induction l with
  | nil => simp [count_edges_spec]
  | cons x xs ih =>
    have ih1 := ih (fun y hy => h y (List.mem_cons_of_mem _ hy))
    have hx := h x (List.mem_cons_self _ _)
    by_cases hc : x.1 ∈ rest ∧ x.1 ≠ v ∧ x.1 ≠ t
    · rw [spec_cons_in v t x xs rest hc.1 hc.2.1 hc.2.2,
        spec_cons_in v t x xs (n :: rest) (List.mem_cons_of_mem _ hc.1) hc.2.1 hc.2.2, ih1]
    · rw [spec_cons_out v t x xs rest hc, spec_cons_out v t x xs (n :: rest) _, ih1]
      rintro ⟨hm, hv, ht⟩
      rcases List.mem_cons.mp hm with e | hm
      · rcases hx e with e1 | e1
        · exact hv e1
        · exact ht e1
      · exact hc ⟨hm, hv, ht⟩

/-- A new neighbor that is not a loop adds the counts of the entries with its id. -/
theorem spec_neighbor (v t n : vertex_id_t) (l : List (vertex_id_t × Int))
    (rest : List vertex_id_t) (hn : n ∉ rest) (hv : n ≠ v) (ht : n ≠ t) :
    count_edges_spec v t l (n :: rest) =
      ((l.filter (fun e => decide (n = e.1))).map (fun e => e.2)).sum
        + count_edges_spec v t l rest := by
  induction l with
  | nil => simp [count_edges_spec]
  | cons x xs ih =>
    by_cases hx : n = x.1
    · have h1 : ¬ (x.1 ∈ rest ∧ x.1 ≠ v ∧ x.1 ≠ t) := fun hc => hn (hx ▸ hc.1)
      rw [spec_cons_out v t x xs rest h1,
        spec_cons_in v t x xs (n :: rest) (by rw [hx]; exact List.mem_cons_self _ _)
          (hx ▸ hv) (hx ▸ ht), ih]
      simp only [List.filter_cons, hx, decide_True, if_true, List.map_cons, List.sum_cons,
        add_assoc]
    · have hfil : (x :: xs).filter (fun e => decide (n = e.1))
          = xs.filter (fun e => decide (n = e.1)) := by
        simp [List.filter_cons, hx]
      rw [hfil]
      by_cases hc : x.1 ∈ rest ∧ x.1 ≠ v ∧ x.1 ≠ t
      · rw [spec_cons_in v t x xs rest hc.1 hc.2.1 hc.2.2,
          spec_cons_in v t x xs (n :: rest) (List.mem_cons_of_mem _ hc.1) hc.2.1 hc.2.2, ih]
        ring
      · rw [spec_cons_out v t x xs rest hc, spec_cons_out v t x xs (n :: rest) _, ih]
        rintro ⟨hm, hv1, ht1⟩
        rcases List.mem_cons.mp hm with e | hm
        · exact hx e.symm
        · exact hc ⟨hm, hv1, ht1⟩

/-- The entry at which `dropWhile` stops fails the test. -/
theorem dropWhile_head {α : Type} (p : α → Bool) (l : List α) (e : α) (tail : List α)
    (h : l.dropWhile p = e :: tail) : p e = false := by
  induction l with
  | nil => simp at h
  | cons x xs ih =>
    by_cases hp : p x = true
    · rw [List.dropWhile_cons, if_pos hp] at h
      exact ih h
    · rw [List.dropWhile_cons, if_neg hp] at h
      have : x = e := (List.cons.inj h).1
      rw [← this]
      simpa using hp

/-- In a non-decreasing list that starts at `n` or above, the entries with id `n` are the
leading ones. -/
theorem takeWhile_eq_filter (n : vertex_id_t) (l : List (vertex_id_t × Int))
    (hs : l.Pairwise (fun a b => a.1 ≤ b.1)) (hge : ∀ x ∈ l, n ≤ x.1) :
    l.takeWhile (fun e => decide (n = e.1)) = l.filter (fun e => decide (n = e.1)) := by
  induction l with
  | nil => simp
  | cons x xs ih =>
    rw [List.pairwise_cons] at hs
    by_cases hx : n = x.1
    · simp only [List.takeWhile_cons, List.filter_cons, hx, decide_True, if_true]
      rw [← hx, ih hs.2 (fun y hy => hge y (List.mem_cons_of_mem _ hy))]
    · have hlt : n < x.1 := lt_of_le_of_ne (hge x (List.mem_cons_self _ _)) hx
      have hnil : xs.filter (fun e => decide (n = e.1)) = [] := by
        rw [List.filter_eq_nil_iff]
        intro y hy hc
        have h1 : x.1 ≤ y.1 := hs.1 y hy
        have h2 : n = y.1 := by simpa using hc
        rw [← h2] at h1
        exact absurd hlt (not_lt.mpr h1)
      simp [List.takeWhile_cons, List.filter_cons, hx, hnil]

/-- In a non-decreasing list the entries with id `n` follow the entries with a smaller id. -/
theorem filter_eq_run (n : vertex_id_t) (l : List (vertex_id_t × Int))
    (hs : l.Pairwise (fun a b => a.1 ≤ b.1)) :
    l.filter (fun e => decide (n = e.1)) =
      (l.dropWhile (fun e => decide (e.1 < n))).takeWhile (fun e => decide (n = e.1)) := by
  induction l with
  | nil => simp
  | cons x xs ih =>
    by_cases hx : x.1 < n
    · have hne : ¬ n = x.1 := fun e => by rw [e] at hx; exact lt_irrefl _ hx
      rw [List.dropWhile_cons, if_pos (by simpa using hx), List.filter_cons,
        if_neg (by simpa using hne)]
      exact ih (List.pairwise_cons.mp hs).2
    · rw [List.dropWhile_cons, if_neg (by simpa using hx)]
      refine (takeWhile_eq_filter n (x :: xs) hs ?_).symm
      intro y hy
      rcases List.mem_cons.mp hy with e | hy
      · rw [e]; exact not_lt.mp hx
      · exact le_trans (not_lt.mp hx) ((List.pairwise_cons.mp hs).1 y hy)

/-- In a non-decreasing list that starts at `n` or above, no entry after the leading run of
`n` has id `n`. -/
theorem dropWhile_ne (n : vertex_id_t) (l : List (vertex_id_t × Int))
    (hs : l.Pairwise (fun a b => a.1 ≤ b.1)) (hge : ∀ x ∈ l, n ≤ x.1) :
    ∀ x ∈ l.dropWhile (fun e => decide (n = e.1)), x.1 ≠ n := by
  induction l with
  | nil => simp
  | cons y ys ih =>
    rw [List.pairwise_cons] at hs
    by_cases hy : n = y.1
    · rw [List.dropWhile_cons, if_pos (by simpa using hy)]
      exact ih hs.2 (fun z hz => hge z (List.mem_cons_of_mem _ hz))
    · rw [List.dropWhile_cons, if_neg (by simpa using hy)]
      have hlt : n < y.1 := lt_of_le_of_ne (hge y (List.mem_cons_self _ _)) hy
      intro x hx
      rcases List.mem_cons.mp hx with e | hx
      · rw [e]; exact fun h => hy h.symm
      · intro h
        have := hs.1 x hx
        rw [h] at this
        exact absurd hlt (not_lt.mpr this)

/-- The first strategy of `count_edges` computes the specified sum. -/
theorem search_edges_spec (v t : vertex_id_t) (edges : List (vertex_id_t × Int))
    (hs : edges.Pairwise (fun a b => a.1 ≤ b.1)) (nb : List vertex_id_t) (hN : nb.Nodup)
    (acc : Int) :
    count_edges.search_edges v t edges nb acc = acc + count_edges_spec v t edges nb := by
  induction nb generalizing acc with
  | nil => simp [count_edges.search_edges, spec_no_neighbors]
  | cons n rest ih =>
    rw [List.nodup_cons] at hN
    by_cases hloop : n = v ∨ n = t
    · rw [count_edges.search_edges, if_pos hloop, ih hN.2,
        spec_drop_neighbor v t n edges rest (fun x _ hx => by rw [hx]; exact hloop)]
    · have hv : n ≠ v := fun e => hloop (Or.inl e)
      have ht : n ≠ t := fun e => hloop (Or.inr e)
      rw [count_edges.search_edges, if_neg hloop,
        spec_neighbor v t n edges rest hN.1 hv ht, filter_eq_run n edges hs]
      simp only [drop_lower_bound]
      cases hD : edges.dropWhile (fun e => decide (e.1 < n)) with
      | nil =>
        simp only [List.takeWhile_nil, List.map_nil, List.sum_nil, zero_add]
        exact ih hN.2 acc
      | cons e tail =>
        have hhead := dropWhile_head _ _ _ _ hD
        have hge : n ≤ e.1 := by simpa using hhead
        by_cases hlt : n < e.1
        · have hne : ¬ n = e.1 := ne_of_lt hlt
          simp only [hlt, decide_True, Bool.not_true, Bool.false_eq_true, if_false,
            List.takeWhile_cons, hne, decide_False, List.map_nil, List.sum_nil, zero_add]
          exact ih hN.2 acc
        · have he : n = e.1 := le_antisymm hge (not_lt.mp hlt)
          simp only [hlt, decide_False, Bool.not_false, if_true]
          rw [ih hN.2, equal_run_spec n e tail acc he]
          ring

/-- The second strategy of `count_edges` computes the specified sum. -/
theorem search_neighbors_spec (v t : vertex_id_t) (nb : List vertex_id_t)
    (hN : nb.Sorted (fun a b => a ≤ b)) (edges : List (vertex_id_t × Int)) (acc : Int) :
    count_edges.search_neighbors v t nb edges acc = acc + count_edges_spec v t edges nb := by
  induction edges generalizing acc with
  | nil => simp [count_edges.search_neighbors, count_edges_spec]
  | cons e rest ih =>
    rw [count_edges.search_neighbors, binary_search_spec nb e.1 hN]
    by_cases hloop : e.1 ≠ v ∧ e.1 ≠ t
    · rw [if_pos hloop]
      by_cases hm : e.1 ∈ nb
      · rw [if_pos (by simpa using hm), ih, spec_cons_in v t e rest nb hm hloop.1 hloop.2]
        ring
      · rw [if_neg (by simpa using hm), ih, spec_cons_out v t e rest nb (fun h => hm h.1)]
    · rw [if_neg hloop, ih, spec_cons_out v t e rest nb (fun h => hloop h.2)]

/-- The merge of `count_edges` ends within as many iterations as the two lists have entries,
whatever the lists hold. -/
theorem merge_isSome (v t : vertex_id_t) (fuel : Nat) :
    ∀ (edges : List (vertex_id_t × Int)) (nb : List vertex_id_t) (acc : Int),
      edges.length + nb.length < fuel →
      (count_edges.merge v t fuel edges nb acc).isSome = true := by
  induction fuel with
  | zero => intro edges nb acc h; omega
  | succ fuel ih =>
    intro edges nb acc h
    cases edges with
    | nil => simp [count_edges.merge]
    | cons e other =>
      cases nb with
      | nil => simp [count_edges.merge]
      | cons n rest =>
        simp only [List.length_cons] at h
        rw [count_edges.merge]
        by_cases hloop : e.1 = v ∨ e.1 = t
        · rw [if_pos hloop]
          exact ih other (n :: rest) acc (by simp only [List.length_cons]; omega)
        · rw [if_neg hloop]
          by_cases he : n = e.1
          · rw [if_pos he]
            refine ih _ rest _ ?_
            have := equal_while_length n other (acc + e.2)
            simp only [count_edges.equal_run]
            omega
          · rw [if_neg he]
            by_cases hlt : n < e.1
            · rw [if_pos hlt]
              exact ih (e :: other) rest acc (by simp only [List.length_cons]; omega)
            · rw [if_neg hlt]
              exact ih other (n :: rest) acc (by simp only [List.length_cons]; omega)

/-- The third strategy of `count_edges` computes the specified sum. -/
theorem merge_spec (v t : vertex_id_t) (fuel : Nat) :
    ∀ (edges : List (vertex_id_t × Int)) (nb : List vertex_id_t) (acc : Int),
      edges.Pairwise (fun a b => a.1 ≤ b.1) → nb.Sorted (fun a b => a < b) →
      edges.length + nb.length < fuel →
      count_edges.merge v t fuel edges nb acc = some (acc + count_edges_spec v t edges nb) := by
  induction fuel with
  | zero => intro edges nb acc _ _ h; omega
  | succ fuel ih =>
    intro edges nb acc hs hN h
    cases edges with
    | nil => simp [count_edges.merge, count_edges_spec]
    | cons e other =>
      cases nb with
      | nil => simp [count_edges.merge, spec_no_neighbors]
      | cons n rest =>
        simp only [List.length_cons] at h
        have hs1 := List.pairwise_cons.mp hs
        have hN1 := List.sorted_cons.mp hN
        rw [count_edges.merge]
        by_cases hloop : e.1 = v ∨ e.1 = t
        · rw [if_pos hloop, ih other (n :: rest) acc hs1.2 hN
            (by simp only [List.length_cons]; omega),
            spec_cons_out v t e other (n :: rest)
              (fun hc => hloop.elim (fun e1 => hc.2.1 e1) (fun e1 => hc.2.2 e1))]
        · rw [if_neg hloop]
          have hv : e.1 ≠ v := fun e1 => hloop (Or.inl e1)
          have ht : e.1 ≠ t := fun e1 => hloop (Or.inr e1)
          by_cases he : n = e.1
          · rw [if_pos he, equal_run_spec n e other acc he]
            dsimp only
            have hge : ∀ x ∈ e :: other, n ≤ x.1 := by
              intro x hx
              rcases List.mem_cons.mp hx with e1 | hx
              · rw [e1, he]
              · rw [he]; exact hs1.1 x hx
            have hlen : ((e :: other).dropWhile (fun x => decide (n = x.1))).length
                ≤ other.length := by
              rw [List.dropWhile_cons, if_pos (by simpa using he)]
              exact (List.dropWhile_sublist _).length_le
            rw [ih _ rest _ (hs.sublist (List.dropWhile_sublist _)) hN1.2 (by omega)]
            have hsplit := List.takeWhile_append_dropWhile (fun x => decide (n = x.1))
              (e :: other)
            have hdrop := spec_drop_neighbor v t n
              ((e :: other).dropWhile (fun x => decide (n = x.1))) rest
              (fun x hx e1 => absurd e1 (dropWhile_ne n (e :: other) hs hge x hx))
            have hall := spec_all v t ((e :: other).takeWhile (fun x => decide (n = x.1)))
              (n :: rest) (by
                intro x hx
                have hx1 : n = x.1 := by simpa using List.mem_takeWhile_imp hx
                rw [← hx1]
                exact ⟨List.mem_cons_self _ _, he ▸ hv, he ▸ ht⟩)
            have happ := spec_append v t
              ((e :: other).takeWhile (fun x => decide (n = x.1)))
              ((e :: other).dropWhile (fun x => decide (n = x.1))) (n :: rest)
            rw [hsplit, hall, hdrop] at happ
            rw [happ, add_assoc]
          · rw [if_neg he]
            by_cases hlt : n < e.1
            · rw [if_pos hlt, ih (e :: other) rest acc hs hN1.2
                (by simp only [List.length_cons]; omega),
                spec_drop_neighbor v t n (e :: other) rest _]
              intro x hx e1
              have hle : e.1 ≤ x.1 := by
                rcases List.mem_cons.mp hx with e2 | hx
                · rw [e2]
                · exact hs1.1 x hx
              rw [e1] at hle
              exact absurd hlt (not_lt.mpr hle)
            · rw [if_neg hlt, ih other (n :: rest) acc hs1.2 hN
                (by simp only [List.length_cons]; omega),
                spec_cons_out v t e other (n :: rest) _]
              rintro ⟨hm, _, _⟩
              rcases List.mem_cons.mp hm with e1 | hm
              · exact he e1.symm
              · exact hlt (hN1.1 e.1 hm)

/-- With neighbors, the 4-argument `count_edges` divides by no zero and ends. -/
theorem count_edges_type_isSome (v t : vertex_id_t) (edges : List (vertex_id_t × Int))
    (nb : List vertex_id_t) (hne : nb ≠ []) :
    (scan_vertex.count_edges_type v t edges nb).isSome = true := by
  have hlen : nb.length ≠ 0 := fun h => hne (List.length_eq_zero.mp h)
  unfold scan_vertex.count_edges_type
  dsimp only
  by_cases h0 : edges.length = 0
  · rw [if_pos h0]; rfl
  · rw [if_neg h0, if_neg hlen]
    by_cases h1 : edges.length / nb.length > BIN_SEARCH_RATIO
    · rw [if_pos h1]; rfl
    · rw [if_neg h1, if_neg h0]
      by_cases h2 : nb.length / edges.length > BIN_SEARCH_RATIO
      · rw [if_pos h2]; rfl
      · rw [if_neg h2]
        exact merge_isSome v t _ edges nb 0 (by omega)

/-- With neighbors, the 4-argument `count_edges` returns the specified sum on sorted
lists. -/
theorem count_edges_type_spec (v t : vertex_id_t) (edges : List (vertex_id_t × Int))
    (nb : List vertex_id_t) (hs : edges.Pairwise (fun a b => a.1 ≤ b.1))
    (hN : nb.Sorted (fun a b => a < b)) (hne : nb ≠ []) :
    scan_vertex.count_edges_type v t edges nb = some (count_edges_spec v t edges nb) := by
  have hlen : nb.length ≠ 0 := fun h => hne (List.length_eq_zero.mp h)
  unfold scan_vertex.count_edges_type
  dsimp only
  by_cases h0 : edges.length = 0
  · rw [if_pos h0, List.length_eq_zero.mp h0]
    simp [count_edges_spec]
  · rw [if_neg h0, if_neg hlen]
    by_cases h1 : edges.length / nb.length > BIN_SEARCH_RATIO
    · rw [if_pos h1, search_edges_spec v t edges hs nb hN.nodup 0, zero_add]
    · rw [if_neg h1, if_neg h0]
      by_cases h2 : nb.length / edges.length > BIN_SEARCH_RATIO
      · rw [if_pos h2, search_neighbors_spec v t nb hN.le_of_lt edges 0, zero_add]
      · rw [if_neg h2, merge_spec v t _ edges nb 0 hs hN (by omega), zero_add]

/-- The 3-argument `count_edges` divides by no zero and ends, whatever it is given. -/
theorem count_edges_isSome (v t : vertex_id_t) (in_edges out_edges : List (vertex_id_t × Int))
    (nb : List vertex_id_t) :
    (scan_vertex.count_edges v t in_edges out_edges nb).isSome = true := by
  unfold scan_vertex.count_edges
  by_cases h : in_edges.length + out_edges.length = 0 ∨ nb.isEmpty = true
  · rw [if_pos h]; rfl
  · rw [if_neg h]
    have hne : nb ≠ [] := fun e => h (Or.inr (by rw [e]; rfl))
    have h1 := count_edges_type_isSome v t in_edges nb hne
    have h2 := count_edges_type_isSome v t out_edges nb hne
    obtain ⟨a, ha⟩ := Option.isSome_iff_exists.mp h1
    obtain ⟨b, hb⟩ := Option.isSome_iff_exists.mp h2
    rw [ha, hb]
    rfl

/-- C28: the three strategies of the 4-argument `count_edges` (binary search of the edge
list of `v` per neighbor, binary search of the neighbors per edge, linear merge) agree: for
every edge list of `v` with non-decreasing ids and per-edge counts and every non-empty
strictly ascending list of neighbors, each of them, and so the function whichever branch the
size ratio selects, returns the sum of the counts of the entries of the edge list whose id is
among the neighbors and is neither the id of `v` nor the id of the vertex itself; and the
3-argument `count_edges` returns for every input, so neither size-ratio division divides by
zero when it is reached through it. -/
theorem count_edges_strategies (v_id this_id : vertex_id_t)
    (edges : List (vertex_id_t × Int)) (neighbors : List vertex_id_t)
    (hE : edges.Sorted (fun a b => a.1 ≤ b.1))
    (hN : neighbors.Sorted (fun a b => a < b)) (hne : neighbors ≠ []) :
    count_edges.search_edges v_id this_id edges neighbors 0
      = count_edges_spec v_id this_id edges neighbors ∧
    count_edges.search_neighbors v_id this_id neighbors edges 0
      = count_edges_spec v_id this_id edges neighbors ∧
    count_edges.merge v_id this_id (edges.length + neighbors.length + 1) edges neighbors 0
      = some (count_edges_spec v_id this_id edges neighbors) ∧
    scan_vertex.count_edges_type v_id this_id edges neighbors
      = some (count_edges_spec v_id this_id edges neighbors) ∧
    ∀ (in_edges out_edges : List (vertex_id_t × Int)) (nbs : List vertex_id_t),
      (scan_vertex.count_edges v_id this_id in_edges out_edges nbs).isSome = true := by
  refine ⟨?_, ?_, ?_, count_edges_type_spec v_id this_id edges neighbors hE hN hne,
    count_edges_isSome v_id this_id⟩
  · rw [search_edges_spec v_id this_id edges hE neighbors hN.nodup 0, zero_add]
  · rw [search_neighbors_spec v_id this_id neighbors hN.le_of_lt edges 0, zero_add]
  · rw [merge_spec v_id this_id _ edges neighbors 0 hE hN (by omega), zero_add]

/-- Witness for `count_edges_strategies`: for the edge list 1, 3, 3, 5, 8, 9, 9, 12 with
counts 2, 1, 4, 7, 1, 3, 5, 1 of vertex 5 and the neighbors 0, 3, 5, 9, 11 every strategy
gives 1 + 4 + 3 + 5 = 13. -/
theorem count_edges_strategies_witness :
    [((1 : vertex_id_t), (2 : Int)), (3, 1), (3, 4), (5, 7), (8, 1), (9, 3), (9, 5),
      (12, 1)].Sorted (fun a b => a.1 ≤ b.1) ∧
    [0, 3, 5, 9, 11].Sorted (fun a b : vertex_id_t => a < b) ∧
    count_edges_spec 5 100 [(1, 2), (3, 1), (3, 4), (5, 7), (8, 1), (9, 3), (9, 5), (12, 1)]
      [0, 3, 5, 9, 11] = 13 ∧
    count_edges.search_edges 5 100
      [(1, 2), (3, 1), (3, 4), (5, 7), (8, 1), (9, 3), (9, 5), (12, 1)] [0, 3, 5, 9, 11] 0
      = 13 ∧
    count_edges.search_neighbors 5 100 [0, 3, 5, 9, 11]
      [(1, 2), (3, 1), (3, 4), (5, 7), (8, 1), (9, 3), (9, 5), (12, 1)] 0 = 13 ∧
    scan_vertex.count_edges_type 5 100
      [(1, 2), (3, 1), (3, 4), (5, 7), (8, 1), (9, 3), (9, 5), (12, 1)] [0, 3, 5, 9, 11]
      = some 13 := by
  have hs1 : [((1 : vertex_id_t), (2 : Int)), (3, 1), (3, 4), (5, 7), (8, 1), (9, 3), (9, 5),
      (12, 1)].Sorted (fun a b => a.1 ≤ b.1) := by
    simp [List.Sorted]
  have hs2 : [0, 3, 5, 9, 11].Sorted (fun a b : vertex_id_t => a < b) := by
    simp [List.Sorted]
  have hspec : count_edges_spec 5 100
      [(1, 2), (3, 1), (3, 4), (5, 7), (8, 1), (9, 3), (9, 5), (12, 1)] [0, 3, 5, 9, 11]
      = 13 := by decide
  obtain ⟨h1, h2, -, h4, -⟩ := count_edges_strategies 5 100
    [(1, 2), (3, 1), (3, 4), (5, 7), (8, 1), (9, 3), (9, 5), (12, 1)] [0, 3, 5, 9, 11]
    hs1 hs2 (by simp)
  rw [hspec] at h1 h2 h4
  exact ⟨hs1, hs2, hspec, h1, h2, h4⟩

end FlashGraph
